import Mathlib

/-!
BusTub buffer pool: extendible hash table, LRU-K replacer, buffer pool manager

A shallow embedding of `src/container/hash/extendible_hash_table.cpp`,
`src/buffer/lru_k_replacer.cpp` and `src/buffer/buffer_pool_manager_instance.cpp`,
followed by theorems about the embedded code.

Modelling conventions.
* `std::shared_ptr<Bucket>` is an index into an append-only heap of buckets
  (`heap_`); pointer equality is index equality and mutation through a pointer
  is an update of the heap cell.
* `std::hash<K>` is a parameter `hash : K → Nat`.
* The `int` masks `1 << depth` of the hash table and the `size_t → int` cast of
  the replacer are computed without wrap-around: depths stay below the width of
  `int` and frame counts fit `frame_id_t` in every directory or pool that can
  be allocated.
* A `while` loop that need not terminate is run with fuel; `none` means that
  the fuel ran out.
-/

namespace bustub

/-! ## Extendible hash table -/

/-- A bucket: capacity `size_`, local depth `depth_`, entries `list_`. -/
structure Bucket (K V : Type) where
  size_ : Nat
  depth_ : Nat
  list_ : List (K × V)

instance {K V : Type} : Inhabited (Bucket K V) := ⟨⟨0, 0, []⟩⟩

/-- The table: `dir_` holds bucket pointers, `heap_` the pointed-to buckets. -/
structure ExtendibleHashTable (K V : Type) where
  global_depth_ : Nat
  bucket_size_ : Nat
  num_buckets_ : Nat
  dir_ : List Nat
  heap_ : List (Bucket K V)

section EHT

variable {K V : Type} [DecidableEq K] [DecidableEq V]

/-- Modelled from the spec: `Bucket::IsFull` is declared in the header
`extendible_hash_table.h`, which is not among the sources. A bucket is full when
it holds `bucket_size` entries ("each bucket holds ≤ bucket_size entries"). -/
def Bucket.IsFull (b : Bucket K V) : Bool :=
  decide (b.list_.length = b.size_)

/-- Accessor `Bucket::GetDepth` (header). -/
def Bucket.GetDepth (b : Bucket K V) : Nat := b.depth_

/-- Accessor `Bucket::GetItems` (header). -/
def Bucket.GetItems (b : Bucket K V) : List (K × V) := b.list_

/-- The scan of `Bucket::Find`: the value of the first entry whose key matches. -/
def findItem : List (K × V) → K → Option V
  | [], _ => none
  | item :: rest, key => if item.1 = key then some item.2 else findItem rest key

/-- `Bucket::Find`: `some v` is a hit with `value = v`, `none` a miss. -/
def Bucket.Find (b : Bucket K V) (key : K) : Option V :=
  findItem b.list_ key

/-- The first entry whose key matches (the iterator `Bucket::Remove` stops at). -/
def firstItem : List (K × V) → K → Option (K × V)
  | [], _ => none
  | item :: rest, key => if item.1 = key then some item else firstItem rest key

/-- `Bucket::Remove`: `list_.remove(*item)` drops every entry equal to the first
entry with the key. -/
def Bucket.Remove (b : Bucket K V) (key : K) : Bucket K V × Bool :=
  match firstItem b.list_ key with
  | some item => ({ b with list_ := b.list_.filter (fun e => decide (e ≠ item)) }, true)
  | none => (b, false)

/-- `Bucket::Insert`: refuses when full, else appends. -/
def Bucket.Insert (b : Bucket K V) (key : K) (value : V) : Bucket K V × Bool :=
  if b.IsFull then (b, false) else ({ b with list_ := b.list_ ++ [(key, value)] }, true)

/-- The constructor: global depth 1 and two empty buckets of local depth 1. -/
def ExtendibleHashTable.new (bucket_size : Nat) : ExtendibleHashTable K V :=
  { global_depth_ := 1
    bucket_size_ := bucket_size
    num_buckets_ := 2
    dir_ := [0, 1]
    heap_ := [⟨bucket_size, 1, []⟩, ⟨bucket_size, 1, []⟩] }

/-- `IndexOf`: `hash(key) & ((1 << global_depth_) - 1)`. -/
def ExtendibleHashTable.IndexOf (hash : K → Nat) (t : ExtendibleHashTable K V) (key : K) : Nat :=
  hash key &&& ((1 <<< t.global_depth_) - 1)

/-- The pointer `dir_[i]`. -/
def ExtendibleHashTable.dirAt (t : ExtendibleHashTable K V) (i : Nat) : Nat :=
  t.dir_.getD i 0

/-- The bucket behind a pointer. -/
def ExtendibleHashTable.deref (t : ExtendibleHashTable K V) (p : Nat) : Bucket K V :=
  t.heap_.getD p default

/-- The bucket `*dir_[i]`. -/
def ExtendibleHashTable.bucketAt (t : ExtendibleHashTable K V) (i : Nat) : Bucket K V :=
  t.deref (t.dirAt i)

def ExtendibleHashTable.GetGlobalDepth (t : ExtendibleHashTable K V) : Nat := t.global_depth_

def ExtendibleHashTable.GetLocalDepth (t : ExtendibleHashTable K V) (dir_index : Nat) : Nat :=
  (t.bucketAt dir_index).GetDepth

def ExtendibleHashTable.GetNumBuckets (t : ExtendibleHashTable K V) : Nat := t.num_buckets_

/-- `ExtendibleHashTable::Find`. -/
def ExtendibleHashTable.Find (hash : K → Nat) (t : ExtendibleHashTable K V) (key : K) : Option V :=
  (t.bucketAt (t.IndexOf hash key)).Find key

/-- Mutation of the bucket behind pointer `p`: the heap cell gets the new contents. -/
def ExtendibleHashTable.assign (t : ExtendibleHashTable K V) (p : Nat) (b : Bucket K V) :
    ExtendibleHashTable K V :=
  { t with heap_ := t.heap_.set p b }

/-- `ExtendibleHashTable::Remove`: the bucket is mutated through its pointer. -/
def ExtendibleHashTable.Remove (hash : K → Nat) (t : ExtendibleHashTable K V) (key : K) :
    ExtendibleHashTable K V × Bool :=
  let target := t.dirAt (t.IndexOf hash key)
  let r := (t.deref target).Remove key
  (t.assign target r.1, r.2)

/-- The redistribution loop of a split: every entry of the old bucket is offered
to `bucket_0` or `bucket_1` (through `Bucket::Insert`) by its hash bit `mask`. -/
def redistribute (hash : K → Nat) (mask : Nat) :
    List (K × V) → Bucket K V → Bucket K V → Bucket K V × Bucket K V
  | [], b0, b1 => (b0, b1)
  | item :: rest, b0, b1 =>
    if hash item.1 &&& mask = 0 then
      redistribute hash mask rest (b0.Insert item.1 item.2).1 b1
    else
      redistribute hash mask rest b0 (b1.Insert item.1 item.2).1

/-- The directory doubling inside a split: `global_depth_++`, and every new slot
`i + oldcapacity` adopts the pointer of slot `i`. -/
def ExtendibleHashTable.grow (t : ExtendibleHashTable K V) : ExtendibleHashTable K V :=
  { t with global_depth_ := t.global_depth_ + 1, dir_ := t.dir_ ++ t.dir_ }

/-- The second half of a split: allocate `bucket_0` and `bucket_1` one level
deeper than the target bucket, redistribute its entries, count one more bucket,
and repoint every slot that pointed to the target by bit `mask` of the slot index. -/
def ExtendibleHashTable.splitBucket (hash : K → Nat) (t : ExtendibleHashTable K V)
    (target : Nat) : ExtendibleHashTable K V :=
  let target_bucket := t.deref target
  let fresh : Bucket K V := ⟨t.bucket_size_, target_bucket.GetDepth + 1, []⟩
  let mask := 1 <<< target_bucket.GetDepth
  let halves := redistribute hash mask target_bucket.GetItems fresh fresh
  let p0 := t.heap_.length
  let p1 := t.heap_.length + 1
  { t with
    num_buckets_ := t.num_buckets_ + 1
    dir_ := t.dir_.mapIdx (fun i p => if p = target then (if i &&& mask = 0 then p0 else p1) else p)
    heap_ := t.heap_ ++ [halves.1, halves.2] }

/-- One iteration of the `while` loop of `Insert` (the target bucket is full):
double the directory if the target bucket is at global depth, then split it. -/
def ExtendibleHashTable.split (hash : K → Nat) (t : ExtendibleHashTable K V) (key : K) :
    ExtendibleHashTable K V :=
  let index := t.IndexOf hash key
  let target := t.dirAt index
  let t1 := if (t.deref target).GetDepth = t.global_depth_ then t.grow else t
  t1.splitBucket hash target

/-- The overwrite loop at the end of `Insert`: the first entry with the key gets
the new value; `none` when no entry has the key. -/
def overwrite : List (K × V) → K → V → Option (List (K × V))
  | [], _, _ => none
  | item :: rest, key, value =>
    if item.1 = key then some ((item.1, value) :: rest)
    else (overwrite rest key value).map (fun r => item :: r)

/-- The code after the `while` loop of `Insert`: overwrite or append. -/
def ExtendibleHashTable.store (hash : K → Nat) (t : ExtendibleHashTable K V) (key : K) (value : V) :
    ExtendibleHashTable K V :=
  let target := t.dirAt (t.IndexOf hash key)
  let target_bucket := t.deref target
  match overwrite target_bucket.GetItems key value with
  | some items => t.assign target { target_bucket with list_ := items }
  | none => t.assign target (target_bucket.Insert key value).1

/-- `ExtendibleHashTable::Insert`. The `while` loop splits as long as the bucket
of the key is full; each iteration uses one unit of fuel. -/
def ExtendibleHashTable.Insert (hash : K → Nat) :
    Nat → ExtendibleHashTable K V → K → V → Option (ExtendibleHashTable K V)
  | fuel, t, key, value =>
    if (t.bucketAt (t.IndexOf hash key)).IsFull then
      match fuel with
      | 0 => none
      | fuel + 1 => ExtendibleHashTable.Insert hash fuel (t.split hash key) key value
    else some (t.store hash key value)

end EHT


/-- Well-formedness of a table: the structural invariant kept by the
constructor, `Insert` and `Remove`. -/
structure ExtendibleHashTable.WF {K V : Type} (hash : K → Nat) (t : ExtendibleHashTable K V) :
    Prop where
  dir_len : t.dir_.length = 2 ^ t.global_depth_
  ptr_lt : ∀ i, i < t.dir_.length → t.dirAt i < t.heap_.length
  depth_le : ∀ i, i < t.dir_.length → (t.bucketAt i).depth_ ≤ t.global_depth_
  coherent : ∀ i j, i < t.dir_.length → j < t.dir_.length →
    (t.dirAt i = t.dirAt j ↔
      i % 2 ^ (t.bucketAt i).depth_ = j % 2 ^ (t.bucketAt i).depth_)
  cap : ∀ i, i < t.dir_.length →
    (t.bucketAt i).size_ = t.bucket_size_ ∧ (t.bucketAt i).list_.length ≤ t.bucket_size_
  nodup : ∀ i, i < t.dir_.length → ((t.bucketAt i).list_.map Prod.fst).Nodup
  aligned : ∀ i, i < t.dir_.length → ∀ item ∈ (t.bucketAt i).list_,
    hash item.1 % 2 ^ (t.bucketAt i).depth_ = i % 2 ^ (t.bucketAt i).depth_

/-- Tables reachable from a freshly constructed table of the given bucket size
by `Insert` calls that return and by `Remove` calls. -/
inductive ExtendibleHashTable.Reachable {K V : Type} [DecidableEq K] [DecidableEq V]
    (hash : K → Nat) (bucket_size : Nat) : ExtendibleHashTable K V → Prop where
  | init : Reachable hash bucket_size (ExtendibleHashTable.new bucket_size)
  | insert (t t2 : ExtendibleHashTable K V) (fuel : Nat) (key : K) (value : V) :
      Reachable hash bucket_size t → t.Insert hash fuel key value = some t2 →
      Reachable hash bucket_size t2
  | remove (t : ExtendibleHashTable K V) (key : K) :
      Reachable hash bucket_size t → Reachable hash bucket_size (t.Remove hash key).1

/-! ### Concrete tables (keys and values are numbers, `hash` is the identity) -/

/-- Bucket size 2 after `Insert(0, 0); Insert(2, 20)`: bucket 0 is full. -/
def tableTwoKeys : ExtendibleHashTable Nat Nat :=
  { global_depth_ := 1, bucket_size_ := 2, num_buckets_ := 2, dir_ := [0, 1],
    heap_ := [⟨2, 1, [(0, 0), (2, 20)]⟩, ⟨2, 1, []⟩] }

/-- The table `tableTwoKeys` after `Insert(4, 40)`, which splits bucket 0. -/
def tableThreeKeys : ExtendibleHashTable Nat Nat :=
  { global_depth_ := 2, bucket_size_ := 2, num_buckets_ := 3, dir_ := [2, 1, 3, 1],
    heap_ := [⟨2, 1, [(0, 0), (2, 20)]⟩, ⟨2, 1, []⟩, ⟨2, 2, [(0, 0), (4, 40)]⟩,
      ⟨2, 2, [(2, 20)]⟩] }

/-- Bucket size 1 after `Insert(0, 10)`: the bucket of key 0 is full. -/
def tableOneKey : ExtendibleHashTable Nat Nat :=
  { global_depth_ := 1, bucket_size_ := 1, num_buckets_ := 2, dir_ := [0, 1],
    heap_ := [⟨1, 1, [(0, 10)]⟩, ⟨1, 1, []⟩] }

/-! ## LRU-K replacer -/

/-- How a call can fail to return: `thrown` is `throw std::exception()`,
`undefined` is a use of a list iterator that does not belong to the list it is
used on, and `fuel` is a loop that was still running when the fuel ran out. -/
inductive Fault where
  | thrown
  | undefined
  | fuel
  deriving DecidableEq

/-- The list a stored iterator points into. -/
inductive ListId where
  | history
  | cache
  deriving DecidableEq

/-- Modelled from the spec: the data members are declared in the header
`lru_k_replacer.h`, which is not among the sources. Per frame there is an access
count and an evictable flag (maps that default to `0` and `false`, as
`operator[]` does), the two lists, and `hashmap_` from a frame to the iterator
of its list node, kept here as the list the node is in. Frame ids are
`frame_id_t` (`int`). -/
structure LRUKReplacer where
  replacer_size_ : Nat
  k_ : Nat
  curr_size_ : Nat
  access_num_ : Int → Nat
  is_evictable_ : Int → Bool
  history_list_ : List Int
  cache_list_ : List Int
  hashmap_ : Int → Option ListId

/-- `curr_size_--` on a `size_t`: wraps to `2^64 - 1` at zero. -/
def size_t_decrement (n : Nat) : Nat := if n = 0 then 2 ^ 64 - 1 else n - 1

/-- The constructor; the remaining members start empty. -/
def LRUKReplacer.new (num_frames k : Nat) : LRUKReplacer :=
  { replacer_size_ := num_frames
    k_ := k
    curr_size_ := 0
    access_num_ := fun _ => 0
    is_evictable_ := fun _ => false
    history_list_ := []
    cache_list_ := []
    hashmap_ := fun _ => none }

/-- The bookkeeping shared by both loops of `Evict` once a victim is found in
the list `l`. -/
def LRUKReplacer.evictFrom (r : LRUKReplacer) (l : ListId) (frame : Int) : LRUKReplacer :=
  { r with
    curr_size_ := size_t_decrement r.curr_size_
    access_num_ := Function.update r.access_num_ frame 0
    is_evictable_ := Function.update r.is_evictable_ frame false
    history_list_ :=
      if l = ListId.history then r.history_list_.filter (fun g => decide (g ≠ frame))
      else r.history_list_
    cache_list_ :=
      if l = ListId.cache then r.cache_list_.filter (fun g => decide (g ≠ frame))
      else r.cache_list_
    hashmap_ := Function.update r.hashmap_ frame none }

/-- `LRUKReplacer::Evict`: scan the history list from the back, then the cache
list from the back, for the first frame whose evictable flag is set. -/
def LRUKReplacer.Evict (r : LRUKReplacer) : LRUKReplacer × Option Int :=
  if r.curr_size_ = 0 then (r, none)
  else
    match r.history_list_.reverse.find? (fun frame => r.is_evictable_ frame) with
    | some frame => (r.evictFrom ListId.history frame, some frame)
    | none =>
      match r.cache_list_.reverse.find? (fun frame => r.is_evictable_ frame) with
      | some frame => (r.evictFrom ListId.cache frame, some frame)
      | none => (r, none)

/-- `LRUKReplacer::RecordAccess`. `l.erase(hashmap_[frame_id])` removes the node
of the frame from `l` when the stored iterator points into `l`. -/
def LRUKReplacer.RecordAccess (r : LRUKReplacer) (frame_id : Int) : Except Fault LRUKReplacer :=
  if frame_id > (r.replacer_size_ : Int) then Except.error Fault.thrown
  else
    let num := r.access_num_ frame_id + 1
    let r1 := { r with access_num_ := Function.update r.access_num_ frame_id num }
    if num = 1 then
      Except.ok { r1 with
        history_list_ := frame_id :: r1.history_list_
        hashmap_ := Function.update r1.hashmap_ frame_id (some ListId.history) }
    else if num = r.k_ then
      if r1.hashmap_ frame_id = some ListId.history then
        Except.ok { r1 with
          history_list_ := r1.history_list_.erase frame_id
          cache_list_ := frame_id :: r1.cache_list_
          hashmap_ := Function.update r1.hashmap_ frame_id (some ListId.cache) }
      else Except.error Fault.undefined
    else if num > r.k_ then
      if r1.hashmap_ frame_id = some ListId.cache then
        Except.ok { r1 with
          cache_list_ := frame_id :: r1.cache_list_.erase frame_id
          hashmap_ := Function.update r1.hashmap_ frame_id (some ListId.cache) }
      else Except.error Fault.undefined
    else Except.ok r1

/-- `LRUKReplacer::SetEvictable`. -/
def LRUKReplacer.SetEvictable (r : LRUKReplacer) (frame_id : Int) (set_evictable : Bool) :
    Except Fault LRUKReplacer :=
  if frame_id > (r.replacer_size_ : Int) then Except.error Fault.thrown
  else if r.access_num_ frame_id = 0 then Except.ok r
  else
    let curr_size :=
      if !r.is_evictable_ frame_id && set_evictable then r.curr_size_ + 1
      else if r.is_evictable_ frame_id && !set_evictable then size_t_decrement r.curr_size_
      else r.curr_size_
    Except.ok { r with
      curr_size_ := curr_size
      is_evictable_ := Function.update r.is_evictable_ frame_id set_evictable }

/-- `LRUKReplacer::Remove`. -/
def LRUKReplacer.Remove (r : LRUKReplacer) (frame_id : Int) : Except Fault LRUKReplacer :=
  if frame_id > (r.replacer_size_ : Int) then Except.error Fault.thrown
  else
    let num := r.access_num_ frame_id
    if num = 0 then Except.ok r
    else if !r.is_evictable_ frame_id then Except.error Fault.thrown
    else
      Except.ok { r with
        history_list_ :=
          if num < r.k_ then r.history_list_.filter (fun g => decide (g ≠ frame_id))
          else r.history_list_
        cache_list_ :=
          if num < r.k_ then r.cache_list_
          else r.cache_list_.filter (fun g => decide (g ≠ frame_id))
        curr_size_ := size_t_decrement r.curr_size_
        hashmap_ := Function.update r.hashmap_ frame_id none
        access_num_ := Function.update r.access_num_ frame_id 0
        is_evictable_ := Function.update r.is_evictable_ frame_id false }

/-- `LRUKReplacer::Size`. -/
def LRUKReplacer.Size (r : LRUKReplacer) : Nat := r.curr_size_

/-- A call of the public interface of the replacer. -/
inductive ReplacerCall where
  | recordAccess (frame_id : Int)
  | setEvictable (frame_id : Int) (set_evictable : Bool)
  | remove (frame_id : Int)
  | evict
  deriving DecidableEq

/-- What a completed call did, as seen by the caller: `evicted f` is an `Evict`
that returned `f`; the other three are calls that returned without throwing. -/
inductive ReplacerEvent where
  | accessed (frame_id : Int)
  | flagged (frame_id : Int) (set_evictable : Bool)
  | removed (frame_id : Int)
  | evicted (frame_id : Int)
  deriving DecidableEq

/-- One call on a replacer together with the log of completed calls (newest
first). A call that throws leaves the state as it was (every `throw` precedes
the first write) and is not logged; so is an `Evict` that returns false. -/
def LRUKReplacer.call (s : LRUKReplacer × List ReplacerEvent) :
    ReplacerCall → LRUKReplacer × List ReplacerEvent
  | ReplacerCall.recordAccess f =>
    match s.1.RecordAccess f with
    | Except.ok r => (r, ReplacerEvent.accessed f :: s.2)
    | Except.error _ => s
  | ReplacerCall.setEvictable f b =>
    match s.1.SetEvictable f b with
    | Except.ok r => (r, ReplacerEvent.flagged f b :: s.2)
    | Except.error _ => s
  | ReplacerCall.remove f =>
    match s.1.Remove f with
    | Except.ok r => (r, ReplacerEvent.removed f :: s.2)
    | Except.error _ => s
  | ReplacerCall.evict =>
    match s.1.Evict with
    | (r, some f) => (r, ReplacerEvent.evicted f :: s.2)
    | (_, none) => s

/-- A sequence of calls on a freshly constructed replacer. -/
def LRUKReplacer.play (num_frames k : Nat) (calls : List ReplacerCall) :
    LRUKReplacer × List ReplacerEvent :=
  calls.foldl LRUKReplacer.call (LRUKReplacer.new num_frames k, [])

/-- The times (positions in the log, newest first) of the accesses to `f`
recorded since `f` was last evicted or removed. -/
def accessTimes : List ReplacerEvent → Int → List Nat
  | [], _ => []
  | ReplacerEvent.accessed g :: log, f =>
    if g = f then log.length :: accessTimes log f else accessTimes log f
  | ReplacerEvent.flagged _ _ :: log, f => accessTimes log f
  | ReplacerEvent.removed g :: log, f => if g = f then [] else accessTimes log f
  | ReplacerEvent.evicted g :: log, f => if g = f then [] else accessTimes log f

/-- Number of accesses to `f` recorded since it was last evicted or removed. -/
def accessCount (log : List ReplacerEvent) (f : Int) : Nat := (accessTimes log f).length

/-- Time of the first access to `f` since it was last evicted or removed. -/
def firstAccess (log : List ReplacerEvent) (f : Int) : Nat :=
  (accessTimes log f).getLastD 0

/-- Time of the most recent access to `f`. -/
def lastAccess (log : List ReplacerEvent) (f : Int) : Nat :=
  (accessTimes log f).headD 0

/-- The structural invariant of the replacer (for `k_ ≥ 2`): the two lists have
no duplicates and partition the tracked frames by access count, only tracked
frames are evictable, `curr_size_` counts the evictable frames, and the stored
iterators point into the list that holds the frame. -/
structure LRUKReplacer.Inv (r : LRUKReplacer) : Prop where
  k_ge : 2 ≤ r.k_
  hist_nodup : r.history_list_.Nodup
  cache_nodup : r.cache_list_.Nodup
  mem_hist : ∀ f, f ∈ r.history_list_ ↔ 0 < r.access_num_ f ∧ r.access_num_ f < r.k_
  mem_cache : ∀ f, f ∈ r.cache_list_ ↔ r.k_ ≤ r.access_num_ f
  evictable_tracked : ∀ f, r.is_evictable_ f = true → 0 < r.access_num_ f
  size_eq : r.curr_size_ = (r.history_list_ ++ r.cache_list_).countP r.is_evictable_
  map_hist : ∀ f, f ∈ r.history_list_ → r.hashmap_ f = some ListId.history
  map_cache : ∀ f, f ∈ r.cache_list_ → r.hashmap_ f = some ListId.cache

/-- Whether the log holds any `RecordAccess(f)` at all. -/
def everAccessed : List ReplacerEvent → Int → Bool
  | [], _ => false
  | ReplacerEvent.accessed g :: log, f => decide (g = f) || everAccessed log f
  | _ :: log, f => everAccessed log f

/-- The cardinality sentence of the spec, read word for word: the latest
`SetEvictable(f, ·)` call was `SetEvictable(f, true)`, it came after at least
one `RecordAccess(f)`, and no `Remove(f)` or `Evict` returning `f` came after it. -/
def evictableByLatestCall : List ReplacerEvent → Int → Bool
  | [], _ => false
  | ReplacerEvent.accessed _ :: log, f => evictableByLatestCall log f
  | ReplacerEvent.flagged g b :: log, f =>
    if g = f then b && everAccessed log f else evictableByLatestCall log f
  | ReplacerEvent.removed g :: log, f => if g = f then false else evictableByLatestCall log f
  | ReplacerEvent.evicted g :: log, f => if g = f then false else evictableByLatestCall log f

/-- The cardinality sentence with the access counted from the last time the
frame left the replacer: the latest `SetEvictable(f, ·)` call was
`SetEvictable(f, true)`, at that moment `f` had at least one `RecordAccess(f)`
since it was last evicted or removed, and no `Remove(f)` or `Evict` returning
`f` came after the call. -/
def evictableSpec : List ReplacerEvent → Int → Bool
  | [], _ => false
  | ReplacerEvent.accessed _ :: log, f => evictableSpec log f
  | ReplacerEvent.flagged g b :: log, f =>
    if g = f then b && decide (0 < accessCount log f) else evictableSpec log f
  | ReplacerEvent.removed g :: log, f => if g = f then false else evictableSpec log f
  | ReplacerEvent.evicted g :: log, f => if g = f then false else evictableSpec log f

/-- The relation between a replacer state and the log of the calls that led to
it: access counts, list order and evictable flags are what the log says. -/
structure LRUKReplacer.Agrees (r : LRUKReplacer) (log : List ReplacerEvent) : Prop where
  count_eq : ∀ f, r.access_num_ f = accessCount log f
  times_lt : ∀ f, ∀ t ∈ accessTimes log f, t < log.length
  hist_sorted : r.history_list_.Pairwise (fun a b => firstAccess log b < firstAccess log a)
  cache_sorted : r.cache_list_.Pairwise (fun a b => lastAccess log b < lastAccess log a)
  flag_eq : ∀ f, r.is_evictable_ f = evictableSpec log f

/-- A call sequence on which the literal reading of the cardinality sentence
fails: frame 0 is accessed, made evictable, evicted, and then
`SetEvictable(0, true)` is called on the frame that is no longer tracked. -/
def callsAfterEviction : List ReplacerCall :=
  [ReplacerCall.recordAccess 0, ReplacerCall.setEvictable 0 true, ReplacerCall.evict,
    ReplacerCall.setEvictable 0 true]

/-- Frames 1, 2, 3 are accessed, frame 1 a second time (`k = 2`), and all three
are made evictable. -/
def callsThreeFrames : List ReplacerCall :=
  [ReplacerCall.recordAccess 1, ReplacerCall.recordAccess 2, ReplacerCall.recordAccess 3,
    ReplacerCall.recordAccess 1, ReplacerCall.setEvictable 1 true,
    ReplacerCall.setEvictable 2 true, ReplacerCall.setEvictable 3 true]

/-! ## Buffer pool manager -/

/-- The sentinel `INVALID_PAGE_ID` (`common/config.h`). -/
def INVALID_PAGE_ID : Int := -1

/-- Modelled from the spec: the class `Page` is declared in
`storage/page/page.h`, which is not among the sources. A page carries its
buffer (`data_`, a number standing for the bytes, `0` for the zeroed buffer),
the current `page_id` or the sentinel, `pin_count ≥ 0` and the dirty flag. -/
structure Page where
  data_ : Nat
  page_id_ : Int
  pin_count_ : Nat
  is_dirty_ : Bool
  deriving DecidableEq

/-- A freshly constructed page. -/
instance : Inhabited Page := ⟨⟨0, INVALID_PAGE_ID, 0, false⟩⟩

/-- `Page::ResetMemory`: zero the buffer. -/
def Page.ResetMemory (p : Page) : Page := { p with data_ := 0 }

/-- Modelled from the spec: the disk collaborator (`DiskManager`) is not among
the sources. `stored` is what `ReadPage` returns for each page id and `writes`
is the log of `WritePage` calls, newest first. -/
structure DiskManager where
  stored : Int → Nat
  writes : List (Int × Nat)

/-- `DiskManager::WritePage`. -/
def DiskManager.WritePage (d : DiskManager) (page_id : Int) (data : Nat) : DiskManager :=
  { stored := Function.update d.stored page_id data, writes := (page_id, data) :: d.writes }

/-- `DiskManager::ReadPage`. -/
def DiskManager.ReadPage (d : DiskManager) (page_id : Int) : Nat := d.stored page_id

/-- A disk on which nothing was written. -/
def DiskManager.blank : DiskManager := { stored := fun _ => 0, writes := [] }

/-- The buffer pool. `pages_` is the array of `pool_size_` frames, the page table
maps `page_id_t` to `frame_id_t`, and the disk collaborator is part of the state. -/
structure BufferPoolManagerInstance where
  pool_size_ : Nat
  next_page_id_ : Int
  pages_ : List Page
  page_table_ : ExtendibleHashTable Int Int
  replacer_ : LRUKReplacer
  free_list_ : List Int
  disk_manager_ : DiskManager

/-- The constructor. `bucket_size` is the constant `bucket_size_` of the header
`buffer_pool_manager_instance.h`, which is not among the sources. -/
def BufferPoolManagerInstance.new (pool_size replacer_k bucket_size : Nat)
    (disk_manager : DiskManager) : BufferPoolManagerInstance :=
  { pool_size_ := pool_size
    next_page_id_ := 0
    pages_ := List.replicate pool_size default
    page_table_ := ExtendibleHashTable.new bucket_size
    replacer_ := LRUKReplacer.new pool_size replacer_k
    free_list_ := (List.range pool_size).map Int.ofNat
    disk_manager_ := disk_manager }

/-- Indexing the frame array with a `frame_id_t`. -/
def frameOf (pages : List Page) (frame_id : Int) : Page :=
  pages.getD frame_id.toNat default

/-- The frame `pages_[frame_id]`. -/
def BufferPoolManagerInstance.pageAt (b : BufferPoolManagerInstance) (frame_id : Int) : Page :=
  frameOf b.pages_ frame_id

/-- Assignment to the frame `pages_[frame_id]`. -/
def BufferPoolManagerInstance.setPage (b : BufferPoolManagerInstance) (frame_id : Int)
    (p : Page) : BufferPoolManagerInstance :=
  { b with pages_ := b.pages_.set frame_id.toNat p }

/-- The write-back used by eviction and `DeletePage`: if the frame is dirty,
`WritePage(page_id_, data_)` and clear the flag. -/
def BufferPoolManagerInstance.writeBack (b : BufferPoolManagerInstance) (frame_id : Int) :
    BufferPoolManagerInstance :=
  { b with
    disk_manager_ :=
      if (b.pageAt frame_id).is_dirty_ then
        b.disk_manager_.WritePage (b.pageAt frame_id).page_id_ (b.pageAt frame_id).data_
      else b.disk_manager_
    pages_ :=
      if (b.pageAt frame_id).is_dirty_ then
        b.pages_.set frame_id.toNat { (b.pageAt frame_id) with is_dirty_ := false }
      else b.pages_ }

/-- `GetAvailableFrame`: the front of the free list, else a victim of the
replacer, written back if dirty and unmapped. -/
def BufferPoolManagerInstance.GetAvailableFrame (hash : Int → Nat)
    (b : BufferPoolManagerInstance) : BufferPoolManagerInstance × Option Int :=
  match b.free_list_ with
  | frame_id :: rest => ({ b with free_list_ := rest }, some frame_id)
  | [] =>
    match b.replacer_.Evict with
    | (r, some frame_id) =>
      let b1 := ({ b with replacer_ := r } : BufferPoolManagerInstance).writeBack frame_id
      ({ b1 with
          page_table_ := (b1.page_table_.Remove hash (b1.pageAt frame_id).page_id_).1 },
        some frame_id)
    | (r, none) => ({ b with replacer_ := r }, none)

/-- The pair `replacer_->RecordAccess(frame_id); replacer_->SetEvictable(frame_id, false)`. -/
def LRUKReplacer.pin (r : LRUKReplacer) (frame_id : Int) : Except Fault LRUKReplacer :=
  match r.RecordAccess frame_id with
  | Except.ok r1 => r1.SetEvictable frame_id false
  | Except.error e => Except.error e

/-- `NewPgImp`: the result is `some (page_id, frame_id)` for the returned page
`&pages_[frame_id]`, and `none` for `nullptr`. -/
def BufferPoolManagerInstance.NewPgImp (hash : Int → Nat) (fuel : Nat)
    (b : BufferPoolManagerInstance) :
    Except Fault (BufferPoolManagerInstance × Option (Int × Int)) :=
  match b.GetAvailableFrame hash with
  | (b1, some frame_id) =>
    let page_id := b1.next_page_id_
    let b2 := ({ b1 with next_page_id_ := b1.next_page_id_ + 1 } : BufferPoolManagerInstance)
    let b3 := b2.setPage frame_id
      ({ (b2.pageAt frame_id) with page_id_ := page_id, pin_count_ := 1 } : Page).ResetMemory
    match b3.page_table_.Insert hash fuel page_id frame_id with
    | none => Except.error Fault.fuel
    | some page_table =>
      match b3.replacer_.pin frame_id with
      | Except.ok r =>
        Except.ok ({ b3 with page_table_ := page_table, replacer_ := r }, some (page_id, frame_id))
      | Except.error e => Except.error e
  | (b1, none) => Except.ok (b1, none)

/-- `FetchPgImp`: the result is the frame of the returned page, `none` for `nullptr`. -/
def BufferPoolManagerInstance.FetchPgImp (hash : Int → Nat) (fuel : Nat)
    (b : BufferPoolManagerInstance) (page_id : Int) :
    Except Fault (BufferPoolManagerInstance × Option Int) :=
  match b.page_table_.Find hash page_id with
  | some frame_id =>
    let b1 := b.setPage frame_id
      { (b.pageAt frame_id) with pin_count_ := (b.pageAt frame_id).pin_count_ + 1 }
    match b1.replacer_.pin frame_id with
    | Except.ok r => Except.ok ({ b1 with replacer_ := r }, some frame_id)
    | Except.error e => Except.error e
  | none =>
    match b.GetAvailableFrame hash with
    | (b1, some frame_id) =>
      match b1.page_table_.Insert hash fuel page_id frame_id with
      | none => Except.error Fault.fuel
      | some page_table =>
        let b2 := ({ b1 with page_table_ := page_table } : BufferPoolManagerInstance)
        let b3 := b2.setPage frame_id
          ({ (b2.pageAt frame_id) with page_id_ := page_id, pin_count_ := 1 } : Page).ResetMemory
        let b4 := b3.setPage frame_id
          { (b3.pageAt frame_id) with data_ := b3.disk_manager_.ReadPage page_id }
        match b4.replacer_.pin frame_id with
        | Except.ok r => Except.ok ({ b4 with replacer_ := r }, some frame_id)
        | Except.error e => Except.error e
    | (b1, none) => Except.ok (b1, none)

/-- `UnpinPgImp`. -/
def BufferPoolManagerInstance.UnpinPgImp (hash : Int → Nat) (b : BufferPoolManagerInstance)
    (page_id : Int) (is_dirty : Bool) : Except Fault (BufferPoolManagerInstance × Bool) :=
  match b.page_table_.Find hash page_id with
  | none => Except.ok (b, false)
  | some frame_id =>
    if (b.pageAt frame_id).pin_count_ = 0 then Except.ok (b, false)
    else
      let b1 := b.setPage frame_id
        { (b.pageAt frame_id) with pin_count_ := (b.pageAt frame_id).pin_count_ - 1 }
      let unpinned : Except Fault BufferPoolManagerInstance :=
        if (b1.pageAt frame_id).pin_count_ = 0 then
          match b1.replacer_.SetEvictable frame_id true with
          | Except.ok r => Except.ok { b1 with replacer_ := r }
          | Except.error e => Except.error e
        else Except.ok b1
      match unpinned with
      | Except.ok b2 =>
        let b3 :=
          if !(b2.pageAt frame_id).is_dirty_ then
            b2.setPage frame_id { (b2.pageAt frame_id) with is_dirty_ := is_dirty }
          else b2
        Except.ok (b3, true)
      | Except.error e => Except.error e

/-- `FlushPgImp`. -/
def BufferPoolManagerInstance.FlushPgImp (hash : Int → Nat) (b : BufferPoolManagerInstance)
    (page_id : Int) : BufferPoolManagerInstance × Bool :=
  match b.page_table_.Find hash page_id with
  | none => (b, false)
  | some frame_id =>
    let b1 := ({ b with
      disk_manager_ := b.disk_manager_.WritePage page_id (b.pageAt frame_id).data_ } :
      BufferPoolManagerInstance)
    (b1.setPage frame_id { (b1.pageAt frame_id) with is_dirty_ := false }, true)

/-- The loop of `FlushAllPgsImp` over the frames `i, i + 1, …` (`count` of them). -/
def BufferPoolManagerInstance.flushFrom :
    Nat → Nat → BufferPoolManagerInstance → BufferPoolManagerInstance
  | 0, _, b => b
  | count + 1, i, b =>
    let b1 :=
      if (b.pageAt i).page_id_ ≠ INVALID_PAGE_ID then
        ({ b with disk_manager_ :=
            b.disk_manager_.WritePage (b.pageAt i).page_id_ (b.pageAt i).data_ } :
          BufferPoolManagerInstance).setPage i { (b.pageAt i) with is_dirty_ := false }
      else b
    BufferPoolManagerInstance.flushFrom count (i + 1) b1

/-- `FlushAllPgsImp`. -/
def BufferPoolManagerInstance.FlushAllPgsImp (b : BufferPoolManagerInstance) :
    BufferPoolManagerInstance :=
  BufferPoolManagerInstance.flushFrom b.pool_size_ 0 b

/-- `DeletePgImp` (`DeallocatePage` does nothing). -/
def BufferPoolManagerInstance.DeletePgImp (hash : Int → Nat) (b : BufferPoolManagerInstance)
    (page_id : Int) : Except Fault (BufferPoolManagerInstance × Bool) :=
  match b.page_table_.Find hash page_id with
  | none => Except.ok (b, true)
  | some frame_id =>
    if (b.pageAt frame_id).pin_count_ ≠ 0 then Except.ok (b, false)
    else
      let b1 := b.writeBack frame_id
      let b2 := b1.setPage frame_id
        ({ (b1.pageAt frame_id).ResetMemory with pin_count_ := 0, page_id_ := INVALID_PAGE_ID })
      let b3 := ({ b2 with
        page_table_ := (b2.page_table_.Remove hash page_id).1
        free_list_ := b2.free_list_ ++ [frame_id] } : BufferPoolManagerInstance)
      match b3.replacer_.Remove frame_id with
      | Except.ok r => Except.ok ({ b3 with replacer_ := r }, true)
      | Except.error e => Except.error e

/-- A caller holding a pin writes into the buffer of the page it was handed
(frame `frame_id` of the pool). -/
def BufferPoolManagerInstance.callerWrite (b : BufferPoolManagerInstance) (frame_id : Int)
    (data : Nat) : BufferPoolManagerInstance :=
  if 0 ≤ frame_id ∧ 0 < (b.pageAt frame_id).pin_count_ then
    b.setPage frame_id { (b.pageAt frame_id) with data_ := data }
  else b

/-- A call of the public interface of the buffer pool (or a caller's write to a
pinned page). -/
inductive PoolCall where
  | newPage
  | fetchPage (page_id : Int)
  | unpinPage (page_id : Int) (is_dirty : Bool)
  | flushPage (page_id : Int)
  | flushAllPages
  | deletePage (page_id : Int)
  | write (frame_id : Int) (data : Nat)
  deriving DecidableEq

/-- The state after a call; the fuel is for the `Insert` into the page table. -/
def BufferPoolManagerInstance.call (hash : Int → Nat) (fuel : Nat)
    (b : BufferPoolManagerInstance) : PoolCall → Except Fault BufferPoolManagerInstance
  | PoolCall.newPage => (b.NewPgImp hash fuel).map Prod.fst
  | PoolCall.fetchPage page_id => (b.FetchPgImp hash fuel page_id).map Prod.fst
  | PoolCall.unpinPage page_id is_dirty => (b.UnpinPgImp hash page_id is_dirty).map Prod.fst
  | PoolCall.flushPage page_id => Except.ok (b.FlushPgImp hash page_id).1
  | PoolCall.flushAllPages => Except.ok b.FlushAllPgsImp
  | PoolCall.deletePage page_id => (b.DeletePgImp hash page_id).map Prod.fst
  | PoolCall.write frame_id data => Except.ok (b.callerWrite frame_id data)

/-- A sequence of calls, stopping at the first one that does not return. -/
def BufferPoolManagerInstance.run (hash : Int → Nat) (fuel : Nat) :
    List PoolCall → BufferPoolManagerInstance → Except Fault BufferPoolManagerInstance
  | [], b => Except.ok b
  | c :: rest, b =>
    match b.call hash fuel c with
    | Except.ok b1 => BufferPoolManagerInstance.run hash fuel rest b1
    | Except.error e => Except.error e

/-- The hash of the common standard libraries on `page_id_t`: the value itself,
converted to `size_t`. -/
def pageHash (page_id : Int) : Nat := (page_id % 2 ^ 64).toNat

/-- The calls a workload may make in state `b` when it fetches only pages whose
id `NewPage` has already handed out or can never hand out later. -/
def PoolCall.fetchesKnown (b : BufferPoolManagerInstance) : PoolCall → Prop
  | PoolCall.fetchPage page_id => page_id < b.next_page_id_
  | _ => True

/-- States reachable from a freshly constructed pool by calls that return and
that the policy `allowed` admits. -/
inductive BufferPoolManagerInstance.Reachable (hash : Int → Nat)
    (pool_size replacer_k bucket_size : Nat)
    (allowed : BufferPoolManagerInstance → PoolCall → Prop) :
    BufferPoolManagerInstance → Prop where
  | init (disk_manager : DiskManager) :
      Reachable hash pool_size replacer_k bucket_size allowed
        (BufferPoolManagerInstance.new pool_size replacer_k bucket_size disk_manager)
  | step (b b2 : BufferPoolManagerInstance) (fuel : Nat) (c : PoolCall) :
      Reachable hash pool_size replacer_k bucket_size allowed b → allowed b c →
      b.call hash fuel c = Except.ok b2 →
      Reachable hash pool_size replacer_k bucket_size allowed b2

/-- The invariant of the buffer pool that every workload keeps, stated on the
components of the state: the frame array has `pool_size` entries, page table and
replacer are well-formed, the free list holds distinct in-range frames that are
in the fresh state, every mapping of the page table points to a resident frame
holding that page id, the evictable frames are exactly the resident frames with
pin count 0, and every resident frame is tracked by the replacer. -/
structure PoolInv (hash : Int → Nat) (n : Nat) (pages : List Page)
    (pt : ExtendibleHashTable Int Int) (r : LRUKReplacer) (free : List Int) : Prop where
  pages_len : pages.length = n
  pt_wf : pt.WF hash
  rep_inv : r.Inv
  rep_size : r.replacer_size_ = n
  free_range : ∀ f ∈ free, 0 ≤ f ∧ f < n
  free_nodup : free.Nodup
  free_fresh : ∀ f ∈ free, (frameOf pages f).page_id_ = INVALID_PAGE_ID ∧
    (frameOf pages f).pin_count_ = 0 ∧ (frameOf pages f).is_dirty_ = false
  mapped : ∀ (p f : Int), pt.Find hash p = some f →
    0 ≤ f ∧ f < n ∧ f ∉ free ∧ (frameOf pages f).page_id_ = p
  evictable_iff : ∀ f : Int, r.is_evictable_ f = true ↔
    (0 ≤ f ∧ f < n ∧ f ∉ free ∧ (frameOf pages f).pin_count_ = 0)
  tracked : ∀ f : Int, 0 ≤ f → f < n → f ∉ free → 0 < r.access_num_ f

/-- The state between `GetAvailableFrame` and the installation of the new page:
`PoolInv` for every frame but the acquired frame `f`, which is in range, clean,
in no list and unmapped. -/
structure PoolAcquired (hash : Int → Nat) (n : Nat) (pages : List Page)
    (pt : ExtendibleHashTable Int Int) (r : LRUKReplacer) (free : List Int) (f : Int) :
    Prop where
  pages_len : pages.length = n
  pt_wf : pt.WF hash
  rep_inv : r.Inv
  rep_size : r.replacer_size_ = n
  free_range : ∀ g ∈ free, 0 ≤ g ∧ g < n
  free_nodup : free.Nodup
  free_fresh : ∀ g ∈ free, (frameOf pages g).page_id_ = INVALID_PAGE_ID ∧
    (frameOf pages g).pin_count_ = 0 ∧ (frameOf pages g).is_dirty_ = false
  frame_range : 0 ≤ f ∧ f < n
  frame_not_free : f ∉ free
  frame_clean : (frameOf pages f).is_dirty_ = false
  mapped : ∀ (p g : Int), pt.Find hash p = some g →
    0 ≤ g ∧ g < n ∧ g ∉ free ∧ g ≠ f ∧ (frameOf pages g).page_id_ = p
  evictable_iff : ∀ g : Int, r.is_evictable_ g = true ↔
    (0 ≤ g ∧ g < n ∧ g ∉ free ∧ g ≠ f ∧ (frameOf pages g).pin_count_ = 0)
  tracked : ∀ g : Int, 0 ≤ g → g < n → g ∉ free → g ≠ f → 0 < r.access_num_ g

/-- The invariant `PoolInv` of a pool state. -/
def BufferPoolManagerInstance.Inv (hash : Int → Nat) (b : BufferPoolManagerInstance) : Prop :=
  PoolInv hash b.pool_size_ b.pages_ b.page_table_ b.replacer_ b.free_list_

/-- What holds in addition when only known pages are fetched: every resident
frame is mapped under its page id, and every mapped page id was handed out. -/
structure BufferPoolManagerInstance.Bij (hash : Int → Nat) (b : BufferPoolManagerInstance) :
    Prop where
  inv : b.Inv hash
  next_nonneg : 0 ≤ b.next_page_id_
  resident_mapped : ∀ f : Int, 0 ≤ f → f < b.pool_size_ → f ∉ b.free_list_ →
    b.page_table_.Find hash (b.pageAt f).page_id_ = some f
  keys_lt : ∀ (p f : Int), b.page_table_.Find hash p = some f → p < b.next_page_id_

/-- The state after a call; the state before it if the call does not return. -/
def BufferPoolManagerInstance.after (hash : Int → Nat) (fuel : Nat)
    (b : BufferPoolManagerInstance) (c : PoolCall) : BufferPoolManagerInstance :=
  match b.call hash fuel c with
  | Except.ok b2 => b2
  | Except.error _ => b

/-- `count` calls of `NewPage` in a row, with the results in call order. -/
def BufferPoolManagerInstance.newPages (hash : Int → Nat) (fuel : Nat) :
    Nat → BufferPoolManagerInstance →
      Except Fault (BufferPoolManagerInstance × List (Option (Int × Int)))
  | 0, b => Except.ok (b, [])
  | count + 1, b =>
    match b.NewPgImp hash fuel with
    | Except.ok (b1, res) =>
      match BufferPoolManagerInstance.newPages hash fuel count b1 with
      | Except.ok (b2, rest) => Except.ok (b2, res :: rest)
      | Except.error e => Except.error e
    | Except.error e => Except.error e

/-- An injective hash on page ids: the non-negative ids go to the even numbers
and the negative ids to the odd numbers (`pageHash` is injective only on ids of
up to 64 bits). -/
def zigzagHash (page_id : Int) : Nat :=
  if 0 ≤ page_id then 2 * page_id.natAbs else 2 * page_id.natAbs + 1

/-- The state of a pool of `n` frames after `j` calls of `NewPage` on the fresh
pool: frame `i < j` holds page `i` with pin count 1, the frames from `j` on are
the free list, in order, and `j` is the next page id. -/
structure PoolFilled (hash : Int → Nat) (n j : Nat) (b : BufferPoolManagerInstance) : Prop where
  bij : b.Bij hash
  size : b.pool_size_ = n
  free : b.free_list_ = (List.range' j (n - j)).map Int.ofNat
  next : b.next_page_id_ = j
  pages : ∀ i : Nat, i < j → b.pageAt i = ⟨0, i, 1, false⟩
  bucket : 1 ≤ b.page_table_.bucket_size_

/-- A fresh pool of two frames. -/
def poolTwoFrames : BufferPoolManagerInstance :=
  BufferPoolManagerInstance.new 2 2 4 DiskManager.blank

/-- The pool of two frames after `FetchPage(0)`, before `NewPage` has handed out
the id 0. -/
def poolFetchedFirst : BufferPoolManagerInstance :=
  poolTwoFrames.after pageHash 0 (PoolCall.fetchPage 0)

/-- The pool of two frames after `FetchPage(0); NewPage()`. -/
def poolFetchedUnknown : BufferPoolManagerInstance :=
  poolFetchedFirst.after pageHash 0 PoolCall.newPage

/-- The scenario of the spec on a fresh pool of three frames with `K = 2`:
`NewPage` three times, `UnpinPage(0)`, `UnpinPage(1)`, `FetchPage(0)`,
`UnpinPage(0)`, `NewPage`, with the injective hash. `scenarioPool i` is the state
after the first `i` calls. -/
def scenarioPool0 : BufferPoolManagerInstance :=
  BufferPoolManagerInstance.new 3 2 4 DiskManager.blank

/-- After `NewPage` (id 0). -/
def scenarioPool1 : BufferPoolManagerInstance := scenarioPool0.after zigzagHash 0 PoolCall.newPage

/-- After `NewPage` (id 1). -/
def scenarioPool2 : BufferPoolManagerInstance := scenarioPool1.after zigzagHash 0 PoolCall.newPage

/-- After `NewPage` (id 2). -/
def scenarioPool3 : BufferPoolManagerInstance := scenarioPool2.after zigzagHash 0 PoolCall.newPage

/-- After `UnpinPage(0, false)`. -/
def scenarioPool4 : BufferPoolManagerInstance :=
  scenarioPool3.after zigzagHash 0 (PoolCall.unpinPage 0 false)

/-- After `UnpinPage(1, false)`. -/
def scenarioPool5 : BufferPoolManagerInstance :=
  scenarioPool4.after zigzagHash 0 (PoolCall.unpinPage 1 false)

/-- After `FetchPage(0)`. -/
def scenarioPool6 : BufferPoolManagerInstance :=
  scenarioPool5.after zigzagHash 0 (PoolCall.fetchPage 0)

/-- After `UnpinPage(0, false)`. -/
def scenarioPool7 : BufferPoolManagerInstance :=
  scenarioPool6.after zigzagHash 0 (PoolCall.unpinPage 0 false)

/-- After the fourth `NewPage` (id 3). -/
def scenarioPool8 : BufferPoolManagerInstance := scenarioPool7.after zigzagHash 0 PoolCall.newPage

/-- A pool of one frame, with the injective hash, after `NewPage`. -/
def singleFramePool1 : BufferPoolManagerInstance :=
  (BufferPoolManagerInstance.new 1 2 2 DiskManager.blank).after zigzagHash 0 PoolCall.newPage

/-- The pool of one frame after `NewPage; UnpinPage(0, true)`. -/
def singleFramePool2 : BufferPoolManagerInstance :=
  singleFramePool1.after zigzagHash 0 (PoolCall.unpinPage 0 true)

/-- The scenario "sticky dirty" of the spec on a fresh pool of two frames:
`FetchPage(5)`. -/
def stickyPool1 : BufferPoolManagerInstance :=
  poolTwoFrames.after pageHash 0 (PoolCall.fetchPage 5)

/-- After `UnpinPage(5, true)`. -/
def stickyPool2 : BufferPoolManagerInstance :=
  stickyPool1.after pageHash 0 (PoolCall.unpinPage 5 true)

/-- After the second `FetchPage(5)`. -/
def stickyPool3 : BufferPoolManagerInstance :=
  stickyPool2.after pageHash 0 (PoolCall.fetchPage 5)

/-- The scenario "delete unpinned dirty" of the spec on a fresh pool of two
frames: `FetchPage(7)`. -/
def deletePool1 : BufferPoolManagerInstance :=
  poolTwoFrames.after pageHash 0 (PoolCall.fetchPage 7)

/-- After the caller has written `42` into the page. -/
def deletePool2 : BufferPoolManagerInstance :=
  deletePool1.after pageHash 0 (PoolCall.write 0 42)

/-- After `UnpinPage(7, true)`. -/
def deletePool3 : BufferPoolManagerInstance :=
  deletePool2.after pageHash 0 (PoolCall.unpinPage 7 true)

/-- Frame `f`, dirty in state `b`, has not lost its write in the later state
`b2`: the log of the disk has only grown, and either the frame is still dirty
and holds the same page, or `WritePage` was called since for the page with the
data the frame had in `b`. -/
def BufferPoolManagerInstance.DirtyOrWritten (b b2 : BufferPoolManagerInstance) (f : Int) :
    Prop :=
  ∃ pre, b2.disk_manager_.writes = pre ++ b.disk_manager_.writes ∧
    (((b2.pageAt f).is_dirty_ = true ∧ (b2.pageAt f).page_id_ = (b.pageAt f).page_id_) ∨
      ((b.pageAt f).page_id_, (b.pageAt f).data_) ∈ pre)

/-- Frame `f`, dirty in state `b`, has not lost its write over several calls:
the log of the disk has only grown, and either the frame is still dirty and
holds the same page, or `WritePage` was called since for the page. -/
def BufferPoolManagerInstance.DirtyOrWrittenSince (b b2 : BufferPoolManagerInstance) (f : Int) :
    Prop :=
  ∃ pre, b2.disk_manager_.writes = pre ++ b.disk_manager_.writes ∧
    (((b2.pageAt f).is_dirty_ = true ∧ (b2.pageAt f).page_id_ = (b.pageAt f).page_id_) ∨
      ∃ data, ((b.pageAt f).page_id_, data) ∈ pre)

/-- A pool of one frame whose page 0 was written to by its caller and unpinned
dirty. -/
def dirtyPool1 : BufferPoolManagerInstance :=
  (BufferPoolManagerInstance.new 1 2 4 DiskManager.blank).after pageHash 0 PoolCall.newPage

/-- After the caller has written `7` into page 0. -/
def dirtyPool2 : BufferPoolManagerInstance := dirtyPool1.after pageHash 0 (PoolCall.write 0 7)

/-- After `UnpinPage(0, true)`. -/
def dirtyPool3 : BufferPoolManagerInstance :=
  dirtyPool2.after pageHash 0 (PoolCall.unpinPage 0 true)

/-- After page 0 was fetched again and unpinned clean. -/
def dirtyPool4 : BufferPoolManagerInstance :=
  (dirtyPool3.after pageHash 0 (PoolCall.fetchPage 0)).after pageHash 0
    (PoolCall.unpinPage 0 false)

/-- The part of `PoolInv` that does not speak about the lists of the replacer,
and that holds for every `K`: the frame array has `pool_size` entries, the page
table is well-formed, the replacer has `pool_size` as its size, the free list
holds distinct in-range frames in the fresh state, every mapping points to a
resident frame holding that page id, the evictable flags are set exactly on the
resident frames with pin count 0, and every resident frame has a positive access
count. -/
structure PoolCore (hash : Int → Nat) (n : Nat) (pages : List Page)
    (pt : ExtendibleHashTable Int Int) (r : LRUKReplacer) (free : List Int) : Prop where
  pages_len : pages.length = n
  pt_wf : pt.WF hash
  rep_size : r.replacer_size_ = n
  free_range : ∀ f ∈ free, 0 ≤ f ∧ f < n
  free_nodup : free.Nodup
  free_fresh : ∀ f ∈ free, (frameOf pages f).page_id_ = INVALID_PAGE_ID ∧
    (frameOf pages f).pin_count_ = 0 ∧ (frameOf pages f).is_dirty_ = false
  mapped : ∀ (p f : Int), pt.Find hash p = some f →
    0 ≤ f ∧ f < n ∧ f ∉ free ∧ (frameOf pages f).page_id_ = p
  evictable_iff : ∀ f : Int, r.is_evictable_ f = true ↔
    (0 ≤ f ∧ f < n ∧ f ∉ free ∧ (frameOf pages f).pin_count_ = 0)
  tracked : ∀ f : Int, 0 ≤ f → f < n → f ∉ free → 0 < r.access_num_ f

/-- The state between `GetAvailableFrame` and the installation of the new page,
for every `K`: `PoolCore` for every frame but the acquired frame `f`, which is
in range, clean, in no list and unmapped. -/
structure PoolCoreAcquired (hash : Int → Nat) (n : Nat) (pages : List Page)
    (pt : ExtendibleHashTable Int Int) (r : LRUKReplacer) (free : List Int) (f : Int) :
    Prop where
  pages_len : pages.length = n
  pt_wf : pt.WF hash
  rep_size : r.replacer_size_ = n
  free_range : ∀ g ∈ free, 0 ≤ g ∧ g < n
  free_nodup : free.Nodup
  free_fresh : ∀ g ∈ free, (frameOf pages g).page_id_ = INVALID_PAGE_ID ∧
    (frameOf pages g).pin_count_ = 0 ∧ (frameOf pages g).is_dirty_ = false
  frame_range : 0 ≤ f ∧ f < n
  frame_not_free : f ∉ free
  frame_clean : (frameOf pages f).is_dirty_ = false
  mapped : ∀ (p g : Int), pt.Find hash p = some g →
    0 ≤ g ∧ g < n ∧ g ∉ free ∧ g ≠ f ∧ (frameOf pages g).page_id_ = p
  evictable_iff : ∀ g : Int, r.is_evictable_ g = true ↔
    (0 ≤ g ∧ g < n ∧ g ∉ free ∧ g ≠ f ∧ (frameOf pages g).pin_count_ = 0)
  tracked : ∀ g : Int, 0 ≤ g → g < n → g ∉ free → g ≠ f → 0 < r.access_num_ g

/-- The invariant `PoolCore` of a pool state. -/
def BufferPoolManagerInstance.Core (hash : Int → Nat) (b : BufferPoolManagerInstance) : Prop :=
  PoolCore hash b.pool_size_ b.pages_ b.page_table_ b.replacer_ b.free_list_

/-- A fresh pool of two frames whose replacer has `K = 1`. -/
def lruOnePool0 : BufferPoolManagerInstance :=
  BufferPoolManagerInstance.new 2 1 4 DiskManager.blank

/-- After `NewPage` (page 0 in frame 0). -/
def lruOnePool1 : BufferPoolManagerInstance := lruOnePool0.after pageHash 0 PoolCall.newPage

/-- After `UnpinPage(0, true)`. -/
def lruOnePool2 : BufferPoolManagerInstance :=
  lruOnePool1.after pageHash 0 (PoolCall.unpinPage 0 true)

/-- After the second `NewPage` (page 1 in frame 1). -/
def lruOnePool3 : BufferPoolManagerInstance := lruOnePool2.after pageHash 0 PoolCall.newPage

/-- After the third `NewPage`, which evicts page 0 from frame 0. -/
def lruOnePool4 : BufferPoolManagerInstance := lruOnePool3.after pageHash 0 PoolCall.newPage

/-- One statement of `GetAvailableFrame`, `NewPgImp` or `FetchPgImp` that
changes the pool or one of its collaborators. -/
inductive PoolEvent where
  | popFree
  | evict
  | writePage (page_id : Int) (data : Nat)
  | clearDirty (frame_id : Int)
  | removeMapping (page_id : Int)
  | allocatePage
  | setPageId (frame_id page_id : Int)
  | setPinCount (frame_id : Int) (pin_count : Nat)
  | resetMemory (frame_id : Int)
  | insertMapping (page_id frame_id : Int)
  | readPage (page_id frame_id : Int)
  | recordAccess (frame_id : Int)
  | setEvictable (frame_id : Int) (set_evictable : Bool)
  deriving DecidableEq

/-- The effect of one statement on the pool: `free_list_.pop_front()`,
`replacer_->Evict(..)`, `disk_manager_->WritePage(..)`, `is_dirty_ = false`,
`page_table_->Remove(..)`, `AllocatePage()`, the assignments to `page_id_` and
`pin_count_`, `ResetMemory()`, `page_table_->Insert(..)`,
`disk_manager_->ReadPage(..)`, `replacer_->RecordAccess(..)` and
`replacer_->SetEvictable(..)`. -/
def BufferPoolManagerInstance.step (hash : Int → Nat) (fuel : Nat)
    (b : BufferPoolManagerInstance) : PoolEvent → Except Fault BufferPoolManagerInstance
  | PoolEvent.popFree => Except.ok { b with free_list_ := b.free_list_.tail }
  | PoolEvent.evict => Except.ok { b with replacer_ := b.replacer_.Evict.1 }
  | PoolEvent.writePage page_id data =>
    Except.ok { b with disk_manager_ := b.disk_manager_.WritePage page_id data }
  | PoolEvent.clearDirty frame_id =>
    Except.ok (b.setPage frame_id { (b.pageAt frame_id) with is_dirty_ := false })
  | PoolEvent.removeMapping page_id =>
    Except.ok { b with page_table_ := (b.page_table_.Remove hash page_id).1 }
  | PoolEvent.allocatePage => Except.ok { b with next_page_id_ := b.next_page_id_ + 1 }
  | PoolEvent.setPageId frame_id page_id =>
    Except.ok (b.setPage frame_id { (b.pageAt frame_id) with page_id_ := page_id })
  | PoolEvent.setPinCount frame_id pin_count =>
    Except.ok (b.setPage frame_id { (b.pageAt frame_id) with pin_count_ := pin_count })
  | PoolEvent.resetMemory frame_id =>
    Except.ok (b.setPage frame_id (b.pageAt frame_id).ResetMemory)
  | PoolEvent.insertMapping page_id frame_id =>
    match b.page_table_.Insert hash fuel page_id frame_id with
    | none => Except.error Fault.fuel
    | some page_table => Except.ok { b with page_table_ := page_table }
  | PoolEvent.readPage page_id frame_id =>
    Except.ok (b.setPage frame_id
      { (b.pageAt frame_id) with data_ := b.disk_manager_.ReadPage page_id })
  | PoolEvent.recordAccess frame_id =>
    match b.replacer_.RecordAccess frame_id with
    | Except.ok r => Except.ok { b with replacer_ := r }
    | Except.error e => Except.error e
  | PoolEvent.setEvictable frame_id set_evictable =>
    match b.replacer_.SetEvictable frame_id set_evictable with
    | Except.ok r => Except.ok { b with replacer_ := r }
    | Except.error e => Except.error e

/-- The statements of a list executed one after the other. -/
def BufferPoolManagerInstance.replay (hash : Int → Nat) (fuel : Nat) :
    List PoolEvent → BufferPoolManagerInstance → Except Fault BufferPoolManagerInstance
  | [], b => Except.ok b
  | e :: rest, b =>
    match b.step hash fuel e with
    | Except.ok b1 => BufferPoolManagerInstance.replay hash fuel rest b1
    | Except.error x => Except.error x

/-- The statements `GetAvailableFrame` executes in state `b`, in the order of
the source: the pop of the free list, or `Evict` followed, for a victim, by the
write-back of a dirty frame (`WritePage`, then the flag) and then the `Remove`
from the page table. -/
def BufferPoolManagerInstance.availableFrameEvents (b : BufferPoolManagerInstance) :
    List PoolEvent :=
  match b.free_list_ with
  | _ :: _ => [PoolEvent.popFree]
  | [] =>
    match b.replacer_.Evict with
    | (_, some frame_id) =>
      PoolEvent.evict ::
        ((if (b.pageAt frame_id).is_dirty_ then
            [PoolEvent.writePage (b.pageAt frame_id).page_id_ (b.pageAt frame_id).data_,
              PoolEvent.clearDirty frame_id]
          else []) ++ [PoolEvent.removeMapping (b.pageAt frame_id).page_id_])
    | (_, none) => [PoolEvent.evict]

/-- The statements `NewPgImp` executes in state `b`, in the order of the
source. -/
def BufferPoolManagerInstance.newPageEvents (hash : Int → Nat) (b : BufferPoolManagerInstance) :
    List PoolEvent :=
  match b.GetAvailableFrame hash with
  | (b1, some frame_id) =>
    b.availableFrameEvents ++
      [PoolEvent.allocatePage, PoolEvent.setPageId frame_id b1.next_page_id_,
        PoolEvent.setPinCount frame_id 1, PoolEvent.resetMemory frame_id,
        PoolEvent.insertMapping b1.next_page_id_ frame_id, PoolEvent.recordAccess frame_id,
        PoolEvent.setEvictable frame_id false]
  | (_, none) => b.availableFrameEvents

/-- The statements `FetchPgImp` executes in state `b`, in the order of the
source. -/
def BufferPoolManagerInstance.fetchPageEvents (hash : Int → Nat) (b : BufferPoolManagerInstance)
    (page_id : Int) : List PoolEvent :=
  match b.page_table_.Find hash page_id with
  | some frame_id =>
    [PoolEvent.setPinCount frame_id ((b.pageAt frame_id).pin_count_ + 1),
      PoolEvent.recordAccess frame_id, PoolEvent.setEvictable frame_id false]
  | none =>
    match b.GetAvailableFrame hash with
    | (_, some frame_id) =>
      b.availableFrameEvents ++
        [PoolEvent.insertMapping page_id frame_id, PoolEvent.setPageId frame_id page_id,
          PoolEvent.setPinCount frame_id 1, PoolEvent.resetMemory frame_id,
          PoolEvent.readPage page_id frame_id, PoolEvent.recordAccess frame_id,
          PoolEvent.setEvictable frame_id false]
    | (_, none) => b.availableFrameEvents

/-- After `FetchPage(0)` and `UnpinPage(0, false)` on `dirtyPool3`, a `NewPage`:
the dirty frame 0 is evicted and reused for page 1. -/
def dirtyPool5 : BufferPoolManagerInstance := dirtyPool4.after pageHash 0 PoolCall.newPage

/-- An access of a page through `NewPage` or `FetchPage`: the page came into the
frame (`NewPage`, or a `FetchPage` that did not find it in the page table), or it
was found in the frame (a `FetchPage` hit). -/
inductive PageAccess where
  | loaded (frame_id page_id : Int)
  | hit (frame_id page_id : Int)
  deriving DecidableEq

/-- The number of times the page in frame `frame_id` was accessed by `NewPage`
or `FetchPage` since it came into the frame, the access that brought it there
included; the log has the newest access first. -/
def frameAccesses : List PageAccess → Int → Nat
  | [], _ => 0
  | PageAccess.loaded g _ :: rest, frame_id =>
    if g = frame_id then 1 else frameAccesses rest frame_id
  | PageAccess.hit g _ :: rest, frame_id =>
    if g = frame_id then frameAccesses rest frame_id + 1 else frameAccesses rest frame_id

/-- The access a call makes: `NewPage` that returns a page loads it into the
frame it returns, `FetchPage` that returns a page has found it in the page table
or loads it, and no other call accesses a page. -/
def BufferPoolManagerInstance.accessOf (hash : Int → Nat) (fuel : Nat)
    (b : BufferPoolManagerInstance) : PoolCall → Option PageAccess
  | PoolCall.newPage =>
    match b.NewPgImp hash fuel with
    | Except.ok (_, some (page_id, frame_id)) => some (PageAccess.loaded frame_id page_id)
    | _ => none
  | PoolCall.fetchPage page_id =>
    match b.FetchPgImp hash fuel page_id with
    | Except.ok (_, some frame_id) =>
      if (b.page_table_.Find hash page_id).isSome then some (PageAccess.hit frame_id page_id)
      else some (PageAccess.loaded frame_id page_id)
    | _ => none
  | _ => none

/-- States reachable from a freshly constructed pool by calls that return,
together with the log of the accesses the calls have made, newest first. -/
inductive BufferPoolManagerInstance.ReachableWith (hash : Int → Nat)
    (pool_size replacer_k bucket_size : Nat) :
    BufferPoolManagerInstance → List PageAccess → Prop where
  | init (disk_manager : DiskManager) :
      ReachableWith hash pool_size replacer_k bucket_size
        (BufferPoolManagerInstance.new pool_size replacer_k bucket_size disk_manager) []
  | step (b b2 : BufferPoolManagerInstance) (log : List PageAccess) (fuel : Nat)
      (c : PoolCall) :
      ReachableWith hash pool_size replacer_k bucket_size b log →
      b.call hash fuel c = Except.ok b2 →
      ReachableWith hash pool_size replacer_k bucket_size b2
        ((b.accessOf hash fuel c).toList ++ log)

/-- The access counts of the replacer are the numbers of accesses of the log:
for every resident frame the count is the number of accesses of its page since
it came into the frame, and for every free frame it is 0. -/
structure BufferPoolManagerInstance.Counted (b : BufferPoolManagerInstance)
    (log : List PageAccess) : Prop where
  resident : ∀ f : Int, 0 ≤ f → f < b.pool_size_ → f ∉ b.free_list_ →
    b.replacer_.access_num_ f = frameAccesses log f
  free : ∀ f ∈ b.free_list_, b.replacer_.access_num_ f = 0

/-! # Theorems -/

/-! ### Arithmetic of masks -/

theorem and_one_shiftLeft_eq_zero_iff (x d : Nat) :
    x &&& (1 <<< d) = 0 ↔ x / 2 ^ d % 2 = 0 := by
  rw [Nat.one_shiftLeft, Nat.and_two_pow, Nat.toNat_testBit]
  constructor
  · intro h
    rcases Nat.mul_eq_zero.mp h with h | h
    · exact h
    · exact absurd h (by positivity)
  · intro h; rw [h, Nat.zero_mul]

theorem and_mask_eq_mod (x d : Nat) : x &&& ((1 <<< d) - 1) = x % 2 ^ d := by
  rw [Nat.one_shiftLeft, Nat.and_pow_two_sub_one_eq_mod]

theorem mod_pow_succ_eq_iff (i j d : Nat) :
    i % 2 ^ (d + 1) = j % 2 ^ (d + 1) ↔
      i % 2 ^ d = j % 2 ^ d ∧ i / 2 ^ d % 2 = j / 2 ^ d % 2 := by
  constructor
  · intro h
    have h1 : i % 2 ^ (d + 1) % 2 ^ d = j % 2 ^ (d + 1) % 2 ^ d := by rw [h]
    have h2 : i % 2 ^ (d + 1) / 2 ^ d = j % 2 ^ (d + 1) / 2 ^ d := by rw [h]
    rw [Nat.mod_mod_of_dvd _ (Nat.pow_dvd_pow 2 (Nat.le_succ d)),
      Nat.mod_mod_of_dvd _ (Nat.pow_dvd_pow 2 (Nat.le_succ d))] at h1
    rw [pow_succ, Nat.mod_mul_right_div_self, Nat.mod_mul_right_div_self] at h2
    exact ⟨h1, h2⟩
  · rintro ⟨h1, h2⟩
    rw [Nat.mod_pow_succ, Nat.mod_pow_succ, h1, h2]

theorem mod_mod_two_pow (x : Nat) {d g : Nat} (h : d ≤ g) : x % 2 ^ g % 2 ^ d = x % 2 ^ d :=
  Nat.mod_mod_of_dvd _ (Nat.pow_dvd_pow 2 h)

theorem mod_two_pow_div_mod (x : Nat) {d g : Nat} (h : d < g) :
    x % 2 ^ g / 2 ^ d % 2 = x / 2 ^ d % 2 :=
  ((mod_pow_succ_eq_iff (x % 2 ^ g) x d).mp (mod_mod_two_pow x h)).2

/-! ### Entry lists -/

section Lists

variable {K V : Type}

theorem findItem_eq_none_iff [DecidableEq K] (l : List (K × V)) (key : K) :
    findItem l key = none ↔ key ∉ l.map Prod.fst := by
  induction l with
  | nil => simp [findItem]
  | cons item rest ih =>
    by_cases h : item.1 = key
    · simp [findItem, h]
    · simp only [findItem, h, if_false, ih, List.map_cons, List.mem_cons, not_or]
      exact ⟨fun h2 => ⟨fun h3 => h h3.symm, h2⟩, fun h2 => h2.2⟩

theorem findItem_filter [DecidableEq K] (p : K × V → Bool) (l : List (K × V)) (key : K)
    (hp : ∀ item ∈ l, item.1 = key → p item = true) :
    findItem (l.filter p) key = findItem l key := by
  induction l with
  | nil => rfl
  | cons item rest ih =>
    have ih2 := ih (fun it hit => hp it (List.mem_cons_of_mem _ hit))
    by_cases h : item.1 = key
    · have := hp item (List.mem_cons_self _ _) h
      simp [List.filter, this, findItem, h]
    · cases hpi : p item
      · simp [List.filter, hpi, findItem, h, ih2]
      · simp [List.filter, hpi, findItem, h, ih2]

theorem findItem_append_single [DecidableEq K] (l : List (K × V)) (key : K) (value : V) (k2 : K)
    (hk : key ∉ l.map Prod.fst) :
    findItem (l ++ [(key, value)]) k2 = if k2 = key then some value else findItem l k2 := by
  induction l with
  | nil =>
    by_cases h : key = k2
    · simp [findItem, h]
    · have h2 : ¬ k2 = key := fun e => h e.symm
      simp [findItem, h, h2]
  | cons item rest ih =>
    simp only [List.map_cons, List.mem_cons, not_or] at hk
    by_cases h : item.1 = k2
    · have h2 : ¬ k2 = key := fun e => hk.1 (by rw [← e, h])
      simp [findItem, h, h2]
    · simp only [List.cons_append, findItem, h, if_false]
      exact ih hk.2

theorem overwrite_eq_none_iff [DecidableEq K] (l : List (K × V)) (key : K) (value : V) :
    overwrite l key value = none ↔ key ∉ l.map Prod.fst := by
  induction l with
  | nil => simp [overwrite]
  | cons item rest ih =>
    by_cases h : item.1 = key
    · simp [overwrite, h]
    · simp only [overwrite, h, if_false, Option.map_eq_none', ih, List.map_cons, List.mem_cons,
        not_or]
      exact ⟨fun h2 => ⟨fun h3 => h h3.symm, h2⟩, fun h2 => h2.2⟩

theorem overwrite_keys [DecidableEq K] (l r : List (K × V)) (key : K) (value : V)
    (h : overwrite l key value = some r) : r.map Prod.fst = l.map Prod.fst := by
  induction l generalizing r with
  | nil => simp [overwrite] at h
  | cons item rest ih =>
    by_cases hk : item.1 = key
    · simp only [overwrite, hk, if_true, Option.some.injEq] at h
      subst h; simp [hk]
    · simp only [overwrite, hk, if_false, Option.map_eq_some'] at h
      obtain ⟨r2, hr2, rfl⟩ := h
      simp [ih r2 hr2]

theorem overwrite_findItem [DecidableEq K] (l r : List (K × V)) (key : K) (value : V) (k2 : K)
    (h : overwrite l key value = some r) :
    findItem r k2 = if k2 = key then some value else findItem l k2 := by
  induction l generalizing r with
  | nil => simp [overwrite] at h
  | cons item rest ih =>
    by_cases hk : item.1 = key
    · simp only [overwrite, hk, if_true, Option.some.injEq] at h
      subst h
      by_cases h2 : key = k2
      · simp [findItem, h2]
      · have h3 : ¬ k2 = key := fun e => h2 e.symm
        simp [findItem, h2, h3, hk]
    · simp only [overwrite, hk, if_false, Option.map_eq_some'] at h
      obtain ⟨r2, hr2, rfl⟩ := h
      by_cases h2 : item.1 = k2
      · have h3 : ¬ k2 = key := fun e => hk (by rw [h2, e])
        simp [findItem, h2, h3]
      · simp only [findItem, h2, if_false]
        exact ih r2 hr2

theorem firstItem_eq_none_iff [DecidableEq K] (l : List (K × V)) (key : K) :
    firstItem l key = none ↔ findItem l key = none := by
  induction l with
  | nil => simp [firstItem, findItem]
  | cons item rest ih =>
    by_cases h : item.1 = key
    · simp [firstItem, findItem, h]
    · simp [firstItem, findItem, h, ih]

theorem firstItem_some [DecidableEq K] (l : List (K × V)) (key : K) (item : K × V)
    (h : firstItem l key = some item) : item ∈ l ∧ item.1 = key := by
  induction l with
  | nil => simp [firstItem] at h
  | cons it rest ih =>
    by_cases hk : it.1 = key
    · simp only [firstItem, hk, if_true, Option.some.injEq] at h
      subst h; exact ⟨List.mem_cons_self _ _, hk⟩
    · simp only [firstItem, hk, if_false] at h
      exact ⟨List.mem_cons_of_mem _ (ih h).1, (ih h).2⟩

theorem findItem_remove_self [DecidableEq K] [DecidableEq V] (l : List (K × V)) (item : K × V)
    (hn : (l.map Prod.fst).Nodup) (hm : item ∈ l) :
    findItem (l.filter (fun e => decide (e ≠ item))) item.1 = none := by
  rw [findItem_eq_none_iff]
  intro hmem
  obtain ⟨e, he, hek⟩ := List.mem_map.mp hmem
  rw [List.mem_filter] at he
  have hne : e ≠ item := by simpa using he.2
  exact hne (List.inj_on_of_nodup_map hn he.1 hm hek)

theorem findItem_remove_other [DecidableEq K] [DecidableEq V] (l : List (K × V)) (item : K × V) (k2 : K) (h : k2 ≠ item.1) :
    findItem (l.filter (fun e => decide (e ≠ item))) k2 = findItem l k2 := by
  apply findItem_filter
  intro e _ hek
  have : e ≠ item := fun heq => h (by rw [← hek, heq])
  simpa using this

theorem redistribute_eq (hash : K → Nat) (mask : Nat) (l : List (K × V)) (b0 b1 : Bucket K V)
    (h0 : b0.list_.length + l.length ≤ b0.size_) (h1 : b1.list_.length + l.length ≤ b1.size_) :
    redistribute hash mask l b0 b1 =
      ({ b0 with list_ := b0.list_ ++ l.filter (fun it => decide (hash it.1 &&& mask = 0)) },
       { b1 with list_ := b1.list_ ++ l.filter (fun it => !decide (hash it.1 &&& mask = 0)) }) := by
  induction l generalizing b0 b1 with
  | nil => simp [redistribute]
  | cons item rest ih =>
    simp only [List.length_cons] at h0 h1
    by_cases hb : hash item.1 &&& mask = 0
    · have hf : b0.IsFull = false := by
        simp only [Bucket.IsFull, decide_eq_false_iff_not]; omega
      simp only [redistribute, hb, if_true, Bucket.Insert, hf]
      rw [ih]
      · simp [List.filter, hb]
      · show (b0.list_ ++ [(item.1, item.2)]).length + rest.length ≤ b0.size_
        rw [List.length_append, List.length_singleton]; omega
      · omega
    · have hf : b1.IsFull = false := by
        simp only [Bucket.IsFull, decide_eq_false_iff_not]; omega
      simp only [redistribute, hb, if_false, Bucket.Insert, hf]
      rw [ih]
      · simp [List.filter, hb]
      · omega
      · show (b1.list_ ++ [(item.1, item.2)]).length + rest.length ≤ b1.size_
        rw [List.length_append, List.length_singleton]; omega

end Lists

/-! ### The table: growing and splitting -/

section Table

variable {K V : Type}

theorem ExtendibleHashTable.IndexOf_eq (hash : K → Nat) (t : ExtendibleHashTable K V) (key : K) :
    t.IndexOf hash key = hash key % 2 ^ t.global_depth_ :=
  and_mask_eq_mod _ _

theorem ExtendibleHashTable.WF.index_lt {hash : K → Nat} {t : ExtendibleHashTable K V}
    (wf : t.WF hash) (key : K) : t.IndexOf hash key < t.dir_.length := by
  rw [t.IndexOf_eq, wf.dir_len]
  exact Nat.mod_lt _ (by positivity)

theorem getD_double (l : List Nat) (g i : Nat) (hl : l.length = 2 ^ g) (hi : i < 2 ^ (g + 1)) :
    (l ++ l).getD i 0 = l.getD (i % 2 ^ g) 0 := by
  rw [pow_succ] at hi
  by_cases h : i < 2 ^ g
  · rw [List.getD_append _ _ _ _ (by omega), Nat.mod_eq_of_lt h]
  · have h2 : i % 2 ^ g = i - 2 ^ g := by
      rw [Nat.mod_eq_sub_mod (by omega), Nat.mod_eq_of_lt (by omega)]
    rw [List.getD_append_right _ _ _ _ (by omega), hl, h2]

theorem getD_mapIdx (f : Nat → Nat → Nat) (l : List Nat) (i : Nat) (hi : i < l.length) :
    (l.mapIdx f).getD i 0 = f i (l.getD i 0) := by
  rw [List.getD_eq_getElem _ _ (by rw [List.length_mapIdx]; exact hi), List.getElem_mapIdx,
    List.getD_eq_getElem _ _ hi]

theorem ExtendibleHashTable.grow_dirAt {hash : K → Nat} {t : ExtendibleHashTable K V}
    (wf : t.WF hash) (i : Nat) (hi : i < t.grow.dir_.length) :
    t.grow.dirAt i = t.dirAt (i % 2 ^ t.global_depth_) := by
  have hi2 : i < 2 ^ (t.global_depth_ + 1) := by
    simp only [ExtendibleHashTable.grow, List.length_append, wf.dir_len] at hi
    rw [pow_succ]; omega
  exact getD_double _ _ _ wf.dir_len hi2

theorem ExtendibleHashTable.grow_bucketAt {hash : K → Nat} {t : ExtendibleHashTable K V}
    (wf : t.WF hash) (i : Nat) (hi : i < t.grow.dir_.length) :
    t.grow.bucketAt i = t.bucketAt (i % 2 ^ t.global_depth_) := by
  unfold ExtendibleHashTable.bucketAt
  rw [t.grow_dirAt wf i hi]
  rfl

theorem ExtendibleHashTable.grow_WF {hash : K → Nat} {t : ExtendibleHashTable K V}
    (wf : t.WF hash) : t.grow.WF hash := by
  have hlen : t.grow.dir_.length = 2 ^ (t.global_depth_ + 1) := by
    simp only [ExtendibleHashTable.grow, List.length_append, wf.dir_len, pow_succ]; omega
  have hmod : ∀ i, i % 2 ^ t.global_depth_ < t.dir_.length := fun i => by
    rw [wf.dir_len]; exact Nat.mod_lt _ (by positivity)
  refine ⟨hlen, ?_, ?_, ?_, ?_, ?_, ?_⟩
  · intro i hi
    rw [t.grow_dirAt wf i hi]
    exact wf.ptr_lt _ (hmod i)
  · intro i hi
    rw [t.grow_bucketAt wf i hi]
    exact Nat.le_succ_of_le (wf.depth_le _ (hmod i))
  · intro i j hi hj
    rw [t.grow_dirAt wf i hi, t.grow_dirAt wf j hj, t.grow_bucketAt wf i hi,
      wf.coherent _ _ (hmod i) (hmod j), mod_mod_two_pow i (wf.depth_le _ (hmod i)),
      mod_mod_two_pow j (wf.depth_le _ (hmod i))]
  · intro i hi
    rw [t.grow_bucketAt wf i hi]
    exact wf.cap _ (hmod i)
  · intro i hi
    rw [t.grow_bucketAt wf i hi]
    exact wf.nodup _ (hmod i)
  · intro i hi item hmem
    rw [t.grow_bucketAt wf i hi] at hmem ⊢
    rw [wf.aligned _ (hmod i) item hmem, mod_mod_two_pow i (wf.depth_le _ (hmod i))]

theorem ExtendibleHashTable.grow_Find [DecidableEq K] {hash : K → Nat}
    {t : ExtendibleHashTable K V} (wf : t.WF hash) (key : K) :
    t.grow.Find hash key = t.Find hash key := by
  unfold ExtendibleHashTable.Find
  rw [t.grow_bucketAt wf _ ((t.grow_WF wf).index_lt key), t.grow.IndexOf_eq, t.IndexOf_eq]
  show (t.bucketAt (hash key % 2 ^ (t.global_depth_ + 1) % 2 ^ t.global_depth_)).Find key = _
  rw [mod_mod_two_pow _ (Nat.le_succ _)]

theorem ExtendibleHashTable.splitBucket_dir_length (hash : K → Nat)
    (t : ExtendibleHashTable K V) (target : Nat) :
    (t.splitBucket hash target).dir_.length = t.dir_.length := by
  simp [ExtendibleHashTable.splitBucket]

theorem ExtendibleHashTable.splitBucket_dirAt (hash : K → Nat) (t : ExtendibleHashTable K V)
    (target i : Nat) (hi : i < t.dir_.length) :
    (t.splitBucket hash target).dirAt i =
      if t.dirAt i = target then
        (if i / 2 ^ (t.deref target).depth_ % 2 = 0 then t.heap_.length else t.heap_.length + 1)
      else t.dirAt i := by
  simp only [ExtendibleHashTable.splitBucket, ExtendibleHashTable.dirAt, Bucket.GetDepth]
  rw [getD_mapIdx _ _ _ hi]
  simp only [and_one_shiftLeft_eq_zero_iff]

theorem ExtendibleHashTable.splitBucket_deref_old (hash : K → Nat)
    (t : ExtendibleHashTable K V) (target p : Nat) (hp : p < t.heap_.length) :
    (t.splitBucket hash target).deref p = t.deref p :=
  List.getD_append _ _ _ _ hp

theorem ExtendibleHashTable.splitBucket_deref_zero (hash : K → Nat)
    (t : ExtendibleHashTable K V) (target : Nat) :
    (t.splitBucket hash target).deref t.heap_.length =
      (redistribute hash (1 <<< (t.deref target).depth_) (t.deref target).list_
        ⟨t.bucket_size_, (t.deref target).depth_ + 1, []⟩
        ⟨t.bucket_size_, (t.deref target).depth_ + 1, []⟩).1 := by
  show (t.heap_ ++ [_, _]).getD t.heap_.length default = _
  rw [List.getD_append_right _ _ _ _ (le_refl _), Nat.sub_self]
  rfl

theorem ExtendibleHashTable.splitBucket_deref_one (hash : K → Nat)
    (t : ExtendibleHashTable K V) (target : Nat) :
    (t.splitBucket hash target).deref (t.heap_.length + 1) =
      (redistribute hash (1 <<< (t.deref target).depth_) (t.deref target).list_
        ⟨t.bucket_size_, (t.deref target).depth_ + 1, []⟩
        ⟨t.bucket_size_, (t.deref target).depth_ + 1, []⟩).2 := by
  show (t.heap_ ++ [_, _]).getD (t.heap_.length + 1) default = _
  rw [List.getD_append_right _ _ _ _ (Nat.le_succ _),
    show t.heap_.length + 1 - t.heap_.length = 1 by omega]
  rfl

/-- The half of a split bucket that slot `i` is repointed to. -/
theorem ExtendibleHashTable.splitBucket_bucketAt {hash : K → Nat} {t : ExtendibleHashTable K V}
    (wf : t.WF hash) (idx i : Nat) (hidx : idx < t.dir_.length) (hi : i < t.dir_.length) :
    (t.splitBucket hash (t.dirAt idx)).bucketAt i =
      if t.dirAt i = t.dirAt idx then
        ⟨t.bucket_size_, (t.bucketAt idx).depth_ + 1,
          (t.bucketAt idx).list_.filter
            (fun it => decide (hash it.1 / 2 ^ (t.bucketAt idx).depth_ % 2
              = i / 2 ^ (t.bucketAt idx).depth_ % 2))⟩
      else t.bucketAt i := by
  have hred := redistribute_eq hash (1 <<< (t.deref (t.dirAt idx)).depth_)
    (t.deref (t.dirAt idx)).list_ ⟨t.bucket_size_, (t.deref (t.dirAt idx)).depth_ + 1, []⟩
    ⟨t.bucket_size_, (t.deref (t.dirAt idx)).depth_ + 1, []⟩
    (by simpa using (wf.cap idx hidx).2) (by simpa using (wf.cap idx hidx).2)
  unfold ExtendibleHashTable.bucketAt
  rw [t.splitBucket_dirAt hash _ i hi]
  by_cases h : t.dirAt i = t.dirAt idx
  · simp only [h, if_true]
    by_cases hb : i / 2 ^ (t.deref (t.dirAt idx)).depth_ % 2 = 0
    · simp only [hb, if_true]
      rw [t.splitBucket_deref_zero, hred]
      simp only [List.nil_append, and_one_shiftLeft_eq_zero_iff]
    · simp only [hb, if_false]
      rw [t.splitBucket_deref_one, hred]
      have hb1 : i / 2 ^ (t.deref (t.dirAt idx)).depth_ % 2 = 1 := by omega
      simp only [List.nil_append, and_one_shiftLeft_eq_zero_iff, hb1]
      congr 1
      apply List.filter_congr
      intro x _
      have := Nat.mod_two_eq_zero_or_one (hash x.1 / 2 ^ (t.deref (t.dirAt idx)).depth_)
      rcases this with h0 | h1
      · simp [h0]
      · simp [h1]
  · simp only [h, if_false]
    exact t.splitBucket_deref_old hash _ _ (wf.ptr_lt i hi)

theorem ExtendibleHashTable.bucketAt_congr (t : ExtendibleHashTable K V) {i j : Nat}
    (h : t.dirAt i = t.dirAt j) : t.bucketAt i = t.bucketAt j := by
  unfold ExtendibleHashTable.bucketAt; rw [h]

theorem ExtendibleHashTable.splitBucket_WF {hash : K → Nat} {t : ExtendibleHashTable K V}
    (wf : t.WF hash) (idx : Nat) (hidx : idx < t.dir_.length)
    (hd : (t.bucketAt idx).depth_ < t.global_depth_) :
    (t.splitBucket hash (t.dirAt idx)).WF hash := by
  have hlen := t.splitBucket_dir_length hash (t.dirAt idx)
  have hheap : (t.splitBucket hash (t.dirAt idx)).heap_.length = t.heap_.length + 2 := by
    simp [ExtendibleHashTable.splitBucket]
  have hdir := t.splitBucket_dirAt hash (t.dirAt idx)
  have hbk := t.splitBucket_bucketAt wf idx
  have hderef : t.deref (t.dirAt idx) = t.bucketAt idx := rfl
  refine ⟨?_, ?_, ?_, ?_, ?_, ?_, ?_⟩
  · rw [hlen]; exact wf.dir_len
  · intro i hi
    rw [hlen] at hi
    rw [hdir i hi, hheap]
    have := wf.ptr_lt i hi
    split_ifs <;> omega
  · intro i hi
    rw [hlen] at hi
    rw [hbk i hidx hi]
    split_ifs
    · exact hd
    · exact wf.depth_le i hi
  · intro i j hi hj
    rw [hlen] at hi hj
    rw [hdir i hi, hdir j hj, hbk i hidx hi, hderef]
    have hpi := wf.ptr_lt i hi
    have hpj := wf.ptr_lt j hj
    by_cases h1 : t.dirAt i = t.dirAt idx
    · have hci := (wf.coherent i j hi hj)
      rw [t.bucketAt_congr h1] at hci
      by_cases h2 : t.dirAt j = t.dirAt idx
      · simp only [h1, h2, if_true]
        have hmod := hci.mp (h1.trans h2.symm)
        rw [mod_pow_succ_eq_iff]
        have bi := Nat.mod_two_eq_zero_or_one (i / 2 ^ (t.bucketAt idx).depth_)
        have bj := Nat.mod_two_eq_zero_or_one (j / 2 ^ (t.bucketAt idx).depth_)
        constructor
        · intro h
          refine ⟨hmod, ?_⟩
          split_ifs at h <;> omega
        · rintro ⟨_, h⟩
          rw [h]
      · simp only [h1, h2, if_true, if_false]
        constructor
        · intro h
          split_ifs at h <;> omega
        · intro h
          exfalso
          apply h2
          rw [← h1]
          exact (hci.mpr ((mod_pow_succ_eq_iff _ _ _).mp h).1).symm
    · simp only [h1, if_false]
      by_cases h2 : t.dirAt j = t.dirAt idx
      · simp only [h2, if_true]
        constructor
        · intro h
          split_ifs at h <;> omega
        · intro h
          exact absurd (((wf.coherent i j hi hj).mpr h).trans h2) h1
      · simp only [h2, if_false]
        exact wf.coherent i j hi hj
  · intro i hi
    rw [hlen] at hi
    rw [hbk i hidx hi]
    split_ifs
    · exact ⟨rfl, le_trans (List.length_filter_le _ _) (wf.cap idx hidx).2⟩
    · exact wf.cap i hi
  · intro i hi
    rw [hlen] at hi
    rw [hbk i hidx hi]
    split_ifs
    · exact (wf.nodup idx hidx).sublist ((List.filter_sublist _).map _)
    · exact wf.nodup i hi
  · intro i hi item hmem
    rw [hlen] at hi
    rw [hbk i hidx hi] at hmem ⊢
    by_cases h1 : t.dirAt i = t.dirAt idx
    · simp only [h1, if_true] at hmem ⊢
      rw [List.mem_filter] at hmem
      have hbit : hash item.1 / 2 ^ (t.bucketAt idx).depth_ % 2
          = i / 2 ^ (t.bucketAt idx).depth_ % 2 := by simpa using hmem.2
      have ha := wf.aligned idx hidx item hmem.1
      have hc := (wf.coherent idx i hidx hi).mp h1.symm
      rw [mod_pow_succ_eq_iff]
      exact ⟨ha.trans hc, hbit⟩
    · simp only [h1, if_false] at hmem ⊢
      exact wf.aligned i hi item hmem

theorem ExtendibleHashTable.splitBucket_Find [DecidableEq K] {hash : K → Nat}
    {t : ExtendibleHashTable K V} (wf : t.WF hash) (idx : Nat) (hidx : idx < t.dir_.length)
    (hd : (t.bucketAt idx).depth_ < t.global_depth_) (key : K) :
    (t.splitBucket hash (t.dirAt idx)).Find hash key = t.Find hash key := by
  unfold ExtendibleHashTable.Find
  have hk := wf.index_lt key
  have hI : (t.splitBucket hash (t.dirAt idx)).IndexOf hash key = t.IndexOf hash key := rfl
  rw [hI, t.splitBucket_bucketAt wf idx _ hidx hk]
  by_cases h1 : t.dirAt (t.IndexOf hash key) = t.dirAt idx
  · simp only [h1, if_true, Bucket.Find]
    rw [t.bucketAt_congr h1]
    apply findItem_filter
    intro item _ hkey
    rw [hkey, t.IndexOf_eq, mod_two_pow_div_mod _ hd]
    simp
  · simp only [h1, if_false]

theorem ExtendibleHashTable.split_WF {hash : K → Nat} {t : ExtendibleHashTable K V}
    (wf : t.WF hash) (key : K) : (t.split hash key).WF hash := by
  have hidx := wf.index_lt key
  unfold ExtendibleHashTable.split
  by_cases h : (t.deref (t.dirAt (t.IndexOf hash key))).GetDepth = t.global_depth_
  · simp only [h, if_true]
    have hg := t.grow_WF wf
    have hidx2 : t.IndexOf hash key < t.grow.dir_.length := by
      simp only [ExtendibleHashTable.grow, List.length_append]; omega
    have hmod : t.IndexOf hash key % 2 ^ t.global_depth_ = t.IndexOf hash key :=
      Nat.mod_eq_of_lt (by rw [← wf.dir_len]; exact hidx)
    have hT : t.grow.dirAt (t.IndexOf hash key) = t.dirAt (t.IndexOf hash key) := by
      rw [t.grow_dirAt wf _ hidx2, hmod]
    rw [← hT]
    apply ExtendibleHashTable.splitBucket_WF hg _ hidx2
    rw [t.grow_bucketAt wf _ hidx2, hmod]
    show (t.deref (t.dirAt (t.IndexOf hash key))).GetDepth < t.global_depth_ + 1
    omega
  · simp only [h, if_false]
    apply ExtendibleHashTable.splitBucket_WF wf _ hidx
    exact lt_of_le_of_ne (wf.depth_le _ hidx) h

theorem ExtendibleHashTable.split_Find [DecidableEq K] {hash : K → Nat}
    {t : ExtendibleHashTable K V} (wf : t.WF hash) (key k2 : K) :
    (t.split hash key).Find hash k2 = t.Find hash k2 := by
  have hidx := wf.index_lt key
  unfold ExtendibleHashTable.split
  by_cases h : (t.deref (t.dirAt (t.IndexOf hash key))).GetDepth = t.global_depth_
  · simp only [h, if_true]
    have hg := t.grow_WF wf
    have hidx2 : t.IndexOf hash key < t.grow.dir_.length := by
      simp only [ExtendibleHashTable.grow, List.length_append]; omega
    have hmod : t.IndexOf hash key % 2 ^ t.global_depth_ = t.IndexOf hash key :=
      Nat.mod_eq_of_lt (by rw [← wf.dir_len]; exact hidx)
    have hT : t.grow.dirAt (t.IndexOf hash key) = t.dirAt (t.IndexOf hash key) := by
      rw [t.grow_dirAt wf _ hidx2, hmod]
    rw [← hT, ExtendibleHashTable.splitBucket_Find hg _ hidx2 _ k2, t.grow_Find wf]
    rw [t.grow_bucketAt wf _ hidx2, hmod]
    show (t.deref (t.dirAt (t.IndexOf hash key))).GetDepth < t.global_depth_ + 1
    omega
  · simp only [h, if_false]
    exact ExtendibleHashTable.splitBucket_Find wf _ hidx
      (lt_of_le_of_ne (wf.depth_le _ hidx) h) k2

/-! ### The table: mutating one bucket through its pointer -/

theorem ExtendibleHashTable.set_bucketAt {hash : K → Nat} {t : ExtendibleHashTable K V}
    (wf : t.WF hash) (idx : Nat) (hidx : idx < t.dir_.length) (b : Bucket K V) (i : Nat) :
    (t.assign (t.dirAt idx) b).bucketAt i =
      if t.dirAt i = t.dirAt idx then b else t.bucketAt i := by
  show (t.heap_.set (t.dirAt idx) b).getD (t.dirAt i) default = _
  rw [List.getD_eq_getElem?_getD, List.getElem?_set]
  by_cases h : t.dirAt i = t.dirAt idx
  · simp [h, wf.ptr_lt idx hidx]
  · have h2 : ¬ t.dirAt idx = t.dirAt i := fun e => h e.symm
    simp only [h, h2, if_false]
    rw [← List.getD_eq_getElem?_getD]
    rfl

theorem ExtendibleHashTable.set_WF {hash : K → Nat} {t : ExtendibleHashTable K V}
    (wf : t.WF hash) (idx : Nat) (hidx : idx < t.dir_.length) (b : Bucket K V)
    (hsize : b.size_ = (t.bucketAt idx).size_) (hdepth : b.depth_ = (t.bucketAt idx).depth_)
    (hlen : b.list_.length ≤ t.bucket_size_) (hnodup : (b.list_.map Prod.fst).Nodup)
    (hal : ∀ item ∈ b.list_, hash item.1 % 2 ^ b.depth_ = idx % 2 ^ b.depth_) :
    (t.assign (t.dirAt idx) b).WF hash := by
  have hbk := t.set_bucketAt wf idx hidx b
  refine ⟨wf.dir_len, ?_, ?_, ?_, ?_, ?_, ?_⟩
  · intro i hi
    show t.dirAt i < (t.heap_.set (t.dirAt idx) b).length
    rw [List.length_set]
    exact wf.ptr_lt i hi
  · intro i hi
    rw [hbk i]
    split_ifs with h
    · rw [hdepth]; exact wf.depth_le idx hidx
    · exact wf.depth_le i hi
  · intro i j hi hj
    rw [hbk i]
    show t.dirAt i = t.dirAt j ↔ _
    split_ifs with h
    · rw [hdepth, ← t.bucketAt_congr h]
      exact wf.coherent i j hi hj
    · exact wf.coherent i j hi hj
  · intro i hi
    rw [hbk i]
    split_ifs with h
    · exact ⟨hsize.trans (wf.cap idx hidx).1, hlen⟩
    · exact wf.cap i hi
  · intro i hi
    rw [hbk i]
    split_ifs with h
    · exact hnodup
    · exact wf.nodup i hi
  · intro i hi item hmem
    rw [hbk i] at hmem ⊢
    by_cases h : t.dirAt i = t.dirAt idx
    · simp only [h, if_true] at hmem ⊢
      rw [hal item hmem, hdepth]
      exact (wf.coherent idx i hidx hi).mp h.symm
    · simp only [h, if_false] at hmem ⊢
      exact wf.aligned i hi item hmem

theorem ExtendibleHashTable.store_of_some [DecidableEq K] (hash : K → Nat)
    (t : ExtendibleHashTable K V) (key : K) (value : V) (items : List (K × V))
    (hov : overwrite (t.bucketAt (t.IndexOf hash key)).list_ key value = some items) :
    t.store hash key value =
      t.assign (t.dirAt (t.IndexOf hash key))
        ⟨(t.bucketAt (t.IndexOf hash key)).size_, (t.bucketAt (t.IndexOf hash key)).depth_,
          items⟩ := by
  have hov2 : overwrite (t.deref (t.dirAt (t.IndexOf hash key))).GetItems key value
      = some items := hov
  unfold ExtendibleHashTable.store
  simp only [hov2]
  rfl

theorem ExtendibleHashTable.store_of_none [DecidableEq K] (hash : K → Nat)
    (t : ExtendibleHashTable K V) (key : K) (value : V)
    (hov : overwrite (t.bucketAt (t.IndexOf hash key)).list_ key value = none) :
    t.store hash key value =
      t.assign (t.dirAt (t.IndexOf hash key))
        ((t.bucketAt (t.IndexOf hash key)).Insert key value).1 := by
  have hov2 : overwrite (t.deref (t.dirAt (t.IndexOf hash key))).GetItems key value
      = none := hov
  unfold ExtendibleHashTable.store
  simp only [hov2]
  rfl

theorem ExtendibleHashTable.store_WF [DecidableEq K] {hash : K → Nat}
    {t : ExtendibleHashTable K V} (wf : t.WF hash) (key : K) (value : V) :
    (t.store hash key value).WF hash := by
  have hidx := wf.index_lt key
  cases hov : overwrite (t.bucketAt (t.IndexOf hash key)).list_ key value with
  | some items =>
    have hkeys := overwrite_keys _ _ _ _ hov
    rw [t.store_of_some hash key value items hov]
    refine ExtendibleHashTable.set_WF wf (t.IndexOf hash key) hidx
      ⟨_, _, items⟩ rfl rfl ?_ ?_ ?_
    · show items.length ≤ _
      rw [← List.length_map items Prod.fst, hkeys, List.length_map]
      exact (wf.cap _ hidx).2
    · show (items.map Prod.fst).Nodup
      rw [hkeys]; exact wf.nodup _ hidx
    · intro item hmem
      have hmem : item ∈ items := hmem
      have : item.1 ∈ (t.bucketAt (t.IndexOf hash key)).list_.map Prod.fst := by
        rw [← hkeys]; exact List.mem_map_of_mem _ hmem
      obtain ⟨it2, hit2, he⟩ := List.mem_map.mp this
      rw [← he]
      exact wf.aligned _ hidx it2 hit2
  | none =>
    have hnk := (overwrite_eq_none_iff _ _ _).mp hov
    rw [t.store_of_none hash key value hov]
    by_cases hf : (t.bucketAt (t.IndexOf hash key)).IsFull = true
    · simp only [Bucket.Insert, hf, if_true]
      exact ExtendibleHashTable.set_WF wf (t.IndexOf hash key) hidx
        (t.bucketAt (t.IndexOf hash key)) rfl rfl (wf.cap _ hidx).2 (wf.nodup _ hidx)
        (wf.aligned _ hidx)
    · simp only [Bucket.Insert, hf, if_false]
      have hlt : (t.bucketAt (t.IndexOf hash key)).list_.length ≠
          (t.bucketAt (t.IndexOf hash key)).size_ := by
        simpa [Bucket.IsFull] using hf
      have hcap := wf.cap _ hidx
      refine ExtendibleHashTable.set_WF wf (t.IndexOf hash key) hidx
        ⟨_, _, (t.bucketAt (t.IndexOf hash key)).list_ ++ [(key, value)]⟩ rfl rfl ?_ ?_ ?_
      · show ((t.bucketAt (t.IndexOf hash key)).list_ ++ [(key, value)]).length ≤ _
        rw [List.length_append, List.length_singleton]
        omega
      · show (((t.bucketAt (t.IndexOf hash key)).list_ ++ [(key, value)]).map Prod.fst).Nodup
        rw [List.map_append, List.nodup_append]
        refine ⟨wf.nodup _ hidx, by simp, ?_⟩
        intro a ha hb
        simp only [List.map_cons, List.map_nil, List.mem_singleton] at hb
        exact hnk (hb ▸ ha)
      · intro item hmem
        have hmem : item ∈ (t.bucketAt (t.IndexOf hash key)).list_ ++ [(key, value)] := hmem
        rw [List.mem_append, List.mem_singleton] at hmem
        rcases hmem with hmem | rfl
        · exact wf.aligned _ hidx item hmem
        · show hash key % 2 ^ (t.bucketAt (t.IndexOf hash key)).depth_ =
            t.IndexOf hash key % 2 ^ (t.bucketAt (t.IndexOf hash key)).depth_
          have hdl := wf.depth_le _ hidx
          rw [t.IndexOf_eq] at hdl ⊢
          exact (mod_mod_two_pow _ hdl).symm

theorem ExtendibleHashTable.store_Find [DecidableEq K] {hash : K → Nat}
    {t : ExtendibleHashTable K V} (wf : t.WF hash) (key : K) (value : V)
    (hnf : (t.bucketAt (t.IndexOf hash key)).IsFull = false) (k2 : K) :
    (t.store hash key value).Find hash k2 =
      if k2 = key then some value else t.Find hash k2 := by
  have hidx := wf.index_lt key
  have hother : t.dirAt (t.IndexOf hash k2) ≠ t.dirAt (t.IndexOf hash key) → k2 ≠ key :=
    fun h e => h (by rw [e])
  cases hov : overwrite (t.bucketAt (t.IndexOf hash key)).list_ key value with
  | some items =>
    rw [t.store_of_some hash key value items hov]
    show (ExtendibleHashTable.bucketAt _ (t.IndexOf hash k2)).Find k2 = _
    rw [t.set_bucketAt wf _ hidx]
    by_cases h : t.dirAt (t.IndexOf hash k2) = t.dirAt (t.IndexOf hash key)
    · simp only [h, if_true, Bucket.Find, ExtendibleHashTable.Find]
      rw [overwrite_findItem _ _ _ _ k2 hov, t.bucketAt_congr h]
    · simp only [h, if_false, hother h]
      rfl
  | none =>
    have hnk := (overwrite_eq_none_iff _ _ _).mp hov
    rw [t.store_of_none hash key value hov]
    show (ExtendibleHashTable.bucketAt _ (t.IndexOf hash k2)).Find k2 = _
    rw [t.set_bucketAt wf _ hidx]
    by_cases h : t.dirAt (t.IndexOf hash k2) = t.dirAt (t.IndexOf hash key)
    · simp only [h, if_true, Bucket.Find, ExtendibleHashTable.Find, Bucket.Insert, hnf]
      show findItem (_ ++ [(key, value)]) k2 = _
      rw [findItem_append_single _ _ _ _ hnk, t.bucketAt_congr h]
    · simp only [h, if_false, hother h]
      rfl

theorem ExtendibleHashTable.Insert_WF [DecidableEq K] {hash : K → Nat} (fuel : Nat)
    {t t2 : ExtendibleHashTable K V} (wf : t.WF hash) (key : K) (value : V)
    (h : t.Insert hash fuel key value = some t2) : t2.WF hash := by
  induction fuel generalizing t with
  | zero =>
    unfold ExtendibleHashTable.Insert at h
    split_ifs at h with hf
    simp only [Option.some.injEq] at h
    subst h
    exact t.store_WF wf key value
  | succ n ih =>
    unfold ExtendibleHashTable.Insert at h
    split_ifs at h with hf
    · exact ih (t.split_WF wf key) h
    · simp only [Option.some.injEq] at h
      subst h
      exact t.store_WF wf key value

theorem ExtendibleHashTable.Insert_Find [DecidableEq K] {hash : K → Nat} (fuel : Nat)
    {t t2 : ExtendibleHashTable K V} (wf : t.WF hash) (key : K) (value : V)
    (h : t.Insert hash fuel key value = some t2) (k2 : K) :
    t2.Find hash k2 = if k2 = key then some value else t.Find hash k2 := by
  induction fuel generalizing t with
  | zero =>
    unfold ExtendibleHashTable.Insert at h
    split_ifs at h with hf
    simp only [Option.some.injEq] at h
    subst h
    exact t.store_Find wf key value (by simpa using hf) k2
  | succ n ih =>
    unfold ExtendibleHashTable.Insert at h
    split_ifs at h with hf
    · rw [ih (t.split_WF wf key) h, t.split_Find wf key k2]
    · simp only [Option.some.injEq] at h
      subst h
      exact t.store_Find wf key value (by simpa using hf) k2

theorem Bucket.bucket_Remove_size [DecidableEq K] [DecidableEq V] (b : Bucket K V) (key : K) :
    (b.Remove key).1.size_ = b.size_ := by
  unfold Bucket.Remove; cases firstItem b.list_ key <;> rfl

theorem Bucket.bucket_Remove_depth [DecidableEq K] [DecidableEq V] (b : Bucket K V) (key : K) :
    (b.Remove key).1.depth_ = b.depth_ := by
  unfold Bucket.Remove; cases firstItem b.list_ key <;> rfl

theorem Bucket.bucket_Remove_sublist [DecidableEq K] [DecidableEq V] (b : Bucket K V) (key : K) :
    (b.Remove key).1.list_.Sublist b.list_ := by
  unfold Bucket.Remove
  cases firstItem b.list_ key with
  | none => exact List.Sublist.refl _
  | some item => exact List.filter_sublist _

theorem Bucket.bucket_Remove_Find [DecidableEq K] [DecidableEq V] (b : Bucket K V) (key k2 : K)
    (hn : (b.list_.map Prod.fst).Nodup) :
    (b.Remove key).1.Find k2 = if k2 = key then none else b.Find k2 := by
  unfold Bucket.Remove Bucket.Find
  cases hfi : firstItem b.list_ key with
  | none =>
    by_cases h : k2 = key
    · simp only [h, if_true]
      exact (firstItem_eq_none_iff _ _).mp hfi
    · simp only [h, if_false]
  | some item =>
    obtain ⟨hmem, hkey⟩ := firstItem_some _ _ _ hfi
    by_cases h : k2 = key
    · simp only [h, if_true]
      rw [← hkey]
      exact findItem_remove_self _ _ hn hmem
    · simp only [h, if_false]
      exact findItem_remove_other _ _ _ (by rw [hkey]; exact h)

theorem Bucket.bucket_Remove_snd [DecidableEq K] [DecidableEq V] (b : Bucket K V) (key : K) :
    (b.Remove key).2 = (b.Find key).isSome := by
  unfold Bucket.Remove Bucket.Find
  cases hfi : firstItem b.list_ key with
  | none => simp [(firstItem_eq_none_iff _ _).mp hfi]
  | some item =>
    cases hf : findItem b.list_ key with
    | none => rw [(firstItem_eq_none_iff _ _).mpr hf] at hfi; cases hfi
    | some v => rfl

theorem ExtendibleHashTable.Remove_WF [DecidableEq K] [DecidableEq V] {hash : K → Nat}
    {t : ExtendibleHashTable K V} (wf : t.WF hash) (key : K) :
    (t.Remove hash key).1.WF hash := by
  have hidx := wf.index_lt key
  have hsub := Bucket.bucket_Remove_sublist (t.bucketAt (t.IndexOf hash key)) key
  refine ExtendibleHashTable.set_WF wf (t.IndexOf hash key) hidx
    ((t.bucketAt (t.IndexOf hash key)).Remove key).1 (Bucket.bucket_Remove_size _ _)
    (Bucket.bucket_Remove_depth _ _) ?_ ?_ ?_
  · exact le_trans hsub.length_le (wf.cap _ hidx).2
  · exact (wf.nodup _ hidx).sublist (hsub.map _)
  · intro item hmem
    rw [Bucket.bucket_Remove_depth]
    exact wf.aligned _ hidx item (hsub.subset hmem)

theorem ExtendibleHashTable.Remove_Find [DecidableEq K] [DecidableEq V] {hash : K → Nat}
    {t : ExtendibleHashTable K V} (wf : t.WF hash) (key k2 : K) :
    (t.Remove hash key).1.Find hash k2 = if k2 = key then none else t.Find hash k2 := by
  have hidx := wf.index_lt key
  show (ExtendibleHashTable.bucketAt (t.assign (t.dirAt (t.IndexOf hash key))
    ((t.bucketAt (t.IndexOf hash key)).Remove key).1) (t.IndexOf hash k2)).Find k2 = _
  rw [t.set_bucketAt wf _ hidx]
  by_cases h : t.dirAt (t.IndexOf hash k2) = t.dirAt (t.IndexOf hash key)
  · simp only [h, if_true]
    rw [Bucket.bucket_Remove_Find _ _ _ (wf.nodup _ hidx), ← t.bucketAt_congr h]
    rfl
  · have hne : k2 ≠ key := fun e => h (by rw [e])
    simp only [h, if_false, hne]
    rfl

theorem ExtendibleHashTable.Remove_snd [DecidableEq K] [DecidableEq V] (hash : K → Nat)
    (t : ExtendibleHashTable K V) (key : K) :
    (t.Remove hash key).2 = (t.Find hash key).isSome :=
  Bucket.bucket_Remove_snd _ _

theorem ExtendibleHashTable.new_WF (hash : K → Nat) (bucket_size : Nat) :
    (ExtendibleHashTable.new bucket_size : ExtendibleHashTable K V).WF hash := by
  have hcases : ∀ i, i < 2 → i = 0 ∨ i = 1 := fun i hi => by omega
  refine ⟨rfl, ?_, ?_, ?_, ?_, ?_, ?_⟩
  · intro i hi
    rcases hcases i hi with rfl | rfl <;>
      simp [ExtendibleHashTable.new, ExtendibleHashTable.dirAt]
  · intro i hi
    rcases hcases i hi with rfl | rfl <;> exact le_refl _
  · intro i j hi hj
    rcases hcases i hi with rfl | rfl <;> rcases hcases j hj with rfl | rfl <;>
      simp [ExtendibleHashTable.new, ExtendibleHashTable.dirAt, ExtendibleHashTable.bucketAt,
        ExtendibleHashTable.deref]
  · intro i hi
    rcases hcases i hi with rfl | rfl <;> exact ⟨rfl, Nat.zero_le _⟩
  · intro i hi
    rcases hcases i hi with rfl | rfl <;> exact List.nodup_nil
  · intro i hi item hmem
    rcases hcases i hi with rfl | rfl <;> cases hmem

theorem ExtendibleHashTable.Reachable.wf [DecidableEq K] [DecidableEq V] {hash : K → Nat}
    {bucket_size : Nat} {t : ExtendibleHashTable K V}
    (h : ExtendibleHashTable.Reachable hash bucket_size t) : t.WF hash := by
  induction h with
  | init => exact ExtendibleHashTable.new_WF hash bucket_size
  | insert t t2 fuel key value _ hi ih => exact ExtendibleHashTable.Insert_WF fuel ih key value hi
  | remove t key _ ih => exact ExtendibleHashTable.Remove_WF ih key

/-- After one split, the bucket of `key` holds exactly the entries of the old
target bucket that agree with `key` on the hash bit that was split on. -/
theorem ExtendibleHashTable.split_target {hash : K → Nat} {t : ExtendibleHashTable K V}
    (wf : t.WF hash) (key : K) :
    (t.split hash key).bucketAt ((t.split hash key).IndexOf hash key) =
      ⟨t.bucket_size_, (t.bucketAt (t.IndexOf hash key)).depth_ + 1,
        (t.bucketAt (t.IndexOf hash key)).list_.filter
          (fun it => decide (hash it.1 / 2 ^ (t.bucketAt (t.IndexOf hash key)).depth_ % 2
            = hash key / 2 ^ (t.bucketAt (t.IndexOf hash key)).depth_ % 2))⟩ := by
  have hidx := wf.index_lt key
  have hwf2 := t.split_WF wf key
  have hidx1 := hwf2.index_lt key
  revert hidx1
  rw [(t.split hash key).IndexOf_eq]
  unfold ExtendibleHashTable.split
  by_cases h : (t.deref (t.dirAt (t.IndexOf hash key))).GetDepth = t.global_depth_
  · simp only [h, if_true]
    intro hidx1
    have hg := t.grow_WF wf
    have hidx2 : t.IndexOf hash key < t.grow.dir_.length := by
      simp only [ExtendibleHashTable.grow, List.length_append]; omega
    have hmod : t.IndexOf hash key % 2 ^ t.global_depth_ = t.IndexOf hash key :=
      Nat.mod_eq_of_lt (by rw [← wf.dir_len]; exact hidx)
    have hT : t.grow.dirAt (t.IndexOf hash key) = t.dirAt (t.IndexOf hash key) := by
      rw [t.grow_dirAt wf _ hidx2, hmod]
    have hB : t.grow.bucketAt (t.IndexOf hash key) = t.bucketAt (t.IndexOf hash key) := by
      rw [t.grow_bucketAt wf _ hidx2, hmod]
    rw [← hT] at hidx1 ⊢
    rw [t.grow.splitBucket_dir_length] at hidx1
    have hgd : (t.grow.splitBucket hash (t.grow.dirAt (t.IndexOf hash key))).global_depth_
        = t.global_depth_ + 1 := rfl
    rw [hgd] at hidx1 ⊢
    rw [t.grow.splitBucket_bucketAt hg _ _ hidx2 hidx1, hB]
    have hc : t.grow.dirAt (hash key % 2 ^ (t.global_depth_ + 1))
        = t.grow.dirAt (t.IndexOf hash key) := by
      rw [t.grow_dirAt wf _ hidx1, hT, mod_mod_two_pow _ (Nat.le_succ _), ← t.IndexOf_eq]
    have hd : (t.bucketAt (t.IndexOf hash key)).depth_ < t.global_depth_ + 1 := by
      show (t.deref (t.dirAt (t.IndexOf hash key))).GetDepth < t.global_depth_ + 1
      omega
    simp only [hc, if_true, mod_two_pow_div_mod _ hd]
    rfl
  · simp only [h, if_false]
    intro hidx1
    rw [t.splitBucket_dir_length] at hidx1
    have hgd : (t.splitBucket hash (t.dirAt (t.IndexOf hash key))).global_depth_
        = t.global_depth_ := rfl
    rw [hgd] at hidx1 ⊢
    rw [t.splitBucket_bucketAt wf _ _ hidx hidx1]
    have hd : (t.bucketAt (t.IndexOf hash key)).depth_ < t.global_depth_ :=
      lt_of_le_of_ne (wf.depth_le _ hidx) h
    rw [t.IndexOf_eq] at hd
    have hmd := mod_two_pow_div_mod (hash key) hd
    simp only [t.IndexOf_eq, if_true, hmd]

/-- When the bucket of `key` is full of entries that all share the hash of
`key`, no number of splits makes room: `Insert` never leaves its loop. -/
theorem ExtendibleHashTable.Insert_diverges [DecidableEq K] {hash : K → Nat}
    {t : ExtendibleHashTable K V} (wf : t.WF hash) (key : K) (value : V)
    (hfull : (t.bucketAt (t.IndexOf hash key)).IsFull = true)
    (hsame : ∀ item ∈ (t.bucketAt (t.IndexOf hash key)).list_, hash item.1 = hash key)
    (fuel : Nat) : t.Insert hash fuel key value = none := by
  induction fuel generalizing t with
  | zero =>
    unfold ExtendibleHashTable.Insert
    simp [hfull]
  | succ n ih =>
    unfold ExtendibleHashTable.Insert
    simp only [hfull, if_true]
    have hidx := wf.index_lt key
    have hfilter : (t.bucketAt (t.IndexOf hash key)).list_.filter
        (fun it => decide (hash it.1 / 2 ^ (t.bucketAt (t.IndexOf hash key)).depth_ % 2
          = hash key / 2 ^ (t.bucketAt (t.IndexOf hash key)).depth_ % 2))
        = (t.bucketAt (t.IndexOf hash key)).list_ := by
      rw [List.filter_eq_self]
      intro item hmem
      simp [hsame item hmem]
    have htarget := t.split_target wf key
    rw [hfilter] at htarget
    apply ih (t.split_WF wf key)
    · rw [htarget]
      have h1 : (t.bucketAt (t.IndexOf hash key)).list_.length
          = (t.bucketAt (t.IndexOf hash key)).size_ := by
        simpa [Bucket.IsFull] using hfull
      simp only [Bucket.IsFull, decide_eq_true_eq]
      rw [h1, (wf.cap _ hidx).1]
    · rw [htarget]
      exact hsame

/-! ### Claims about the extendible hash table -/

theorem tableTwoKeys_reachable : ExtendibleHashTable.Reachable id 2 tableTwoKeys :=
  .insert _ _ 0 2 20 (.insert _ _ 0 0 0 .init rfl) rfl

theorem tableThreeKeys_reachable : ExtendibleHashTable.Reachable id 2 tableThreeKeys :=
  .insert _ _ 1 4 40 tableTwoKeys_reachable rfl

/-- C1: on every table reachable from a fresh one, an `Insert(key, value)` that
returns acts as a map update: afterwards `Find(key)` hits with `value` and
`Find(k2)` for every other key is what it was before, splits and directory
doublings included. -/
theorem ExtendibleHashTable.Insert_is_map_update [DecidableEq K] [DecidableEq V]
    (hash : K → Nat) (bucket_size : Nat) (t t2 : ExtendibleHashTable K V) (fuel : Nat)
    (key : K) (value : V) (k2 : K)
    (hr : ExtendibleHashTable.Reachable hash bucket_size t)
    (hi : t.Insert hash fuel key value = some t2) :
    t2.Find hash k2 = if k2 = key then some value else t.Find hash k2 :=
  ExtendibleHashTable.Insert_Find fuel hr.wf key value hi k2

theorem ExtendibleHashTable.Insert_is_map_update_witness :
    ExtendibleHashTable.Reachable id 2 tableTwoKeys ∧
    tableTwoKeys.Insert id 1 4 40 = some tableThreeKeys ∧
    (tableThreeKeys.Find id 4 = if 4 = 4 then some 40 else tableTwoKeys.Find id 4) ∧
    (tableThreeKeys.Find id 2 = if 2 = 4 then some 40 else tableTwoKeys.Find id 2) :=
  ⟨tableTwoKeys_reachable, rfl,
    ExtendibleHashTable.Insert_is_map_update id 2 tableTwoKeys tableThreeKeys 1 4 40 4
      tableTwoKeys_reachable rfl,
    ExtendibleHashTable.Insert_is_map_update id 2 tableTwoKeys tableThreeKeys 1 4 40 2
      tableTwoKeys_reachable rfl⟩

/-- C2: on every reachable table `Remove(key)` is a map erase that never
shrinks: it returns true exactly when `Find(key)` hit, afterwards `Find(key)`
misses and every other key is found as before, and global depth, directory
length and bucket count are unchanged. -/
theorem ExtendibleHashTable.Remove_is_map_erase [DecidableEq K] [DecidableEq V]
    (hash : K → Nat) (bucket_size : Nat) (t : ExtendibleHashTable K V) (key : K)
    (hr : ExtendibleHashTable.Reachable hash bucket_size t) :
    ((t.Remove hash key).2 = true ↔ (t.Find hash key).isSome = true) ∧
    (t.Remove hash key).1.Find hash key = none ∧
    (∀ k2, k2 ≠ key → (t.Remove hash key).1.Find hash k2 = t.Find hash k2) ∧
    (t.Remove hash key).1.GetGlobalDepth = t.GetGlobalDepth ∧
    (t.Remove hash key).1.dir_.length = t.dir_.length ∧
    (t.Remove hash key).1.GetNumBuckets = t.GetNumBuckets := by
  refine ⟨by rw [t.Remove_snd], ?_, ?_, rfl, rfl, rfl⟩
  · rw [ExtendibleHashTable.Remove_Find hr.wf, if_pos rfl]
  · intro k2 hk
    rw [ExtendibleHashTable.Remove_Find hr.wf, if_neg hk]

theorem ExtendibleHashTable.Remove_is_map_erase_witness :
    ExtendibleHashTable.Reachable id 2 tableThreeKeys ∧
    (tableThreeKeys.Remove id 4).2 = true ∧
    (tableThreeKeys.Remove id 4).1.Find id 4 = none ∧
    (tableThreeKeys.Remove id 4).1.Find id 0 = some 0 :=
  have h := ExtendibleHashTable.Remove_is_map_erase id 2 tableThreeKeys 4
    tableThreeKeys_reachable
  ⟨tableThreeKeys_reachable, h.1.mpr rfl, h.2.1, (h.2.2.1 0 (by decide)).trans rfl⟩

/-- C3 (failing input): with bucket size 1, `Insert(0, 10)` on a fresh table
returns, and the following `Insert(0, 20)` of the same key never leaves the
split loop, whatever the fuel. -/
theorem ExtendibleHashTable.Insert_overwrite_diverges_bucket_size_one :
    (ExtendibleHashTable.new 1 : ExtendibleHashTable Nat Nat).Insert id 0 0 10
      = some tableOneKey ∧
    ∀ fuel, tableOneKey.Insert id fuel 0 20 = none := by
  refine ⟨rfl, fun fuel => ?_⟩
  have hr : ExtendibleHashTable.Reachable id 1 tableOneKey := .insert _ _ 0 0 10 .init rfl
  apply ExtendibleHashTable.Insert_diverges hr.wf 0 20 rfl
  intro item hmem
  have hlist : (tableOneKey.bucketAt (tableOneKey.IndexOf id 0)).list_ = [(0, 10)] := rfl
  rw [hlist, List.mem_singleton] at hmem
  rw [hmem]

/-- C4: directory coherence holds in the fresh table and after every `Insert`
and `Remove`: two slots hold the same bucket pointer exactly when their
indices agree on the low `local_depth` bits of that bucket. -/
theorem ExtendibleHashTable.directory_coherence [DecidableEq K] [DecidableEq V]
    (hash : K → Nat) (bucket_size : Nat) (t : ExtendibleHashTable K V) (i j : Nat)
    (hr : ExtendibleHashTable.Reachable hash bucket_size t)
    (hi : i < t.dir_.length) (hj : j < t.dir_.length) :
    t.dirAt i = t.dirAt j ↔
      i &&& ((1 <<< t.GetLocalDepth i) - 1) = j &&& ((1 <<< t.GetLocalDepth i) - 1) := by
  rw [and_mask_eq_mod, and_mask_eq_mod]
  exact hr.wf.coherent i j hi hj

theorem ExtendibleHashTable.directory_coherence_witness :
    ExtendibleHashTable.Reachable id 2 tableThreeKeys ∧
    1 < tableThreeKeys.dir_.length ∧ 3 < tableThreeKeys.dir_.length ∧
    (tableThreeKeys.dirAt 1 = tableThreeKeys.dirAt 3 ↔
      1 &&& ((1 <<< tableThreeKeys.GetLocalDepth 1) - 1)
        = 3 &&& ((1 <<< tableThreeKeys.GetLocalDepth 1) - 1)) :=
  ⟨tableThreeKeys_reachable, by decide, by decide,
    ExtendibleHashTable.directory_coherence id 2 tableThreeKeys 1 3 tableThreeKeys_reachable
      (by decide) (by decide)⟩

end Table

/-! ### Termination of `Insert` -/

section Termination

variable {K V : Type}

theorem ExtendibleHashTable.Insert_of_not_full [DecidableEq K] (hash : K → Nat)
    (t : ExtendibleHashTable K V) (key : K) (value : V) (fuel : Nat)
    (h : (t.bucketAt (t.IndexOf hash key)).IsFull = false) :
    t.Insert hash fuel key value = some (t.store hash key value) := by
  cases fuel <;> (unfold ExtendibleHashTable.Insert; simp [h])

theorem ExtendibleHashTable.Insert_of_full [DecidableEq K] (hash : K → Nat)
    (t : ExtendibleHashTable K V) (key : K) (value : V) (fuel : Nat)
    (h : (t.bucketAt (t.IndexOf hash key)).IsFull = true) :
    t.Insert hash (fuel + 1) key value = (t.split hash key).Insert hash fuel key value := by
  rw [ExtendibleHashTable.Insert]
  simp [h]

theorem ExtendibleHashTable.Insert_fuel_mono [DecidableEq K] (hash : K → Nat) (fuel extra : Nat)
    (t t2 : ExtendibleHashTable K V) (key : K) (value : V)
    (h : t.Insert hash fuel key value = some t2) :
    t.Insert hash (fuel + extra) key value = some t2 := by
  induction fuel generalizing t with
  | zero =>
    cases hf : (t.bucketAt (t.IndexOf hash key)).IsFull
    · rw [t.Insert_of_not_full hash key value _ hf] at h ⊢
      exact h
    · unfold ExtendibleHashTable.Insert at h
      simp [hf] at h
  | succ n ih =>
    cases hf : (t.bucketAt (t.IndexOf hash key)).IsFull
    · rw [t.Insert_of_not_full hash key value _ hf] at h ⊢
      exact h
    · rw [t.Insert_of_full hash key value n hf] at h
      rw [show n + 1 + extra = (n + extra) + 1 by omega, t.Insert_of_full hash key value _ hf]
      exact ih _ h

theorem ExtendibleHashTable.Insert_terminates_aux [DecidableEq K] {hash : K → Nat} (key : K)
    (value : V) (x : K × V) (M : Nat) (hx : hash x.1 ≠ hash key) (hxM : hash x.1 < 2 ^ M)
    (hkM : hash key < 2 ^ M) (n : Nat) :
    ∀ t : ExtendibleHashTable K V, t.WF hash →
      M ≤ (t.bucketAt (t.IndexOf hash key)).depth_ + n →
      ((t.bucketAt (t.IndexOf hash key)).IsFull = false ∨
        x ∈ (t.bucketAt (t.IndexOf hash key)).list_) →
      ∃ fuel t2, t.Insert hash fuel key value = some t2 := by
  induction n with
  | zero =>
    intro t wf hM h
    cases hf : (t.bucketAt (t.IndexOf hash key)).IsFull
    · exact ⟨0, _, t.Insert_of_not_full hash key value 0 hf⟩
    · exfalso
      rcases h with h | h
      · rw [hf] at h; cases h
      · have hidx := wf.index_lt key
        have hal := wf.aligned _ hidx x h
        have hdl := wf.depth_le _ hidx
        rw [t.IndexOf_eq] at hal hdl
        rw [mod_mod_two_pow _ hdl] at hal
        rw [t.IndexOf_eq] at hM
        have hpow : 2 ^ M ≤ 2 ^ (t.bucketAt (hash key % 2 ^ t.global_depth_)).depth_ :=
          Nat.pow_le_pow_right (by decide) (by omega)
        rw [Nat.mod_eq_of_lt (lt_of_lt_of_le hxM hpow),
          Nat.mod_eq_of_lt (lt_of_lt_of_le hkM hpow)] at hal
        exact hx hal
  | succ n ih =>
    intro t wf hM h
    cases hf : (t.bucketAt (t.IndexOf hash key)).IsFull
    · exact ⟨0, _, t.Insert_of_not_full hash key value 0 hf⟩
    · have hxm : x ∈ (t.bucketAt (t.IndexOf hash key)).list_ := by
        rcases h with h | h
        · rw [hf] at h; cases h
        · exact h
      have hidx := wf.index_lt key
      have htarget := t.split_target wf key
      have hlen : (t.bucketAt (t.IndexOf hash key)).list_.length = t.bucket_size_ := by
        have h1 : (t.bucketAt (t.IndexOf hash key)).list_.length
            = (t.bucketAt (t.IndexOf hash key)).size_ := by
          simpa [Bucket.IsFull] using hf
        rw [h1, (wf.cap _ hidx).1]
      have hnext : ∃ fuel t2, (t.split hash key).Insert hash fuel key value = some t2 := by
        apply ih (t.split hash key) (t.split_WF wf key)
        · rw [htarget]
          show M ≤ (t.bucketAt (t.IndexOf hash key)).depth_ + 1 + n
          omega
        · rw [htarget]
          by_cases hbit : hash x.1 / 2 ^ (t.bucketAt (t.IndexOf hash key)).depth_ % 2
              = hash key / 2 ^ (t.bucketAt (t.IndexOf hash key)).depth_ % 2
          · right
            show x ∈ List.filter _ _
            rw [List.mem_filter]
            exact ⟨hxm, by simpa using hbit⟩
          · left
            have hlt : (List.filter
                (fun it => decide (hash it.1 / 2 ^ (t.bucketAt (t.IndexOf hash key)).depth_ % 2
                  = hash key / 2 ^ (t.bucketAt (t.IndexOf hash key)).depth_ % 2))
                (t.bucketAt (t.IndexOf hash key)).list_).length
                < (t.bucketAt (t.IndexOf hash key)).list_.length :=
              List.length_filter_lt_length_iff_exists.mpr ⟨x, hxm, by simpa using hbit⟩
            simp only [Bucket.IsFull, decide_eq_false_iff_not]
            omega
      obtain ⟨fuel, t2, h2⟩ := hnext
      exact ⟨fuel + 1, t2, by rw [t.Insert_of_full hash key value fuel hf]; exact h2⟩

/-- `Insert` returns when the bucket of the key has room or holds an entry
whose hash differs from the hash of the key. -/
theorem ExtendibleHashTable.Insert_terminates [DecidableEq K] {hash : K → Nat}
    {t : ExtendibleHashTable K V} (wf : t.WF hash) (key : K) (value : V)
    (h : (t.bucketAt (t.IndexOf hash key)).IsFull = false ∨
      ∃ x ∈ (t.bucketAt (t.IndexOf hash key)).list_, hash x.1 ≠ hash key) :
    ∃ fuel t2, t.Insert hash fuel key value = some t2 := by
  rcases h with h | ⟨x, hxm, hx⟩
  · exact ⟨0, _, t.Insert_of_not_full hash key value 0 h⟩
  · have hle1 : hash x.1 < 2 ^ (hash x.1 + hash key) :=
      lt_of_lt_of_le (Nat.lt_two_pow _) (Nat.pow_le_pow_right (by decide) (by omega))
    have hle2 : hash key < 2 ^ (hash x.1 + hash key) :=
      lt_of_lt_of_le (Nat.lt_two_pow _) (Nat.pow_le_pow_right (by decide) (by omega))
    exact ExtendibleHashTable.Insert_terminates_aux key value x _ hx hle1 hle2
      (hash x.1 + hash key) t wf (by omega) (Or.inr hxm)

/-- With an injective hash and buckets of capacity at least 1, `Insert` of a
key that is not in the table returns. -/
theorem ExtendibleHashTable.Insert_terminates_of_absent [DecidableEq K] {hash : K → Nat}
    {t : ExtendibleHashTable K V} (wf : t.WF hash) (hinj : Function.Injective hash)
    (hbs : 1 ≤ t.bucket_size_) (key : K) (value : V) (habs : t.Find hash key = none) :
    ∃ fuel t2, t.Insert hash fuel key value = some t2 := by
  apply ExtendibleHashTable.Insert_terminates wf
  cases hf : (t.bucketAt (t.IndexOf hash key)).IsFull
  · exact Or.inl rfl
  · right
    have hidx := wf.index_lt key
    have hlen : (t.bucketAt (t.IndexOf hash key)).list_.length = t.bucket_size_ := by
      have h1 : (t.bucketAt (t.IndexOf hash key)).list_.length
          = (t.bucketAt (t.IndexOf hash key)).size_ := by
        simpa [Bucket.IsFull] using hf
      rw [h1, (wf.cap _ hidx).1]
    obtain ⟨x, hxm⟩ := List.exists_mem_of_length_pos
      (l := (t.bucketAt (t.IndexOf hash key)).list_) (by omega)
    refine ⟨x, hxm, fun he => ?_⟩
    have hk := hinj he
    have hnot := (findItem_eq_none_iff _ _).mp habs
    exact hnot (List.mem_map.mpr ⟨x, hxm, hk⟩)

/-- With an injective hash and buckets of capacity at least 2, every `Insert`
on a well-formed table returns. -/
theorem ExtendibleHashTable.Insert_terminates_of_two [DecidableEq K] {hash : K → Nat}
    {t : ExtendibleHashTable K V} (wf : t.WF hash) (hinj : Function.Injective hash)
    (hbs : 2 ≤ t.bucket_size_) (key : K) (value : V) :
    ∃ fuel t2, t.Insert hash fuel key value = some t2 := by
  apply ExtendibleHashTable.Insert_terminates wf
  cases hf : (t.bucketAt (t.IndexOf hash key)).IsFull
  · exact Or.inl rfl
  · right
    have hidx := wf.index_lt key
    have hlen : (t.bucketAt (t.IndexOf hash key)).list_.length = t.bucket_size_ := by
      have h1 : (t.bucketAt (t.IndexOf hash key)).list_.length
          = (t.bucketAt (t.IndexOf hash key)).size_ := by
        simpa [Bucket.IsFull] using hf
      rw [h1, (wf.cap _ hidx).1]
    have hnd := wf.nodup _ hidx
    by_contra hall
    have hall2 : ∀ x ∈ (t.bucketAt (t.IndexOf hash key)).list_, x.1 = key := by
      intro x hxm
      by_contra hne
      exact hall ⟨x, hxm, fun he => hne (hinj he)⟩
    cases hl : (t.bucketAt (t.IndexOf hash key)).list_ with
    | nil => rw [hl] at hlen; simp at hlen; omega
    | cons a rest =>
      cases rest with
      | nil => rw [hl] at hlen; simp at hlen; omega
      | cons b rest2 =>
        rw [hl] at hnd hall2
        have ha := hall2 a (by simp)
        have hb := hall2 b (by simp)
        simp only [List.map_cons, List.nodup_cons, List.mem_cons, not_or] at hnd
        exact hnd.1.1 (ha.trans hb.symm)

end Termination

/-! ### Claim C19: `num_buckets_` counts the buckets the directory refers to -/

section Counting

variable {K V : Type}

/-- The pointers of the directory are the values of `dirAt` on its indices. -/
theorem ExtendibleHashTable.mem_dir_iff (t : ExtendibleHashTable K V) (p : Nat) :
    p ∈ t.dir_ ↔ ∃ i, i < t.dir_.length ∧ t.dirAt i = p := by
  rw [List.mem_iff_getElem]
  constructor
  · rintro ⟨i, hi, h⟩
    refine ⟨i, hi, ?_⟩
    unfold ExtendibleHashTable.dirAt
    rw [List.getD_eq_getElem _ _ hi]
    exact h
  · rintro ⟨i, hi, h⟩
    refine ⟨i, hi, ?_⟩
    unfold ExtendibleHashTable.dirAt at h
    rw [List.getD_eq_getElem _ _ hi] at h
    exact h

/-- Doubling the directory refers to the same buckets. -/
theorem ExtendibleHashTable.grow_toFinset (t : ExtendibleHashTable K V) :
    t.grow.dir_.toFinset = t.dir_.toFinset := by
  show (t.dir_ ++ t.dir_).toFinset = _
  rw [List.toFinset_append, Finset.union_self]

/-- Splitting the bucket of slot `idx`, whose local depth is below the global
depth, retires its pointer and brings two new pointers into the directory. -/
theorem ExtendibleHashTable.splitBucket_toFinset {hash : K → Nat}
    {t : ExtendibleHashTable K V} (wf : t.WF hash) (idx : Nat) (hidx : idx < t.dir_.length)
    (hd : (t.bucketAt idx).depth_ < t.global_depth_) :
    (t.splitBucket hash (t.dirAt idx)).dir_.toFinset =
      insert t.heap_.length (insert (t.heap_.length + 1) (t.dir_.toFinset.erase (t.dirAt idx))) := by
  have hlen : (t.splitBucket hash (t.dirAt idx)).dir_.length = t.dir_.length :=
    t.splitBucket_dir_length hash _
  have hpow : 2 ^ ((t.bucketAt idx).depth_ + 1) ≤ 2 ^ t.global_depth_ :=
    Nat.pow_le_pow_right (by decide) hd
  have hpos : 0 < 2 ^ (t.bucketAt idx).depth_ := Nat.two_pow_pos _
  have hsucc : 2 ^ ((t.bucketAt idx).depth_ + 1) = 2 * 2 ^ (t.bucketAt idx).depth_ := by
    rw [pow_succ]; omega
  have hlow : idx % 2 ^ (t.bucketAt idx).depth_ < 2 ^ (t.bucketAt idx).depth_ :=
    Nat.mod_lt _ hpos
  ext p
  simp only [List.mem_toFinset, Finset.mem_insert, Finset.mem_erase]
  rw [ExtendibleHashTable.mem_dir_iff, ExtendibleHashTable.mem_dir_iff]
  constructor
  · rintro ⟨i, hi, h⟩
    rw [hlen] at hi
    rw [t.splitBucket_dirAt hash _ i hi] at h
    by_cases hc : t.dirAt i = t.dirAt idx
    · rw [if_pos hc] at h
      by_cases hb : i / 2 ^ (t.deref (t.dirAt idx)).depth_ % 2 = 0
      · rw [if_pos hb] at h; exact Or.inl h.symm
      · rw [if_neg hb] at h; exact Or.inr (Or.inl h.symm)
    · rw [if_neg hc] at h
      exact Or.inr (Or.inr ⟨by rw [← h]; exact hc, i, hi, h⟩)
  · rintro (h | h | ⟨hne, i, hi, h⟩)
    · -- the slot with the low bits of `idx` and bit `depth` clear
      refine ⟨idx % 2 ^ (t.bucketAt idx).depth_, ?_, ?_⟩
      · rw [hlen, wf.dir_len]; omega
      · have hi : idx % 2 ^ (t.bucketAt idx).depth_ < t.dir_.length := by
          rw [wf.dir_len]; omega
        have hsame : t.dirAt idx = t.dirAt (idx % 2 ^ (t.bucketAt idx).depth_) :=
          (wf.coherent idx _ hidx hi).mpr (Nat.mod_mod _ _).symm
        rw [t.splitBucket_dirAt hash _ _ hi, if_pos hsame.symm]
        have hbit : idx % 2 ^ (t.bucketAt idx).depth_ / 2 ^ (t.deref (t.dirAt idx)).depth_ % 2
            = 0 := by
          show idx % 2 ^ (t.bucketAt idx).depth_ / 2 ^ (t.bucketAt idx).depth_ % 2 = 0
          rw [Nat.div_eq_of_lt hlow]
        rw [if_pos hbit, h]
    · -- the slot with the low bits of `idx` and bit `depth` set
      refine ⟨idx % 2 ^ (t.bucketAt idx).depth_ + 2 ^ (t.bucketAt idx).depth_, ?_, ?_⟩
      · rw [hlen, wf.dir_len]; omega
      · have hi : idx % 2 ^ (t.bucketAt idx).depth_ + 2 ^ (t.bucketAt idx).depth_
            < t.dir_.length := by
          rw [wf.dir_len]; omega
        have hsame : t.dirAt idx
            = t.dirAt (idx % 2 ^ (t.bucketAt idx).depth_ + 2 ^ (t.bucketAt idx).depth_) := by
          apply (wf.coherent idx _ hidx hi).mpr
          rw [Nat.add_mod_right, Nat.mod_mod]
        rw [t.splitBucket_dirAt hash _ _ hi, if_pos hsame.symm]
        have hbit : ¬ (idx % 2 ^ (t.bucketAt idx).depth_ + 2 ^ (t.bucketAt idx).depth_)
            / 2 ^ (t.deref (t.dirAt idx)).depth_ % 2 = 0 := by
          show ¬ (idx % 2 ^ (t.bucketAt idx).depth_ + 2 ^ (t.bucketAt idx).depth_)
            / 2 ^ (t.bucketAt idx).depth_ % 2 = 0
          rw [Nat.add_div_right _ hpos, Nat.div_eq_of_lt hlow]
          decide
        rw [if_neg hbit, h]
    · refine ⟨i, by rw [hlen]; exact hi, ?_⟩
      rw [t.splitBucket_dirAt hash _ i hi, if_neg (by rw [h]; exact hne), h]

/-- A split adds one to the number of buckets the directory refers to. -/
theorem ExtendibleHashTable.splitBucket_card {hash : K → Nat}
    {t : ExtendibleHashTable K V} (wf : t.WF hash) (idx : Nat) (hidx : idx < t.dir_.length)
    (hd : (t.bucketAt idx).depth_ < t.global_depth_) :
    (t.splitBucket hash (t.dirAt idx)).dir_.toFinset.card = t.dir_.toFinset.card + 1 := by
  rw [ExtendibleHashTable.splitBucket_toFinset wf idx hidx hd]
  have hold : ∀ p ∈ t.dir_.toFinset, p < t.heap_.length := by
    intro p hp
    rw [List.mem_toFinset, ExtendibleHashTable.mem_dir_iff] at hp
    obtain ⟨i, hi, h⟩ := hp
    rw [← h]
    exact wf.ptr_lt i hi
  have hmem : t.dirAt idx ∈ t.dir_.toFinset := by
    rw [List.mem_toFinset, ExtendibleHashTable.mem_dir_iff]
    exact ⟨idx, hidx, rfl⟩
  have h1 : t.heap_.length + 1 ∉ t.dir_.toFinset.erase (t.dirAt idx) := by
    intro h
    have := hold _ (Finset.mem_of_mem_erase h)
    omega
  have h0 : t.heap_.length ∉ insert (t.heap_.length + 1) (t.dir_.toFinset.erase (t.dirAt idx)) := by
    intro h
    rcases Finset.mem_insert.mp h with h | h
    · omega
    · have := hold _ (Finset.mem_of_mem_erase h)
      omega
  rw [Finset.card_insert_of_not_mem h0, Finset.card_insert_of_not_mem h1,
    Finset.card_erase_of_mem hmem]
  have : 0 < t.dir_.toFinset.card := Finset.card_pos.mpr ⟨_, hmem⟩
  omega

/-- One iteration of the split loop keeps `num_buckets_` equal to the number of
buckets the directory refers to. -/
theorem ExtendibleHashTable.split_card {hash : K → Nat} {t : ExtendibleHashTable K V}
    (wf : t.WF hash) (key : K) (hc : t.dir_.toFinset.card = t.num_buckets_) :
    (t.split hash key).dir_.toFinset.card = (t.split hash key).num_buckets_ := by
  have hidx := wf.index_lt key
  unfold ExtendibleHashTable.split
  by_cases h : (t.deref (t.dirAt (t.IndexOf hash key))).GetDepth = t.global_depth_
  · simp only [h, if_true]
    have hg := t.grow_WF wf
    have hidx2 : t.IndexOf hash key < t.grow.dir_.length := by
      simp only [ExtendibleHashTable.grow, List.length_append]; omega
    have hmod : t.IndexOf hash key % 2 ^ t.global_depth_ = t.IndexOf hash key :=
      Nat.mod_eq_of_lt (by rw [← wf.dir_len]; exact hidx)
    have hT : t.grow.dirAt (t.IndexOf hash key) = t.dirAt (t.IndexOf hash key) := by
      rw [t.grow_dirAt wf _ hidx2, hmod]
    rw [← hT, ExtendibleHashTable.splitBucket_card hg _ hidx2, t.grow_toFinset, hc]
    · rfl
    · rw [t.grow_bucketAt wf _ hidx2, hmod]
      show (t.deref (t.dirAt (t.IndexOf hash key))).GetDepth < t.global_depth_ + 1
      omega
  · simp only [h, if_false]
    rw [ExtendibleHashTable.splitBucket_card wf _ hidx
      (lt_of_le_of_ne (wf.depth_le _ hidx) h), hc]
    rfl

/-- The code after the split loop changes neither the directory nor the count. -/
theorem ExtendibleHashTable.store_dir [DecidableEq K] (hash : K → Nat)
    (t : ExtendibleHashTable K V) (key : K) (value : V) :
    (t.store hash key value).dir_ = t.dir_ ∧
    (t.store hash key value).num_buckets_ = t.num_buckets_ ∧
    (t.store hash key value).global_depth_ = t.global_depth_ := by
  unfold ExtendibleHashTable.store
  dsimp only
  split <;> exact ⟨rfl, rfl, rfl⟩

/-- An `Insert` that returns keeps `num_buckets_` equal to the number of buckets
the directory refers to. -/
theorem ExtendibleHashTable.Insert_card [DecidableEq K] {hash : K → Nat} (fuel : Nat)
    {t t2 : ExtendibleHashTable K V} (wf : t.WF hash) (key : K) (value : V)
    (hc : t.dir_.toFinset.card = t.num_buckets_)
    (h : t.Insert hash fuel key value = some t2) :
    t2.dir_.toFinset.card = t2.num_buckets_ := by
  induction fuel generalizing t with
  | zero =>
    unfold ExtendibleHashTable.Insert at h
    split_ifs at h with hf
    simp only [Option.some.injEq] at h
    subst h
    rw [(t.store_dir hash key value).1, (t.store_dir hash key value).2.1]
    exact hc
  | succ n ih =>
    unfold ExtendibleHashTable.Insert at h
    split_ifs at h with hf
    · exact ih (t.split_WF wf key) (t.split_card wf key hc) h
    · simp only [Option.some.injEq] at h
      subst h
      rw [(t.store_dir hash key value).1, (t.store_dir hash key value).2.1]
      exact hc

/-- Claim C19: in the fresh table and after every `Insert` and `Remove`,
`GetNumBuckets()` is the number of distinct buckets the directory refers to, the
directory has `2 ^ global_depth` slots, and the local depth of every slot is at
most the global depth. -/
theorem ExtendibleHashTable.num_buckets_consistent [DecidableEq K] [DecidableEq V]
    (hash : K → Nat) (bucket_size : Nat) (t : ExtendibleHashTable K V)
    (hr : ExtendibleHashTable.Reachable hash bucket_size t) :
    t.GetNumBuckets = t.dir_.toFinset.card ∧
    t.dir_.length = 2 ^ t.GetGlobalDepth ∧
    ∀ i, i < t.dir_.length → t.GetLocalDepth i ≤ t.GetGlobalDepth := by
  refine ⟨?_, hr.wf.dir_len, hr.wf.depth_le⟩
  show t.num_buckets_ = _
  symm
  induction hr with
  | init => rfl
  | insert t t2 fuel key value hreach hi ih =>
    exact ExtendibleHashTable.Insert_card fuel hreach.wf key value ih hi
  | remove t key _ ih => exact ih

/-- Claim C19 on the table with three keys after one split: three buckets are
referred to by the four slots. -/
theorem ExtendibleHashTable.num_buckets_consistent_witness :
    ExtendibleHashTable.Reachable id 2 tableThreeKeys ∧
    tableThreeKeys.GetNumBuckets = 3 ∧ tableThreeKeys.dir_.toFinset.card = 3 :=
  ⟨tableThreeKeys_reachable, rfl,
    (ExtendibleHashTable.num_buckets_consistent id 2 tableThreeKeys
      tableThreeKeys_reachable).1.symm.trans rfl⟩

end Counting

/-! ### Claims C16 and C17: `Insert` into a full bucket -/

/-- Claim C16 (failing input): in the table with bucket size 2 that holds the
keys 0 and 2 in one full bucket, `Insert(0, 99)` of the present key 0 splits:
the global depth goes from 1 to 2, the directory from 2 to 4 slots and
`num_buckets_` from 2 to 3, before the value of key 0 is overwritten. -/
theorem ExtendibleHashTable.Insert_existing_key_splits_full_bucket :
    ExtendibleHashTable.Reachable id 2 tableTwoKeys ∧
    tableTwoKeys.Find id 0 = some 0 ∧
    ∃ t2, tableTwoKeys.Insert id 1 0 99 = some t2 ∧
      tableTwoKeys.GetGlobalDepth = 1 ∧ t2.GetGlobalDepth = 2 ∧
      tableTwoKeys.dir_.length = 2 ∧ t2.dir_.length = 4 ∧
      tableTwoKeys.GetNumBuckets = 2 ∧ t2.GetNumBuckets = 3 ∧
      tableTwoKeys.GetLocalDepth 0 = 1 ∧ t2.GetLocalDepth 0 = 2 ∧
      t2.Find id 0 = some 99 :=
  ⟨tableTwoKeys_reachable, rfl, _, rfl, rfl, rfl, rfl, rfl, rfl, rfl, rfl, rfl, rfl⟩

theorem countP_update_not_mem (p : Int → Bool) (f : Int) (b : Bool) (l : List Int)
    (h : f ∉ l) : l.countP (Function.update p f b) = l.countP p := by
  induction l with
  | nil => rfl
  | cons a rest ih =>
    rw [List.mem_cons, not_or] at h
    have ha : a ≠ f := fun e => h.1 e.symm
    rw [List.countP_cons, List.countP_cons, ih h.2, Function.update_noteq ha]

theorem countP_update_mem (p : Int → Bool) (f : Int) (b : Bool) (l : List Int)
    (hn : l.Nodup) (h : f ∈ l) :
    l.countP (Function.update p f b) + (if p f = true then 1 else 0)
      = l.countP p + (if b = true then 1 else 0) := by
  induction l with
  | nil => cases h
  | cons a rest ih =>
    rw [List.nodup_cons] at hn
    rw [List.countP_cons, List.countP_cons]
    by_cases ha : a = f
    · subst ha
      rw [countP_update_not_mem p a b rest hn.1, Function.update_same]
      omega
    · have hf : f ∈ rest := by
        rcases List.mem_cons.mp h with e | e
        · exact absurd e.symm ha
        · exact e
      have := ih hn.2 hf
      rw [Function.update_noteq ha]
      omega

theorem countP_filter_ne (p : Int → Bool) (f : Int) (l : List Int) (hn : l.Nodup) :
    (l.filter (fun g => decide (g ≠ f))).countP p + (if f ∈ l ∧ p f = true then 1 else 0)
      = l.countP p := by
  induction l with
  | nil => simp
  | cons a rest ih =>
    rw [List.nodup_cons] at hn
    have ih2 := ih hn.2
    by_cases ha : a = f
    · subst ha
      have hnot : ¬ (a ∈ rest ∧ p a = true) := fun h => hn.1 h.1
      rw [if_neg hnot] at ih2
      have hfil : List.filter (fun g => decide (g ≠ a)) (a :: rest)
          = List.filter (fun g => decide (g ≠ a)) rest := by
        simp [List.filter]
      rw [hfil, List.countP_cons, ← ih2]
      by_cases hp : p a = true
      · simp [hp]
      · simp [hp]
    · have hfil : List.filter (fun g => decide (g ≠ f)) (a :: rest)
          = a :: List.filter (fun g => decide (g ≠ f)) rest := by
        simp [List.filter, ha]
      have hmem : (f ∈ a :: rest ∧ p f = true) ↔ (f ∈ rest ∧ p f = true) := by
        rw [List.mem_cons]
        constructor
        · rintro ⟨h | h, hp⟩
          · exact absurd h.symm ha
          · exact ⟨h, hp⟩
        · rintro ⟨h, hp⟩
          exact ⟨Or.inr h, hp⟩
      rw [hfil, List.countP_cons, List.countP_cons, if_congr hmem rfl rfl]
      omega

theorem mem_filter_ne (f g : Int) (l : List Int) :
    g ∈ l.filter (fun x => decide (x ≠ f)) ↔ g ∈ l ∧ g ≠ f := by
  rw [List.mem_filter]; simp

theorem LRUKReplacer.Inv.not_mem_both {r : LRUKReplacer} (inv : r.Inv) (f : Int)
    (h1 : f ∈ r.history_list_) (h2 : f ∈ r.cache_list_) : False := by
  have a := (inv.mem_hist f).mp h1
  have b := (inv.mem_cache f).mp h2
  omega

theorem LRUKReplacer.Inv.nodup_append {r : LRUKReplacer} (inv : r.Inv) :
    (r.history_list_ ++ r.cache_list_).Nodup :=
  List.nodup_append.mpr ⟨inv.hist_nodup, inv.cache_nodup, fun f h1 h2 => inv.not_mem_both f h1 h2⟩

theorem LRUKReplacer.Inv.mem_lists {r : LRUKReplacer} (inv : r.Inv) (f : Int) :
    f ∈ r.history_list_ ++ r.cache_list_ ↔ 0 < r.access_num_ f := by
  rw [List.mem_append, inv.mem_hist, inv.mem_cache]
  have := inv.k_ge
  omega

theorem LRUKReplacer.evictFrom_lists {r : LRUKReplacer} (inv : r.Inv) (l : ListId) (v : Int)
    (hl : (l = ListId.history ∧ v ∈ r.history_list_) ∨ (l = ListId.cache ∧ v ∈ r.cache_list_)) :
    (r.evictFrom l v).history_list_ = r.history_list_.filter (fun g => decide (g ≠ v)) ∧
    (r.evictFrom l v).cache_list_ = r.cache_list_.filter (fun g => decide (g ≠ v)) := by
  rcases hl with ⟨rfl, hv⟩ | ⟨rfl, hv⟩
  · refine ⟨by simp [LRUKReplacer.evictFrom], ?_⟩
    have : v ∉ r.cache_list_ := fun h => inv.not_mem_both v hv h
    simp only [LRUKReplacer.evictFrom]
    rw [if_neg (by decide), List.filter_eq_self.mpr]
    intro g hg
    have : g ≠ v := fun e => this (e ▸ hg)
    simpa using this
  · refine ⟨?_, by simp [LRUKReplacer.evictFrom]⟩
    have : v ∉ r.history_list_ := fun h => inv.not_mem_both v h hv
    simp only [LRUKReplacer.evictFrom]
    rw [if_neg (by decide), List.filter_eq_self.mpr]
    intro g hg
    have : g ≠ v := fun e => this (e ▸ hg)
    simpa using this

theorem LRUKReplacer.evictFrom_Inv {r : LRUKReplacer} (inv : r.Inv) (l : ListId) (v : Int)
    (hp : r.is_evictable_ v = true)
    (hl : (l = ListId.history ∧ v ∈ r.history_list_) ∨ (l = ListId.cache ∧ v ∈ r.cache_list_)) :
    (r.evictFrom l v).Inv := by
  obtain ⟨hh, hc⟩ := r.evictFrom_lists inv l v hl
  have hacc : (r.evictFrom l v).access_num_ = Function.update r.access_num_ v 0 := rfl
  have hflag : (r.evictFrom l v).is_evictable_ = Function.update r.is_evictable_ v false := rfl
  have hmap : (r.evictFrom l v).hashmap_ = Function.update r.hashmap_ v none := rfl
  have hk : (r.evictFrom l v).k_ = r.k_ := rfl
  have hsize : (r.evictFrom l v).curr_size_ = size_t_decrement r.curr_size_ := rfl
  have hkge := inv.k_ge
  have hvmem : v ∈ r.history_list_ ++ r.cache_list_ := by
    rw [List.mem_append]
    rcases hl with ⟨_, h⟩ | ⟨_, h⟩
    · exact Or.inl h
    · exact Or.inr h
  refine ⟨hkge, ?_, ?_, ?_, ?_, ?_, ?_, ?_, ?_⟩
  · rw [hh]; exact inv.hist_nodup.filter _
  · rw [hc]; exact inv.cache_nodup.filter _
  · intro g
    rw [hh, mem_filter_ne, hacc, hk]
    by_cases hg : g = v
    · subst hg; simp
    · rw [Function.update_noteq hg, inv.mem_hist]
      exact ⟨fun h => h.1, fun h => ⟨h, hg⟩⟩
  · intro g
    rw [hc, mem_filter_ne, hacc, hk]
    by_cases hg : g = v
    · subst hg
      rw [Function.update_same]
      constructor
      · intro h; exact absurd rfl h.2
      · intro h; omega
    · rw [Function.update_noteq hg, inv.mem_cache]
      exact ⟨fun h => h.1, fun h => ⟨h, hg⟩⟩
  · intro g hgflag
    rw [hflag] at hgflag
    rw [hacc]
    by_cases hg : g = v
    · subst hg; simp at hgflag
    · rw [Function.update_noteq hg] at hgflag ⊢
      exact inv.evictable_tracked g hgflag
  · rw [hsize, hh, hc, hflag, ← List.filter_append, countP_update_not_mem]
    · have hcount := countP_filter_ne r.is_evictable_ v _ inv.nodup_append
      rw [if_pos ⟨hvmem, hp⟩] at hcount
      rw [inv.size_eq, ← hcount]
      simp [size_t_decrement]
    · rw [mem_filter_ne]
      exact fun h => h.2 rfl
  · intro g hg
    rw [hh, mem_filter_ne] at hg
    rw [hmap, Function.update_noteq hg.2]
    exact inv.map_hist g hg.1
  · intro g hg
    rw [hc, mem_filter_ne] at hg
    rw [hmap, Function.update_noteq hg.2]
    exact inv.map_cache g hg.1

theorem LRUKReplacer.new_Inv (num_frames k : Nat) (hk : 2 ≤ k) :
    (LRUKReplacer.new num_frames k).Inv := by
  refine ⟨hk, List.nodup_nil, List.nodup_nil, ?_, ?_, ?_, rfl, ?_, ?_⟩
  · intro f; simp [LRUKReplacer.new]
  · intro f; simp [LRUKReplacer.new]; omega
  · intro f h; simp [LRUKReplacer.new] at h
  · intro f h; simp [LRUKReplacer.new] at h
  · intro f h; simp [LRUKReplacer.new] at h

theorem LRUKReplacer.Evict_cases (r : LRUKReplacer) :
    (r.curr_size_ = 0 ∧ r.Evict = (r, none)) ∨
    (r.curr_size_ ≠ 0 ∧ ∃ v,
      r.history_list_.reverse.find? (fun frame => r.is_evictable_ frame) = some v ∧
      r.Evict = (r.evictFrom ListId.history v, some v)) ∨
    (r.curr_size_ ≠ 0 ∧
      r.history_list_.reverse.find? (fun frame => r.is_evictable_ frame) = none ∧ ∃ v,
      r.cache_list_.reverse.find? (fun frame => r.is_evictable_ frame) = some v ∧
      r.Evict = (r.evictFrom ListId.cache v, some v)) ∨
    (r.curr_size_ ≠ 0 ∧
      r.history_list_.reverse.find? (fun frame => r.is_evictable_ frame) = none ∧
      r.cache_list_.reverse.find? (fun frame => r.is_evictable_ frame) = none ∧
      r.Evict = (r, none)) := by
  unfold LRUKReplacer.Evict
  by_cases h0 : r.curr_size_ = 0
  · left; exact ⟨h0, by simp [h0]⟩
  · right
    simp only [h0, if_false]
    cases hh : r.history_list_.reverse.find? (fun frame => r.is_evictable_ frame) with
    | some v => left; exact ⟨h0, v, rfl, rfl⟩
    | none =>
      right
      cases hc : r.cache_list_.reverse.find? (fun frame => r.is_evictable_ frame) with
      | some v => left; exact ⟨h0, rfl, v, rfl, rfl⟩
      | none => right; exact ⟨h0, rfl, rfl, rfl⟩

theorem find?_reverse_some {p : Int → Bool} {l : List Int} {v : Int}
    (h : l.reverse.find? p = some v) : v ∈ l ∧ p v = true :=
  ⟨List.mem_reverse.mp (List.mem_of_find?_eq_some h), List.find?_some h⟩

theorem LRUKReplacer.Evict_Inv {r : LRUKReplacer} (inv : r.Inv) : r.Evict.1.Inv := by
  rcases r.Evict_cases with ⟨_, h⟩ | ⟨_, v, hf, h⟩ | ⟨_, _, v, hf, h⟩ | ⟨_, _, _, h⟩
  · rw [h]; exact inv
  · rw [h]
    obtain ⟨hm, hp⟩ := find?_reverse_some hf
    exact r.evictFrom_Inv inv _ v hp (Or.inl ⟨rfl, hm⟩)
  · rw [h]
    obtain ⟨hm, hp⟩ := find?_reverse_some hf
    exact r.evictFrom_Inv inv _ v hp (Or.inr ⟨rfl, hm⟩)
  · rw [h]; exact inv

theorem LRUKReplacer.Remove_cases (r : LRUKReplacer) (f : Int) :
    (r.replacer_size_ < f ∧ r.Remove f = Except.error Fault.thrown) ∨
    (f ≤ r.replacer_size_ ∧ r.access_num_ f = 0 ∧ r.Remove f = Except.ok r) ∨
    (f ≤ r.replacer_size_ ∧ 0 < r.access_num_ f ∧ r.is_evictable_ f = false ∧
      r.Remove f = Except.error Fault.thrown) ∨
    (f ≤ r.replacer_size_ ∧ 0 < r.access_num_ f ∧ r.is_evictable_ f = true ∧
      r.Remove f = Except.ok
        (r.evictFrom (if r.access_num_ f < r.k_ then ListId.history else ListId.cache) f)) := by
  unfold LRUKReplacer.Remove
  by_cases hb : f > (r.replacer_size_ : Int)
  · left; exact ⟨hb, by simp [hb]⟩
  · right
    have hb2 : f ≤ (r.replacer_size_ : Int) := not_lt.mp hb
    simp only [hb, if_false]
    by_cases h0 : r.access_num_ f = 0
    · left; exact ⟨hb2, h0, by simp [h0]⟩
    · right
      have hpos : 0 < r.access_num_ f := Nat.pos_of_ne_zero h0
      simp only [h0, if_false]
      cases hp : r.is_evictable_ f
      · left; exact ⟨hb2, hpos, rfl, by simp⟩
      · right
        refine ⟨hb2, hpos, rfl, ?_⟩
        by_cases hk : r.access_num_ f < r.k_
        · simp [hk, LRUKReplacer.evictFrom]
        · simp [hk, LRUKReplacer.evictFrom]

theorem LRUKReplacer.Remove_Inv {r r2 : LRUKReplacer} (inv : r.Inv) (f : Int)
    (h : r.Remove f = Except.ok r2) : r2.Inv := by
  rcases r.Remove_cases f with ⟨_, e⟩ | ⟨_, _, e⟩ | ⟨_, _, _, e⟩ | ⟨_, hpos, hp, e⟩
  · rw [e] at h; cases h
  · rw [e] at h; cases h; exact inv
  · rw [e] at h; cases h
  · rw [e] at h
    cases h
    apply r.evictFrom_Inv inv _ f hp
    by_cases hk : r.access_num_ f < r.k_
    · left; exact ⟨by simp [hk], (inv.mem_hist f).mpr ⟨hpos, hk⟩⟩
    · right; exact ⟨by simp [hk], (inv.mem_cache f).mpr (not_lt.mp hk)⟩

theorem LRUKReplacer.SetEvictable_cases (r : LRUKReplacer) (f : Int) (b : Bool) :
    (r.replacer_size_ < f ∧ r.SetEvictable f b = Except.error Fault.thrown) ∨
    (f ≤ r.replacer_size_ ∧ r.access_num_ f = 0 ∧ r.SetEvictable f b = Except.ok r) ∨
    (f ≤ r.replacer_size_ ∧ 0 < r.access_num_ f ∧
      r.SetEvictable f b = Except.ok { r with
        curr_size_ :=
          if !r.is_evictable_ f && b then r.curr_size_ + 1
          else if r.is_evictable_ f && !b then size_t_decrement r.curr_size_
          else r.curr_size_
        is_evictable_ := Function.update r.is_evictable_ f b }) := by
  unfold LRUKReplacer.SetEvictable
  by_cases hb : f > (r.replacer_size_ : Int)
  · left; exact ⟨hb, by simp [hb]⟩
  · right
    have hb2 : f ≤ (r.replacer_size_ : Int) := not_lt.mp hb
    simp only [hb, if_false]
    by_cases h0 : r.access_num_ f = 0
    · left; exact ⟨hb2, h0, by simp [h0]⟩
    · right; exact ⟨hb2, Nat.pos_of_ne_zero h0, by simp [h0]⟩

theorem LRUKReplacer.SetEvictable_Inv {r r2 : LRUKReplacer} (inv : r.Inv) (f : Int) (b : Bool)
    (h : r.SetEvictable f b = Except.ok r2) : r2.Inv := by
  rcases r.SetEvictable_cases f b with ⟨_, e⟩ | ⟨_, _, e⟩ | ⟨_, hpos, e⟩
  · rw [e] at h; cases h
  · rw [e] at h; cases h; exact inv
  · rw [e] at h
    cases h
    have hmem := (inv.mem_lists f).mpr hpos
    refine ⟨inv.k_ge, inv.hist_nodup, inv.cache_nodup, inv.mem_hist, inv.mem_cache, ?_, ?_,
      inv.map_hist, inv.map_cache⟩
    · intro g hg
      by_cases hgf : g = f
      · subst hgf; exact hpos
      · have hg2 : Function.update r.is_evictable_ f b g = true := hg
        rw [Function.update_noteq hgf] at hg2
        exact inv.evictable_tracked g hg2
    · have hcount := countP_update_mem r.is_evictable_ f b _ inv.nodup_append hmem
      have hsz := inv.size_eq
      show (if (!r.is_evictable_ f && b) = true then r.curr_size_ + 1
        else if (r.is_evictable_ f && !b) = true then size_t_decrement r.curr_size_
        else r.curr_size_) = List.countP (Function.update r.is_evictable_ f b) _
      cases hp : r.is_evictable_ f <;> cases b <;>
        simp only [hp, Bool.not_true, Bool.not_false, Bool.and_true, Bool.and_false,
          Bool.true_and, Bool.false_and, if_true, if_false, Bool.false_eq_true] at hcount ⊢
      · omega
      · omega
      · unfold size_t_decrement
        split_ifs <;> omega
      · omega

theorem LRUKReplacer.RecordAccess_cases {r : LRUKReplacer} (inv : r.Inv) (f : Int) :
    (r.replacer_size_ < f ∧ r.RecordAccess f = Except.error Fault.thrown) ∨
    (f ≤ r.replacer_size_ ∧ r.access_num_ f = 0 ∧
      r.RecordAccess f = Except.ok { r with
        access_num_ := Function.update r.access_num_ f 1
        history_list_ := f :: r.history_list_
        hashmap_ := Function.update r.hashmap_ f (some ListId.history) }) ∨
    (f ≤ r.replacer_size_ ∧ 0 < r.access_num_ f ∧ r.access_num_ f + 1 < r.k_ ∧
      r.RecordAccess f = Except.ok { r with
        access_num_ := Function.update r.access_num_ f (r.access_num_ f + 1) }) ∨
    (f ≤ r.replacer_size_ ∧ r.access_num_ f + 1 = r.k_ ∧
      r.RecordAccess f = Except.ok { r with
        access_num_ := Function.update r.access_num_ f (r.access_num_ f + 1)
        history_list_ := r.history_list_.erase f
        cache_list_ := f :: r.cache_list_
        hashmap_ := Function.update r.hashmap_ f (some ListId.cache) }) ∨
    (f ≤ r.replacer_size_ ∧ r.k_ < r.access_num_ f + 1 ∧
      r.RecordAccess f = Except.ok { r with
        access_num_ := Function.update r.access_num_ f (r.access_num_ f + 1)
        cache_list_ := f :: r.cache_list_.erase f
        hashmap_ := Function.update r.hashmap_ f (some ListId.cache) }) := by
  have hk := inv.k_ge
  unfold LRUKReplacer.RecordAccess
  by_cases hb : f > (r.replacer_size_ : Int)
  · left; exact ⟨hb, by simp [hb]⟩
  · right
    have hb2 : f ≤ (r.replacer_size_ : Int) := not_lt.mp hb
    simp only [hb, if_false]
    by_cases h0 : r.access_num_ f = 0
    · left; exact ⟨hb2, h0, by simp [h0]⟩
    · right
      have hpos : 0 < r.access_num_ f := Nat.pos_of_ne_zero h0
      have h1 : ¬ r.access_num_ f + 1 = 1 := by omega
      simp only [h1, if_false]
      by_cases hlt : r.access_num_ f + 1 < r.k_
      · left
        refine ⟨hb2, hpos, hlt, ?_⟩
        have h2 : ¬ r.access_num_ f + 1 = r.k_ := by omega
        have h3 : ¬ r.access_num_ f + 1 > r.k_ := by omega
        simp only [h2, h3, if_false]
      · right
        by_cases heq : r.access_num_ f + 1 = r.k_
        · left
          refine ⟨hb2, heq, ?_⟩
          have hm := inv.map_hist f ((inv.mem_hist f).mpr ⟨hpos, by omega⟩)
          simp only [heq, if_true, hm]
        · right
          have hgt : r.k_ < r.access_num_ f + 1 := by omega
          refine ⟨hb2, hgt, ?_⟩
          have hm := inv.map_cache f ((inv.mem_cache f).mpr (by omega))
          have hgt2 : r.access_num_ f + 1 > r.k_ := hgt
          simp only [heq, if_false, hgt2, if_true, hm]

theorem LRUKReplacer.RecordAccess_Inv {r r2 : LRUKReplacer} (inv : r.Inv) (f : Int)
    (h : r.RecordAccess f = Except.ok r2) : r2.Inv := by
  have hk := inv.k_ge
  rcases r.RecordAccess_cases inv f with ⟨_, e⟩ | ⟨_, h0, e⟩ | ⟨_, hpos, hlt, e⟩ | ⟨_, heq, e⟩ |
    ⟨_, hgt, e⟩
  · rw [e] at h; cases h
  · -- first access: the frame enters the history list
    rw [e] at h; cases h
    have hnh : f ∉ r.history_list_ := fun hm => by have := (inv.mem_hist f).mp hm; omega
    have hnc : f ∉ r.cache_list_ := fun hm => by have := (inv.mem_cache f).mp hm; omega
    have hflag : r.is_evictable_ f = false := by
      cases hp : r.is_evictable_ f
      · rfl
      · have := inv.evictable_tracked f hp; omega
    refine ⟨hk, List.nodup_cons.mpr ⟨hnh, inv.hist_nodup⟩, inv.cache_nodup, ?_, ?_, ?_, ?_, ?_, ?_⟩
    · intro g
      show g ∈ f :: r.history_list_ ↔
        0 < Function.update r.access_num_ f 1 g ∧ Function.update r.access_num_ f 1 g < r.k_
      by_cases hg : g = f
      · subst hg; simp; omega
      · rw [Function.update_noteq hg, List.mem_cons, inv.mem_hist]
        exact ⟨fun h => h.resolve_left hg, fun h => Or.inr h⟩
    · intro g
      show g ∈ r.cache_list_ ↔ r.k_ ≤ Function.update r.access_num_ f 1 g
      by_cases hg : g = f
      · subst hg
        rw [Function.update_same]
        exact ⟨fun h => absurd h hnc, fun h => by omega⟩
      · rw [Function.update_noteq hg, inv.mem_cache]
    · intro g hg
      show 0 < Function.update r.access_num_ f 1 g
      by_cases hgf : g = f
      · subst hgf; simp
      · rw [Function.update_noteq hgf]; exact inv.evictable_tracked g hg
    · show r.curr_size_ = List.countP r.is_evictable_ (f :: r.history_list_ ++ r.cache_list_)
      rw [List.cons_append, List.countP_cons, hflag, inv.size_eq]
      simp
    · intro g hg
      show Function.update r.hashmap_ f (some ListId.history) g = _
      by_cases hgf : g = f
      · subst hgf; simp
      · rw [Function.update_noteq hgf]
        exact inv.map_hist g ((List.mem_cons.mp hg).resolve_left hgf)
    · intro g hg
      show Function.update r.hashmap_ f (some ListId.history) g = _
      have hgf : g ≠ f := fun e => hnc (e ▸ hg)
      rw [Function.update_noteq hgf]
      exact inv.map_cache g hg
  · -- fewer than k accesses after this one: the lists stay as they are
    rw [e] at h; cases h
    refine ⟨hk, inv.hist_nodup, inv.cache_nodup, ?_, ?_, ?_, inv.size_eq, inv.map_hist,
      inv.map_cache⟩
    · intro g
      show g ∈ r.history_list_ ↔ 0 < Function.update r.access_num_ f _ g ∧
        Function.update r.access_num_ f _ g < r.k_
      by_cases hg : g = f
      · subst hg
        rw [Function.update_same, inv.mem_hist]
        omega
      · rw [Function.update_noteq hg, inv.mem_hist]
    · intro g
      show g ∈ r.cache_list_ ↔ r.k_ ≤ Function.update r.access_num_ f _ g
      by_cases hg : g = f
      · subst hg
        rw [Function.update_same, inv.mem_cache]
        omega
      · rw [Function.update_noteq hg, inv.mem_cache]
    · intro g hg
      show 0 < Function.update r.access_num_ f _ g
      by_cases hgf : g = f
      · subst hgf; simp
      · rw [Function.update_noteq hgf]; exact inv.evictable_tracked g hg
  · -- the k-th access: the frame moves from the history list to the cache list
    rw [e] at h; cases h
    have hpos : 0 < r.access_num_ f := by omega
    have hmh : f ∈ r.history_list_ := (inv.mem_hist f).mpr ⟨hpos, by omega⟩
    have hnc : f ∉ r.cache_list_ := fun hm => inv.not_mem_both f hmh hm
    refine ⟨hk, inv.hist_nodup.erase f, List.nodup_cons.mpr ⟨hnc, inv.cache_nodup⟩, ?_, ?_, ?_, ?_,
      ?_, ?_⟩
    · intro g
      show g ∈ r.history_list_.erase f ↔ 0 < Function.update r.access_num_ f _ g ∧
        Function.update r.access_num_ f _ g < r.k_
      rw [inv.hist_nodup.mem_erase_iff]
      by_cases hg : g = f
      · subst hg
        rw [Function.update_same]
        constructor
        · intro h; exact absurd rfl h.1
        · intro h; omega
      · rw [Function.update_noteq hg, inv.mem_hist]
        exact ⟨fun h => h.2, fun h => ⟨hg, h⟩⟩
    · intro g
      show g ∈ f :: r.cache_list_ ↔ r.k_ ≤ Function.update r.access_num_ f _ g
      by_cases hg : g = f
      · subst hg
        rw [Function.update_same]
        simp; omega
      · rw [Function.update_noteq hg, List.mem_cons, inv.mem_cache]
        exact ⟨fun h => h.resolve_left hg, fun h => Or.inr h⟩
    · intro g hg
      show 0 < Function.update r.access_num_ f _ g
      by_cases hgf : g = f
      · subst hgf; simp
      · rw [Function.update_noteq hgf]; exact inv.evictable_tracked g hg
    · show r.curr_size_ = List.countP r.is_evictable_ (r.history_list_.erase f ++ f :: r.cache_list_)
      rw [inv.size_eq]
      apply List.Perm.countP_eq
      have hp := List.perm_cons_erase hmh
      exact (hp.append_right r.cache_list_).trans (List.perm_middle.symm)
    · intro g hg
      show Function.update r.hashmap_ f (some ListId.cache) g = _
      rw [inv.hist_nodup.mem_erase_iff] at hg
      rw [Function.update_noteq hg.1]
      exact inv.map_hist g hg.2
    · intro g hg
      show Function.update r.hashmap_ f (some ListId.cache) g = _
      by_cases hgf : g = f
      · subst hgf; simp
      · rw [Function.update_noteq hgf]
        exact inv.map_cache g ((List.mem_cons.mp hg).resolve_left hgf)
  · -- a later access: the frame moves to the front of the cache list
    rw [e] at h; cases h
    have hmc : f ∈ r.cache_list_ := (inv.mem_cache f).mpr (by omega)
    have hnh : f ∉ r.history_list_ := fun hm => inv.not_mem_both f hm hmc
    have hne : f ∉ r.cache_list_.erase f := fun hm =>
      ((inv.cache_nodup.mem_erase_iff).mp hm).1 rfl
    refine ⟨hk, inv.hist_nodup, List.nodup_cons.mpr ⟨hne, inv.cache_nodup.erase f⟩, ?_, ?_, ?_, ?_,
      ?_, ?_⟩
    · intro g
      show g ∈ r.history_list_ ↔ 0 < Function.update r.access_num_ f _ g ∧
        Function.update r.access_num_ f _ g < r.k_
      by_cases hg : g = f
      · subst hg
        rw [Function.update_same]
        exact ⟨fun h => absurd h hnh, fun h => by omega⟩
      · rw [Function.update_noteq hg, inv.mem_hist]
    · intro g
      show g ∈ f :: r.cache_list_.erase f ↔ r.k_ ≤ Function.update r.access_num_ f _ g
      by_cases hg : g = f
      · subst hg
        rw [Function.update_same]
        simp; omega
      · rw [Function.update_noteq hg, List.mem_cons, inv.cache_nodup.mem_erase_iff, inv.mem_cache]
        exact ⟨fun h => (h.resolve_left hg).2, fun h => Or.inr ⟨hg, h⟩⟩
    · intro g hg
      show 0 < Function.update r.access_num_ f _ g
      by_cases hgf : g = f
      · subst hgf; simp
      · rw [Function.update_noteq hgf]; exact inv.evictable_tracked g hg
    · show r.curr_size_ = List.countP r.is_evictable_ (r.history_list_ ++ f :: r.cache_list_.erase f)
      rw [inv.size_eq]
      apply List.Perm.countP_eq
      exact (List.perm_cons_erase hmc).append_left r.history_list_
    · intro g hg
      show Function.update r.hashmap_ f (some ListId.cache) g = _
      have hgf : g ≠ f := fun e => hnh (e ▸ hg)
      rw [Function.update_noteq hgf]
      exact inv.map_hist g hg
    · intro g hg
      show Function.update r.hashmap_ f (some ListId.cache) g = _
      by_cases hgf : g = f
      · subst hgf; simp
      · rw [Function.update_noteq hgf]
        exact inv.map_cache g
          ((inv.cache_nodup.mem_erase_iff.mp ((List.mem_cons.mp hg).resolve_left hgf)).2)

/-! ## LRU-K replacer: the state agrees with the log -/

theorem accessTimes_accessed_self (log : List ReplacerEvent) (f : Int) :
    accessTimes (ReplacerEvent.accessed f :: log) f = log.length :: accessTimes log f := by
  simp [accessTimes]

theorem accessTimes_accessed_other (log : List ReplacerEvent) {f g : Int} (h : g ≠ f) :
    accessTimes (ReplacerEvent.accessed f :: log) g = accessTimes log g := by
  have : ¬ f = g := fun e => h e.symm
  simp [accessTimes, this]

theorem accessTimes_flagged (log : List ReplacerEvent) (f : Int) (b : Bool) (g : Int) :
    accessTimes (ReplacerEvent.flagged f b :: log) g = accessTimes log g := rfl

theorem accessTimes_dropped (log : List ReplacerEvent) (e : ReplacerEvent) (f : Int)
    (he : e = ReplacerEvent.removed f ∨ e = ReplacerEvent.evicted f) (g : Int) :
    accessTimes (e :: log) g = if g = f then [] else accessTimes log g := by
  rcases he with rfl | rfl <;> by_cases h : f = g <;> simp [accessTimes, h, eq_comm]

theorem evictableSpec_dropped (log : List ReplacerEvent) (e : ReplacerEvent) (f : Int)
    (he : e = ReplacerEvent.removed f ∨ e = ReplacerEvent.evicted f) (g : Int) :
    evictableSpec (e :: log) g = if g = f then false else evictableSpec log g := by
  rcases he with rfl | rfl <;> by_cases h : f = g <;> simp [evictableSpec, h, eq_comm]

theorem LRUKReplacer.Agrees.first_lt {r : LRUKReplacer} {log : List ReplacerEvent}
    (ag : r.Agrees log) (g : Int) (hg : 0 < r.access_num_ g) : firstAccess log g < log.length := by
  rw [ag.count_eq, accessCount] at hg
  apply ag.times_lt g
  unfold firstAccess
  cases h : accessTimes log g with
  | nil => rw [h] at hg; cases hg
  | cons a rest =>
    rw [List.getLastD_cons, List.getLastD_eq_getLast?]
    cases h2 : rest.getLast? with
    | none => simp
    | some x =>
      have := List.mem_of_getLast?_eq_some h2
      simp [this]

theorem LRUKReplacer.Agrees.last_lt {r : LRUKReplacer} {log : List ReplacerEvent}
    (ag : r.Agrees log) (g : Int) (hg : 0 < r.access_num_ g) : lastAccess log g < log.length := by
  rw [ag.count_eq, accessCount] at hg
  apply ag.times_lt g
  unfold lastAccess
  cases h : accessTimes log g with
  | nil => rw [h] at hg; cases hg
  | cons a rest => simp

theorem firstAccess_accessed_again (log : List ReplacerEvent) (f : Int)
    (h : 0 < accessCount log f) :
    firstAccess (ReplacerEvent.accessed f :: log) f = firstAccess log f := by
  unfold firstAccess accessCount at *
  rw [accessTimes_accessed_self]
  cases h2 : accessTimes log f with
  | nil => rw [h2] at h; cases h
  | cons a rest => simp [List.getLastD_cons]

theorem pairwise_of_agree_on {key key2 : Int → Nat} {l : List Int}
    (h : l.Pairwise (fun a b => key b < key a)) (heq : ∀ g ∈ l, key2 g = key g) :
    l.Pairwise (fun a b => key2 b < key2 a) := by
  apply List.Pairwise.imp_of_mem _ h
  intro a b ha hb hab
  rw [heq a ha, heq b hb]
  exact hab

theorem LRUKReplacer.Agrees_dropped {r : LRUKReplacer} {log : List ReplacerEvent}
    (inv : r.Inv) (ag : r.Agrees log) (l : ListId) (f : Int) (e : ReplacerEvent)
    (he : e = ReplacerEvent.removed f ∨ e = ReplacerEvent.evicted f)
    (hl : (l = ListId.history ∧ f ∈ r.history_list_) ∨ (l = ListId.cache ∧ f ∈ r.cache_list_)) :
    (r.evictFrom l f).Agrees (e :: log) := by
  obtain ⟨hh, hc⟩ := r.evictFrom_lists inv l f hl
  have htimes := accessTimes_dropped log e f he
  have hfirst : ∀ g, g ≠ f → firstAccess (e :: log) g = firstAccess log g := fun g hg => by
    unfold firstAccess; rw [htimes, if_neg hg]
  have hlast : ∀ g, g ≠ f → lastAccess (e :: log) g = lastAccess log g := fun g hg => by
    unfold lastAccess; rw [htimes, if_neg hg]
  refine ⟨?_, ?_, ?_, ?_, ?_⟩
  · intro g
    show Function.update r.access_num_ f 0 g = accessCount (e :: log) g
    unfold accessCount
    rw [htimes]
    by_cases hg : g = f
    · subst hg; simp
    · rw [Function.update_noteq hg, if_neg hg]; exact ag.count_eq g
  · intro g t ht
    rw [htimes] at ht
    by_cases hg : g = f
    · rw [if_pos hg] at ht; cases ht
    · rw [if_neg hg] at ht
      exact Nat.lt_succ_of_lt (ag.times_lt g t ht)
  · rw [hh]
    apply pairwise_of_agree_on (ag.hist_sorted.sublist (List.filter_sublist _))
    intro g hg
    exact hfirst g ((mem_filter_ne f g _).mp hg).2
  · rw [hc]
    apply pairwise_of_agree_on (ag.cache_sorted.sublist (List.filter_sublist _))
    intro g hg
    exact hlast g ((mem_filter_ne f g _).mp hg).2
  · intro g
    show Function.update r.is_evictable_ f false g = evictableSpec (e :: log) g
    rw [evictableSpec_dropped log e f he]
    by_cases hg : g = f
    · subst hg; simp
    · rw [Function.update_noteq hg, if_neg hg]; exact ag.flag_eq g

theorem LRUKReplacer.Agrees_noop_dropped {r : LRUKReplacer} {log : List ReplacerEvent}
    (inv : r.Inv) (ag : r.Agrees log) (f : Int) (e : ReplacerEvent)
    (he : e = ReplacerEvent.removed f ∨ e = ReplacerEvent.evicted f)
    (h0 : r.access_num_ f = 0) : r.Agrees (e :: log) := by
  have htimes := accessTimes_dropped log e f he
  have hnil : accessTimes log f = [] := by
    have := ag.count_eq f
    rw [h0, accessCount] at this
    exact List.length_eq_zero.mp this.symm
  have htimes2 : ∀ g, accessTimes (e :: log) g = accessTimes log g := fun g => by
    rw [htimes]
    by_cases hg : g = f
    · rw [if_pos hg, hg, hnil]
    · rw [if_neg hg]
  have hflag : r.is_evictable_ f = false := by
    cases hp : r.is_evictable_ f
    · rfl
    · have := inv.evictable_tracked f hp; omega
  refine ⟨?_, ?_, ?_, ?_, ?_⟩
  · intro g; unfold accessCount; rw [htimes2]; exact ag.count_eq g
  · intro g t ht
    rw [htimes2] at ht
    exact Nat.lt_succ_of_lt (ag.times_lt g t ht)
  · apply pairwise_of_agree_on ag.hist_sorted
    intro g _; unfold firstAccess; rw [htimes2]
  · apply pairwise_of_agree_on ag.cache_sorted
    intro g _; unfold lastAccess; rw [htimes2]
  · intro g
    rw [evictableSpec_dropped log e f he]
    by_cases hg : g = f
    · rw [if_pos hg, hg, hflag]
    · rw [if_neg hg]; exact ag.flag_eq g

theorem LRUKReplacer.Agrees_Remove {r r2 : LRUKReplacer} {log : List ReplacerEvent}
    (inv : r.Inv) (ag : r.Agrees log) (f : Int) (h : r.Remove f = Except.ok r2) :
    r2.Agrees (ReplacerEvent.removed f :: log) := by
  rcases r.Remove_cases f with ⟨_, e⟩ | ⟨_, h0, e⟩ | ⟨_, _, _, e⟩ | ⟨_, hpos, hp, e⟩
  · rw [e] at h; cases h
  · rw [e] at h; cases h
    exact r.Agrees_noop_dropped inv ag f _ (Or.inl rfl) h0
  · rw [e] at h; cases h
  · rw [e] at h
    cases h
    apply r.Agrees_dropped inv ag _ f _ (Or.inl rfl)
    by_cases hk : r.access_num_ f < r.k_
    · left; exact ⟨by simp [hk], (inv.mem_hist f).mpr ⟨hpos, hk⟩⟩
    · right; exact ⟨by simp [hk], (inv.mem_cache f).mpr (not_lt.mp hk)⟩

theorem LRUKReplacer.Agrees_SetEvictable {r r2 : LRUKReplacer} {log : List ReplacerEvent}
    (inv : r.Inv) (ag : r.Agrees log) (f : Int) (b : Bool)
    (h : r.SetEvictable f b = Except.ok r2) :
    r2.Agrees (ReplacerEvent.flagged f b :: log) := by
  have hspec : ∀ g, g ≠ f →
      evictableSpec (ReplacerEvent.flagged f b :: log) g = evictableSpec log g := fun g hg => by
    have : ¬ f = g := fun e => hg e.symm
    simp [evictableSpec, this]
  have hspec2 : evictableSpec (ReplacerEvent.flagged f b :: log) f
      = (b && decide (0 < accessCount log f)) := by
    simp [evictableSpec]
  have hbase : ∀ r3 : LRUKReplacer, r3.access_num_ = r.access_num_ →
      r3.history_list_ = r.history_list_ → r3.cache_list_ = r.cache_list_ →
      (∀ g, r3.is_evictable_ g = evictableSpec (ReplacerEvent.flagged f b :: log) g) →
      r3.Agrees (ReplacerEvent.flagged f b :: log) := by
    intro r3 ha hh hc hf
    refine ⟨?_, ?_, ?_, ?_, hf⟩
    · intro g; rw [ha]; exact ag.count_eq g
    · intro g t ht
      exact Nat.lt_succ_of_lt (ag.times_lt g t ht)
    · rw [hh]; exact ag.hist_sorted
    · rw [hc]; exact ag.cache_sorted
  rcases r.SetEvictable_cases f b with ⟨_, e⟩ | ⟨_, h0, e⟩ | ⟨_, hpos, e⟩
  · rw [e] at h; cases h
  · rw [e] at h; cases h
    apply hbase r rfl rfl rfl
    intro g
    by_cases hg : g = f
    · subst hg
      have hflag : r.is_evictable_ g = false := by
        cases hp : r.is_evictable_ g
        · rfl
        · have := inv.evictable_tracked g hp; omega
      rw [hspec2, hflag, ← ag.count_eq, h0]
      simp
    · rw [hspec g hg]; exact ag.flag_eq g
  · rw [e] at h; cases h
    refine hbase _ rfl rfl rfl ?_
    intro g
    show Function.update r.is_evictable_ f b g = _
    by_cases hg : g = f
    · subst hg
      rw [hspec2, ← ag.count_eq]
      simp [hpos]
    · rw [Function.update_noteq hg, hspec g hg]; exact ag.flag_eq g

theorem LRUKReplacer.Agrees_RecordAccess {r r2 : LRUKReplacer} {log : List ReplacerEvent}
    (inv : r.Inv) (ag : r.Agrees log) (f : Int) (h : r.RecordAccess f = Except.ok r2) :
    r2.Agrees (ReplacerEvent.accessed f :: log) := by
  have hk := inv.k_ge
  have hfirst : ∀ g, g ≠ f →
      firstAccess (ReplacerEvent.accessed f :: log) g = firstAccess log g := fun g hg => by
    unfold firstAccess; rw [accessTimes_accessed_other log hg]
  have hlast : ∀ g, g ≠ f →
      lastAccess (ReplacerEvent.accessed f :: log) g = lastAccess log g := fun g hg => by
    unfold lastAccess; rw [accessTimes_accessed_other log hg]
  have hlastf : lastAccess (ReplacerEvent.accessed f :: log) f = log.length := by
    unfold lastAccess; rw [accessTimes_accessed_self]; rfl
  have hcount : ∀ (acc : Int → Nat), acc = Function.update r.access_num_ f (r.access_num_ f + 1) →
      ∀ g, acc g = accessCount (ReplacerEvent.accessed f :: log) g := by
    intro acc hacc g
    rw [hacc]
    unfold accessCount
    by_cases hg : g = f
    · subst hg
      rw [Function.update_same, accessTimes_accessed_self, List.length_cons]
      have := ag.count_eq g
      unfold accessCount at this
      omega
    · rw [Function.update_noteq hg, accessTimes_accessed_other log hg]
      exact ag.count_eq g
  have htimes : ∀ g, ∀ t ∈ accessTimes (ReplacerEvent.accessed f :: log) g,
      t < (ReplacerEvent.accessed f :: log).length := by
    intro g t ht
    rw [List.length_cons]
    by_cases hg : g = f
    · subst hg
      rw [accessTimes_accessed_self, List.mem_cons] at ht
      rcases ht with rfl | ht
      · exact Nat.lt_succ_self _
      · exact Nat.lt_succ_of_lt (ag.times_lt g t ht)
    · rw [accessTimes_accessed_other log hg] at ht
      exact Nat.lt_succ_of_lt (ag.times_lt g t ht)
  have hflags : ∀ g, r.is_evictable_ g = evictableSpec (ReplacerEvent.accessed f :: log) g :=
    fun g => ag.flag_eq g
  have hhist_tracked : ∀ g ∈ r.history_list_, 0 < r.access_num_ g :=
    fun g hg => ((inv.mem_hist g).mp hg).1
  have hcache_tracked : ∀ g ∈ r.cache_list_, 0 < r.access_num_ g :=
    fun g hg => by have := (inv.mem_cache g).mp hg; omega
  rcases r.RecordAccess_cases inv f with ⟨_, e⟩ | ⟨_, h0, e⟩ | ⟨_, hpos, hlt, e⟩ | ⟨_, heq, e⟩ |
    ⟨_, hgt, e⟩
  · rw [e] at h; cases h
  · rw [e] at h; cases h
    have hnh : f ∉ r.history_list_ := fun hm => by have := (inv.mem_hist f).mp hm; omega
    have hnc : f ∉ r.cache_list_ := fun hm => by have := (inv.mem_cache f).mp hm; omega
    have hfirstf : firstAccess (ReplacerEvent.accessed f :: log) f = log.length := by
      have hnil : accessTimes log f = [] := by
        have := ag.count_eq f
        rw [h0, accessCount] at this
        exact List.length_eq_zero.mp this.symm
      unfold firstAccess; rw [accessTimes_accessed_self, hnil]; rfl
    refine ⟨hcount _ (by rw [h0]), htimes, ?_, ?_, hflags⟩
    · show (f :: r.history_list_).Pairwise _
      rw [List.pairwise_cons]
      refine ⟨?_, ?_⟩
      · intro g hg
        have hgf : g ≠ f := fun e => hnh (e ▸ hg)
        rw [hfirstf, hfirst g hgf]
        exact ag.first_lt g (hhist_tracked g hg)
      · apply pairwise_of_agree_on ag.hist_sorted
        intro g hg
        exact hfirst g (fun e => hnh (e ▸ hg))
    · apply pairwise_of_agree_on ag.cache_sorted
      intro g hg
      exact hlast g (fun e => hnc (e ▸ hg))
  · rw [e] at h; cases h
    have hnc : f ∉ r.cache_list_ := fun hm => by have := (inv.mem_cache f).mp hm; omega
    refine ⟨hcount _ rfl, htimes, ?_, ?_, hflags⟩
    · apply pairwise_of_agree_on ag.hist_sorted
      intro g _
      by_cases hg : g = f
      · subst hg
        exact firstAccess_accessed_again log g (by rw [← ag.count_eq]; exact hpos)
      · exact hfirst g hg
    · apply pairwise_of_agree_on ag.cache_sorted
      intro g hg
      exact hlast g (fun e => hnc (e ▸ hg))
  · rw [e] at h; cases h
    have hpos : 0 < r.access_num_ f := by omega
    have hmh : f ∈ r.history_list_ := (inv.mem_hist f).mpr ⟨hpos, by omega⟩
    have hnc : f ∉ r.cache_list_ := fun hm => inv.not_mem_both f hmh hm
    refine ⟨hcount _ rfl, htimes, ?_, ?_, hflags⟩
    · show (r.history_list_.erase f).Pairwise _
      apply pairwise_of_agree_on (ag.hist_sorted.sublist (List.erase_sublist _ _))
      intro g hg
      exact hfirst g ((inv.hist_nodup.mem_erase_iff.mp hg).1)
    · show (f :: r.cache_list_).Pairwise _
      rw [List.pairwise_cons]
      refine ⟨?_, ?_⟩
      · intro g hg
        have hgf : g ≠ f := fun e => hnc (e ▸ hg)
        rw [hlastf, hlast g hgf]
        exact ag.last_lt g (hcache_tracked g hg)
      · apply pairwise_of_agree_on ag.cache_sorted
        intro g hg
        exact hlast g (fun e => hnc (e ▸ hg))
  · rw [e] at h; cases h
    have hmc : f ∈ r.cache_list_ := (inv.mem_cache f).mpr (by omega)
    have hnh : f ∉ r.history_list_ := fun hm => inv.not_mem_both f hm hmc
    refine ⟨hcount _ rfl, htimes, ?_, ?_, hflags⟩
    · apply pairwise_of_agree_on ag.hist_sorted
      intro g hg
      exact hfirst g (fun e => hnh (e ▸ hg))
    · show (f :: r.cache_list_.erase f).Pairwise _
      rw [List.pairwise_cons]
      refine ⟨?_, ?_⟩
      · intro g hg
        have hg2 := inv.cache_nodup.mem_erase_iff.mp hg
        rw [hlastf, hlast g hg2.1]
        exact ag.last_lt g (hcache_tracked g hg2.2)
      · apply pairwise_of_agree_on (ag.cache_sorted.sublist (List.erase_sublist _ _))
        intro g hg
        exact hlast g ((inv.cache_nodup.mem_erase_iff.mp hg).1)

theorem LRUKReplacer.Agrees_Evict {r : LRUKReplacer} {log : List ReplacerEvent}
    (inv : r.Inv) (ag : r.Agrees log) (v : Int) (h : r.Evict.2 = some v) :
    r.Evict.1.Agrees (ReplacerEvent.evicted v :: log) := by
  rcases r.Evict_cases with ⟨_, e⟩ | ⟨_, w, hf, e⟩ | ⟨_, _, w, hf, e⟩ | ⟨_, _, _, e⟩
  · rw [e] at h; cases h
  · rw [e] at h ⊢
    cases h
    exact r.Agrees_dropped inv ag _ v _ (Or.inr rfl) (Or.inl ⟨rfl, (find?_reverse_some hf).1⟩)
  · rw [e] at h ⊢
    cases h
    exact r.Agrees_dropped inv ag _ v _ (Or.inr rfl) (Or.inr ⟨rfl, (find?_reverse_some hf).1⟩)
  · rw [e] at h; cases h

theorem LRUKReplacer.call_recordAccess (s : LRUKReplacer × List ReplacerEvent) (f : Int) :
    LRUKReplacer.call s (ReplacerCall.recordAccess f) =
      match s.1.RecordAccess f with
      | Except.ok r => (r, ReplacerEvent.accessed f :: s.2)
      | Except.error _ => s := rfl

theorem LRUKReplacer.call_setEvictable (s : LRUKReplacer × List ReplacerEvent) (f : Int)
    (b : Bool) :
    LRUKReplacer.call s (ReplacerCall.setEvictable f b) =
      match s.1.SetEvictable f b with
      | Except.ok r => (r, ReplacerEvent.flagged f b :: s.2)
      | Except.error _ => s := rfl

theorem LRUKReplacer.call_remove (s : LRUKReplacer × List ReplacerEvent) (f : Int) :
    LRUKReplacer.call s (ReplacerCall.remove f) =
      match s.1.Remove f with
      | Except.ok r => (r, ReplacerEvent.removed f :: s.2)
      | Except.error _ => s := rfl

theorem LRUKReplacer.call_evict (s : LRUKReplacer × List ReplacerEvent) :
    LRUKReplacer.call s ReplacerCall.evict =
      match s.1.Evict with
      | (r, some f) => (r, ReplacerEvent.evicted f :: s.2)
      | (_, none) => s := rfl

theorem LRUKReplacer.call_invariant (s : LRUKReplacer × List ReplacerEvent) (c : ReplacerCall)
    (inv : s.1.Inv) (ag : s.1.Agrees s.2) :
    (LRUKReplacer.call s c).1.Inv ∧ (LRUKReplacer.call s c).1.Agrees (LRUKReplacer.call s c).2 := by
  cases c with
  | recordAccess f =>
    rw [LRUKReplacer.call_recordAccess]
    cases h : s.1.RecordAccess f with
    | ok r => exact ⟨LRUKReplacer.RecordAccess_Inv inv f h, LRUKReplacer.Agrees_RecordAccess inv ag f h⟩
    | error _ => exact ⟨inv, ag⟩
  | setEvictable f b =>
    rw [LRUKReplacer.call_setEvictable]
    cases h : s.1.SetEvictable f b with
    | ok r =>
      exact ⟨LRUKReplacer.SetEvictable_Inv inv f b h, LRUKReplacer.Agrees_SetEvictable inv ag f b h⟩
    | error _ => exact ⟨inv, ag⟩
  | remove f =>
    rw [LRUKReplacer.call_remove]
    cases h : s.1.Remove f with
    | ok r => exact ⟨LRUKReplacer.Remove_Inv inv f h, LRUKReplacer.Agrees_Remove inv ag f h⟩
    | error _ => exact ⟨inv, ag⟩
  | evict =>
    rw [LRUKReplacer.call_evict]
    have hi := LRUKReplacer.Evict_Inv inv
    cases h : s.1.Evict with
    | mk r o =>
      cases o with
      | none => exact ⟨inv, ag⟩
      | some v =>
        have ha := LRUKReplacer.Agrees_Evict inv ag v (by rw [h])
        rw [h] at hi ha
        exact ⟨hi, ha⟩

theorem LRUKReplacer.foldl_invariant (calls : List ReplacerCall)
    (s : LRUKReplacer × List ReplacerEvent) (inv : s.1.Inv) (ag : s.1.Agrees s.2) :
    (calls.foldl LRUKReplacer.call s).1.Inv ∧
      (calls.foldl LRUKReplacer.call s).1.Agrees (calls.foldl LRUKReplacer.call s).2 := by
  induction calls generalizing s with
  | nil => exact ⟨inv, ag⟩
  | cons c rest ih =>
    have := LRUKReplacer.call_invariant s c inv ag
    exact ih _ this.1 this.2

theorem LRUKReplacer.new_Agrees (num_frames k : Nat) :
    (LRUKReplacer.new num_frames k).Agrees [] :=
  ⟨fun _ => rfl, fun _ _ h => (by cases h), List.Pairwise.nil, List.Pairwise.nil, fun _ => rfl⟩

theorem LRUKReplacer.play_invariant (num_frames k : Nat) (calls : List ReplacerCall)
    (hk : 2 ≤ k) :
    (LRUKReplacer.play num_frames k calls).1.Inv ∧
      (LRUKReplacer.play num_frames k calls).1.Agrees (LRUKReplacer.play num_frames k calls).2 :=
  LRUKReplacer.foldl_invariant calls _ (LRUKReplacer.new_Inv num_frames k hk)
    (LRUKReplacer.new_Agrees num_frames k)

/-! ## LRU-K replacer: claims -/

theorem find?_reverse_sorted {key : Int → Nat} {p : Int → Bool} {l : List Int} {v : Int}
    (hs : l.Pairwise (fun a b => key b < key a)) (h : l.reverse.find? p = some v) :
    ∀ g ∈ l, p g = true → g ≠ v → key v < key g := by
  induction l with
  | nil => intro g hg; cases hg
  | cons a rest ih =>
    rw [List.pairwise_cons] at hs
    rw [List.reverse_cons, List.find?_append] at h
    intro g hg hp hne
    cases hr : rest.reverse.find? p with
    | some w =>
      rw [hr] at h
      simp only [Option.or_some, Option.some.injEq] at h
      subst h
      rcases List.mem_cons.mp hg with rfl | hg2
      · exact hs.1 w (List.mem_reverse.mp (List.mem_of_find?_eq_some hr))
      · exact ih hs.2 hr g hg2 hp hne
    | none =>
      rw [hr] at h
      simp only [Option.none_or] at h
      have hva : v = a := by
        have := List.mem_of_find?_eq_some h
        simpa using this
      rcases List.mem_cons.mp hg with rfl | hg2
      · exact absurd hva.symm hne
      · exact absurd hp (List.find?_eq_none.mp hr g (List.mem_reverse.mpr hg2))

theorem find?_reverse_exists {p : Int → Bool} {l : List Int} {g : Int} (hg : g ∈ l)
    (hp : p g = true) : ∃ v, l.reverse.find? p = some v := by
  cases h : l.reverse.find? p with
  | some v => exact ⟨v, rfl⟩
  | none => exact absurd hp (List.find?_eq_none.mp h g (List.mem_reverse.mpr hg))

theorem LRUKReplacer.Inv.size_pos {r : LRUKReplacer} (inv : r.Inv) (f : Int)
    (hp : r.is_evictable_ f = true) : r.curr_size_ ≠ 0 := by
  have hmem := (inv.mem_lists f).mpr (inv.evictable_tracked f hp)
  rw [inv.size_eq]
  exact Nat.pos_iff_ne_zero.mp (List.countP_pos_iff.mpr ⟨f, hmem, hp⟩)

theorem LRUKReplacer.RecordAccess_k {r r2 : LRUKReplacer} (f : Int)
    (h : r.RecordAccess f = Except.ok r2) : r2.k_ = r.k_ := by
  dsimp only [LRUKReplacer.RecordAccess] at h
  split_ifs at h <;> cases h <;> rfl

theorem LRUKReplacer.SetEvictable_k {r r2 : LRUKReplacer} (f : Int) (b : Bool)
    (h : r.SetEvictable f b = Except.ok r2) : r2.k_ = r.k_ := by
  dsimp only [LRUKReplacer.SetEvictable] at h
  split_ifs at h <;> cases h <;> rfl

theorem LRUKReplacer.Remove_k {r r2 : LRUKReplacer} (f : Int)
    (h : r.Remove f = Except.ok r2) : r2.k_ = r.k_ := by
  dsimp only [LRUKReplacer.Remove] at h
  split_ifs at h <;> cases h <;> rfl

theorem LRUKReplacer.Evict_k (r : LRUKReplacer) : r.Evict.1.k_ = r.k_ := by
  rcases r.Evict_cases with ⟨_, h⟩ | ⟨_, v, _, h⟩ | ⟨_, _, v, _, h⟩ | ⟨_, _, _, h⟩ <;> rw [h] <;> rfl

theorem LRUKReplacer.call_k (s : LRUKReplacer × List ReplacerEvent) (c : ReplacerCall) :
    (LRUKReplacer.call s c).1.k_ = s.1.k_ := by
  cases c with
  | recordAccess f =>
    rw [LRUKReplacer.call_recordAccess]
    cases h : s.1.RecordAccess f with
    | ok r => exact LRUKReplacer.RecordAccess_k f h
    | error _ => rfl
  | setEvictable f b =>
    rw [LRUKReplacer.call_setEvictable]
    cases h : s.1.SetEvictable f b with
    | ok r => exact LRUKReplacer.SetEvictable_k f b h
    | error _ => rfl
  | remove f =>
    rw [LRUKReplacer.call_remove]
    cases h : s.1.Remove f with
    | ok r => exact LRUKReplacer.Remove_k f h
    | error _ => rfl
  | evict =>
    rw [LRUKReplacer.call_evict]
    have hk := s.1.Evict_k
    cases h : s.1.Evict with
    | mk r o =>
      rw [h] at hk
      cases o with
      | none => rfl
      | some v => exact hk

theorem LRUKReplacer.foldl_k (calls : List ReplacerCall) (s : LRUKReplacer × List ReplacerEvent) :
    (calls.foldl LRUKReplacer.call s).1.k_ = s.1.k_ := by
  induction calls generalizing s with
  | nil => rfl
  | cons c rest ih => exact (ih _).trans (LRUKReplacer.call_k s c)

/-- C5: victim policy of `Evict` for `K ≥ 2`, after any sequence of calls on a
fresh replacer (`r` is the state reached, `log` the completed calls).
If some evictable frame has fewer than `K` accesses recorded since it was last
evicted or removed, `Evict` returns the one of those frames whose first such
access is the oldest (so never a frame with `K` or more accesses); if there are
evictable frames and all of them have at least `K` accesses, it returns the one
whose most recent access is the oldest. -/
theorem LRUKReplacer.Evict_victim_policy (num_frames k : Nat) (calls : List ReplacerCall)
    (r : LRUKReplacer) (log : List ReplacerEvent) (hk : 2 ≤ k)
    (hplay : LRUKReplacer.play num_frames k calls = (r, log)) :
    ((∃ f, r.is_evictable_ f = true ∧ accessCount log f < k) →
      ∃ v, r.Evict.2 = some v ∧ r.is_evictable_ v = true ∧ accessCount log v < k ∧
        ∀ g, r.is_evictable_ g = true → accessCount log g < k → g ≠ v →
          firstAccess log v < firstAccess log g) ∧
    ((∃ f, r.is_evictable_ f = true) →
      (∀ f, r.is_evictable_ f = true → k ≤ accessCount log f) →
      ∃ v, r.Evict.2 = some v ∧ r.is_evictable_ v = true ∧
        ∀ g, r.is_evictable_ g = true → g ≠ v → lastAccess log v < lastAccess log g) := by
  have hinv := LRUKReplacer.play_invariant num_frames k calls hk
  have hkeq : (LRUKReplacer.play num_frames k calls).1.k_ = k :=
    LRUKReplacer.foldl_k calls _
  rw [hplay] at hinv hkeq
  obtain ⟨inv, ag⟩ := hinv
  have hkeq : r.k_ = k := hkeq
  have hhist : ∀ g, r.is_evictable_ g = true → accessCount log g < k → g ∈ r.history_list_ :=
    fun g hp hc => (inv.mem_hist g).mpr
      ⟨inv.evictable_tracked g hp, by rw [ag.count_eq, hkeq]; exact hc⟩
  constructor
  · rintro ⟨f, hp, hc⟩
    obtain ⟨v, hv⟩ := find?_reverse_exists (p := fun frame => r.is_evictable_ frame)
      (hhist f hp hc) hp
    obtain ⟨hvm, hvp⟩ := find?_reverse_some hv
    have hvc : accessCount log v < k := by
      have := ((inv.mem_hist v).mp hvm).2
      rw [ag.count_eq, hkeq] at this
      exact this
    refine ⟨v, ?_, hvp, hvc, ?_⟩
    · rcases r.Evict_cases with ⟨h0, _⟩ | ⟨_, w, hw, e⟩ | ⟨_, hn, _⟩ | ⟨_, hn, _⟩
      · exact absurd h0 (inv.size_pos f hp)
      · rw [e]; rw [hv] at hw; exact hw.symm
      · rw [hv] at hn; cases hn
      · rw [hv] at hn; cases hn
    · intro g hgp hgc hne
      exact find?_reverse_sorted ag.hist_sorted hv g (hhist g hgp hgc) hgp hne
  · rintro ⟨f, hp⟩ hall
    have hcache : ∀ g, r.is_evictable_ g = true → g ∈ r.cache_list_ := fun g hg =>
      (inv.mem_cache g).mpr (by rw [ag.count_eq, hkeq]; exact hall g hg)
    have hnone : r.history_list_.reverse.find? (fun frame => r.is_evictable_ frame) = none := by
      rw [List.find?_eq_none]
      intro x hx hxp
      exact inv.not_mem_both x (List.mem_reverse.mp hx) (hcache x hxp)
    obtain ⟨v, hv⟩ := find?_reverse_exists (p := fun frame => r.is_evictable_ frame)
      (hcache f hp) hp
    obtain ⟨hvm, hvp⟩ := find?_reverse_some hv
    refine ⟨v, ?_, hvp, ?_⟩
    · rcases r.Evict_cases with ⟨h0, _⟩ | ⟨_, w, hw, _⟩ | ⟨_, _, w, hw, e⟩ | ⟨_, _, hn, _⟩
      · exact absurd h0 (inv.size_pos f hp)
      · rw [hnone] at hw; cases hw
      · rw [e]; rw [hv] at hw; exact hw.symm
      · rw [hv] at hn; cases hn
    · intro g hgp hne
      exact find?_reverse_sorted ag.cache_sorted hv g (hcache g hgp) hgp hne

theorem LRUKReplacer.Evict_victim_policy_witness :
    2 ≤ 2 ∧
    LRUKReplacer.play 7 2 callsThreeFrames
      = ((LRUKReplacer.play 7 2 callsThreeFrames).1, (LRUKReplacer.play 7 2 callsThreeFrames).2) ∧
    ∃ v, (LRUKReplacer.play 7 2 callsThreeFrames).1.Evict.2 = some v ∧
      (LRUKReplacer.play 7 2 callsThreeFrames).1.is_evictable_ v = true ∧
      accessCount (LRUKReplacer.play 7 2 callsThreeFrames).2 v < 2 ∧
      ∀ g, (LRUKReplacer.play 7 2 callsThreeFrames).1.is_evictable_ g = true →
        accessCount (LRUKReplacer.play 7 2 callsThreeFrames).2 g < 2 → g ≠ v →
        firstAccess (LRUKReplacer.play 7 2 callsThreeFrames).2 v
          < firstAccess (LRUKReplacer.play 7 2 callsThreeFrames).2 g :=
  ⟨by decide, rfl,
    (LRUKReplacer.Evict_victim_policy 7 2 callsThreeFrames _ _ (by decide) rfl).1
      ⟨2, by decide, by decide⟩⟩

theorem LRUKReplacer.Inv.size_eq_ncard {r : LRUKReplacer} (inv : r.Inv) :
    r.curr_size_ = Set.ncard {f : Int | r.is_evictable_ f = true} := by
  have hset : {f : Int | r.is_evictable_ f = true}
      = ↑((r.history_list_ ++ r.cache_list_).filter r.is_evictable_).toFinset := by
    ext f
    simp only [Set.mem_setOf_eq, List.coe_toFinset, List.mem_filter]
    exact ⟨fun h => ⟨(inv.mem_lists f).mpr (inv.evictable_tracked f h), h⟩, fun h => h.2⟩
  rw [hset, Set.ncard_coe_Finset, List.toFinset_card_of_nodup (inv.nodup_append.filter _),
    ← List.countP_eq_length_filter]
  exact inv.size_eq

/-- C6 (as stated, refuted): after `RecordAccess(0); SetEvictable(0, true);
Evict; SetEvictable(0, true)` the replacer has size 0, while exactly one frame
(frame 0) has `SetEvictable(f, true)` as its latest `SetEvictable` call, made
after a `RecordAccess(f)` and with no later `Remove(f)` or eviction of `f`. -/
theorem LRUKReplacer.Size_latest_call_counterexample :
    (LRUKReplacer.play 1 2 callsAfterEviction).1.Size = 0 ∧
    Set.ncard {f : Int |
      evictableByLatestCall (LRUKReplacer.play 1 2 callsAfterEviction).2 f = true} = 1 := by
  refine ⟨rfl, ?_⟩
  have hlog : (LRUKReplacer.play 1 2 callsAfterEviction).2 =
      [ReplacerEvent.flagged 0 true, ReplacerEvent.evicted 0, ReplacerEvent.flagged 0 true,
        ReplacerEvent.accessed 0] := by decide
  have hset : {f : Int |
      evictableByLatestCall (LRUKReplacer.play 1 2 callsAfterEviction).2 f = true} = {0} := by
    ext f
    rw [hlog]
    by_cases hf : (0 : Int) = f
    · subst hf
      simp [evictableByLatestCall, everAccessed]
    · have hf2 : ¬ f = 0 := fun e => hf e.symm
      simp [evictableByLatestCall, hf, hf2]
  rw [hset, Set.ncard_singleton]

/-- C6 (amended): for `K ≥ 2`, after any sequence of calls on a fresh replacer,
`Size()` is the number of frames whose latest `SetEvictable(f, ·)` call was
`SetEvictable(f, true)`, made when `f` had at least one `RecordAccess(f)` since
it was last evicted or removed, with no `Remove(f)` or eviction of `f` since
that call; it is also the number of frames whose evictable flag is set (so the
`size_t` counter never wraps below zero). -/
theorem LRUKReplacer.Size_counts_evictable (num_frames k : Nat) (calls : List ReplacerCall)
    (r : LRUKReplacer) (log : List ReplacerEvent) (hk : 2 ≤ k)
    (hplay : LRUKReplacer.play num_frames k calls = (r, log)) :
    r.Size = Set.ncard {f : Int | evictableSpec log f = true} ∧
    r.Size = Set.ncard {f : Int | r.is_evictable_ f = true} := by
  have hinv := LRUKReplacer.play_invariant num_frames k calls hk
  rw [hplay] at hinv
  obtain ⟨inv, ag⟩ := hinv
  have inv : r.Inv := inv
  have ag : r.Agrees log := ag
  have hset : {f : Int | evictableSpec log f = true} = {f : Int | r.is_evictable_ f = true} := by
    ext f
    show evictableSpec log f = true ↔ r.is_evictable_ f = true
    rw [ag.flag_eq f]
  rw [hset]
  exact ⟨inv.size_eq_ncard, inv.size_eq_ncard⟩

theorem LRUKReplacer.Size_counts_evictable_witness :
    2 ≤ 2 ∧
    LRUKReplacer.play 7 2 callsThreeFrames
      = ((LRUKReplacer.play 7 2 callsThreeFrames).1, (LRUKReplacer.play 7 2 callsThreeFrames).2) ∧
    (LRUKReplacer.play 7 2 callsThreeFrames).1.Size = 3 ∧
    Set.ncard {f : Int | evictableSpec (LRUKReplacer.play 7 2 callsThreeFrames).2 f = true} = 3 :=
  ⟨by decide, rfl, rfl,
    (LRUKReplacer.Size_counts_evictable 7 2 callsThreeFrames _ _ (by decide) rfl).1.symm.trans rfl⟩

/-- C7 (failing input): on a replacer of size 3 the frame id 3 passes the bound
check of all three operations: `RecordAccess(3)` tracks the frame,
`SetEvictable(3, true)` raises the size to 1 and `Remove(3)` removes it again,
none of them throwing. -/
theorem LRUKReplacer.bound_check_accepts_replacer_size :
    ∃ r1 r2 r3, (LRUKReplacer.new 3 2).RecordAccess 3 = Except.ok r1 ∧
      r1.history_list_ = [3] ∧ r1.access_num_ 3 = 1 ∧
      r1.SetEvictable 3 true = Except.ok r2 ∧ r2.Size = 1 ∧
      r2.Remove 3 = Except.ok r3 ∧ r3.Size = 0 ∧ r3.history_list_ = [] :=
  ⟨_, _, _, rfl, rfl, rfl, rfl, rfl, rfl, rfl, rfl⟩

/-! ## Buffer pool manager: what it needs from its parts -/

theorem ExtendibleHashTable.split_bucket_size {K V : Type} (hash : K → Nat)
    (t : ExtendibleHashTable K V) (key : K) :
    (t.split hash key).bucket_size_ = t.bucket_size_ := by
  dsimp only [ExtendibleHashTable.split]
  split_ifs <;> rfl

theorem ExtendibleHashTable.store_bucket_size {K V : Type} [DecidableEq K] (hash : K → Nat)
    (t : ExtendibleHashTable K V) (key : K) (value : V) :
    (t.store hash key value).bucket_size_ = t.bucket_size_ := by
  cases hov : overwrite (t.bucketAt (t.IndexOf hash key)).list_ key value with
  | some items => rw [t.store_of_some hash key value items hov]; rfl
  | none => rw [t.store_of_none hash key value hov]; rfl

theorem ExtendibleHashTable.Insert_bucket_size {K V : Type} [DecidableEq K] (hash : K → Nat)
    (fuel : Nat) (t t2 : ExtendibleHashTable K V) (key : K) (value : V)
    (h : t.Insert hash fuel key value = some t2) : t2.bucket_size_ = t.bucket_size_ := by
  induction fuel generalizing t with
  | zero =>
    cases hf : (t.bucketAt (t.IndexOf hash key)).IsFull
    · rw [t.Insert_of_not_full hash key value _ hf] at h
      cases h
      exact t.store_bucket_size hash key value
    · unfold ExtendibleHashTable.Insert at h
      simp [hf] at h
  | succ n ih =>
    cases hf : (t.bucketAt (t.IndexOf hash key)).IsFull
    · rw [t.Insert_of_not_full hash key value _ hf] at h
      cases h
      exact t.store_bucket_size hash key value
    · rw [t.Insert_of_full hash key value n hf] at h
      exact (ih _ h).trans (t.split_bucket_size hash key)

theorem LRUKReplacer.RecordAccess_size {r r2 : LRUKReplacer} (f : Int)
    (h : r.RecordAccess f = Except.ok r2) : r2.replacer_size_ = r.replacer_size_ := by
  dsimp only [LRUKReplacer.RecordAccess] at h
  split_ifs at h <;> cases h <;> rfl

theorem LRUKReplacer.RecordAccess_flags {r r2 : LRUKReplacer} (f : Int)
    (h : r.RecordAccess f = Except.ok r2) : r2.is_evictable_ = r.is_evictable_ := by
  dsimp only [LRUKReplacer.RecordAccess] at h
  split_ifs at h <;> cases h <;> rfl

theorem LRUKReplacer.RecordAccess_access {r r2 : LRUKReplacer} (f : Int)
    (h : r.RecordAccess f = Except.ok r2) :
    r2.access_num_ = Function.update r.access_num_ f (r.access_num_ f + 1) := by
  dsimp only [LRUKReplacer.RecordAccess] at h
  split_ifs at h <;> cases h <;> rfl

theorem LRUKReplacer.RecordAccess_ok {r : LRUKReplacer} (inv : r.Inv) (f : Int)
    (hf : f ≤ r.replacer_size_) : ∃ r2, r.RecordAccess f = Except.ok r2 := by
  rcases r.RecordAccess_cases inv f with ⟨h, _⟩ | ⟨_, _, e⟩ | ⟨_, _, _, e⟩ | ⟨_, _, e⟩ | ⟨_, _, e⟩
  · omega
  all_goals exact ⟨_, e⟩

/-- The pair `RecordAccess(f); SetEvictable(f, false)` on an in-range frame:
it returns, the frame is tracked and not evictable afterwards, and no other
frame changes its flag or access count. -/
theorem LRUKReplacer.pin_spec {r : LRUKReplacer} (inv : r.Inv) (f : Int)
    (hf : f ≤ r.replacer_size_) :
    ∃ r2, r.pin f = Except.ok r2 ∧ r2.Inv ∧ r2.replacer_size_ = r.replacer_size_ ∧
      r2.k_ = r.k_ ∧
      r2.is_evictable_ = Function.update r.is_evictable_ f false ∧
      r2.access_num_ = Function.update r.access_num_ f (r.access_num_ f + 1) := by
  obtain ⟨r1, h1⟩ := r.RecordAccess_ok inv f hf
  have inv1 := LRUKReplacer.RecordAccess_Inv inv f h1
  have hs1 := LRUKReplacer.RecordAccess_size f h1
  have hfl1 := LRUKReplacer.RecordAccess_flags f h1
  have hac1 := LRUKReplacer.RecordAccess_access f h1
  have hk1 := LRUKReplacer.RecordAccess_k f h1
  have hpos : 0 < r1.access_num_ f := by rw [hac1, Function.update_same]; omega
  rcases r1.SetEvictable_cases f false with ⟨h, _⟩ | ⟨_, h0, _⟩ | ⟨_, _, e⟩
  · omega
  · omega
  · refine ⟨_, ?_, LRUKReplacer.SetEvictable_Inv inv1 f false e, hs1, hk1, ?_, hac1⟩
    · unfold LRUKReplacer.pin
      rw [h1]
      exact e
    · show Function.update r1.is_evictable_ f false = _
      rw [hfl1]

/-- What `Evict` does to the flags and counts when it returns a frame. -/
theorem LRUKReplacer.Evict_some_spec {r r2 : LRUKReplacer} (inv : r.Inv) (v : Int)
    (h : r.Evict = (r2, some v)) :
    r2.Inv ∧ r2.replacer_size_ = r.replacer_size_ ∧ r2.k_ = r.k_ ∧
      r.is_evictable_ v = true ∧
      r2.is_evictable_ = Function.update r.is_evictable_ v false ∧
      r2.access_num_ = Function.update r.access_num_ v 0 := by
  have hinv := LRUKReplacer.Evict_Inv inv
  rw [h] at hinv
  rcases r.Evict_cases with ⟨_, e⟩ | ⟨_, w, hw, e⟩ | ⟨_, _, w, hw, e⟩ | ⟨_, _, _, e⟩
  · rw [e] at h; cases h
  · rw [e] at h; cases h
    exact ⟨hinv, rfl, rfl, (find?_reverse_some hw).2, rfl, rfl⟩
  · rw [e] at h; cases h
    exact ⟨hinv, rfl, rfl, (find?_reverse_some hw).2, rfl, rfl⟩
  · rw [e] at h; cases h

/-- When `Evict` returns no frame, nothing is evictable and nothing changed. -/
theorem LRUKReplacer.Evict_none_spec {r r2 : LRUKReplacer} (inv : r.Inv)
    (h : r.Evict = (r2, none)) : r2 = r ∧ ∀ f, r.is_evictable_ f = false := by
  have hnone : ∀ f, r.history_list_.reverse.find? (fun frame => r.is_evictable_ frame) = none →
      r.cache_list_.reverse.find? (fun frame => r.is_evictable_ frame) = none →
      r.is_evictable_ f = false := by
    intro f hh hc
    cases hp : r.is_evictable_ f
    · rfl
    · exfalso
      have hmem := (inv.mem_lists f).mpr (inv.evictable_tracked f hp)
      rcases List.mem_append.mp hmem with hm | hm
      · exact List.find?_eq_none.mp hh f (List.mem_reverse.mpr hm) hp
      · exact List.find?_eq_none.mp hc f (List.mem_reverse.mpr hm) hp
  rcases r.Evict_cases with ⟨h0, e⟩ | ⟨_, w, hw, e⟩ | ⟨_, _, w, hw, e⟩ | ⟨_, hh, hc, e⟩
  · rw [e] at h; cases h
    refine ⟨rfl, fun f => ?_⟩
    cases hp : r.is_evictable_ f
    · rfl
    · exact absurd h0 (inv.size_pos f hp)
  · rw [e] at h; cases h
  · rw [e] at h; cases h
  · rw [e] at h; cases h
    exact ⟨rfl, fun f => hnone f hh hc⟩

/-- `Remove(f)` of an in-range frame that is evictable or untracked returns. -/
theorem LRUKReplacer.Remove_spec {r : LRUKReplacer} (inv : r.Inv) (f : Int)
    (hf : f ≤ r.replacer_size_) (he : r.is_evictable_ f = true ∨ r.access_num_ f = 0) :
    ∃ r2, r.Remove f = Except.ok r2 ∧ r2.Inv ∧ r2.replacer_size_ = r.replacer_size_ ∧
      r2.k_ = r.k_ ∧
      r2.is_evictable_ = Function.update r.is_evictable_ f false ∧
      r2.access_num_ = Function.update r.access_num_ f 0 := by
  rcases r.Remove_cases f with ⟨h, _⟩ | ⟨_, h0, e⟩ | ⟨_, hpos, hp, _⟩ | ⟨_, hpos, hp, e⟩
  · omega
  · have hflag : r.is_evictable_ f = false := by
      cases hp : r.is_evictable_ f
      · rfl
      · have := inv.evictable_tracked f hp; omega
    refine ⟨r, e, inv, rfl, rfl, ?_, ?_⟩
    · rw [← hflag, Function.update_eq_self]
    · rw [← h0, Function.update_eq_self]
  · rcases he with he | he
    · rw [he] at hp; cases hp
    · omega
  · exact ⟨_, e, LRUKReplacer.Remove_Inv inv f e, rfl, rfl, rfl, rfl⟩

/-- `SetEvictable(f, true)` on an in-range tracked frame sets its flag. -/
theorem LRUKReplacer.SetEvictable_spec {r : LRUKReplacer} (inv : r.Inv) (f : Int) (b : Bool)
    (hf : f ≤ r.replacer_size_) (ht : 0 < r.access_num_ f) :
    ∃ r2, r.SetEvictable f b = Except.ok r2 ∧ r2.Inv ∧ r2.replacer_size_ = r.replacer_size_ ∧
      r2.k_ = r.k_ ∧
      r2.is_evictable_ = Function.update r.is_evictable_ f b ∧
      r2.access_num_ = r.access_num_ := by
  rcases r.SetEvictable_cases f b with ⟨h, _⟩ | ⟨_, h0, _⟩ | ⟨_, _, e⟩
  · omega
  · omega
  · exact ⟨_, e, LRUKReplacer.SetEvictable_Inv inv f b e, rfl, rfl, rfl, rfl⟩

/-! ### Claim C20: `Evict` succeeds exactly when a frame is evictable -/

/-- On a replacer that satisfies the invariant, `Evict` returns a frame when the
size is not 0. -/
theorem LRUKReplacer.Evict_some_of_size {r : LRUKReplacer} (inv : r.Inv) (h : 0 < r.Size) :
    ∃ f, r.Evict.2 = some f := by
  have hpos : 0 < (r.history_list_ ++ r.cache_list_).countP r.is_evictable_ := by
    rw [← inv.size_eq]; exact h
  obtain ⟨g, hg, hp⟩ := List.countP_pos_iff.mp hpos
  rcases r.Evict_cases with ⟨h0, _⟩ | ⟨_, v, _, e⟩ | ⟨_, _, v, _, e⟩ | ⟨_, hh, hc, _⟩
  · exact absurd h0 (Nat.pos_iff_ne_zero.mp h)
  · exact ⟨v, by rw [e]⟩
  · exact ⟨v, by rw [e]⟩
  · exfalso
    rcases List.mem_append.mp hg with hg | hg
    · obtain ⟨v, hv⟩ := find?_reverse_exists (p := fun frame => r.is_evictable_ frame) hg hp
      rw [hh] at hv; cases hv
    · obtain ⟨v, hv⟩ := find?_reverse_exists (p := fun frame => r.is_evictable_ frame) hg hp
      rw [hc] at hv; cases hv

/-- What a successful `Evict` does to the size. -/
theorem LRUKReplacer.Evict_some_size {r r2 : LRUKReplacer} {f : Int}
    (h : r.Evict = (r2, some f)) : r2.Size + 1 = r.Size ∧ r2.access_num_ f = 0 := by
  have hdec : ∀ n : Nat, n ≠ 0 → size_t_decrement n + 1 = n := by
    intro n hn
    unfold size_t_decrement
    rw [if_neg hn]
    omega
  rcases r.Evict_cases with ⟨_, e⟩ | ⟨h0, v, _, e⟩ | ⟨h0, _, v, _, e⟩ | ⟨_, _, _, e⟩
  · rw [e] at h; cases h
  · rw [e] at h; cases h
    exact ⟨hdec _ h0, Function.update_same _ _ _⟩
  · rw [e] at h; cases h
    exact ⟨hdec _ h0, Function.update_same _ _ _⟩
  · rw [e] at h; cases h

/-- Claim C20: for `K ≥ 2`, in the state `r` reached by any sequence of calls on
a fresh replacer, `Evict` returns a frame exactly when `Size() > 0`; a returned
frame had its evictable flag set, and afterwards `Size()` is smaller by 1, the
access count of the frame is 0, its flag is cleared and it is in neither list;
an `Evict` that returns no frame leaves the state as it is. -/
theorem LRUKReplacer.Evict_succeeds_iff_size_pos (num_frames k : Nat)
    (calls : List ReplacerCall) (r : LRUKReplacer) (log : List ReplacerEvent) (hk : 2 ≤ k)
    (hplay : LRUKReplacer.play num_frames k calls = (r, log)) :
    ((∃ f, r.Evict.2 = some f) ↔ 0 < r.Size) ∧
    (∀ r2 f, r.Evict = (r2, some f) →
      r.is_evictable_ f = true ∧ r2.Size + 1 = r.Size ∧ r2.access_num_ f = 0 ∧
      r2.is_evictable_ f = false ∧ f ∉ r2.history_list_ ∧ f ∉ r2.cache_list_) ∧
    (∀ r2, r.Evict = (r2, none) → r2 = r) := by
  have hinv := (LRUKReplacer.play_invariant num_frames k calls hk).1
  rw [hplay] at hinv
  have inv : r.Inv := hinv
  refine ⟨⟨?_, LRUKReplacer.Evict_some_of_size inv⟩, ?_, ?_⟩
  · rintro ⟨f, hf⟩
    rcases r.Evict_cases with ⟨_, e⟩ | ⟨h0, _⟩ | ⟨h0, _⟩ | ⟨_, _, _, e⟩
    · rw [e] at hf; cases hf
    · exact Nat.pos_of_ne_zero h0
    · exact Nat.pos_of_ne_zero h0
    · rw [e] at hf; cases hf
  · intro r2 f h
    obtain ⟨inv2, _, _, hflag, hflags, hacc⟩ := LRUKReplacer.Evict_some_spec inv f h
    obtain ⟨hsize, hzero⟩ := LRUKReplacer.Evict_some_size h
    refine ⟨hflag, hsize, hzero, ?_, ?_, ?_⟩
    · rw [hflags]; exact Function.update_same _ _ _
    · intro hm
      have := ((inv2.mem_hist f).mp hm).1
      rw [hzero] at this
      exact absurd this (lt_irrefl 0)
    · intro hm
      have := (inv2.mem_cache f).mp hm
      have hk2 := inv2.k_ge
      rw [hzero] at this
      omega
  · intro r2 h
    exact (LRUKReplacer.Evict_none_spec inv h).1

/-- Claim C20 on the replacer with three evictable frames: `Evict` returns a
frame. -/
theorem LRUKReplacer.Evict_succeeds_iff_size_pos_witness :
    2 ≤ 2 ∧
    LRUKReplacer.play 7 2 callsThreeFrames
      = ((LRUKReplacer.play 7 2 callsThreeFrames).1, (LRUKReplacer.play 7 2 callsThreeFrames).2) ∧
    0 < (LRUKReplacer.play 7 2 callsThreeFrames).1.Size ∧
    ∃ f, (LRUKReplacer.play 7 2 callsThreeFrames).1.Evict.2 = some f :=
  ⟨by decide, rfl, by decide,
    (LRUKReplacer.Evict_succeeds_iff_size_pos 7 2 callsThreeFrames _ _ (by decide) rfl).1.mpr
      (by decide)⟩

/-! ### Claim C18: the two lists partition the tracked frames -/

/-- For `K ≥ 2` the lists partition the tracked frames by access count: after
any sequence of calls on a fresh replacer the history list holds exactly the
frames with at least one and fewer than `K` recorded accesses, the cache list
exactly the frames with `K` or more, no frame occurs twice, and a frame with
access count 0 is in neither list. -/
theorem LRUKReplacer.lists_partition_tracked (num_frames k : Nat) (calls : List ReplacerCall)
    (r : LRUKReplacer) (log : List ReplacerEvent) (hk : 2 ≤ k)
    (hplay : LRUKReplacer.play num_frames k calls = (r, log)) :
    (∀ f, f ∈ r.history_list_ ↔ 0 < r.access_num_ f ∧ r.access_num_ f < k) ∧
    (∀ f, f ∈ r.cache_list_ ↔ k ≤ r.access_num_ f) ∧
    (r.history_list_ ++ r.cache_list_).Nodup ∧
    (∀ f, r.access_num_ f = 0 → f ∉ r.history_list_ ∧ f ∉ r.cache_list_) := by
  have hinv := (LRUKReplacer.play_invariant num_frames k calls hk).1
  have hkeq := LRUKReplacer.foldl_k calls (LRUKReplacer.new num_frames k, [])
  rw [show calls.foldl LRUKReplacer.call (LRUKReplacer.new num_frames k, [])
    = LRUKReplacer.play num_frames k calls from rfl, hplay] at hkeq
  rw [hplay] at hinv
  have inv : r.Inv := hinv
  have hk2 : r.k_ = k := hkeq
  refine ⟨?_, ?_, inv.nodup_append, ?_⟩
  · intro f; rw [inv.mem_hist, hk2]
  · intro f; rw [inv.mem_cache, hk2]
  · intro f h0
    constructor
    · intro hm
      have := ((inv.mem_hist f).mp hm).1
      omega
    · intro hm
      have := (inv.mem_cache f).mp hm
      have := inv.k_ge
      omega

/-- Claim C18 fails for `K = 1` (failing input): the first `RecordAccess(0)`
puts frame 0 into the history list although it has `1 ≥ K` accesses, and after
`SetEvictable(0, true); Remove(0)`, which removes from the cache list because
the count is not below `K`, the frame is still in the history list with access
count 0. -/
theorem LRUKReplacer.partition_fails_for_k_one :
    ∃ r1 r2 r3, (LRUKReplacer.new 3 1).RecordAccess 0 = Except.ok r1 ∧
      r1.k_ = 1 ∧ r1.access_num_ 0 = 1 ∧ r1.history_list_ = [0] ∧ r1.cache_list_ = [] ∧
      r1.SetEvictable 0 true = Except.ok r2 ∧ r2.Remove 0 = Except.ok r3 ∧
      r3.access_num_ 0 = 0 ∧ r3.history_list_ = [0] :=
  ⟨_, _, _, rfl, rfl, rfl, rfl, rfl, rfl, rfl, rfl, rfl⟩

/-! ## Buffer pool manager: the invariant -/

theorem frameOf_set_same (pages : List Page) (f : Int) (p : Page) (h0 : 0 ≤ f)
    (hlt : f < pages.length) : frameOf (pages.set f.toNat p) f = p := by
  unfold frameOf
  rw [List.getD_eq_getElem?_getD, List.getElem?_set]
  have : f.toNat < pages.length := (Int.toNat_lt h0).mpr hlt
  simp [this]

theorem frameOf_set_other (pages : List Page) (f g : Int) (p : Page) (h0 : 0 ≤ f) (hg : 0 ≤ g)
    (hne : g ≠ f) : frameOf (pages.set f.toNat p) g = frameOf pages g := by
  unfold frameOf
  rw [List.getD_eq_getElem?_getD, List.getElem?_set]
  have : ¬ f.toNat = g.toNat := by
    intro e
    apply hne
    rw [← Int.toNat_of_nonneg h0, ← Int.toNat_of_nonneg hg, e]
  simp only [this, if_false]
  rw [← List.getD_eq_getElem?_getD]

theorem frameOf_set (pages : List Page) (f g : Int) (p : Page) (h0 : 0 ≤ f) (hg : 0 ≤ g)
    (hlt : f < pages.length) :
    frameOf (pages.set f.toNat p) g = if g = f then p else frameOf pages g := by
  by_cases h : g = f
  · rw [if_pos h, h]; exact frameOf_set_same pages f p h0 hlt
  · rw [if_neg h]; exact frameOf_set_other pages f g p h0 hg h

/-- A change of one resident frame that keeps its page id, together with a
change of the replacer that keeps the flag of the frame in step with its pin
count, keeps the invariant. -/
theorem PoolInv.update_frame {hash : Int → Nat} {n : Nat} {pages : List Page}
    {pt : ExtendibleHashTable Int Int} {r : LRUKReplacer} {free : List Int}
    (inv : PoolInv hash n pages pt r free) (f : Int) (pages2 : List Page) (r2 : LRUKReplacer)
    (hfree : f ∉ free)
    (hlen : pages2.length = n)
    (hother : ∀ g : Int, 0 ≤ g → g ≠ f → frameOf pages2 g = frameOf pages g)
    (hid : (frameOf pages2 f).page_id_ = (frameOf pages f).page_id_)
    (hinv2 : r2.Inv) (hsize : r2.replacer_size_ = n)
    (hflag_other : ∀ g, g ≠ f → r2.is_evictable_ g = r.is_evictable_ g)
    (hflag : r2.is_evictable_ f = true ↔
      (0 ≤ f ∧ f < n ∧ (frameOf pages2 f).pin_count_ = 0))
    (htracked : ∀ g, 0 < r.access_num_ g → 0 < r2.access_num_ g) :
    PoolInv hash n pages2 pt r2 free := by
  refine ⟨hlen, inv.pt_wf, hinv2, hsize, inv.free_range, inv.free_nodup, ?_, ?_, ?_, ?_⟩
  · intro g hg
    have hgf : g ≠ f := fun e => hfree (e ▸ hg)
    rw [hother g (inv.free_range g hg).1 hgf]
    exact inv.free_fresh g hg
  · intro p g hfind
    obtain ⟨h0, h1, h2, h3⟩ := inv.mapped p g hfind
    refine ⟨h0, h1, h2, ?_⟩
    by_cases hgf : g = f
    · rw [hgf, hid, ← hgf]; exact h3
    · rw [hother g h0 hgf]; exact h3
  · intro g
    by_cases hgf : g = f
    · subst hgf
      rw [hflag]
      exact ⟨fun h => ⟨h.1, h.2.1, hfree, h.2.2⟩, fun h => ⟨h.1, h.2.1, h.2.2.2⟩⟩
    · rw [hflag_other g hgf, inv.evictable_iff]
      constructor
      · rintro ⟨h0, h1, h2, h3⟩
        exact ⟨h0, h1, h2, by rw [hother g h0 hgf]; exact h3⟩
      · rintro ⟨h0, h1, h2, h3⟩
        exact ⟨h0, h1, h2, by rw [← hother g h0 hgf]; exact h3⟩
  · intro g h0 h1 h2
    exact htracked g (inv.tracked g h0 h1 h2)

/-- The frame array after the write-back of frame `v`: only the dirty flag of
`v` can have changed, and it is clear. -/
theorem BufferPoolManagerInstance.writeBack_pages (b : BufferPoolManagerInstance) (v : Int)
    (h0 : 0 ≤ v) (hlt : v < b.pages_.length) :
    (b.writeBack v).pages_.length = b.pages_.length ∧
    (∀ g : Int, 0 ≤ g → g ≠ v → frameOf (b.writeBack v).pages_ g = frameOf b.pages_ g) ∧
    frameOf (b.writeBack v).pages_ v = { (frameOf b.pages_ v) with is_dirty_ := false } := by
  show (if (b.pageAt v).is_dirty_ = true then _ else b.pages_).length = _ ∧
    (∀ g : Int, 0 ≤ g → g ≠ v →
      frameOf (if (b.pageAt v).is_dirty_ = true then _ else b.pages_) g = frameOf b.pages_ g) ∧
    frameOf (if (b.pageAt v).is_dirty_ = true then _ else b.pages_) v = _
  by_cases hd : (b.pageAt v).is_dirty_ = true
  · rw [if_pos hd]
    refine ⟨List.length_set _ _ _, ?_, ?_⟩
    · intro g hg hne
      exact frameOf_set_other _ _ _ _ h0 hg hne
    · exact frameOf_set_same _ _ _ h0 hlt
  · rw [if_neg hd]
    refine ⟨rfl, fun _ _ _ => rfl, ?_⟩
    have hd2 : (frameOf b.pages_ v).is_dirty_ = false := by
      simpa [BufferPoolManagerInstance.pageAt] using hd
    cases hp : frameOf b.pages_ v with
    | mk d pid pc dirty =>
      rw [hp] at hd2
      simp only at hd2
      subst hd2
      rfl

theorem BufferPoolManagerInstance.GetAvailableFrame_cases (hash : Int → Nat)
    (b : BufferPoolManagerInstance) :
    (∃ f rest, b.free_list_ = f :: rest ∧
      b.GetAvailableFrame hash = ({ b with free_list_ := rest }, some f)) ∨
    (b.free_list_ = [] ∧ ∃ r v, b.replacer_.Evict = (r, some v) ∧
      b.GetAvailableFrame hash =
        ({ (({ b with replacer_ := r } : BufferPoolManagerInstance).writeBack v) with
            page_table_ :=
              ((({ b with replacer_ := r } : BufferPoolManagerInstance).writeBack v).page_table_.Remove
                hash ((({ b with replacer_ := r } : BufferPoolManagerInstance).writeBack v).pageAt
                  v).page_id_).1 },
          some v)) ∨
    (b.free_list_ = [] ∧ ∃ r, b.replacer_.Evict = (r, none) ∧
      b.GetAvailableFrame hash = ({ b with replacer_ := r }, none)) := by
  unfold BufferPoolManagerInstance.GetAvailableFrame
  cases hfl : b.free_list_ with
  | cons f rest => left; exact ⟨f, rest, rfl, rfl⟩
  | nil =>
    right
    cases he : b.replacer_.Evict with
    | mk r o =>
      cases o with
      | some v => left; exact ⟨rfl, r, v, rfl, rfl⟩
      | none => right; exact ⟨rfl, r, rfl, rfl⟩

/-- Taking the front of the free list. -/
theorem PoolInv.take_free {hash : Int → Nat} {n : Nat} {pages : List Page}
    {pt : ExtendibleHashTable Int Int} {r : LRUKReplacer} {f : Int} {rest : List Int}
    (inv : PoolInv hash n pages pt r (f :: rest)) : PoolAcquired hash n pages pt r rest f := by
  have hnd := List.nodup_cons.mp inv.free_nodup
  refine ⟨inv.pages_len, inv.pt_wf, inv.rep_inv, inv.rep_size, ?_, hnd.2, ?_, ?_, hnd.1,
      ?_, ?_, ?_, ?_⟩
  · intro g hg; exact inv.free_range g (List.mem_cons_of_mem _ hg)
  · intro g hg; exact inv.free_fresh g (List.mem_cons_of_mem _ hg)
  · exact inv.free_range f (List.mem_cons_self _ _)
  · exact (inv.free_fresh f (List.mem_cons_self _ _)).2.2
  · intro p g hfind
    obtain ⟨h0, h1, h2, h3⟩ := inv.mapped p g hfind
    rw [List.mem_cons, not_or] at h2
    exact ⟨h0, h1, h2.2, h2.1, h3⟩
  · intro g
    rw [inv.evictable_iff, List.mem_cons, not_or]
    constructor
    · rintro ⟨h0, h1, h2, h3⟩; exact ⟨h0, h1, h2.2, h2.1, h3⟩
    · rintro ⟨h0, h1, h2, h3, h4⟩; exact ⟨h0, h1, ⟨h3, h2⟩, h4⟩
  · intro g h0 h1 h2 h3
    exact inv.tracked g h0 h1 (by rw [List.mem_cons, not_or]; exact ⟨h3, h2⟩)

/-- Evicting the victim `v` of the replacer: write-back (only the dirty flag of
`v` changes) and removal of the mapping of its page id. -/
theorem PoolInv.take_victim {hash : Int → Nat} {n : Nat} {pages : List Page}
    {pt : ExtendibleHashTable Int Int} {r : LRUKReplacer}
    (inv : PoolInv hash n pages pt r []) (r2 : LRUKReplacer) (v : Int) (pages2 : List Page)
    (pid : Int) (he : r.Evict = (r2, some v))
    (hlen : pages2.length = pages.length)
    (hother : ∀ g : Int, 0 ≤ g → g ≠ v → frameOf pages2 g = frameOf pages g)
    (hsame : frameOf pages2 v = { (frameOf pages v) with is_dirty_ := false })
    (hpid : pid = (frameOf pages2 v).page_id_) :
    PoolAcquired hash n pages2 (pt.Remove hash pid).1 r2 [] v ∧
    r.is_evictable_ v = true ∧ (frameOf pages v).pin_count_ = 0 ∧
    pid = (frameOf pages v).page_id_ := by
  obtain ⟨hrinv, hrsize, _, hvflag, hflags, haccess⟩ :=
    LRUKReplacer.Evict_some_spec inv.rep_inv v he
  obtain ⟨hv0, hvn, _, hvpin⟩ := (inv.evictable_iff v).mp hvflag
  have hwpid : ∀ g : Int, 0 ≤ g → (frameOf pages2 g).page_id_ = (frameOf pages g).page_id_ := by
    intro g hg
    by_cases hgf : g = v
    · rw [hgf, hsame]
    · rw [hother g hg hgf]
  have hwpin : ∀ g : Int, 0 ≤ g →
      (frameOf pages2 g).pin_count_ = (frameOf pages g).pin_count_ := by
    intro g hg
    by_cases hgf : g = v
    · rw [hgf, hsame]
    · rw [hother g hg hgf]
  have hpid2 : pid = (frameOf pages v).page_id_ := by rw [hpid, hwpid v hv0]
  have hfind : ∀ p, (pt.Remove hash pid).1.Find hash p
      = if p = pid then none else pt.Find hash p :=
    fun p => ExtendibleHashTable.Remove_Find inv.pt_wf pid p
  refine ⟨⟨hlen.trans inv.pages_len, ExtendibleHashTable.Remove_WF inv.pt_wf _, hrinv,
    hrsize.trans inv.rep_size, fun g hg => (by cases hg), List.nodup_nil,
    fun g hg => (by cases hg), ⟨hv0, hvn⟩, List.not_mem_nil _, (by rw [hsame]), ?_, ?_, ?_⟩,
    hvflag, hvpin, hpid2⟩
  · intro p g hp
    rw [hfind p] at hp
    by_cases hpe : p = pid
    · rw [if_pos hpe] at hp; cases hp
    · rw [if_neg hpe] at hp
      obtain ⟨h0, h1, _, h3⟩ := inv.mapped p g hp
      refine ⟨h0, h1, List.not_mem_nil _, ?_, by rw [hwpid g h0]; exact h3⟩
      intro hgf
      rw [hgf] at h3
      exact hpe (by rw [hpid2, h3])
  · intro g
    rw [hflags]
    by_cases hgf : g = v
    · rw [hgf, Function.update_same]
      constructor
      · intro hc; cases hc
      · rintro ⟨_, _, _, hne, _⟩; exact absurd rfl hne
    · rw [Function.update_noteq hgf, inv.evictable_iff]
      constructor
      · rintro ⟨h0, h1, h2, h3⟩
        exact ⟨h0, h1, h2, hgf, by rw [hwpin g h0]; exact h3⟩
      · rintro ⟨h0, h1, h2, _, h3⟩
        exact ⟨h0, h1, h2, by rw [← hwpin g h0]; exact h3⟩
  · intro g h0 h1 _ hgf
    rw [haccess, Function.update_noteq hgf]
    exact inv.tracked g h0 h1 (List.not_mem_nil _)

theorem BufferPoolManagerInstance.GetAvailableFrame_none {hash : Int → Nat}
    {b b1 : BufferPoolManagerInstance} (inv : b.Inv hash)
    (h : b.GetAvailableFrame hash = (b1, none)) :
    b1 = b ∧ b.free_list_ = [] ∧ ∀ g, b.replacer_.is_evictable_ g = false := by
  rcases b.GetAvailableFrame_cases hash with ⟨f, rest, _, e⟩ | ⟨_, r, v, _, e⟩ | ⟨hfl, r, he, e⟩
  · rw [e] at h; cases h
  · rw [e] at h; cases h
  · rw [e] at h
    obtain ⟨hr, hnone⟩ := LRUKReplacer.Evict_none_spec inv.rep_inv he
    subst hr
    cases h
    exact ⟨rfl, hfl, hnone⟩

/-- After `GetAvailableFrame` returned frame `f`: the state is the invariant
with `f` taken out, and the page table has lost at most mappings. -/
theorem BufferPoolManagerInstance.GetAvailableFrame_some {hash : Int → Nat}
    {b b1 : BufferPoolManagerInstance} {f : Int} (inv : b.Inv hash)
    (h : b.GetAvailableFrame hash = (b1, some f)) :
    PoolAcquired hash b.pool_size_ b1.pages_ b1.page_table_ b1.replacer_ b1.free_list_ f ∧
    b1.pool_size_ = b.pool_size_ ∧ b1.next_page_id_ = b.next_page_id_ ∧
    b1.page_table_.bucket_size_ = b.page_table_.bucket_size_ ∧
    b1.replacer_.k_ = b.replacer_.k_ ∧
    (∀ p, b.page_table_.Find hash p = none → b1.page_table_.Find hash p = none) ∧
    (∀ p g, b1.page_table_.Find hash p = some g → b.page_table_.Find hash p = some g) ∧
    ((∀ g : Int, 0 ≤ g → g < b.pool_size_ → g ∉ b.free_list_ →
        b.page_table_.Find hash (frameOf b.pages_ g).page_id_ = some g) →
      ∀ g : Int, 0 ≤ g → g < b.pool_size_ → g ∉ b1.free_list_ → g ≠ f →
        b1.page_table_.Find hash (frameOf b1.pages_ g).page_id_ = some g) := by
  rcases b.GetAvailableFrame_cases hash with ⟨f2, rest, hfl, e⟩ | ⟨hfl, r, v, he, e⟩ |
    ⟨_, r, _, e⟩
  · -- the front of the free list
    rw [e] at h; cases h
    have inv2 : PoolInv hash b.pool_size_ b.pages_ b.page_table_ b.replacer_ (f :: rest) := by
      have := inv
      unfold BufferPoolManagerInstance.Inv at this
      rw [hfl] at this
      exact this
    refine ⟨inv2.take_free, rfl, rfl, rfl, rfl, fun _ hp => hp, fun _ _ hp => hp, ?_⟩
    intro hres g h0 h1 h2 h3
    apply hres g h0 h1
    rw [hfl, List.mem_cons, not_or]
    exact ⟨h3, h2⟩
  · -- a victim of the replacer
    rw [e] at h; cases h
    have inv2 : PoolInv hash b.pool_size_ b.pages_ b.page_table_ b.replacer_ [] := by
      have := inv
      unfold BufferPoolManagerInstance.Inv at this
      rw [hfl] at this
      exact this
    obtain ⟨_, _, _, hvflag, _, _⟩ := LRUKReplacer.Evict_some_spec inv2.rep_inv f he
    obtain ⟨hv0, hvn, _, _⟩ := (inv2.evictable_iff f).mp hvflag
    have hvlen : f < (b.pages_.length : Int) := by rw [inv2.pages_len]; exact hvn
    obtain ⟨hwlen, hwother, hwsame⟩ :=
      ({ b with replacer_ := r } : BufferPoolManagerInstance).writeBack_pages f hv0 hvlen
    obtain ⟨hacq, _, _, hpid⟩ := inv2.take_victim r f
      (({ b with replacer_ := r } : BufferPoolManagerInstance).writeBack f).pages_
      ((({ b with replacer_ := r } : BufferPoolManagerInstance).writeBack f).pageAt f).page_id_
      he hwlen hwother hwsame rfl
    have hfind : ∀ p, (b.page_table_.Remove hash
        ((({ b with replacer_ := r } : BufferPoolManagerInstance).writeBack f).pageAt
          f).page_id_).1.Find hash p
        = if p = (frameOf b.pages_ f).page_id_ then none else b.page_table_.Find hash p := by
      intro p
      rw [ExtendibleHashTable.Remove_Find inv2.pt_wf, hpid]
    have hwpid : ∀ g : Int, 0 ≤ g →
        (frameOf (({ b with replacer_ := r } : BufferPoolManagerInstance).writeBack f).pages_
          g).page_id_ = (frameOf b.pages_ g).page_id_ := by
      intro g hg
      by_cases hgf : g = f
      · rw [hgf, hwsame]
      · rw [hwother g hg hgf]
    have hacq2 : PoolAcquired hash b.pool_size_
        (({ b with replacer_ := r } : BufferPoolManagerInstance).writeBack f).pages_
        (b.page_table_.Remove hash
          ((({ b with replacer_ := r } : BufferPoolManagerInstance).writeBack f).pageAt
            f).page_id_).1 r b.free_list_ f := by
      rw [hfl]; exact hacq
    refine ⟨hacq2, rfl, rfl, rfl, ?_, ?_, ?_, ?_⟩
    · exact (LRUKReplacer.Evict_some_spec inv2.rep_inv f he).2.2.1
    · intro p hp
      show (b.page_table_.Remove hash _).1.Find hash p = none
      rw [hfind p, hp]
      simp
    · intro p g hp
      have hp : (b.page_table_.Remove hash _).1.Find hash p = some g := hp
      rw [hfind p] at hp
      by_cases hpe : p = (frameOf b.pages_ f).page_id_
      · rw [if_pos hpe] at hp; cases hp
      · rw [if_neg hpe] at hp; exact hp
    · intro hres g h0 h1 _ hgf
      show (b.page_table_.Remove hash _).1.Find hash _ = some g
      rw [hfind, hwpid g h0]
      have hg := hres g h0 h1 (by rw [hfl]; exact List.not_mem_nil _)
      have hv := hres f hv0 hvn (by rw [hfl]; exact List.not_mem_nil _)
      by_cases hpe : (frameOf b.pages_ g).page_id_ = (frameOf b.pages_ f).page_id_
      · exfalso
        rw [hpe, hv] at hg
        exact hgf (Option.some.inj hg).symm
      · rw [if_neg hpe]; exact hg
  · rw [e] at h; cases h

/-- Installing page `p` in the acquired frame `f`: the frame holds `p` with pin
count 1, the page table has got the mapping `p ↦ f`, and the replacer has
recorded an access and holds `f` as not evictable. -/
theorem PoolAcquired.install {hash : Int → Nat} {n : Nat} {pages : List Page}
    {pt : ExtendibleHashTable Int Int} {r : LRUKReplacer} {free : List Int} {f : Int}
    (acq : PoolAcquired hash n pages pt r free f) (pages2 : List Page)
    (pt2 : ExtendibleHashTable Int Int) (r2 : LRUKReplacer) (p : Int) (fuel : Nat)
    (hlen : pages2.length = n)
    (hother : ∀ g : Int, 0 ≤ g → g ≠ f → frameOf pages2 g = frameOf pages g)
    (hpid : (frameOf pages2 f).page_id_ = p) (hpin : (frameOf pages2 f).pin_count_ = 1)
    (hins : pt.Insert hash fuel p f = some pt2)
    (hr2inv : r2.Inv) (hr2size : r2.replacer_size_ = n)
    (hflags : r2.is_evictable_ = Function.update r.is_evictable_ f false)
    (hacc : r2.access_num_ = Function.update r.access_num_ f (r.access_num_ f + 1)) :
    PoolInv hash n pages2 pt2 r2 free := by
  have hfind : ∀ q, pt2.Find hash q = if q = p then some f else pt.Find hash q :=
    fun q => ExtendibleHashTable.Insert_Find fuel acq.pt_wf p f hins q
  refine ⟨hlen, ExtendibleHashTable.Insert_WF fuel acq.pt_wf p f hins, hr2inv, hr2size,
    acq.free_range, acq.free_nodup, ?_, ?_, ?_, ?_⟩
  · intro g hg
    have hgf : g ≠ f := fun e => acq.frame_not_free (e ▸ hg)
    rw [hother g (acq.free_range g hg).1 hgf]
    exact acq.free_fresh g hg
  · intro q g hq
    rw [hfind q] at hq
    by_cases hqp : q = p
    · rw [if_pos hqp] at hq
      cases hq
      exact ⟨acq.frame_range.1, acq.frame_range.2, acq.frame_not_free, by rw [hpid, hqp]⟩
    · rw [if_neg hqp] at hq
      obtain ⟨h0, h1, h2, h3, h4⟩ := acq.mapped q g hq
      exact ⟨h0, h1, h2, by rw [hother g h0 h3]; exact h4⟩
  · intro g
    rw [hflags]
    by_cases hgf : g = f
    · rw [hgf, Function.update_same]
      constructor
      · intro hc; cases hc
      · rintro ⟨_, _, _, h⟩; rw [hpin] at h; cases h
    · rw [Function.update_noteq hgf, acq.evictable_iff]
      constructor
      · rintro ⟨h0, h1, h2, _, h3⟩
        exact ⟨h0, h1, h2, by rw [hother g h0 hgf]; exact h3⟩
      · rintro ⟨h0, h1, h2, h3⟩
        exact ⟨h0, h1, h2, hgf, by rw [← hother g h0 hgf]; exact h3⟩
  · intro g h0 h1 h2
    rw [hacc]
    by_cases hgf : g = f
    · rw [hgf, Function.update_same]; omega
    · rw [Function.update_noteq hgf]
      exact acq.tracked g h0 h1 h2 hgf

theorem BufferPoolManagerInstance.NewPgImp_cases (hash : Int → Nat) (fuel : Nat)
    (b : BufferPoolManagerInstance) :
    (∃ b1, b.GetAvailableFrame hash = (b1, none) ∧ b.NewPgImp hash fuel = Except.ok (b1, none)) ∨
    (∃ b1 f, b.GetAvailableFrame hash = (b1, some f) ∧
      b1.page_table_.Insert hash fuel b1.next_page_id_ f = none ∧
      b.NewPgImp hash fuel = Except.error Fault.fuel) ∨
    (∃ b1 f pt e, b.GetAvailableFrame hash = (b1, some f) ∧
      b1.page_table_.Insert hash fuel b1.next_page_id_ f = some pt ∧
      b1.replacer_.pin f = Except.error e ∧ b.NewPgImp hash fuel = Except.error e) ∨
    (∃ b1 f pt r, b.GetAvailableFrame hash = (b1, some f) ∧
      b1.page_table_.Insert hash fuel b1.next_page_id_ f = some pt ∧
      b1.replacer_.pin f = Except.ok r ∧
      b.NewPgImp hash fuel = Except.ok
        ({ pool_size_ := b1.pool_size_
           next_page_id_ := b1.next_page_id_ + 1
           pages_ := b1.pages_.set f.toNat
             ⟨0, b1.next_page_id_, 1, (frameOf b1.pages_ f).is_dirty_⟩
           page_table_ := pt
           replacer_ := r
           free_list_ := b1.free_list_
           disk_manager_ := b1.disk_manager_ }, some (b1.next_page_id_, f))) := by
  unfold BufferPoolManagerInstance.NewPgImp
  cases hg : b.GetAvailableFrame hash with
  | mk b1 o =>
    cases o with
    | none => left; exact ⟨b1, rfl, rfl⟩
    | some f =>
      right
      simp only
      have hpt : (({ b1 with next_page_id_ := b1.next_page_id_ + 1 } :
          BufferPoolManagerInstance).setPage f
          ({ (({ b1 with next_page_id_ := b1.next_page_id_ + 1 } :
            BufferPoolManagerInstance).pageAt f) with
            page_id_ := b1.next_page_id_, pin_count_ := 1 } : Page).ResetMemory).page_table_
          = b1.page_table_ := rfl
      have hrep : (({ b1 with next_page_id_ := b1.next_page_id_ + 1 } :
          BufferPoolManagerInstance).setPage f
          ({ (({ b1 with next_page_id_ := b1.next_page_id_ + 1 } :
            BufferPoolManagerInstance).pageAt f) with
            page_id_ := b1.next_page_id_, pin_count_ := 1 } : Page).ResetMemory).replacer_
          = b1.replacer_ := rfl
      rw [hpt, hrep]
      cases hi : b1.page_table_.Insert hash fuel b1.next_page_id_ f with
      | none => left; exact ⟨b1, f, rfl, hi, rfl⟩
      | some pt =>
        right
        cases hp : b1.replacer_.pin f with
        | error e => left; exact ⟨b1, f, pt, e, rfl, hi, hp, rfl⟩
        | ok r => right; exact ⟨b1, f, pt, r, rfl, hi, hp, rfl⟩

theorem LRUKReplacer.pin_ok_spec {r r2 : LRUKReplacer} (inv : r.Inv) (f : Int)
    (hf : f ≤ r.replacer_size_) (h : r.pin f = Except.ok r2) :
    r2.Inv ∧ r2.replacer_size_ = r.replacer_size_ ∧ r2.k_ = r.k_ ∧
      r2.is_evictable_ = Function.update r.is_evictable_ f false ∧
      r2.access_num_ = Function.update r.access_num_ f (r.access_num_ f + 1) := by
  obtain ⟨r3, h3, hspec⟩ := r.pin_spec inv f hf
  rw [h3] at h
  cases h
  exact hspec

/-- `NewPgImp` keeps the invariant (and the bijection, when it holds); when it
returns null the state is unchanged, the free list is empty and no frame is
evictable. -/
theorem BufferPoolManagerInstance.NewPgImp_ok {hash : Int → Nat} {fuel : Nat}
    {b b2 : BufferPoolManagerInstance} {res : Option (Int × Int)} (inv : b.Inv hash)
    (h : b.NewPgImp hash fuel = Except.ok (b2, res)) :
    b2.Inv hash ∧ b2.pool_size_ = b.pool_size_ ∧
    b2.page_table_.bucket_size_ = b.page_table_.bucket_size_ ∧
    b2.replacer_.k_ = b.replacer_.k_ ∧
    (b.Bij hash → b2.Bij hash) ∧
    (res = none → b2 = b ∧ b.free_list_ = [] ∧ ∀ g, b.replacer_.is_evictable_ g = false) := by
  rcases b.NewPgImp_cases hash fuel with ⟨b1, hg, e⟩ | ⟨_, _, _, _, e⟩ | ⟨_, _, _, _, _, _, _, e⟩ |
    ⟨b1, f, pt, r, hg, hi, hp, e⟩
  · rw [e] at h; cases h
    obtain ⟨h1, h2, h3⟩ := BufferPoolManagerInstance.GetAvailableFrame_none inv hg
    subst h1
    exact ⟨inv, rfl, rfl, rfl, fun hb => hb, fun _ => ⟨rfl, h2, h3⟩⟩
  · rw [e] at h; cases h
  · rw [e] at h; cases h
  · rw [e] at h; cases h
    obtain ⟨acq, hps, hnx, hbs, hk, hnone, hsub, hres⟩ :=
      BufferPoolManagerInstance.GetAvailableFrame_some inv hg
    have hflen : f < (b1.pages_.length : Int) := by rw [acq.pages_len]; exact acq.frame_range.2
    have hfsz : f ≤ (b1.replacer_.replacer_size_ : Int) := by
      rw [acq.rep_size]; exact le_of_lt acq.frame_range.2
    obtain ⟨hr2inv, hr2size, hr2k, hflags, hacc⟩ :=
      LRUKReplacer.pin_ok_spec acq.rep_inv f hfsz hp
    have hsame : frameOf (b1.pages_.set f.toNat
        ⟨0, b1.next_page_id_, 1, (frameOf b1.pages_ f).is_dirty_⟩) f
        = ⟨0, b1.next_page_id_, 1, (frameOf b1.pages_ f).is_dirty_⟩ :=
      frameOf_set_same _ _ _ acq.frame_range.1 hflen
    have hother : ∀ g : Int, 0 ≤ g → g ≠ f → frameOf (b1.pages_.set f.toNat
        ⟨0, b1.next_page_id_, 1, (frameOf b1.pages_ f).is_dirty_⟩) g = frameOf b1.pages_ g :=
      fun g hg0 hgf => frameOf_set_other _ _ _ _ acq.frame_range.1 hg0 hgf
    have hinv2 : PoolInv hash b.pool_size_ (b1.pages_.set f.toNat
        ⟨0, b1.next_page_id_, 1, (frameOf b1.pages_ f).is_dirty_⟩) pt r b1.free_list_ :=
      acq.install _ pt r b1.next_page_id_ fuel
        (by rw [List.length_set]; exact acq.pages_len) hother (by rw [hsame]) (by rw [hsame])
        hi hr2inv (hr2size.trans acq.rep_size) hflags hacc
    have hfind : ∀ q, pt.Find hash q
        = if q = b1.next_page_id_ then some f else b1.page_table_.Find hash q :=
      fun q => ExtendibleHashTable.Insert_Find fuel acq.pt_wf _ f hi q
    refine ⟨?_, hps, ?_, ?_, ?_, fun hc => (by cases hc)⟩
    · show PoolInv hash b1.pool_size_ _ pt r b1.free_list_
      rw [hps]; exact hinv2
    · show pt.bucket_size_ = _
      rw [ExtendibleHashTable.Insert_bucket_size hash fuel _ _ _ _ hi, hbs]
    · exact hr2k.trans hk
    · intro bij
      have hfresh : b1.page_table_.Find hash b1.next_page_id_ = none := by
        cases hq : b1.page_table_.Find hash b1.next_page_id_ with
        | none => rfl
        | some g =>
          have := bij.keys_lt _ g (hsub _ g hq)
          rw [hnx] at this
          exact absurd this (lt_irrefl _)
      refine ⟨?_, ?_, ?_, ?_⟩
      · show PoolInv hash b1.pool_size_ _ pt r b1.free_list_
        rw [hps]; exact hinv2
      · show 0 ≤ b1.next_page_id_ + 1
        rw [hnx]; have := bij.next_nonneg; omega
      · intro g h0 h1 h2
        show pt.Find hash (frameOf (b1.pages_.set f.toNat _) g).page_id_ = some g
        have h1' : g < (b.pool_size_ : Int) := by rw [← hps]; exact h1
        by_cases hgf : g = f
        · rw [hgf, hsame, hfind]; simp
        · rw [hother g h0 hgf, hfind]
          have hgm := hres bij.resident_mapped g h0 h1' h2 hgf
          have hne : (frameOf b1.pages_ g).page_id_ ≠ b1.next_page_id_ := by
            intro he
            rw [he, hfresh] at hgm
            cases hgm
          rw [if_neg hne]; exact hgm
      · intro q g hq
        show q < b1.next_page_id_ + 1
        have hq : pt.Find hash q = some g := hq
        rw [hfind] at hq
        by_cases hqe : q = b1.next_page_id_
        · omega
        · rw [if_neg hqe] at hq
          have := bij.keys_lt q g (hsub q g hq)
          rw [hnx]; omega

/-- The bijection survives every change that keeps the invariant, the page ids
of the frames, the page table, the free list and the page-id counter. -/
theorem BufferPoolManagerInstance.Bij.of_same_ids {hash : Int → Nat}
    {b b2 : BufferPoolManagerInstance} (bij : b.Bij hash) (inv2 : b2.Inv hash)
    (hps : b2.pool_size_ = b.pool_size_) (hnx : b2.next_page_id_ = b.next_page_id_)
    (hpt : b2.page_table_ = b.page_table_) (hfl : b2.free_list_ = b.free_list_)
    (hid : ∀ g : Int, 0 ≤ g → (frameOf b2.pages_ g).page_id_ = (frameOf b.pages_ g).page_id_) :
    b2.Bij hash := by
  refine ⟨inv2, by rw [hnx]; exact bij.next_nonneg, ?_, ?_⟩
  · intro g h0 h1 h2
    show b2.page_table_.Find hash (frameOf b2.pages_ g).page_id_ = some g
    rw [hpt, hid g h0]
    exact bij.resident_mapped g h0 (by rw [← hps]; exact h1) (by rw [← hfl]; exact h2)
  · intro q g hq
    rw [hnx]
    rw [hpt] at hq
    exact bij.keys_lt q g hq

theorem BufferPoolManagerInstance.FetchPgImp_cases (hash : Int → Nat) (fuel : Nat)
    (b : BufferPoolManagerInstance) (p : Int) :
    (∃ f e, b.page_table_.Find hash p = some f ∧ b.replacer_.pin f = Except.error e ∧
      b.FetchPgImp hash fuel p = Except.error e) ∨
    (∃ f r, b.page_table_.Find hash p = some f ∧ b.replacer_.pin f = Except.ok r ∧
      b.FetchPgImp hash fuel p = Except.ok
        ({ b with
            pages_ := b.pages_.set f.toNat
              { (frameOf b.pages_ f) with pin_count_ := (frameOf b.pages_ f).pin_count_ + 1 }
            replacer_ := r }, some f)) ∨
    (b.page_table_.Find hash p = none ∧ ∃ b1, b.GetAvailableFrame hash = (b1, none) ∧
      b.FetchPgImp hash fuel p = Except.ok (b1, none)) ∨
    (b.page_table_.Find hash p = none ∧ ∃ b1 f, b.GetAvailableFrame hash = (b1, some f) ∧
      b1.page_table_.Insert hash fuel p f = none ∧
      b.FetchPgImp hash fuel p = Except.error Fault.fuel) ∨
    (b.page_table_.Find hash p = none ∧ ∃ b1 f pt e, b.GetAvailableFrame hash = (b1, some f) ∧
      b1.page_table_.Insert hash fuel p f = some pt ∧ b1.replacer_.pin f = Except.error e ∧
      b.FetchPgImp hash fuel p = Except.error e) ∨
    (b.page_table_.Find hash p = none ∧ ∃ b1 f pt r, b.GetAvailableFrame hash = (b1, some f) ∧
      b1.page_table_.Insert hash fuel p f = some pt ∧ b1.replacer_.pin f = Except.ok r ∧
      b.FetchPgImp hash fuel p = Except.ok
        ({ pool_size_ := b1.pool_size_
           next_page_id_ := b1.next_page_id_
           pages_ := (b1.pages_.set f.toNat ⟨0, p, 1, (frameOf b1.pages_ f).is_dirty_⟩).set f.toNat
             { (frameOf (b1.pages_.set f.toNat ⟨0, p, 1, (frameOf b1.pages_ f).is_dirty_⟩) f) with
               data_ := b1.disk_manager_.ReadPage p }
           page_table_ := pt
           replacer_ := r
           free_list_ := b1.free_list_
           disk_manager_ := b1.disk_manager_ }, some f)) := by
  unfold BufferPoolManagerInstance.FetchPgImp
  cases hfind : b.page_table_.Find hash p with
  | some f =>
    simp only
    have hrep : (b.setPage f
        { (b.pageAt f) with pin_count_ := (b.pageAt f).pin_count_ + 1 }).replacer_
        = b.replacer_ := rfl
    rw [hrep]
    cases hp : b.replacer_.pin f with
    | error e => left; exact ⟨f, e, rfl, hp, rfl⟩
    | ok r => right; left; exact ⟨f, r, rfl, hp, rfl⟩
  | none =>
    right; right
    simp only
    cases hg : b.GetAvailableFrame hash with
    | mk b1 o =>
      cases o with
      | none => left; exact ⟨trivial, b1, rfl, rfl⟩
      | some f =>
        right
        simp only
        cases hi : b1.page_table_.Insert hash fuel p f with
        | none => left; exact ⟨trivial, b1, f, rfl, hi, rfl⟩
        | some pt =>
          right
          simp only
          have hrep : ∀ (x y : Page), ((({ b1 with page_table_ := pt } :
              BufferPoolManagerInstance).setPage f x).setPage f y).replacer_
              = b1.replacer_ := fun _ _ => rfl
          rw [hrep]
          cases hp : b1.replacer_.pin f with
          | error e => left; exact ⟨trivial, b1, f, pt, e, rfl, hi, hp, rfl⟩
          | ok r => right; exact ⟨trivial, b1, f, pt, r, rfl, hi, hp, rfl⟩

/-- `FetchPgImp` keeps the invariant, and the bijection when the page id was
handed out before. -/
theorem BufferPoolManagerInstance.FetchPgImp_ok {hash : Int → Nat} {fuel : Nat}
    {b b2 : BufferPoolManagerInstance} {p : Int} {res : Option Int} (inv : b.Inv hash)
    (h : b.FetchPgImp hash fuel p = Except.ok (b2, res)) :
    b2.Inv hash ∧ b2.pool_size_ = b.pool_size_ ∧
    b2.page_table_.bucket_size_ = b.page_table_.bucket_size_ ∧
    b2.replacer_.k_ = b.replacer_.k_ ∧
    (b.Bij hash → p < b.next_page_id_ → b2.Bij hash) := by
  rcases b.FetchPgImp_cases hash fuel p with ⟨_, _, _, _, e⟩ | ⟨f, r, hfind, hp, e⟩ |
    ⟨_, b1, hg, e⟩ | ⟨_, _, _, _, _, e⟩ | ⟨_, _, _, _, _, _, _, _, e⟩ |
    ⟨hmiss, b1, f, pt, r, hg, hi, hp, e⟩
  · rw [e] at h; cases h
  · -- hit
    rw [e] at h; cases h
    obtain ⟨hf0, hfn, hffree, _⟩ := inv.mapped p f hfind
    have hflen : f < (b.pages_.length : Int) := by rw [inv.pages_len]; exact hfn
    have hfsz : f ≤ (b.replacer_.replacer_size_ : Int) := by
      rw [inv.rep_size]; exact le_of_lt hfn
    obtain ⟨hr2inv, hr2size, hr2k, hflags, hacc⟩ :=
      LRUKReplacer.pin_ok_spec inv.rep_inv f hfsz hp
    have hsame := frameOf_set_same b.pages_ f
      { (frameOf b.pages_ f) with pin_count_ := (frameOf b.pages_ f).pin_count_ + 1 } hf0 hflen
    have hother : ∀ g : Int, 0 ≤ g → g ≠ f → frameOf (b.pages_.set f.toNat
        { (frameOf b.pages_ f) with pin_count_ := (frameOf b.pages_ f).pin_count_ + 1 }) g
        = frameOf b.pages_ g :=
      fun g hg0 hgf => frameOf_set_other _ _ _ _ hf0 hg0 hgf
    have hinv2 : PoolInv hash b.pool_size_ (b.pages_.set f.toNat
        { (frameOf b.pages_ f) with pin_count_ := (frameOf b.pages_ f).pin_count_ + 1 })
        b.page_table_ r b.free_list_ := by
      apply PoolInv.update_frame inv f _ r hffree (by rw [List.length_set]; exact inv.pages_len)
        hother (by rw [hsame]) hr2inv (hr2size.trans inv.rep_size)
      · intro g hgf; rw [hflags, Function.update_noteq hgf]
      · rw [hflags, Function.update_same, hsame]
        constructor
        · intro hc; cases hc
        · rintro ⟨_, _, hc⟩; simp at hc
      · intro g hg
        rw [hacc]
        by_cases hgf : g = f
        · rw [hgf, Function.update_same]; omega
        · rw [Function.update_noteq hgf]; exact hg
    refine ⟨hinv2, rfl, rfl, hr2k, fun bij _ => ?_⟩
    refine BufferPoolManagerInstance.Bij.of_same_ids bij ?_ rfl rfl rfl rfl ?_
    · exact hinv2
    intro g hg0
    show (frameOf (b.pages_.set f.toNat _) g).page_id_ = _
    by_cases hgf : g = f
    · rw [hgf, hsame]
    · rw [hother g hg0 hgf]
  · rw [e] at h; cases h
    obtain ⟨h1, _, _⟩ := BufferPoolManagerInstance.GetAvailableFrame_none inv hg
    subst h1
    exact ⟨inv, rfl, rfl, rfl, fun hb _ => hb⟩
  · rw [e] at h; cases h
  · rw [e] at h; cases h
  · -- miss
    rw [e] at h; cases h
    obtain ⟨acq, hps, hnx, hbs, hk, hnone, hsub, hres⟩ :=
      BufferPoolManagerInstance.GetAvailableFrame_some inv hg
    have hflen : f < (b1.pages_.length : Int) := by rw [acq.pages_len]; exact acq.frame_range.2
    have hfsz : f ≤ (b1.replacer_.replacer_size_ : Int) := by
      rw [acq.rep_size]; exact le_of_lt acq.frame_range.2
    obtain ⟨hr2inv, hr2size, hr2k, hflags, hacc⟩ :=
      LRUKReplacer.pin_ok_spec acq.rep_inv f hfsz hp
    have hsame1 : frameOf (b1.pages_.set f.toNat ⟨0, p, 1, (frameOf b1.pages_ f).is_dirty_⟩) f
        = ⟨0, p, 1, (frameOf b1.pages_ f).is_dirty_⟩ :=
      frameOf_set_same _ _ _ acq.frame_range.1 hflen
    have hflen2 : f < ((b1.pages_.set f.toNat
        ⟨0, p, 1, (frameOf b1.pages_ f).is_dirty_⟩).length : Int) := by
      rw [List.length_set]; exact hflen
    have hsame : frameOf ((b1.pages_.set f.toNat
        ⟨0, p, 1, (frameOf b1.pages_ f).is_dirty_⟩).set f.toNat
        { (frameOf (b1.pages_.set f.toNat ⟨0, p, 1, (frameOf b1.pages_ f).is_dirty_⟩) f) with
          data_ := b1.disk_manager_.ReadPage p }) f
        = ⟨b1.disk_manager_.ReadPage p, p, 1, (frameOf b1.pages_ f).is_dirty_⟩ := by
      rw [frameOf_set_same _ _ _ acq.frame_range.1 hflen2, hsame1]
    have hother : ∀ g : Int, 0 ≤ g → g ≠ f → frameOf ((b1.pages_.set f.toNat
        ⟨0, p, 1, (frameOf b1.pages_ f).is_dirty_⟩).set f.toNat
        { (frameOf (b1.pages_.set f.toNat ⟨0, p, 1, (frameOf b1.pages_ f).is_dirty_⟩) f) with
          data_ := b1.disk_manager_.ReadPage p }) g = frameOf b1.pages_ g := by
      intro g hg0 hgf
      rw [frameOf_set_other _ _ _ _ acq.frame_range.1 hg0 hgf,
        frameOf_set_other _ _ _ _ acq.frame_range.1 hg0 hgf]
    have hinv2 : PoolInv hash b.pool_size_ ((b1.pages_.set f.toNat
        ⟨0, p, 1, (frameOf b1.pages_ f).is_dirty_⟩).set f.toNat
        { (frameOf (b1.pages_.set f.toNat ⟨0, p, 1, (frameOf b1.pages_ f).is_dirty_⟩) f) with
          data_ := b1.disk_manager_.ReadPage p }) pt r b1.free_list_ :=
      acq.install _ pt r p fuel
        (by rw [List.length_set, List.length_set]; exact acq.pages_len) hother
        (by rw [hsame]) (by rw [hsame]) hi hr2inv (hr2size.trans acq.rep_size) hflags hacc
    have hfind : ∀ q, pt.Find hash q = if q = p then some f else b1.page_table_.Find hash q :=
      fun q => ExtendibleHashTable.Insert_Find fuel acq.pt_wf _ f hi q
    refine ⟨?_, hps, ?_, hr2k.trans hk, ?_⟩
    · show PoolInv hash b1.pool_size_ _ pt r b1.free_list_
      rw [hps]; exact hinv2
    · show pt.bucket_size_ = _
      rw [ExtendibleHashTable.Insert_bucket_size hash fuel _ _ _ _ hi, hbs]
    · intro bij hlt
      have hfresh : b1.page_table_.Find hash p = none := hnone p hmiss
      refine ⟨?_, ?_, ?_, ?_⟩
      · show PoolInv hash b1.pool_size_ _ pt r b1.free_list_
        rw [hps]; exact hinv2
      · show 0 ≤ b1.next_page_id_
        rw [hnx]; exact bij.next_nonneg
      · intro g h0 h1 h2
        show pt.Find hash (frameOf ((b1.pages_.set f.toNat _).set f.toNat _) g).page_id_ = some g
        have h1' : g < (b.pool_size_ : Int) := by rw [← hps]; exact h1
        by_cases hgf : g = f
        · rw [hgf, hsame, hfind]; simp
        · rw [hother g h0 hgf, hfind]
          have hgm := hres bij.resident_mapped g h0 h1' h2 hgf
          have hne : (frameOf b1.pages_ g).page_id_ ≠ p := by
            intro he
            rw [he, hfresh] at hgm
            cases hgm
          rw [if_neg hne]; exact hgm
      · intro q g hq
        show q < b1.next_page_id_
        have hq : pt.Find hash q = some g := hq
        rw [hfind] at hq
        rw [hnx]
        by_cases hqe : q = p
        · rw [hqe]; exact hlt
        · rw [if_neg hqe] at hq
          exact bij.keys_lt q g (hsub q g hq)

/-- `UnpinPgImp` keeps the invariant and the bijection. -/
theorem BufferPoolManagerInstance.UnpinPgImp_ok {hash : Int → Nat}
    {b b2 : BufferPoolManagerInstance} {p : Int} {d res : Bool} (inv : b.Inv hash)
    (h : b.UnpinPgImp hash p d = Except.ok (b2, res)) :
    b2.Inv hash ∧ b2.pool_size_ = b.pool_size_ ∧
    b2.page_table_.bucket_size_ = b.page_table_.bucket_size_ ∧
    b2.replacer_.k_ = b.replacer_.k_ ∧
    (b.Bij hash → b2.Bij hash) := by
  unfold BufferPoolManagerInstance.UnpinPgImp at h
  cases hfind : b.page_table_.Find hash p with
  | none =>
    rw [hfind] at h
    cases h
    exact ⟨inv, rfl, rfl, rfl, fun hb => hb⟩
  | some f =>
    rw [hfind] at h
    simp only at h
    by_cases hpin : (b.pageAt f).pin_count_ = 0
    · rw [if_pos hpin] at h
      cases h
      exact ⟨inv, rfl, rfl, rfl, fun hb => hb⟩
    · rw [if_neg hpin] at h
      obtain ⟨hf0, hfn, hffree, _⟩ := inv.mapped p f hfind
      have hflen : f < (b.pages_.length : Int) := by rw [inv.pages_len]; exact hfn
      have hfsz : f ≤ (b.replacer_.replacer_size_ : Int) := by
        rw [inv.rep_size]; exact le_of_lt hfn
      have hb1 : (b.setPage f
          { (b.pageAt f) with pin_count_ := (b.pageAt f).pin_count_ - 1 }).pageAt f
          = { (b.pageAt f) with pin_count_ := (b.pageAt f).pin_count_ - 1 } :=
        frameOf_set_same _ _ _ hf0 hflen
      rw [hb1] at h
      simp only at h
      have hnotev : b.replacer_.is_evictable_ f = false := by
        cases hev : b.replacer_.is_evictable_ f
        · rfl
        · exact absurd ((inv.evictable_iff f).mp hev).2.2.2 hpin
      -- the pool after the pin count and the replacer are updated
      have key : ∀ (r : LRUKReplacer) (pages2 : List Page),
          r.Inv → r.replacer_size_ = b.replacer_.replacer_size_ →
          r.k_ = b.replacer_.k_ →
          (∀ g, g ≠ f → r.is_evictable_ g = b.replacer_.is_evictable_ g) →
          (r.is_evictable_ f = true ↔ (b.pageAt f).pin_count_ - 1 = 0) →
          (∀ g, 0 < b.replacer_.access_num_ g → 0 < r.access_num_ g) →
          pages2.length = b.pages_.length →
          (∀ g : Int, 0 ≤ g → g ≠ f → frameOf pages2 g = frameOf b.pages_ g) →
          (frameOf pages2 f).page_id_ = (frameOf b.pages_ f).page_id_ →
          (frameOf pages2 f).pin_count_ = (b.pageAt f).pin_count_ - 1 →
          b2 = { b with pages_ := pages2, replacer_ := r } →
          b2.Inv hash ∧ b2.pool_size_ = b.pool_size_ ∧
            b2.page_table_.bucket_size_ = b.page_table_.bucket_size_ ∧
            b2.replacer_.k_ = b.replacer_.k_ ∧ (b.Bij hash → b2.Bij hash) := by
        intro r pages2 hrinv hrsize hrk hfo hff htr hlen hother hid hpc hb2
        subst hb2
        have hinv2 : PoolInv hash b.pool_size_ pages2 b.page_table_ r b.free_list_ := by
          apply PoolInv.update_frame inv f pages2 r hffree (hlen.trans inv.pages_len) hother hid
            hrinv (hrsize.trans inv.rep_size) hfo _ htr
          rw [hff, hpc]
          exact ⟨fun hc => ⟨hf0, hfn, hc⟩, fun hc => hc.2.2⟩
        refine ⟨hinv2, rfl, rfl, hrk, fun bij => ?_⟩
        refine BufferPoolManagerInstance.Bij.of_same_ids bij ?_ rfl rfl rfl rfl ?_
        · exact hinv2
        · intro g hg0
          by_cases hgf : g = f
          · rw [hgf]; exact hid
          · show (frameOf pages2 g).page_id_ = _
            rw [hother g hg0 hgf]
      -- the two ways the dirty flag is written keep the other fields
      have hdirty : ∀ (b3 : BufferPoolManagerInstance),
          b3.pages_ = b.pages_.set f.toNat
            { (b.pageAt f) with pin_count_ := (b.pageAt f).pin_count_ - 1 } →
          ∀ pages2, pages2 = (if (!(b3.pageAt f).is_dirty_) = true then
              (b3.setPage f { (b3.pageAt f) with is_dirty_ := d })
            else b3).pages_ →
          pages2.length = b.pages_.length ∧
          (∀ g : Int, 0 ≤ g → g ≠ f → frameOf pages2 g = frameOf b.pages_ g) ∧
          (frameOf pages2 f).page_id_ = (frameOf b.pages_ f).page_id_ ∧
          (frameOf pages2 f).pin_count_ = (b.pageAt f).pin_count_ - 1 := by
        intro b3 hb3 pages2 hp2
        have hb3f : b3.pageAt f
            = { (b.pageAt f) with pin_count_ := (b.pageAt f).pin_count_ - 1 } := by
          show frameOf b3.pages_ f = _
          rw [hb3]; exact frameOf_set_same _ _ _ hf0 hflen
        have hb3len : b3.pages_.length = b.pages_.length := by rw [hb3, List.length_set]
        have hb3o : ∀ g : Int, 0 ≤ g → g ≠ f → frameOf b3.pages_ g = frameOf b.pages_ g := by
          intro g hg0 hgf; rw [hb3]; exact frameOf_set_other _ _ _ _ hf0 hg0 hgf
        by_cases hd : (!(b3.pageAt f).is_dirty_) = true
        · rw [if_pos hd] at hp2
          have hp2' : pages2 = b3.pages_.set f.toNat { (b3.pageAt f) with is_dirty_ := d } := hp2
          have hs := frameOf_set_same b3.pages_ f { (b3.pageAt f) with is_dirty_ := d } hf0
            (by rw [hb3len]; exact hflen)
          refine ⟨by rw [hp2', List.length_set, hb3len], ?_, ?_, ?_⟩
          · intro g hg0 hgf
            rw [hp2', frameOf_set_other _ _ _ _ hf0 hg0 hgf, hb3o g hg0 hgf]
          · rw [hp2', hs, hb3f]; rfl
          · rw [hp2', hs, hb3f]
        · rw [if_neg hd] at hp2
          refine ⟨by rw [hp2, hb3len], ?_, ?_, ?_⟩
          · intro g hg0 hgf; rw [hp2]; exact hb3o g hg0 hgf
          · rw [hp2]; show (b3.pageAt f).page_id_ = _; rw [hb3f]; rfl
          · rw [hp2]; show (b3.pageAt f).pin_count_ = _; rw [hb3f]
      by_cases hz : (b.pageAt f).pin_count_ - 1 = 0
      · rw [if_pos hz] at h
        have hrep : (b.setPage f
            { (b.pageAt f) with pin_count_ := (b.pageAt f).pin_count_ - 1 }).replacer_
            = b.replacer_ := rfl
        rw [hrep] at h
        obtain ⟨r, hse, hrinv, hrsize, hrk, hflags, hacc⟩ :=
          LRUKReplacer.SetEvictable_spec inv.rep_inv f true hfsz (inv.tracked f hf0 hfn hffree)
        rw [hse] at h
        simp only at h
        cases h
        obtain ⟨h1, h2, h3, h4⟩ := hdirty
          { (b.setPage f { (b.pageAt f) with pin_count_ := (b.pageAt f).pin_count_ - 1 }) with
            replacer_ := r } rfl _ rfl
        refine key r _ hrinv hrsize hrk ?_ ?_ ?_ h1 h2 h3 h4 ?_
        · intro g hgf; rw [hflags, Function.update_noteq hgf]
        · rw [hflags, Function.update_same]; simp [hz]
        · intro g hg; rw [hacc]; exact hg
        · split_ifs <;> rfl
      · rw [if_neg hz] at h
        simp only at h
        cases h
        obtain ⟨h1, h2, h3, h4⟩ := hdirty
          (b.setPage f { (b.pageAt f) with pin_count_ := (b.pageAt f).pin_count_ - 1 }) rfl _ rfl
        refine key b.replacer_ _ inv.rep_inv rfl rfl (fun _ _ => rfl) ?_ (fun _ hg => hg)
          h1 h2 h3 h4 ?_
        · rw [hnotev]; simp [hz]
        · split_ifs <;> rfl

/-- Rewriting one resident frame without touching its page id or pin count (and
whatever happens to the disk) keeps the invariant and the bijection. -/
theorem BufferPoolManagerInstance.Inv.set_page {hash : Int → Nat}
    {b : BufferPoolManagerInstance} (inv : b.Inv hash) (f : Int) (page : Page)
    (dm : DiskManager) (hf0 : 0 ≤ f) (hfn : f < b.pool_size_) (hfree : f ∉ b.free_list_)
    (hid : page.page_id_ = (b.pageAt f).page_id_)
    (hpin : page.pin_count_ = (b.pageAt f).pin_count_) :
    BufferPoolManagerInstance.Inv hash
      { b with pages_ := b.pages_.set f.toNat page, disk_manager_ := dm } ∧
    (b.Bij hash → BufferPoolManagerInstance.Bij hash
      { b with pages_ := b.pages_.set f.toNat page, disk_manager_ := dm }) := by
  have hflen : f < (b.pages_.length : Int) := by rw [inv.pages_len]; exact hfn
  have hsame := frameOf_set_same b.pages_ f page hf0 hflen
  have hother : ∀ g : Int, 0 ≤ g → g ≠ f →
      frameOf (b.pages_.set f.toNat page) g = frameOf b.pages_ g :=
    fun g hg0 hgf => frameOf_set_other _ _ _ _ hf0 hg0 hgf
  have hinv2 : PoolInv hash b.pool_size_ (b.pages_.set f.toNat page) b.page_table_ b.replacer_
      b.free_list_ := by
    apply PoolInv.update_frame inv f _ b.replacer_ hfree (by rw [List.length_set]; exact inv.pages_len)
      hother (by rw [hsame]; exact hid) inv.rep_inv inv.rep_size (fun _ _ => rfl) _
      (fun _ hg => hg)
    rw [hsame, hpin, inv.evictable_iff]
    exact ⟨fun hc => ⟨hc.1, hc.2.1, hc.2.2.2⟩, fun hc => ⟨hc.1, hc.2.1, hfree, hc.2.2⟩⟩
  refine ⟨hinv2, fun bij => ?_⟩
  refine BufferPoolManagerInstance.Bij.of_same_ids bij ?_ rfl rfl rfl rfl ?_
  · exact hinv2
  · intro g hg0
    show (frameOf (b.pages_.set f.toNat page) g).page_id_ = _
    by_cases hgf : g = f
    · rw [hgf, hsame]; exact hid
    · rw [hother g hg0 hgf]

/-- `FlushPgImp` keeps the invariant and the bijection. -/
theorem BufferPoolManagerInstance.FlushPgImp_ok {hash : Int → Nat}
    {b : BufferPoolManagerInstance} (p : Int) (inv : b.Inv hash) :
    (b.FlushPgImp hash p).1.Inv hash ∧ (b.FlushPgImp hash p).1.pool_size_ = b.pool_size_ ∧
    (b.FlushPgImp hash p).1.page_table_.bucket_size_ = b.page_table_.bucket_size_ ∧
    (b.FlushPgImp hash p).1.replacer_.k_ = b.replacer_.k_ ∧
    (b.Bij hash → (b.FlushPgImp hash p).1.Bij hash) := by
  unfold BufferPoolManagerInstance.FlushPgImp
  cases hfind : b.page_table_.Find hash p with
  | none => exact ⟨inv, rfl, rfl, rfl, fun hb => hb⟩
  | some f =>
    obtain ⟨hf0, hfn, hffree, _⟩ := inv.mapped p f hfind
    obtain ⟨h1, h2⟩ := inv.set_page f { (b.pageAt f) with is_dirty_ := false }
      (b.disk_manager_.WritePage p (b.pageAt f).data_) hf0 hfn hffree rfl rfl
    exact ⟨h1, rfl, rfl, rfl, h2⟩

/-- The loop of `FlushAllPgsImp` keeps the invariant and the bijection. -/
theorem BufferPoolManagerInstance.flushFrom_ok {hash : Int → Nat} (count : Nat) :
    ∀ (i : Nat) (b : BufferPoolManagerInstance), b.Inv hash → i + count ≤ b.pool_size_ →
      (BufferPoolManagerInstance.flushFrom count i b).Inv hash ∧
      (BufferPoolManagerInstance.flushFrom count i b).pool_size_ = b.pool_size_ ∧
      (BufferPoolManagerInstance.flushFrom count i b).page_table_.bucket_size_
        = b.page_table_.bucket_size_ ∧
      (BufferPoolManagerInstance.flushFrom count i b).replacer_.k_ = b.replacer_.k_ ∧
      (b.Bij hash → (BufferPoolManagerInstance.flushFrom count i b).Bij hash) := by
  induction count with
  | zero => intro i b inv _; exact ⟨inv, rfl, rfl, rfl, fun hb => hb⟩
  | succ m ih =>
    intro i b inv hle
    unfold BufferPoolManagerInstance.flushFrom
    by_cases hc : (b.pageAt (i : Int)).page_id_ ≠ INVALID_PAGE_ID
    · simp only [hc, ne_eq, not_false_eq_true, if_true]
      have hf0 : (0 : Int) ≤ (i : Int) := Int.ofNat_nonneg i
      have hfn : (i : Int) < (b.pool_size_ : Int) := by omega
      have hffree : (i : Int) ∉ b.free_list_ := fun hm => hc (inv.free_fresh _ hm).1
      obtain ⟨h1, h2⟩ := inv.set_page (i : Int) { (b.pageAt i) with is_dirty_ := false }
        (b.disk_manager_.WritePage (b.pageAt i).page_id_ (b.pageAt i).data_) hf0 hfn hffree
        rfl rfl
      obtain ⟨k1, k2, k3, k4, k5⟩ := ih (i + 1) _ h1 (by show i + 1 + m ≤ b.pool_size_; omega)
      exact ⟨k1, k2, k3, k4, fun hb => k5 (h2 hb)⟩
    · simp only [hc, if_false]
      exact ih (i + 1) b inv (by omega)

/-- `callerWrite` keeps the invariant and the bijection. -/
theorem BufferPoolManagerInstance.callerWrite_ok {hash : Int → Nat}
    {b : BufferPoolManagerInstance} (f : Int) (data : Nat) (inv : b.Inv hash) :
    (b.callerWrite f data).Inv hash ∧ (b.callerWrite f data).pool_size_ = b.pool_size_ ∧
    (b.callerWrite f data).page_table_.bucket_size_ = b.page_table_.bucket_size_ ∧
    (b.callerWrite f data).replacer_.k_ = b.replacer_.k_ ∧
    (b.Bij hash → (b.callerWrite f data).Bij hash) := by
  unfold BufferPoolManagerInstance.callerWrite
  by_cases hc : 0 ≤ f ∧ 0 < (b.pageAt f).pin_count_
  · rw [if_pos hc]
    have hfn : f < (b.pool_size_ : Int) := by
      by_contra hge
      have hlen : b.pages_.length ≤ f.toNat := by
        rw [inv.pages_len]
        have := Int.toNat_of_nonneg hc.1
        omega
      have hd : b.pageAt f = default := List.getD_eq_default _ _ hlen
      rw [hd] at hc
      exact absurd hc.2 (lt_irrefl 0)
    have hffree : f ∉ b.free_list_ := fun hm => by
      have := (inv.free_fresh f hm).2.1
      have h2 := hc.2
      rw [show b.pageAt f = frameOf b.pages_ f from rfl, this] at h2
      exact absurd h2 (lt_irrefl 0)
    obtain ⟨h1, h2⟩ := inv.set_page f { (b.pageAt f) with data_ := data } b.disk_manager_
      hc.1 hfn hffree rfl rfl
    exact ⟨h1, rfl, rfl, rfl, h2⟩
  · rw [if_neg hc]
    exact ⟨inv, rfl, rfl, rfl, fun hb => hb⟩

/-- Deleting the unpinned page `p` held by frame `f`: the frame is reset and
appended to the free list, the mapping and the replacer entry are removed. -/
theorem PoolInv.delete {hash : Int → Nat} {n : Nat} {pages : List Page}
    {pt : ExtendibleHashTable Int Int} {r : LRUKReplacer} {free : List Int}
    (inv : PoolInv hash n pages pt r free) (p f : Int) (pages2 : List Page) (r2 : LRUKReplacer)
    (hfind : pt.Find hash p = some f)
    (hlen : pages2.length = n)
    (hother : ∀ g : Int, 0 ≤ g → g ≠ f → frameOf pages2 g = frameOf pages g)
    (hsame : frameOf pages2 f = ⟨0, INVALID_PAGE_ID, 0, false⟩)
    (hr2inv : r2.Inv) (hr2size : r2.replacer_size_ = n)
    (hflags : r2.is_evictable_ = Function.update r.is_evictable_ f false)
    (hacc : r2.access_num_ = Function.update r.access_num_ f 0) :
    PoolInv hash n pages2 (pt.Remove hash p).1 r2 (free ++ [f]) ∧
    (∀ g : Int, 0 ≤ g → g < n → g ∉ free ++ [f] →
      pt.Find hash (frameOf pages g).page_id_ = some g →
      (pt.Remove hash p).1.Find hash (frameOf pages2 g).page_id_ = some g) := by
  obtain ⟨hf0, hfn, hffree, hfpid⟩ := inv.mapped p f hfind
  have hfindR : ∀ q, (pt.Remove hash p).1.Find hash q
      = if q = p then none else pt.Find hash q :=
    fun q => ExtendibleHashTable.Remove_Find inv.pt_wf p q
  have hmem : ∀ g : Int, g ∉ free ++ [f] ↔ (g ∉ free ∧ g ≠ f) := by
    intro g
    rw [List.mem_append, List.mem_singleton, not_or]
  refine ⟨⟨hlen, ExtendibleHashTable.Remove_WF inv.pt_wf _, hr2inv, hr2size, ?_, ?_, ?_, ?_, ?_,
    ?_⟩, ?_⟩
  · intro g hg
    rcases List.mem_append.mp hg with hg | hg
    · exact inv.free_range g hg
    · rw [List.mem_singleton.mp hg]; exact ⟨hf0, hfn⟩
  · rw [List.nodup_append]
    refine ⟨inv.free_nodup, List.nodup_singleton f, ?_⟩
    intro g hg1 hg2
    rw [List.mem_singleton.mp hg2] at hg1
    exact hffree hg1
  · intro g hg
    rcases List.mem_append.mp hg with hg | hg
    · have hgf : g ≠ f := fun e => hffree (e ▸ hg)
      rw [hother g (inv.free_range g hg).1 hgf]
      exact inv.free_fresh g hg
    · rw [List.mem_singleton.mp hg, hsame]
      exact ⟨rfl, rfl, rfl⟩
  · intro q g hq
    rw [hfindR q] at hq
    by_cases hqp : q = p
    · rw [if_pos hqp] at hq; cases hq
    · rw [if_neg hqp] at hq
      obtain ⟨h0, h1, h2, h3⟩ := inv.mapped q g hq
      have hgf : g ≠ f := by
        intro e
        rw [e, hfpid] at h3
        exact hqp h3.symm
      exact ⟨h0, h1, (hmem g).mpr ⟨h2, hgf⟩, by rw [hother g h0 hgf]; exact h3⟩
  · intro g
    rw [hflags, hmem]
    by_cases hgf : g = f
    · rw [hgf, Function.update_same]
      constructor
      · intro hc; cases hc
      · rintro ⟨_, _, ⟨_, hne⟩, _⟩; exact absurd rfl hne
    · rw [Function.update_noteq hgf, inv.evictable_iff]
      constructor
      · rintro ⟨h0, h1, h2, h3⟩
        exact ⟨h0, h1, ⟨h2, hgf⟩, by rw [hother g h0 hgf]; exact h3⟩
      · rintro ⟨h0, h1, ⟨h2, _⟩, h3⟩
        exact ⟨h0, h1, h2, by rw [← hother g h0 hgf]; exact h3⟩
  · intro g h0 h1 h2
    obtain ⟨h3, hgf⟩ := (hmem g).mp h2
    rw [hacc, Function.update_noteq hgf]
    exact inv.tracked g h0 h1 h3
  · intro g h0 _ h2 hg
    obtain ⟨_, hgf⟩ := (hmem g).mp h2
    rw [hother g h0 hgf, hfindR]
    have hne : (frameOf pages g).page_id_ ≠ p := by
      intro e
      rw [e, hfind] at hg
      exact hgf (Option.some.inj hg).symm
    rw [if_neg hne]; exact hg

/-- `DeletePgImp` keeps the invariant and the bijection. -/
theorem BufferPoolManagerInstance.DeletePgImp_ok {hash : Int → Nat}
    {b b2 : BufferPoolManagerInstance} {p : Int} {res : Bool} (inv : b.Inv hash)
    (h : b.DeletePgImp hash p = Except.ok (b2, res)) :
    b2.Inv hash ∧ b2.pool_size_ = b.pool_size_ ∧
    b2.page_table_.bucket_size_ = b.page_table_.bucket_size_ ∧
    b2.replacer_.k_ = b.replacer_.k_ ∧
    (b.Bij hash → b2.Bij hash) := by
  unfold BufferPoolManagerInstance.DeletePgImp at h
  cases hfind : b.page_table_.Find hash p with
  | none =>
    rw [hfind] at h
    cases h
    exact ⟨inv, rfl, rfl, rfl, fun hb => hb⟩
  | some f =>
    rw [hfind] at h
    simp only at h
    by_cases hpin : (b.pageAt f).pin_count_ ≠ 0
    · rw [if_pos hpin] at h
      cases h
      exact ⟨inv, rfl, rfl, rfl, fun hb => hb⟩
    · rw [if_neg hpin] at h
      have hpin0 : (b.pageAt f).pin_count_ = 0 := not_not.mp hpin
      obtain ⟨hf0, hfn, hffree, _⟩ := inv.mapped p f hfind
      have hflen : f < (b.pages_.length : Int) := by rw [inv.pages_len]; exact hfn
      have hfsz : f ≤ (b.replacer_.replacer_size_ : Int) := by
        rw [inv.rep_size]; exact le_of_lt hfn
      have hev : b.replacer_.is_evictable_ f = true :=
        (inv.evictable_iff f).mpr ⟨hf0, hfn, hffree, hpin0⟩
      obtain ⟨r, hrm, hrinv, hrsize, hrk, hflags, hacc⟩ :=
        LRUKReplacer.Remove_spec inv.rep_inv f hfsz (Or.inl hev)
      obtain ⟨hwlen, hwother, hwsame⟩ := b.writeBack_pages f hf0 hflen
      have hrep : ∀ (x : Page) (pt : ExtendibleHashTable Int Int) (fl : List Int),
          ({ ((b.writeBack f).setPage f x) with page_table_ := pt, free_list_ := fl } :
            BufferPoolManagerInstance).replacer_ = b.replacer_ := fun _ _ _ => rfl
      rw [hrep, hrm] at h
      simp only at h
      cases h
      have hflen2 : f < ((b.writeBack f).pages_.length : Int) := by rw [hwlen]; exact hflen
      have hsame : frameOf ((b.writeBack f).pages_.set f.toNat
          { ((b.writeBack f).pageAt f).ResetMemory with
            pin_count_ := 0, page_id_ := INVALID_PAGE_ID }) f
          = ⟨0, INVALID_PAGE_ID, 0, false⟩ := by
        rw [frameOf_set_same _ _ _ hf0 hflen2]
        show (⟨0, INVALID_PAGE_ID, 0, (frameOf (b.writeBack f).pages_ f).is_dirty_⟩ : Page) = _
        rw [hwsame]
      have hother : ∀ g : Int, 0 ≤ g → g ≠ f →
          frameOf ((b.writeBack f).pages_.set f.toNat
            { ((b.writeBack f).pageAt f).ResetMemory with
              pin_count_ := 0, page_id_ := INVALID_PAGE_ID }) g = frameOf b.pages_ g := by
        intro g hg0 hgf
        rw [frameOf_set_other _ _ _ _ hf0 hg0 hgf, hwother g hg0 hgf]
      obtain ⟨hinv2, hres⟩ := PoolInv.delete inv p f _ r hfind
        (by rw [List.length_set, hwlen]; exact inv.pages_len) hother hsame hrinv
        (hrsize.trans inv.rep_size) hflags hacc
      refine ⟨hinv2, rfl, rfl, hrk, fun bij => ⟨hinv2, bij.next_nonneg, ?_, ?_⟩⟩
      · intro g h0 h1 h2
        exact hres g h0 h1 h2
          (bij.resident_mapped g h0 h1 (fun hm => h2 (List.mem_append_left _ hm)))
      · intro q g hq
        have hq : (b.page_table_.Remove hash p).1.Find hash q = some g := hq
        rw [ExtendibleHashTable.Remove_Find inv.pt_wf] at hq
        by_cases hqp : q = p
        · rw [if_pos hqp] at hq; cases hq
        · rw [if_neg hqp] at hq
          exact bij.keys_lt q g hq

theorem Except.map_ok_fst {α β ε : Type} {x : Except ε (α × β)} {a : α}
    (h : x.map Prod.fst = Except.ok a) : ∃ res, x = Except.ok (a, res) := by
  cases x with
  | error e => cases h
  | ok v =>
    cases v with
    | mk a1 res =>
      have : a1 = a := by
        have h2 : (Except.ok a1 : Except ε α) = Except.ok a := h
        exact Except.ok.inj h2
      exact ⟨res, by rw [this]⟩

/-- Every call that returns keeps the invariant; it keeps the bijection when
the call fetches only a page id that was handed out. -/
theorem BufferPoolManagerInstance.call_ok {hash : Int → Nat} {fuel : Nat}
    {b b2 : BufferPoolManagerInstance} {c : PoolCall} (inv : b.Inv hash)
    (h : b.call hash fuel c = Except.ok b2) :
    b2.Inv hash ∧ b2.pool_size_ = b.pool_size_ ∧
    b2.page_table_.bucket_size_ = b.page_table_.bucket_size_ ∧
    b2.replacer_.k_ = b.replacer_.k_ ∧
    (b.Bij hash → c.fetchesKnown b → b2.Bij hash) := by
  cases c with
  | newPage =>
    obtain ⟨res, hr⟩ := Except.map_ok_fst h
    obtain ⟨h1, h2, h3, h4, h5, _⟩ := BufferPoolManagerInstance.NewPgImp_ok inv hr
    exact ⟨h1, h2, h3, h4, fun hb _ => h5 hb⟩
  | fetchPage p =>
    obtain ⟨res, hr⟩ := Except.map_ok_fst h
    obtain ⟨h1, h2, h3, h4, h5⟩ := BufferPoolManagerInstance.FetchPgImp_ok inv hr
    exact ⟨h1, h2, h3, h4, fun hb hc => h5 hb hc⟩
  | unpinPage p d =>
    obtain ⟨res, hr⟩ := Except.map_ok_fst h
    obtain ⟨h1, h2, h3, h4, h5⟩ := BufferPoolManagerInstance.UnpinPgImp_ok inv hr
    exact ⟨h1, h2, h3, h4, fun hb _ => h5 hb⟩
  | flushPage p =>
    have : (b.FlushPgImp hash p).1 = b2 := Except.ok.inj h
    subst this
    obtain ⟨h1, h2, h3, h4, h5⟩ := BufferPoolManagerInstance.FlushPgImp_ok p inv
    exact ⟨h1, h2, h3, h4, fun hb _ => h5 hb⟩
  | flushAllPages =>
    have : b.FlushAllPgsImp = b2 := Except.ok.inj h
    subst this
    obtain ⟨h1, h2, h3, h4, h5⟩ :=
      BufferPoolManagerInstance.flushFrom_ok b.pool_size_ 0 b inv (by omega)
    exact ⟨h1, h2, h3, h4, fun hb _ => h5 hb⟩
  | deletePage p =>
    obtain ⟨res, hr⟩ := Except.map_ok_fst h
    obtain ⟨h1, h2, h3, h4, h5⟩ := BufferPoolManagerInstance.DeletePgImp_ok inv hr
    exact ⟨h1, h2, h3, h4, fun hb _ => h5 hb⟩
  | write f data =>
    have : b.callerWrite f data = b2 := Except.ok.inj h
    subst this
    obtain ⟨h1, h2, h3, h4, h5⟩ := BufferPoolManagerInstance.callerWrite_ok f data inv
    exact ⟨h1, h2, h3, h4, fun hb _ => h5 hb⟩

/-! ### The freshly constructed pool and the reachable states -/

/-- Every frame of a fresh frame array is in the fresh state. -/
theorem frameOf_replicate (n : Nat) (f : Int) : frameOf (List.replicate n default) f = default := by
  unfold frameOf
  rw [List.getD_eq_getElem?_getD, List.getElem?_replicate]
  split_ifs <;> rfl

/-- The free list of a fresh pool holds exactly the frames `0 ≤ f < pool_size`. -/
theorem mem_initial_free_list (n : Nat) (f : Int) :
    f ∈ (List.range n).map Int.ofNat ↔ 0 ≤ f ∧ f < n := by
  rw [List.mem_map]
  constructor
  · rintro ⟨i, hi, rfl⟩
    rw [List.mem_range] at hi
    exact ⟨Int.ofNat_nonneg i, by show (i : Int) < n; exact_mod_cast hi⟩
  · rintro ⟨h0, h1⟩
    refine ⟨f.toNat, ?_, ?_⟩
    · rw [List.mem_range]; omega
    · show (f.toNat : Int) = f
      omega

/-- Nothing is found in a fresh page table. -/
theorem ExtendibleHashTable.new_Find [DecidableEq K] (hash : K → Nat) (bucket_size : Nat)
    (key : K) :
    (ExtendibleHashTable.new bucket_size : ExtendibleHashTable K V).Find hash key = none := by
  have hwf := ExtendibleHashTable.new_WF (V := V) hash bucket_size
  have hlt := hwf.index_lt key
  have hcases : ∀ i, i < 2 → i = 0 ∨ i = 1 := fun i hi => by omega
  unfold ExtendibleHashTable.Find
  generalize (ExtendibleHashTable.new bucket_size : ExtendibleHashTable K V).IndexOf hash key = i
    at hlt
  rcases hcases i hlt with rfl | rfl <;> rfl

/-- The freshly constructed pool satisfies the invariant. -/
theorem BufferPoolManagerInstance.new_pool_Inv (hash : Int → Nat) (pool_size replacer_k bucket_size : Nat)
    (disk_manager : DiskManager) (hk : 2 ≤ replacer_k) :
    (BufferPoolManagerInstance.new pool_size replacer_k bucket_size disk_manager).Inv hash := by
  refine ⟨List.length_replicate _ _, ExtendibleHashTable.new_WF hash bucket_size,
    LRUKReplacer.new_Inv pool_size replacer_k hk, rfl, ?_, ?_, ?_, ?_, ?_, ?_⟩
  · intro f hf
    exact (mem_initial_free_list pool_size f).mp hf
  · exact List.Nodup.map Int.ofNat_injective (List.nodup_range pool_size)
  · intro f _
    have hfresh : frameOf (BufferPoolManagerInstance.new pool_size replacer_k bucket_size
        disk_manager).pages_ f = default := frameOf_replicate pool_size f
    rw [hfresh]
    exact ⟨rfl, rfl, rfl⟩
  · intro p f h
    have := ExtendibleHashTable.new_Find (V := Int) hash bucket_size p
    rw [show (BufferPoolManagerInstance.new pool_size replacer_k bucket_size
      disk_manager).page_table_ = ExtendibleHashTable.new bucket_size from rfl, this] at h
    cases h
  · intro f
    constructor
    · intro h; cases h
    · rintro ⟨h0, h1, h2, _⟩
      exact absurd ((mem_initial_free_list pool_size f).mpr ⟨h0, h1⟩) h2
  · intro f h0 h1 h2
    exact absurd ((mem_initial_free_list pool_size f).mpr ⟨h0, h1⟩) h2

/-- The freshly constructed pool satisfies the stronger invariant. -/
theorem BufferPoolManagerInstance.new_Bij (hash : Int → Nat) (pool_size replacer_k bucket_size : Nat)
    (disk_manager : DiskManager) (hk : 2 ≤ replacer_k) :
    (BufferPoolManagerInstance.new pool_size replacer_k bucket_size disk_manager).Bij hash := by
  refine ⟨BufferPoolManagerInstance.new_pool_Inv hash pool_size replacer_k bucket_size disk_manager hk,
    le_refl _, ?_, ?_⟩
  · intro f h0 h1 h2
    exact absurd ((mem_initial_free_list pool_size f).mpr ⟨h0, h1⟩) h2
  · intro p f h
    have := ExtendibleHashTable.new_Find (V := Int) hash bucket_size p
    rw [show (BufferPoolManagerInstance.new pool_size replacer_k bucket_size
      disk_manager).page_table_ = ExtendibleHashTable.new bucket_size from rfl, this] at h
    cases h

/-- Every reachable state satisfies the invariant and keeps the configuration. -/
theorem BufferPoolManagerInstance.Reachable.inv {hash : Int → Nat}
    {pool_size replacer_k bucket_size : Nat}
    {allowed : BufferPoolManagerInstance → PoolCall → Prop} {b : BufferPoolManagerInstance}
    (hk : 2 ≤ replacer_k)
    (hr : BufferPoolManagerInstance.Reachable hash pool_size replacer_k bucket_size allowed b) :
    b.Inv hash ∧ b.pool_size_ = pool_size ∧ b.page_table_.bucket_size_ = bucket_size ∧
      b.replacer_.k_ = replacer_k := by
  induction hr with
  | init disk_manager =>
    exact ⟨BufferPoolManagerInstance.new_pool_Inv hash pool_size replacer_k bucket_size disk_manager hk,
      rfl, rfl, rfl⟩
  | step b b2 fuel c _ _ hcall ih =>
    obtain ⟨hinv, h1, h2, h3⟩ := ih
    obtain ⟨hinv2, g1, g2, g3, _⟩ := BufferPoolManagerInstance.call_ok hinv hcall
    exact ⟨hinv2, g1.trans h1, g2.trans h2, g3.trans h3⟩

/-- Every state reached by a workload that fetches only known pages satisfies
the stronger invariant. -/
theorem BufferPoolManagerInstance.Reachable.bij {hash : Int → Nat}
    {pool_size replacer_k bucket_size : Nat} {b : BufferPoolManagerInstance}
    (hk : 2 ≤ replacer_k)
    (hr : BufferPoolManagerInstance.Reachable hash pool_size replacer_k bucket_size
      PoolCall.fetchesKnown b) :
    b.Bij hash := by
  induction hr with
  | init disk_manager =>
    exact BufferPoolManagerInstance.new_Bij hash pool_size replacer_k bucket_size disk_manager hk
  | step b b2 fuel c _ hall hcall ih =>
    exact (BufferPoolManagerInstance.call_ok ih.inv hcall).2.2.2.2 ih hall

/-! ### What `UnpinPgImp` and `DeletePgImp` return -/

/-- Two assignments to the same frame. -/
theorem pages_set_set (pages : List Page) (i : Nat) (x y : Page) :
    (pages.set i x).set i y = pages.set i y := by
  apply List.ext_getElem?
  intro j
  rw [List.getElem?_set, List.getElem?_set, List.getElem?_set]
  by_cases hij : i = j
  · subst hij
    by_cases hi : i < pages.length
    · simp [hi]
    · simp [hi]
  · simp [hij]

/-- `UnpinPgImp` on a page that is not in the page table. -/
theorem BufferPoolManagerInstance.UnpinPgImp_unmapped (hash : Int → Nat)
    (b : BufferPoolManagerInstance) (p : Int) (d : Bool)
    (hfind : b.page_table_.Find hash p = none) :
    b.UnpinPgImp hash p d = Except.ok (b, false) := by
  unfold BufferPoolManagerInstance.UnpinPgImp
  rw [hfind]

/-- `UnpinPgImp` on a page whose frame has pin count 0. -/
theorem BufferPoolManagerInstance.UnpinPgImp_unpinned (hash : Int → Nat)
    (b : BufferPoolManagerInstance) (p f : Int) (d : Bool)
    (hfind : b.page_table_.Find hash p = some f) (hpin : (b.pageAt f).pin_count_ = 0) :
    b.UnpinPgImp hash p d = Except.ok (b, false) := by
  unfold BufferPoolManagerInstance.UnpinPgImp
  rw [hfind]
  simp only
  rw [if_pos hpin]

/-- `UnpinPgImp` on a page whose frame is pinned: the frame gets the pin count
less one and the dirty flag `is_dirty_ || is_dirty`, and the replacer is told
when the pin count has reached 0. -/
theorem BufferPoolManagerInstance.UnpinPgImp_pinned (hash : Int → Nat)
    (b : BufferPoolManagerInstance) (p f : Int) (d : Bool)
    (hfind : b.page_table_.Find hash p = some f) (hpin : (b.pageAt f).pin_count_ ≠ 0)
    (h0 : 0 ≤ f) (hlt : f < b.pages_.length) :
    b.UnpinPgImp hash p d =
      if (b.pageAt f).pin_count_ - 1 = 0 then
        match b.replacer_.SetEvictable f true with
        | Except.ok r =>
          Except.ok ({ b with
            pages_ := b.pages_.set f.toNat
              ⟨(b.pageAt f).data_, (b.pageAt f).page_id_, (b.pageAt f).pin_count_ - 1,
                (b.pageAt f).is_dirty_ || d⟩
            replacer_ := r }, true)
        | Except.error e => Except.error e
      else
        Except.ok ({ b with
          pages_ := b.pages_.set f.toNat
            ⟨(b.pageAt f).data_, (b.pageAt f).page_id_, (b.pageAt f).pin_count_ - 1,
              (b.pageAt f).is_dirty_ || d⟩ }, true) := by
  unfold BufferPoolManagerInstance.UnpinPgImp
  rw [hfind]
  simp only
  rw [if_neg hpin]
  have hb1 : (b.setPage f
      { (b.pageAt f) with pin_count_ := (b.pageAt f).pin_count_ - 1 }).pageAt f
      = { (b.pageAt f) with pin_count_ := (b.pageAt f).pin_count_ - 1 } :=
    frameOf_set_same _ _ _ h0 hlt
  rw [hb1]
  simp only
  have hlen1 : f < ((b.pages_.set f.toNat
      { (b.pageAt f) with pin_count_ := (b.pageAt f).pin_count_ - 1 }).length : Int) := by
    rw [List.length_set]; exact hlt
  by_cases hz : (b.pageAt f).pin_count_ - 1 = 0
  · rw [if_pos hz, if_pos hz]
    have hrep : (b.setPage f
        { (b.pageAt f) with pin_count_ := (b.pageAt f).pin_count_ - 1 }).replacer_
        = b.replacer_ := rfl
    rw [hrep]
    cases hs : b.replacer_.SetEvictable f true with
    | error e => rfl
    | ok r =>
      simp only
      have hb2 : ({ (b.setPage f
          { (b.pageAt f) with pin_count_ := (b.pageAt f).pin_count_ - 1 }) with
            replacer_ := r } : BufferPoolManagerInstance).pageAt f
          = { (b.pageAt f) with pin_count_ := (b.pageAt f).pin_count_ - 1 } :=
        frameOf_set_same _ _ _ h0 hlt
      rw [hb2]
      cases hd : (b.pageAt f).is_dirty_ with
      | true =>
        simp only [Bool.not_true, Bool.true_or, Bool.false_eq_true, if_false]
        rfl
      | false =>
        simp only [Bool.not_false, Bool.false_or, if_true]
        congr 2
        show ({ b with pages_ := (b.pages_.set f.toNat _).set f.toNat _, replacer_ := r } :
          BufferPoolManagerInstance) = _
        rw [pages_set_set]
  · rw [if_neg hz, if_neg hz]
    simp only
    rw [hb1]
    cases hd : (b.pageAt f).is_dirty_ with
    | true =>
      simp only [Bool.not_true, Bool.true_or, Bool.false_eq_true, if_false]
      rfl
    | false =>
      simp only [Bool.not_false, Bool.false_or, if_true]
      congr 2
      show ({ b with pages_ := (b.pages_.set f.toNat _).set f.toNat _ } :
        BufferPoolManagerInstance) = _
      rw [pages_set_set]

/-- `DeletePgImp` on a page that is not in the page table. -/
theorem BufferPoolManagerInstance.DeletePgImp_unmapped (hash : Int → Nat)
    (b : BufferPoolManagerInstance) (p : Int)
    (hfind : b.page_table_.Find hash p = none) :
    b.DeletePgImp hash p = Except.ok (b, true) := by
  unfold BufferPoolManagerInstance.DeletePgImp
  rw [hfind]

/-- `DeletePgImp` on a page whose frame is pinned. -/
theorem BufferPoolManagerInstance.DeletePgImp_pinned (hash : Int → Nat)
    (b : BufferPoolManagerInstance) (p f : Int)
    (hfind : b.page_table_.Find hash p = some f) (hpin : (b.pageAt f).pin_count_ ≠ 0) :
    b.DeletePgImp hash p = Except.ok (b, false) := by
  unfold BufferPoolManagerInstance.DeletePgImp
  rw [hfind]
  simp only
  rw [if_pos hpin]

/-- `DeletePgImp` on a page whose frame is not pinned: write-back, reset of the
frame, removal from the page table, return to the free list and removal from
the replacer, in this order. -/
theorem BufferPoolManagerInstance.DeletePgImp_unpinned (hash : Int → Nat)
    (b : BufferPoolManagerInstance) (p f : Int)
    (hfind : b.page_table_.Find hash p = some f) (hpin : (b.pageAt f).pin_count_ = 0)
    (h0 : 0 ≤ f) (hlt : f < b.pages_.length) :
    b.DeletePgImp hash p =
      match b.replacer_.Remove f with
      | Except.ok r =>
        Except.ok ({ pool_size_ := b.pool_size_
                     next_page_id_ := b.next_page_id_
                     pages_ := (b.writeBack f).pages_.set f.toNat ⟨0, INVALID_PAGE_ID, 0, false⟩
                     page_table_ := (b.page_table_.Remove hash p).1
                     replacer_ := r
                     free_list_ := b.free_list_ ++ [f]
                     disk_manager_ := (b.writeBack f).disk_manager_ }, true)
      | Except.error e => Except.error e := by
  unfold BufferPoolManagerInstance.DeletePgImp
  rw [hfind]
  simp only
  rw [if_neg (by rw [hpin]; exact fun h => h rfl)]
  obtain ⟨_, _, hwsame⟩ := b.writeBack_pages f h0 hlt
  have hpage : ({ ((b.writeBack f).pageAt f).ResetMemory with
      pin_count_ := 0, page_id_ := INVALID_PAGE_ID } : Page) = ⟨0, INVALID_PAGE_ID, 0, false⟩ := by
    show ({ (frameOf (b.writeBack f).pages_ f).ResetMemory with
      pin_count_ := 0, page_id_ := INVALID_PAGE_ID } : Page) = _
    rw [hwsame]
    rfl
  rw [hpage]
  rfl

/-! ### The invariant of the pool for every `K` -/

/-- The pair `RecordAccess(f); SetEvictable(f, false)`, when it returns: the
frame is not evictable afterwards, its access count has grown by one, and no
other frame changes its flag or access count. No bound on `K` is needed. -/
theorem LRUKReplacer.pin_raw {r r2 : LRUKReplacer} (f : Int) (h : r.pin f = Except.ok r2) :
    r2.replacer_size_ = r.replacer_size_ ∧ r2.k_ = r.k_ ∧
    r2.is_evictable_ = Function.update r.is_evictable_ f false ∧
    r2.access_num_ = Function.update r.access_num_ f (r.access_num_ f + 1) := by
  unfold LRUKReplacer.pin at h
  cases hra : r.RecordAccess f with
  | error e => rw [hra] at h; cases h
  | ok r1 =>
    simp only [hra] at h
    have hacc := LRUKReplacer.RecordAccess_access f hra
    have hsz := LRUKReplacer.RecordAccess_size f hra
    have hfl := LRUKReplacer.RecordAccess_flags f hra
    have hk1 : r1.k_ = r.k_ := by
      dsimp only [LRUKReplacer.RecordAccess] at hra
      split_ifs at hra <;> cases hra <;> rfl
    rcases r1.SetEvictable_cases f false with ⟨_, e⟩ | ⟨_, h0, e⟩ | ⟨_, _, e⟩
    · rw [e] at h; cases h
    · rw [hacc, Function.update_same] at h0
      exact absurd h0 (Nat.succ_ne_zero _)
    · rw [e] at h
      cases h
      exact ⟨hsz, hk1, by rw [← hfl], hacc⟩

/-- A victim of `Evict` had its flag set; the call clears the flag and the
access count of the victim and of no other frame. No bound on `K` is needed. -/
theorem LRUKReplacer.Evict_raw {r r2 : LRUKReplacer} (v : Int) (h : r.Evict = (r2, some v)) :
    r.is_evictable_ v = true ∧ r2.replacer_size_ = r.replacer_size_ ∧ r2.k_ = r.k_ ∧
    r2.is_evictable_ = Function.update r.is_evictable_ v false ∧
    r2.access_num_ = Function.update r.access_num_ v 0 := by
  rcases r.Evict_cases with ⟨_, e⟩ | ⟨_, w, hw, e⟩ | ⟨_, _, w, hw, e⟩ | ⟨_, _, _, e⟩
  · rw [e] at h; cases h
  · rw [e] at h; cases h
    exact ⟨List.find?_some hw, rfl, rfl, rfl, rfl⟩
  · rw [e] at h; cases h
    exact ⟨List.find?_some hw, rfl, rfl, rfl, rfl⟩
  · rw [e] at h; cases h

/-- An `Evict` that finds no victim leaves the replacer as it is. -/
theorem LRUKReplacer.Evict_none_raw {r r2 : LRUKReplacer} (h : r.Evict = (r2, none)) :
    r2 = r := by
  rcases r.Evict_cases with ⟨_, e⟩ | ⟨_, w, _, e⟩ | ⟨_, _, w, _, e⟩ | ⟨_, _, _, e⟩
  · rw [e] at h; cases h; rfl
  · rw [e] at h; cases h
  · rw [e] at h; cases h
  · rw [e] at h; cases h; rfl

/-- A `Remove` of a tracked frame that returns: the frame was evictable, and
the call clears its flag and its access count and those of no other frame. -/
theorem LRUKReplacer.Remove_raw {r r2 : LRUKReplacer} (f : Int) (hpos : 0 < r.access_num_ f)
    (h : r.Remove f = Except.ok r2) :
    r.is_evictable_ f = true ∧ r2.replacer_size_ = r.replacer_size_ ∧ r2.k_ = r.k_ ∧
    r2.is_evictable_ = Function.update r.is_evictable_ f false ∧
    r2.access_num_ = Function.update r.access_num_ f 0 := by
  rcases r.Remove_cases f with ⟨_, e⟩ | ⟨_, h0, _⟩ | ⟨_, _, _, e⟩ | ⟨_, _, hflag, e⟩
  · rw [e] at h; cases h
  · omega
  · rw [e] at h; cases h
  · rw [e] at h; cases h
    exact ⟨hflag, rfl, rfl, rfl, rfl⟩

/-- A `SetEvictable` of a tracked frame that returns sets the flag of the frame
and of no other frame, and changes the size by the change of the flag. -/
theorem LRUKReplacer.SetEvictable_raw {r r2 : LRUKReplacer} (f : Int) (b : Bool)
    (hpos : 0 < r.access_num_ f) (h : r.SetEvictable f b = Except.ok r2) :
    r2.replacer_size_ = r.replacer_size_ ∧ r2.k_ = r.k_ ∧
    r2.is_evictable_ = Function.update r.is_evictable_ f b ∧
    r2.access_num_ = r.access_num_ ∧
    r2.curr_size_ =
      (if !r.is_evictable_ f && b then r.curr_size_ + 1
        else if r.is_evictable_ f && !b then size_t_decrement r.curr_size_
        else r.curr_size_) := by
  rcases r.SetEvictable_cases f b with ⟨_, e⟩ | ⟨_, h0, _⟩ | ⟨_, _, e⟩
  · rw [e] at h; cases h
  · omega
  · rw [e] at h; cases h
    exact ⟨rfl, rfl, rfl, rfl, rfl⟩

/-- The invariant with its replacer part dropped. -/
theorem PoolInv.to_core {hash : Int → Nat} {n : Nat} {pages : List Page}
    {pt : ExtendibleHashTable Int Int} {r : LRUKReplacer} {free : List Int}
    (inv : PoolInv hash n pages pt r free) : PoolCore hash n pages pt r free :=
  ⟨inv.pages_len, inv.pt_wf, inv.rep_size, inv.free_range, inv.free_nodup, inv.free_fresh,
    inv.mapped, inv.evictable_iff, inv.tracked⟩

/-- A change of one resident frame that keeps its page id, together with a
change of the replacer that keeps the flag of the frame in step with its pin
count, keeps `PoolCore`. -/
theorem PoolCore.frame_updated {hash : Int → Nat} {n : Nat} {pages : List Page}
    {pt : ExtendibleHashTable Int Int} {r : LRUKReplacer} {free : List Int}
    (inv : PoolCore hash n pages pt r free) (f : Int) (pages2 : List Page) (r2 : LRUKReplacer)
    (hfree : f ∉ free)
    (hlen : pages2.length = n)
    (hother : ∀ g : Int, 0 ≤ g → g ≠ f → frameOf pages2 g = frameOf pages g)
    (hid : (frameOf pages2 f).page_id_ = (frameOf pages f).page_id_)
    (hsize : r2.replacer_size_ = n)
    (hflag_other : ∀ g, g ≠ f → r2.is_evictable_ g = r.is_evictable_ g)
    (hflag : r2.is_evictable_ f = true ↔
      (0 ≤ f ∧ f < n ∧ (frameOf pages2 f).pin_count_ = 0))
    (htracked : ∀ g, 0 < r.access_num_ g → 0 < r2.access_num_ g) :
    PoolCore hash n pages2 pt r2 free := by
  refine ⟨hlen, inv.pt_wf, hsize, inv.free_range, inv.free_nodup, ?_, ?_, ?_, ?_⟩
  · intro g hg
    have hgf : g ≠ f := fun e => hfree (e ▸ hg)
    rw [hother g (inv.free_range g hg).1 hgf]
    exact inv.free_fresh g hg
  · intro p g hfind
    obtain ⟨h0, h1, h2, h3⟩ := inv.mapped p g hfind
    refine ⟨h0, h1, h2, ?_⟩
    by_cases hgf : g = f
    · rw [hgf, hid, ← hgf]; exact h3
    · rw [hother g h0 hgf]; exact h3
  · intro g
    by_cases hgf : g = f
    · subst hgf
      rw [hflag]
      exact ⟨fun h => ⟨h.1, h.2.1, hfree, h.2.2⟩, fun h => ⟨h.1, h.2.1, h.2.2.2⟩⟩
    · rw [hflag_other g hgf, inv.evictable_iff]
      constructor
      · rintro ⟨h0, h1, h2, h3⟩
        exact ⟨h0, h1, h2, by rw [hother g h0 hgf]; exact h3⟩
      · rintro ⟨h0, h1, h2, h3⟩
        exact ⟨h0, h1, h2, by rw [← hother g h0 hgf]; exact h3⟩
  · intro g h0 h1 h2
    exact htracked g (inv.tracked g h0 h1 h2)

/-- Taking the front of the free list, for every `K`. -/
theorem PoolCore.free_taken {hash : Int → Nat} {n : Nat} {pages : List Page}
    {pt : ExtendibleHashTable Int Int} {r : LRUKReplacer} {f : Int} {rest : List Int}
    (inv : PoolCore hash n pages pt r (f :: rest)) :
    PoolCoreAcquired hash n pages pt r rest f := by
  have hnd := List.nodup_cons.mp inv.free_nodup
  refine ⟨inv.pages_len, inv.pt_wf, inv.rep_size, ?_, hnd.2, ?_, ?_, hnd.1,
      ?_, ?_, ?_, ?_⟩
  · intro g hg; exact inv.free_range g (List.mem_cons_of_mem _ hg)
  · intro g hg; exact inv.free_fresh g (List.mem_cons_of_mem _ hg)
  · exact inv.free_range f (List.mem_cons_self _ _)
  · exact (inv.free_fresh f (List.mem_cons_self _ _)).2.2
  · intro p g hfind
    obtain ⟨h0, h1, h2, h3⟩ := inv.mapped p g hfind
    rw [List.mem_cons, not_or] at h2
    exact ⟨h0, h1, h2.2, h2.1, h3⟩
  · intro g
    rw [inv.evictable_iff, List.mem_cons, not_or]
    constructor
    · rintro ⟨h0, h1, h2, h3⟩; exact ⟨h0, h1, h2.2, h2.1, h3⟩
    · rintro ⟨h0, h1, h2, h3, h4⟩; exact ⟨h0, h1, ⟨h3, h2⟩, h4⟩
  · intro g h0 h1 h2 h3
    exact inv.tracked g h0 h1 (by rw [List.mem_cons, not_or]; exact ⟨h3, h2⟩)

/-- Evicting the victim `v` of the replacer, for every `K`: write-back (only
the dirty flag of `v` changes) and removal of the mapping of its page id. -/
theorem PoolCore.victim_taken {hash : Int → Nat} {n : Nat} {pages : List Page}
    {pt : ExtendibleHashTable Int Int} {r : LRUKReplacer}
    (inv : PoolCore hash n pages pt r []) (r2 : LRUKReplacer) (v : Int) (pages2 : List Page)
    (pid : Int) (he : r.Evict = (r2, some v))
    (hlen : pages2.length = pages.length)
    (hother : ∀ g : Int, 0 ≤ g → g ≠ v → frameOf pages2 g = frameOf pages g)
    (hsame : frameOf pages2 v = { (frameOf pages v) with is_dirty_ := false })
    (hpid : pid = (frameOf pages2 v).page_id_) :
    PoolCoreAcquired hash n pages2 (pt.Remove hash pid).1 r2 [] v ∧
    r.is_evictable_ v = true ∧ (frameOf pages v).pin_count_ = 0 ∧
    pid = (frameOf pages v).page_id_ := by
  obtain ⟨hvflag, hrsize, _, hflags, haccess⟩ := LRUKReplacer.Evict_raw v he
  obtain ⟨hv0, hvn, _, hvpin⟩ := (inv.evictable_iff v).mp hvflag
  have hwpid : ∀ g : Int, 0 ≤ g → (frameOf pages2 g).page_id_ = (frameOf pages g).page_id_ := by
    intro g hg
    by_cases hgf : g = v
    · rw [hgf, hsame]
    · rw [hother g hg hgf]
  have hwpin : ∀ g : Int, 0 ≤ g →
      (frameOf pages2 g).pin_count_ = (frameOf pages g).pin_count_ := by
    intro g hg
    by_cases hgf : g = v
    · rw [hgf, hsame]
    · rw [hother g hg hgf]
  have hpid2 : pid = (frameOf pages v).page_id_ := by rw [hpid, hwpid v hv0]
  have hfind : ∀ p, (pt.Remove hash pid).1.Find hash p
      = if p = pid then none else pt.Find hash p :=
    fun p => ExtendibleHashTable.Remove_Find inv.pt_wf pid p
  refine ⟨⟨hlen.trans inv.pages_len, ExtendibleHashTable.Remove_WF inv.pt_wf _,
    hrsize.trans inv.rep_size, fun g hg => (by cases hg), List.nodup_nil,
    fun g hg => (by cases hg), ⟨hv0, hvn⟩, List.not_mem_nil _, (by rw [hsame]), ?_, ?_, ?_⟩,
    hvflag, hvpin, hpid2⟩
  · intro p g hp
    rw [hfind p] at hp
    by_cases hpe : p = pid
    · rw [if_pos hpe] at hp; cases hp
    · rw [if_neg hpe] at hp
      obtain ⟨h0, h1, _, h3⟩ := inv.mapped p g hp
      refine ⟨h0, h1, List.not_mem_nil _, ?_, by rw [hwpid g h0]; exact h3⟩
      intro hgf
      rw [hgf] at h3
      exact hpe (by rw [hpid2, h3])
  · intro g
    rw [hflags]
    by_cases hgf : g = v
    · rw [hgf, Function.update_same]
      constructor
      · intro hc; cases hc
      · rintro ⟨_, _, _, hne, _⟩; exact absurd rfl hne
    · rw [Function.update_noteq hgf, inv.evictable_iff]
      constructor
      · rintro ⟨h0, h1, h2, h3⟩
        exact ⟨h0, h1, h2, hgf, by rw [hwpin g h0]; exact h3⟩
      · rintro ⟨h0, h1, h2, _, h3⟩
        exact ⟨h0, h1, h2, by rw [← hwpin g h0]; exact h3⟩
  · intro g h0 h1 _ hgf
    rw [haccess, Function.update_noteq hgf]
    exact inv.tracked g h0 h1 (List.not_mem_nil _)

/-- A `GetAvailableFrame` that finds no frame leaves the state as it is. -/
theorem BufferPoolManagerInstance.GetAvailableFrame_none_same {hash : Int → Nat}
    {b b1 : BufferPoolManagerInstance} (h : b.GetAvailableFrame hash = (b1, none)) :
    b1 = b := by
  rcases b.GetAvailableFrame_cases hash with ⟨f, rest, _, e⟩ | ⟨_, r, v, _, e⟩ | ⟨hfl, r, he, e⟩
  · rw [e] at h; cases h
  · rw [e] at h; cases h
  · rw [e] at h
    have hr := LRUKReplacer.Evict_none_raw he
    subst hr
    cases h
    rfl

/-- After `GetAvailableFrame` returned frame `f`, for every `K`: the state is
`PoolCore` with `f` taken out. -/
theorem BufferPoolManagerInstance.GetAvailableFrame_some_core {hash : Int → Nat}
    {b b1 : BufferPoolManagerInstance} {f : Int} (inv : b.Core hash)
    (h : b.GetAvailableFrame hash = (b1, some f)) :
    PoolCoreAcquired hash b.pool_size_ b1.pages_ b1.page_table_ b1.replacer_ b1.free_list_ f ∧
    b1.pool_size_ = b.pool_size_ ∧ b1.next_page_id_ = b.next_page_id_ := by
  rcases b.GetAvailableFrame_cases hash with ⟨f2, rest, hfl, e⟩ | ⟨hfl, r, v, he, e⟩ |
    ⟨_, r, _, e⟩
  · -- the front of the free list
    rw [e] at h; cases h
    have inv2 : PoolCore hash b.pool_size_ b.pages_ b.page_table_ b.replacer_ (f :: rest) := by
      have := inv
      unfold BufferPoolManagerInstance.Core at this
      rw [hfl] at this
      exact this
    exact ⟨inv2.free_taken, rfl, rfl⟩
  · -- a victim of the replacer
    rw [e] at h; cases h
    have inv2 : PoolCore hash b.pool_size_ b.pages_ b.page_table_ b.replacer_ [] := by
      have := inv
      unfold BufferPoolManagerInstance.Core at this
      rw [hfl] at this
      exact this
    have hvflag := (LRUKReplacer.Evict_raw f he).1
    obtain ⟨hv0, hvn, _, _⟩ := (inv2.evictable_iff f).mp hvflag
    have hvlen : f < (b.pages_.length : Int) := by rw [inv2.pages_len]; exact hvn
    obtain ⟨hwlen, hwother, hwsame⟩ :=
      ({ b with replacer_ := r } : BufferPoolManagerInstance).writeBack_pages f hv0 hvlen
    obtain ⟨hacq, _, _, hpid⟩ := inv2.victim_taken r f
      (({ b with replacer_ := r } : BufferPoolManagerInstance).writeBack f).pages_
      ((({ b with replacer_ := r } : BufferPoolManagerInstance).writeBack f).pageAt f).page_id_
      he hwlen hwother hwsame rfl
    have hacq2 : PoolCoreAcquired hash b.pool_size_
        (({ b with replacer_ := r } : BufferPoolManagerInstance).writeBack f).pages_
        (b.page_table_.Remove hash
          ((({ b with replacer_ := r } : BufferPoolManagerInstance).writeBack f).pageAt
            f).page_id_).1 r b.free_list_ f := by
      rw [hfl]; exact hacq
    exact ⟨hacq2, rfl, rfl⟩
  · rw [e] at h; cases h

/-- Installing page `p` in the acquired frame `f`, for every `K`. -/
theorem PoolCoreAcquired.installed {hash : Int → Nat} {n : Nat} {pages : List Page}
    {pt : ExtendibleHashTable Int Int} {r : LRUKReplacer} {free : List Int} {f : Int}
    (acq : PoolCoreAcquired hash n pages pt r free f) (pages2 : List Page)
    (pt2 : ExtendibleHashTable Int Int) (r2 : LRUKReplacer) (p : Int) (fuel : Nat)
    (hlen : pages2.length = n)
    (hother : ∀ g : Int, 0 ≤ g → g ≠ f → frameOf pages2 g = frameOf pages g)
    (hpid : (frameOf pages2 f).page_id_ = p) (hpin : (frameOf pages2 f).pin_count_ = 1)
    (hins : pt.Insert hash fuel p f = some pt2)
    (hr2size : r2.replacer_size_ = n)
    (hflags : r2.is_evictable_ = Function.update r.is_evictable_ f false)
    (hacc : r2.access_num_ = Function.update r.access_num_ f (r.access_num_ f + 1)) :
    PoolCore hash n pages2 pt2 r2 free := by
  have hfind : ∀ q, pt2.Find hash q = if q = p then some f else pt.Find hash q :=
    fun q => ExtendibleHashTable.Insert_Find fuel acq.pt_wf p f hins q
  refine ⟨hlen, ExtendibleHashTable.Insert_WF fuel acq.pt_wf p f hins, hr2size,
    acq.free_range, acq.free_nodup, ?_, ?_, ?_, ?_⟩
  · intro g hg
    have hgf : g ≠ f := fun e => acq.frame_not_free (e ▸ hg)
    rw [hother g (acq.free_range g hg).1 hgf]
    exact acq.free_fresh g hg
  · intro q g hq
    rw [hfind q] at hq
    by_cases hqp : q = p
    · rw [if_pos hqp] at hq
      cases hq
      exact ⟨acq.frame_range.1, acq.frame_range.2, acq.frame_not_free, by rw [hpid, hqp]⟩
    · rw [if_neg hqp] at hq
      obtain ⟨h0, h1, h2, h3, h4⟩ := acq.mapped q g hq
      exact ⟨h0, h1, h2, by rw [hother g h0 h3]; exact h4⟩
  · intro g
    rw [hflags]
    by_cases hgf : g = f
    · rw [hgf, Function.update_same]
      constructor
      · intro hc; cases hc
      · rintro ⟨_, _, _, h⟩; rw [hpin] at h; cases h
    · rw [Function.update_noteq hgf, acq.evictable_iff]
      constructor
      · rintro ⟨h0, h1, h2, _, h3⟩
        exact ⟨h0, h1, h2, by rw [hother g h0 hgf]; exact h3⟩
      · rintro ⟨h0, h1, h2, h3⟩
        exact ⟨h0, h1, h2, hgf, by rw [← hother g h0 hgf]; exact h3⟩
  · intro g h0 h1 h2
    rw [hacc]
    by_cases hgf : g = f
    · rw [hgf, Function.update_same]; omega
    · rw [Function.update_noteq hgf]
      exact acq.tracked g h0 h1 h2 hgf

/-- `NewPgImp` keeps `PoolCore` and the pool size, for every `K`; when it
returns null the state is unchanged. -/
theorem BufferPoolManagerInstance.NewPgImp_core {hash : Int → Nat} {fuel : Nat}
    {b b2 : BufferPoolManagerInstance} {res : Option (Int × Int)} (inv : b.Core hash)
    (h : b.NewPgImp hash fuel = Except.ok (b2, res)) :
    b2.Core hash ∧ b2.pool_size_ = b.pool_size_ ∧ (res = none → b2 = b) := by
  rcases b.NewPgImp_cases hash fuel with ⟨b1, hg, e⟩ | ⟨_, _, _, _, e⟩ | ⟨_, _, _, _, _, _, _, e⟩ |
    ⟨b1, f, pt, r, hg, hi, hp, e⟩
  · rw [e] at h; cases h
    have h1 := BufferPoolManagerInstance.GetAvailableFrame_none_same hg
    subst h1
    exact ⟨inv, rfl, fun _ => rfl⟩
  · rw [e] at h; cases h
  · rw [e] at h; cases h
  · rw [e] at h; cases h
    obtain ⟨acq, hps, _⟩ := BufferPoolManagerInstance.GetAvailableFrame_some_core inv hg
    have hflen : f < (b1.pages_.length : Int) := by rw [acq.pages_len]; exact acq.frame_range.2
    obtain ⟨hr2size, _, hflags, hacc⟩ := LRUKReplacer.pin_raw f hp
    have hsame : frameOf (b1.pages_.set f.toNat
        ⟨0, b1.next_page_id_, 1, (frameOf b1.pages_ f).is_dirty_⟩) f
        = ⟨0, b1.next_page_id_, 1, (frameOf b1.pages_ f).is_dirty_⟩ :=
      frameOf_set_same _ _ _ acq.frame_range.1 hflen
    have hother : ∀ g : Int, 0 ≤ g → g ≠ f → frameOf (b1.pages_.set f.toNat
        ⟨0, b1.next_page_id_, 1, (frameOf b1.pages_ f).is_dirty_⟩) g = frameOf b1.pages_ g :=
      fun g hg0 hgf => frameOf_set_other _ _ _ _ acq.frame_range.1 hg0 hgf
    have hinv2 : PoolCore hash b.pool_size_ (b1.pages_.set f.toNat
        ⟨0, b1.next_page_id_, 1, (frameOf b1.pages_ f).is_dirty_⟩) pt r b1.free_list_ :=
      acq.installed _ pt r b1.next_page_id_ fuel
        (by rw [List.length_set]; exact acq.pages_len) hother (by rw [hsame]) (by rw [hsame])
        hi (hr2size.trans acq.rep_size) hflags hacc
    refine ⟨?_, hps, fun hc => (by cases hc)⟩
    show PoolCore hash b1.pool_size_ _ pt r b1.free_list_
    rw [hps]; exact hinv2

/-- `FetchPgImp` keeps `PoolCore` and the pool size, for every `K`. -/
theorem BufferPoolManagerInstance.FetchPgImp_core {hash : Int → Nat} {fuel : Nat}
    {b b2 : BufferPoolManagerInstance} {p : Int} {res : Option Int} (inv : b.Core hash)
    (h : b.FetchPgImp hash fuel p = Except.ok (b2, res)) :
    b2.Core hash ∧ b2.pool_size_ = b.pool_size_ := by
  rcases b.FetchPgImp_cases hash fuel p with ⟨_, _, _, _, e⟩ | ⟨f, r, hfind, hp, e⟩ |
    ⟨_, b1, hg, e⟩ | ⟨_, _, _, _, _, e⟩ | ⟨_, _, _, _, _, _, _, _, e⟩ |
    ⟨hmiss, b1, f, pt, r, hg, hi, hp, e⟩
  · rw [e] at h; cases h
  · -- hit
    rw [e] at h; cases h
    obtain ⟨hf0, hfn, hffree, _⟩ := inv.mapped p f hfind
    have hflen : f < (b.pages_.length : Int) := by rw [inv.pages_len]; exact hfn
    obtain ⟨hr2size, _, hflags, hacc⟩ := LRUKReplacer.pin_raw f hp
    have hsame := frameOf_set_same b.pages_ f
      { (frameOf b.pages_ f) with pin_count_ := (frameOf b.pages_ f).pin_count_ + 1 } hf0 hflen
    have hother : ∀ g : Int, 0 ≤ g → g ≠ f → frameOf (b.pages_.set f.toNat
        { (frameOf b.pages_ f) with pin_count_ := (frameOf b.pages_ f).pin_count_ + 1 }) g
        = frameOf b.pages_ g :=
      fun g hg0 hgf => frameOf_set_other _ _ _ _ hf0 hg0 hgf
    have hinv2 : PoolCore hash b.pool_size_ (b.pages_.set f.toNat
        { (frameOf b.pages_ f) with pin_count_ := (frameOf b.pages_ f).pin_count_ + 1 })
        b.page_table_ r b.free_list_ := by
      apply PoolCore.frame_updated inv f _ r hffree (by rw [List.length_set]; exact inv.pages_len)
        hother (by rw [hsame]) (hr2size.trans inv.rep_size)
      · intro g hgf; rw [hflags, Function.update_noteq hgf]
      · rw [hflags, Function.update_same, hsame]
        constructor
        · intro hc; cases hc
        · rintro ⟨_, _, hc⟩; simp at hc
      · intro g hg
        rw [hacc]
        by_cases hgf : g = f
        · rw [hgf, Function.update_same]; omega
        · rw [Function.update_noteq hgf]; exact hg
    exact ⟨hinv2, rfl⟩
  · rw [e] at h; cases h
    have h1 := BufferPoolManagerInstance.GetAvailableFrame_none_same hg
    subst h1
    exact ⟨inv, rfl⟩
  · rw [e] at h; cases h
  · rw [e] at h; cases h
  · -- miss
    rw [e] at h; cases h
    obtain ⟨acq, hps, _⟩ := BufferPoolManagerInstance.GetAvailableFrame_some_core inv hg
    have hflen : f < (b1.pages_.length : Int) := by rw [acq.pages_len]; exact acq.frame_range.2
    obtain ⟨hr2size, _, hflags, hacc⟩ := LRUKReplacer.pin_raw f hp
    have hsame1 : frameOf (b1.pages_.set f.toNat ⟨0, p, 1, (frameOf b1.pages_ f).is_dirty_⟩) f
        = ⟨0, p, 1, (frameOf b1.pages_ f).is_dirty_⟩ :=
      frameOf_set_same _ _ _ acq.frame_range.1 hflen
    have hflen2 : f < ((b1.pages_.set f.toNat
        ⟨0, p, 1, (frameOf b1.pages_ f).is_dirty_⟩).length : Int) := by
      rw [List.length_set]; exact hflen
    have hsame : frameOf ((b1.pages_.set f.toNat
        ⟨0, p, 1, (frameOf b1.pages_ f).is_dirty_⟩).set f.toNat
        { (frameOf (b1.pages_.set f.toNat ⟨0, p, 1, (frameOf b1.pages_ f).is_dirty_⟩) f) with
          data_ := b1.disk_manager_.ReadPage p }) f
        = ⟨b1.disk_manager_.ReadPage p, p, 1, (frameOf b1.pages_ f).is_dirty_⟩ := by
      rw [frameOf_set_same _ _ _ acq.frame_range.1 hflen2, hsame1]
    have hother : ∀ g : Int, 0 ≤ g → g ≠ f → frameOf ((b1.pages_.set f.toNat
        ⟨0, p, 1, (frameOf b1.pages_ f).is_dirty_⟩).set f.toNat
        { (frameOf (b1.pages_.set f.toNat ⟨0, p, 1, (frameOf b1.pages_ f).is_dirty_⟩) f) with
          data_ := b1.disk_manager_.ReadPage p }) g = frameOf b1.pages_ g := by
      intro g hg0 hgf
      rw [frameOf_set_other _ _ _ _ acq.frame_range.1 hg0 hgf,
        frameOf_set_other _ _ _ _ acq.frame_range.1 hg0 hgf]
    have hinv2 : PoolCore hash b.pool_size_ ((b1.pages_.set f.toNat
        ⟨0, p, 1, (frameOf b1.pages_ f).is_dirty_⟩).set f.toNat
        { (frameOf (b1.pages_.set f.toNat ⟨0, p, 1, (frameOf b1.pages_ f).is_dirty_⟩) f) with
          data_ := b1.disk_manager_.ReadPage p }) pt r b1.free_list_ :=
      acq.installed _ pt r p fuel
        (by rw [List.length_set, List.length_set]; exact acq.pages_len) hother
        (by rw [hsame]) (by rw [hsame]) hi (hr2size.trans acq.rep_size) hflags hacc
    refine ⟨?_, hps⟩
    show PoolCore hash b1.pool_size_ _ pt r b1.free_list_
    rw [hps]; exact hinv2

/-- `UnpinPgImp` keeps `PoolCore` and the pool size, for every `K`. -/
theorem BufferPoolManagerInstance.UnpinPgImp_core {hash : Int → Nat}
    {b b2 : BufferPoolManagerInstance} {p : Int} {d res : Bool} (inv : b.Core hash)
    (h : b.UnpinPgImp hash p d = Except.ok (b2, res)) :
    b2.Core hash ∧ b2.pool_size_ = b.pool_size_ := by
  cases hfind : b.page_table_.Find hash p with
  | none =>
    rw [b.UnpinPgImp_unmapped hash p d hfind] at h
    cases h
    exact ⟨inv, rfl⟩
  | some f =>
    by_cases hpin : (b.pageAt f).pin_count_ = 0
    · rw [b.UnpinPgImp_unpinned hash p f d hfind hpin] at h
      cases h
      exact ⟨inv, rfl⟩
    · obtain ⟨hf0, hfn, hffree, _⟩ := inv.mapped p f hfind
      have hflen : f < (b.pages_.length : Int) := by rw [inv.pages_len]; exact hfn
      rw [b.UnpinPgImp_pinned hash p f d hfind hpin hf0 hflen] at h
      have hsame := frameOf_set_same b.pages_ f
        ⟨(b.pageAt f).data_, (b.pageAt f).page_id_, (b.pageAt f).pin_count_ - 1,
          (b.pageAt f).is_dirty_ || d⟩ hf0 hflen
      have hother : ∀ g : Int, 0 ≤ g → g ≠ f → frameOf (b.pages_.set f.toNat
          ⟨(b.pageAt f).data_, (b.pageAt f).page_id_, (b.pageAt f).pin_count_ - 1,
            (b.pageAt f).is_dirty_ || d⟩) g = frameOf b.pages_ g :=
        fun g hg0 hgf => frameOf_set_other _ _ _ _ hf0 hg0 hgf
      have hnotev : b.replacer_.is_evictable_ f = false := by
        cases hev : b.replacer_.is_evictable_ f
        · rfl
        · exact absurd ((inv.evictable_iff f).mp hev).2.2.2 hpin
      by_cases hz : (b.pageAt f).pin_count_ - 1 = 0
      · rw [if_pos hz] at h
        cases hs : b.replacer_.SetEvictable f true with
        | error e => rw [hs] at h; cases h
        | ok r =>
          rw [hs] at h
          cases h
          obtain ⟨hrsize, _, hflags, hacc, _⟩ :=
            LRUKReplacer.SetEvictable_raw f true (inv.tracked f hf0 hfn hffree) hs
          refine ⟨?_, rfl⟩
          apply PoolCore.frame_updated inv f _ r hffree
            (by rw [List.length_set]; exact inv.pages_len) hother (by rw [hsame]; rfl)
            (hrsize.trans inv.rep_size)
          · intro g hgf; rw [hflags, Function.update_noteq hgf]
          · rw [hflags, Function.update_same, hsame]
            exact ⟨fun _ => ⟨hf0, hfn, hz⟩, fun _ => rfl⟩
          · intro g hg; rw [hacc]; exact hg
      · rw [if_neg hz] at h
        cases h
        refine ⟨?_, rfl⟩
        apply PoolCore.frame_updated inv f _ b.replacer_ hffree
          (by rw [List.length_set]; exact inv.pages_len) hother (by rw [hsame]; rfl)
          inv.rep_size (fun _ _ => rfl) _ (fun _ hg => hg)
        rw [hnotev, hsame]
        exact ⟨fun hc => (by cases hc), fun hc => absurd hc.2.2 hz⟩

/-- Rewriting one resident frame without touching its page id or pin count (and
whatever happens to the disk) keeps `PoolCore`. -/
theorem BufferPoolManagerInstance.Core.page_set {hash : Int → Nat}
    {b : BufferPoolManagerInstance} (inv : b.Core hash) (f : Int) (page : Page)
    (dm : DiskManager) (hf0 : 0 ≤ f) (hfn : f < b.pool_size_) (hfree : f ∉ b.free_list_)
    (hid : page.page_id_ = (b.pageAt f).page_id_)
    (hpin : page.pin_count_ = (b.pageAt f).pin_count_) :
    BufferPoolManagerInstance.Core hash
      { b with pages_ := b.pages_.set f.toNat page, disk_manager_ := dm } := by
  have hflen : f < (b.pages_.length : Int) := by rw [inv.pages_len]; exact hfn
  have hsame := frameOf_set_same b.pages_ f page hf0 hflen
  have hother : ∀ g : Int, 0 ≤ g → g ≠ f →
      frameOf (b.pages_.set f.toNat page) g = frameOf b.pages_ g :=
    fun g hg0 hgf => frameOf_set_other _ _ _ _ hf0 hg0 hgf
  apply PoolCore.frame_updated inv f _ b.replacer_ hfree
    (by rw [List.length_set]; exact inv.pages_len)
    hother (by rw [hsame]; exact hid) inv.rep_size (fun _ _ => rfl) _
    (fun _ hg => hg)
  rw [hsame, hpin, inv.evictable_iff]
  exact ⟨fun hc => ⟨hc.1, hc.2.1, hc.2.2.2⟩, fun hc => ⟨hc.1, hc.2.1, hfree, hc.2.2⟩⟩

/-- `FlushPgImp` keeps `PoolCore` and the pool size. -/
theorem BufferPoolManagerInstance.FlushPgImp_core {hash : Int → Nat}
    {b : BufferPoolManagerInstance} (p : Int) (inv : b.Core hash) :
    (b.FlushPgImp hash p).1.Core hash ∧ (b.FlushPgImp hash p).1.pool_size_ = b.pool_size_ := by
  unfold BufferPoolManagerInstance.FlushPgImp
  cases hfind : b.page_table_.Find hash p with
  | none => exact ⟨inv, rfl⟩
  | some f =>
    obtain ⟨hf0, hfn, hffree, _⟩ := inv.mapped p f hfind
    exact ⟨inv.page_set f { (b.pageAt f) with is_dirty_ := false }
      (b.disk_manager_.WritePage p (b.pageAt f).data_) hf0 hfn hffree rfl rfl, rfl⟩

/-- The loop of `FlushAllPgsImp` keeps `PoolCore` and the pool size. -/
theorem BufferPoolManagerInstance.flushFrom_core {hash : Int → Nat} (count : Nat) :
    ∀ (i : Nat) (b : BufferPoolManagerInstance), b.Core hash → i + count ≤ b.pool_size_ →
      (BufferPoolManagerInstance.flushFrom count i b).Core hash ∧
      (BufferPoolManagerInstance.flushFrom count i b).pool_size_ = b.pool_size_ := by
  induction count with
  | zero => intro i b inv _; exact ⟨inv, rfl⟩
  | succ m ih =>
    intro i b inv hle
    unfold BufferPoolManagerInstance.flushFrom
    by_cases hc : (b.pageAt (i : Int)).page_id_ ≠ INVALID_PAGE_ID
    · simp only [hc, ne_eq, not_false_eq_true, if_true]
      have hf0 : (0 : Int) ≤ (i : Int) := Int.ofNat_nonneg i
      have hfn : (i : Int) < (b.pool_size_ : Int) := by omega
      have hffree : (i : Int) ∉ b.free_list_ := fun hm => hc (inv.free_fresh _ hm).1
      have h1 := inv.page_set (i : Int) { (b.pageAt i) with is_dirty_ := false }
        (b.disk_manager_.WritePage (b.pageAt i).page_id_ (b.pageAt i).data_) hf0 hfn hffree
        rfl rfl
      obtain ⟨k1, k2⟩ := ih (i + 1) _ h1 (by show i + 1 + m ≤ b.pool_size_; omega)
      exact ⟨k1, k2⟩
    · simp only [hc, if_false]
      exact ih (i + 1) b inv (by omega)

/-- `callerWrite` keeps `PoolCore` and the pool size. -/
theorem BufferPoolManagerInstance.callerWrite_core {hash : Int → Nat}
    {b : BufferPoolManagerInstance} (f : Int) (data : Nat) (inv : b.Core hash) :
    (b.callerWrite f data).Core hash ∧ (b.callerWrite f data).pool_size_ = b.pool_size_ := by
  unfold BufferPoolManagerInstance.callerWrite
  by_cases hc : 0 ≤ f ∧ 0 < (b.pageAt f).pin_count_
  · rw [if_pos hc]
    have hfn : f < (b.pool_size_ : Int) := by
      by_contra hge
      have hlen : b.pages_.length ≤ f.toNat := by
        rw [inv.pages_len]
        have := Int.toNat_of_nonneg hc.1
        omega
      have hd : b.pageAt f = default := List.getD_eq_default _ _ hlen
      rw [hd] at hc
      exact absurd hc.2 (lt_irrefl 0)
    have hffree : f ∉ b.free_list_ := fun hm => by
      have := (inv.free_fresh f hm).2.1
      have h2 := hc.2
      rw [show b.pageAt f = frameOf b.pages_ f from rfl, this] at h2
      exact absurd h2 (lt_irrefl 0)
    exact ⟨inv.page_set f { (b.pageAt f) with data_ := data } b.disk_manager_
      hc.1 hfn hffree rfl rfl, rfl⟩
  · rw [if_neg hc]
    exact ⟨inv, rfl⟩

/-- Deleting the unpinned page `p` held by frame `f`, for every `K`: the frame
is reset and appended to the free list, the mapping and the flag of the frame
are removed. -/
theorem PoolCore.deleted {hash : Int → Nat} {n : Nat} {pages : List Page}
    {pt : ExtendibleHashTable Int Int} {r : LRUKReplacer} {free : List Int}
    (inv : PoolCore hash n pages pt r free) (p f : Int) (pages2 : List Page) (r2 : LRUKReplacer)
    (hfind : pt.Find hash p = some f)
    (hlen : pages2.length = n)
    (hother : ∀ g : Int, 0 ≤ g → g ≠ f → frameOf pages2 g = frameOf pages g)
    (hsame : frameOf pages2 f = ⟨0, INVALID_PAGE_ID, 0, false⟩)
    (hr2size : r2.replacer_size_ = n)
    (hflags : r2.is_evictable_ = Function.update r.is_evictable_ f false)
    (hacc : r2.access_num_ = Function.update r.access_num_ f 0) :
    PoolCore hash n pages2 (pt.Remove hash p).1 r2 (free ++ [f]) := by
  obtain ⟨hf0, hfn, hffree, hfpid⟩ := inv.mapped p f hfind
  have hfindR : ∀ q, (pt.Remove hash p).1.Find hash q
      = if q = p then none else pt.Find hash q :=
    fun q => ExtendibleHashTable.Remove_Find inv.pt_wf p q
  have hmem : ∀ g : Int, g ∉ free ++ [f] ↔ (g ∉ free ∧ g ≠ f) := by
    intro g
    rw [List.mem_append, List.mem_singleton, not_or]
  refine ⟨hlen, ExtendibleHashTable.Remove_WF inv.pt_wf _, hr2size, ?_, ?_, ?_, ?_, ?_, ?_⟩
  · intro g hg
    rcases List.mem_append.mp hg with hg | hg
    · exact inv.free_range g hg
    · rw [List.mem_singleton.mp hg]; exact ⟨hf0, hfn⟩
  · rw [List.nodup_append]
    refine ⟨inv.free_nodup, List.nodup_singleton f, ?_⟩
    intro g hg1 hg2
    rw [List.mem_singleton.mp hg2] at hg1
    exact hffree hg1
  · intro g hg
    rcases List.mem_append.mp hg with hg | hg
    · have hgf : g ≠ f := fun e => hffree (e ▸ hg)
      rw [hother g (inv.free_range g hg).1 hgf]
      exact inv.free_fresh g hg
    · rw [List.mem_singleton.mp hg, hsame]
      exact ⟨rfl, rfl, rfl⟩
  · intro q g hq
    rw [hfindR q] at hq
    by_cases hqp : q = p
    · rw [if_pos hqp] at hq; cases hq
    · rw [if_neg hqp] at hq
      obtain ⟨h0, h1, h2, h3⟩ := inv.mapped q g hq
      have hgf : g ≠ f := by
        intro e
        rw [e, hfpid] at h3
        exact hqp h3.symm
      exact ⟨h0, h1, (hmem g).mpr ⟨h2, hgf⟩, by rw [hother g h0 hgf]; exact h3⟩
  · intro g
    rw [hflags, hmem]
    by_cases hgf : g = f
    · rw [hgf, Function.update_same]
      constructor
      · intro hc; cases hc
      · rintro ⟨_, _, ⟨_, hne⟩, _⟩; exact absurd rfl hne
    · rw [Function.update_noteq hgf, inv.evictable_iff]
      constructor
      · rintro ⟨h0, h1, h2, h3⟩
        exact ⟨h0, h1, ⟨h2, hgf⟩, by rw [hother g h0 hgf]; exact h3⟩
      · rintro ⟨h0, h1, ⟨h2, _⟩, h3⟩
        exact ⟨h0, h1, h2, by rw [← hother g h0 hgf]; exact h3⟩
  · intro g h0 h1 h2
    obtain ⟨h3, hgf⟩ := (hmem g).mp h2
    rw [hacc, Function.update_noteq hgf]
    exact inv.tracked g h0 h1 h3

/-- `DeletePgImp` keeps `PoolCore` and the pool size, for every `K`. -/
theorem BufferPoolManagerInstance.DeletePgImp_core {hash : Int → Nat}
    {b b2 : BufferPoolManagerInstance} {p : Int} {res : Bool} (inv : b.Core hash)
    (h : b.DeletePgImp hash p = Except.ok (b2, res)) :
    b2.Core hash ∧ b2.pool_size_ = b.pool_size_ := by
  cases hfind : b.page_table_.Find hash p with
  | none =>
    rw [b.DeletePgImp_unmapped hash p hfind] at h
    cases h
    exact ⟨inv, rfl⟩
  | some f =>
    by_cases hpin : (b.pageAt f).pin_count_ = 0
    · obtain ⟨hf0, hfn, hffree, _⟩ := inv.mapped p f hfind
      have hflen : f < (b.pages_.length : Int) := by rw [inv.pages_len]; exact hfn
      rw [b.DeletePgImp_unpinned hash p f hfind hpin hf0 hflen] at h
      cases hrm : b.replacer_.Remove f with
      | error e => rw [hrm] at h; cases h
      | ok r =>
        rw [hrm] at h
        cases h
        obtain ⟨_, hrsize, _, hflags, hacc⟩ :=
          LRUKReplacer.Remove_raw f (inv.tracked f hf0 hfn hffree) hrm
        obtain ⟨hwlen, hwother, _⟩ := b.writeBack_pages f hf0 hflen
        have hflen2 : f < ((b.writeBack f).pages_.length : Int) := by rw [hwlen]; exact hflen
        have hsame : frameOf ((b.writeBack f).pages_.set f.toNat
            ⟨0, INVALID_PAGE_ID, 0, false⟩) f = ⟨0, INVALID_PAGE_ID, 0, false⟩ :=
          frameOf_set_same _ _ _ hf0 hflen2
        have hother : ∀ g : Int, 0 ≤ g → g ≠ f →
            frameOf ((b.writeBack f).pages_.set f.toNat ⟨0, INVALID_PAGE_ID, 0, false⟩) g
              = frameOf b.pages_ g := by
          intro g hg0 hgf
          rw [frameOf_set_other _ _ _ _ hf0 hg0 hgf, hwother g hg0 hgf]
        exact ⟨PoolCore.deleted inv p f _ r hfind
          (by rw [List.length_set, hwlen]; exact inv.pages_len) hother hsame
          (hrsize.trans inv.rep_size) hflags hacc, rfl⟩
    · rw [b.DeletePgImp_pinned hash p f hfind hpin] at h
      cases h
      exact ⟨inv, rfl⟩

/-- Every call that returns keeps `PoolCore` and the pool size, whatever `K`. -/
theorem BufferPoolManagerInstance.call_core {hash : Int → Nat} {fuel : Nat}
    {b b2 : BufferPoolManagerInstance} {c : PoolCall} (inv : b.Core hash)
    (h : b.call hash fuel c = Except.ok b2) :
    b2.Core hash ∧ b2.pool_size_ = b.pool_size_ := by
  cases c with
  | newPage =>
    obtain ⟨res, hr⟩ := Except.map_ok_fst h
    exact ⟨(BufferPoolManagerInstance.NewPgImp_core inv hr).1,
      (BufferPoolManagerInstance.NewPgImp_core inv hr).2.1⟩
  | fetchPage p =>
    obtain ⟨res, hr⟩ := Except.map_ok_fst h
    exact BufferPoolManagerInstance.FetchPgImp_core inv hr
  | unpinPage p d =>
    obtain ⟨res, hr⟩ := Except.map_ok_fst h
    exact BufferPoolManagerInstance.UnpinPgImp_core inv hr
  | flushPage p =>
    have : (b.FlushPgImp hash p).1 = b2 := Except.ok.inj h
    subst this
    exact BufferPoolManagerInstance.FlushPgImp_core p inv
  | flushAllPages =>
    have : b.FlushAllPgsImp = b2 := Except.ok.inj h
    subst this
    exact BufferPoolManagerInstance.flushFrom_core b.pool_size_ 0 b inv (by omega)
  | deletePage p =>
    obtain ⟨res, hr⟩ := Except.map_ok_fst h
    exact BufferPoolManagerInstance.DeletePgImp_core inv hr
  | write g data =>
    have : b.callerWrite g data = b2 := Except.ok.inj h
    subst this
    exact BufferPoolManagerInstance.callerWrite_core g data inv

/-- The freshly constructed pool satisfies `PoolCore`, whatever `K`. -/
theorem BufferPoolManagerInstance.new_pool_Core (hash : Int → Nat)
    (pool_size replacer_k bucket_size : Nat) (disk_manager : DiskManager) :
    (BufferPoolManagerInstance.new pool_size replacer_k bucket_size disk_manager).Core hash := by
  refine ⟨List.length_replicate _ _, ExtendibleHashTable.new_WF hash bucket_size, rfl,
    ?_, ?_, ?_, ?_, ?_, ?_⟩
  · intro f hf
    exact (mem_initial_free_list pool_size f).mp hf
  · exact List.Nodup.map Int.ofNat_injective (List.nodup_range pool_size)
  · intro f _
    have hfresh : frameOf (BufferPoolManagerInstance.new pool_size replacer_k bucket_size
        disk_manager).pages_ f = default := frameOf_replicate pool_size f
    rw [hfresh]
    exact ⟨rfl, rfl, rfl⟩
  · intro p f h
    have := ExtendibleHashTable.new_Find (V := Int) hash bucket_size p
    rw [show (BufferPoolManagerInstance.new pool_size replacer_k bucket_size
      disk_manager).page_table_ = ExtendibleHashTable.new bucket_size from rfl, this] at h
    cases h
  · intro f
    constructor
    · intro h; cases h
    · rintro ⟨h0, h1, h2, _⟩
      exact absurd ((mem_initial_free_list pool_size f).mpr ⟨h0, h1⟩) h2
  · intro f h0 h1 h2
    exact absurd ((mem_initial_free_list pool_size f).mpr ⟨h0, h1⟩) h2

/-- Every reachable state of every pool, whatever its `K`, its bucket size and
the workload, satisfies `PoolCore` and keeps the pool size. -/
theorem BufferPoolManagerInstance.Reachable.pool_core {hash : Int → Nat}
    {pool_size replacer_k bucket_size : Nat}
    {allowed : BufferPoolManagerInstance → PoolCall → Prop} {b : BufferPoolManagerInstance}
    (hr : BufferPoolManagerInstance.Reachable hash pool_size replacer_k bucket_size allowed b) :
    b.Core hash ∧ b.pool_size_ = pool_size := by
  induction hr with
  | init disk_manager =>
    exact ⟨BufferPoolManagerInstance.new_pool_Core hash pool_size replacer_k bucket_size
      disk_manager, rfl⟩
  | step b b2 fuel c _ _ hcall ih =>
    obtain ⟨hinv, h1⟩ := ih
    obtain ⟨hinv2, g1⟩ := BufferPoolManagerInstance.call_core hinv hcall
    exact ⟨hinv2, g1.trans h1⟩

/-! ### The statements of a call, in order -/

/-- Statements executed after statements that returned. -/
theorem BufferPoolManagerInstance.replay_append (hash : Int → Nat) (fuel : Nat)
    (l1 l2 : List PoolEvent) :
    ∀ (b b1 : BufferPoolManagerInstance), b.replay hash fuel l1 = Except.ok b1 →
      b.replay hash fuel (l1 ++ l2) = b1.replay hash fuel l2 := by
  induction l1 with
  | nil =>
    intro b b1 h
    cases h
    rfl
  | cons e rest ih =>
    intro b b1 h
    rw [List.cons_append, BufferPoolManagerInstance.replay]
    rw [BufferPoolManagerInstance.replay] at h
    cases hs : b.step hash fuel e with
    | error x => rw [hs] at h; cases h
    | ok b0 =>
      rw [hs] at h
      exact ih b0 b1 h

/-- The statements of `GetAvailableFrame` that hands out the dirty frame `f`:
`Evict`, `WritePage` with the page id and the data of the frame, the reset of
the dirty flag, and only then the `Remove` from the page table. -/
theorem BufferPoolManagerInstance.availableFrameEvents_dirty {hash : Int → Nat}
    {b b1 : BufferPoolManagerInstance} {f : Int} (inv : b.Core hash)
    (h : b.GetAvailableFrame hash = (b1, some f)) (hd : (b.pageAt f).is_dirty_ = true) :
    b.availableFrameEvents =
      [PoolEvent.evict, PoolEvent.writePage (b.pageAt f).page_id_ (b.pageAt f).data_,
        PoolEvent.clearDirty f, PoolEvent.removeMapping (b.pageAt f).page_id_] := by
  rcases b.GetAvailableFrame_cases hash with ⟨g, rest, hfl, e⟩ | ⟨hfl, r, v, he, e⟩ |
    ⟨_, r, _, e⟩
  · rw [e] at h; cases h
    have := (inv.free_fresh f (by rw [hfl]; exact List.mem_cons_self _ _)).2.2
    have hd2 : (frameOf b.pages_ f).is_dirty_ = true := hd
    rw [this] at hd2
    cases hd2
  · rw [e] at h; cases h
    unfold BufferPoolManagerInstance.availableFrameEvents
    rw [hfl, he]
    simp only [hd, if_true]
    rfl
  · rw [e] at h; cases h

/-- Executing the statements of `GetAvailableFrame` one after the other gives
the state `GetAvailableFrame` returns. -/
theorem BufferPoolManagerInstance.GetAvailableFrame_replay {hash : Int → Nat} (fuel : Nat)
    {b b1 : BufferPoolManagerInstance} {o : Option Int} (inv : b.Core hash)
    (h : b.GetAvailableFrame hash = (b1, o)) :
    b.replay hash fuel b.availableFrameEvents = Except.ok b1 := by
  rcases b.GetAvailableFrame_cases hash with ⟨g, rest, hfl, e⟩ | ⟨hfl, r, v, he, e⟩ |
    ⟨hfl, r, he, e⟩
  · rw [e] at h; cases h
    have hev : b.availableFrameEvents = [PoolEvent.popFree] := by
      unfold BufferPoolManagerInstance.availableFrameEvents
      rw [hfl]
    have htail : b.free_list_.tail = rest := by rw [hfl]; rfl
    rw [hev]
    show Except.ok ({ b with free_list_ := b.free_list_.tail } : BufferPoolManagerInstance) = _
    rw [htail]
  · rw [e] at h; cases h
    have hvflag := (LRUKReplacer.Evict_raw v he).1
    obtain ⟨hv0, hvn, _, _⟩ := (inv.evictable_iff v).mp hvflag
    have hvlen : v < (b.pages_.length : Int) := by rw [inv.pages_len]; exact hvn
    obtain ⟨_, _, hwsame⟩ :=
      ({ b with replacer_ := r } : BufferPoolManagerInstance).writeBack_pages v hv0 hvlen
    have hpid : ((({ b with replacer_ := r } : BufferPoolManagerInstance).writeBack v).pageAt
        v).page_id_ = (b.pageAt v).page_id_ := by
      show (frameOf (({ b with replacer_ := r } : BufferPoolManagerInstance).writeBack
        v).pages_ v).page_id_ = _
      rw [hwsame]
      rfl
    rw [hpid]
    have hev : b.availableFrameEvents = PoolEvent.evict ::
        ((if (b.pageAt v).is_dirty_ then
            [PoolEvent.writePage (b.pageAt v).page_id_ (b.pageAt v).data_,
              PoolEvent.clearDirty v]
          else []) ++ [PoolEvent.removeMapping (b.pageAt v).page_id_]) := by
      unfold BufferPoolManagerInstance.availableFrameEvents
      rw [hfl, he]
    have hr1 : b.replacer_.Evict.1 = r := by rw [he]
    rw [hev]
    cases hd : (b.pageAt v).is_dirty_ with
    | true =>
      have hd2 : (frameOf b.pages_ v).is_dirty_ = true := hd
      simp only [if_true, List.cons_append, List.nil_append,
        BufferPoolManagerInstance.replay, BufferPoolManagerInstance.step, hr1,
        BufferPoolManagerInstance.writeBack, BufferPoolManagerInstance.setPage,
        BufferPoolManagerInstance.pageAt, hd2]
    | false =>
      have hd2 : (frameOf b.pages_ v).is_dirty_ = false := hd
      simp only [Bool.false_eq_true, if_false, List.nil_append,
        BufferPoolManagerInstance.replay, BufferPoolManagerInstance.step, hr1,
        BufferPoolManagerInstance.writeBack, BufferPoolManagerInstance.setPage,
        BufferPoolManagerInstance.pageAt, hd2]
  · rw [e] at h; cases h
    have hev : b.availableFrameEvents = [PoolEvent.evict] := by
      unfold BufferPoolManagerInstance.availableFrameEvents
      rw [hfl, he]
    have hr1 : b.replacer_.Evict.1 = r := by rw [he]
    rw [hev]
    show Except.ok ({ b with replacer_ := b.replacer_.Evict.1 } : BufferPoolManagerInstance) = _
    rw [hr1]

/-- Executing the statements of a `NewPgImp` that returns, one after the other,
gives the state `NewPgImp` returns. -/
theorem BufferPoolManagerInstance.NewPgImp_replay {hash : Int → Nat} {fuel : Nat}
    {b b2 : BufferPoolManagerInstance} {res : Option (Int × Int)} (inv : b.Core hash)
    (h : b.NewPgImp hash fuel = Except.ok (b2, res)) :
    b.replay hash fuel (b.newPageEvents hash) = Except.ok b2 := by
  rcases b.NewPgImp_cases hash fuel with ⟨b1, hg, e⟩ | ⟨_, _, _, _, e⟩ | ⟨_, _, _, _, _, _, _, e⟩ |
    ⟨b1, f, pt, r, hg, hi, hp, e⟩
  · rw [e] at h; cases h
    have hev : b.newPageEvents hash = b.availableFrameEvents := by
      unfold BufferPoolManagerInstance.newPageEvents
      rw [hg]
    rw [hev]
    exact BufferPoolManagerInstance.GetAvailableFrame_replay fuel inv hg
  · rw [e] at h; cases h
  · rw [e] at h; cases h
  · rw [e] at h; cases h
    obtain ⟨acq, _, _⟩ := BufferPoolManagerInstance.GetAvailableFrame_some_core inv hg
    have hflen : f < (b1.pages_.length : Int) := by rw [acq.pages_len]; exact acq.frame_range.2
    have hev : b.newPageEvents hash = b.availableFrameEvents ++
        [PoolEvent.allocatePage, PoolEvent.setPageId f b1.next_page_id_,
          PoolEvent.setPinCount f 1, PoolEvent.resetMemory f,
          PoolEvent.insertMapping b1.next_page_id_ f, PoolEvent.recordAccess f,
          PoolEvent.setEvictable f false] := by
      unfold BufferPoolManagerInstance.newPageEvents
      rw [hg]
    rw [hev, BufferPoolManagerInstance.replay_append hash fuel _ _ b b1
      (BufferPoolManagerInstance.GetAvailableFrame_replay fuel inv hg)]
    unfold LRUKReplacer.pin at hp
    cases hra : b1.replacer_.RecordAccess f with
    | error x => rw [hra] at hp; cases hp
    | ok r1 =>
      rw [hra] at hp
      simp only at hp
      have hs2 : ∀ x : Page, frameOf (b1.pages_.set f.toNat x) f = x :=
        fun x => frameOf_set_same _ _ _ acq.frame_range.1 hflen
      simp only [BufferPoolManagerInstance.replay, BufferPoolManagerInstance.step,
        BufferPoolManagerInstance.setPage, BufferPoolManagerInstance.pageAt, pages_set_set,
        hs2, hi, hra, hp, Page.ResetMemory]

/-- Executing the statements of a `FetchPgImp` that returns, one after the
other, gives the state `FetchPgImp` returns. -/
theorem BufferPoolManagerInstance.FetchPgImp_replay {hash : Int → Nat} {fuel : Nat}
    {b b2 : BufferPoolManagerInstance} {p : Int} {res : Option Int} (inv : b.Core hash)
    (h : b.FetchPgImp hash fuel p = Except.ok (b2, res)) :
    b.replay hash fuel (b.fetchPageEvents hash p) = Except.ok b2 := by
  rcases b.FetchPgImp_cases hash fuel p with ⟨_, _, _, _, e⟩ | ⟨f, r, hfind, hp, e⟩ |
    ⟨hmiss, b1, hg, e⟩ | ⟨_, _, _, _, _, e⟩ | ⟨_, _, _, _, _, _, _, _, e⟩ |
    ⟨hmiss, b1, f, pt, r, hg, hi, hp, e⟩
  · rw [e] at h; cases h
  · rw [e] at h; cases h
    have hev : b.fetchPageEvents hash p =
        [PoolEvent.setPinCount f ((b.pageAt f).pin_count_ + 1), PoolEvent.recordAccess f,
          PoolEvent.setEvictable f false] := by
      unfold BufferPoolManagerInstance.fetchPageEvents
      rw [hfind]
    rw [hev]
    unfold LRUKReplacer.pin at hp
    cases hra : b.replacer_.RecordAccess f with
    | error x => rw [hra] at hp; cases hp
    | ok r1 =>
      rw [hra] at hp
      simp only at hp
      simp only [BufferPoolManagerInstance.replay, BufferPoolManagerInstance.step,
        BufferPoolManagerInstance.setPage, BufferPoolManagerInstance.pageAt, hra, hp]
  · rw [e] at h; cases h
    have hev : b.fetchPageEvents hash p = b.availableFrameEvents := by
      unfold BufferPoolManagerInstance.fetchPageEvents
      rw [hmiss, hg]
    rw [hev]
    exact BufferPoolManagerInstance.GetAvailableFrame_replay fuel inv hg
  · rw [e] at h; cases h
  · rw [e] at h; cases h
  · rw [e] at h; cases h
    obtain ⟨acq, _, _⟩ := BufferPoolManagerInstance.GetAvailableFrame_some_core inv hg
    have hflen : f < (b1.pages_.length : Int) := by rw [acq.pages_len]; exact acq.frame_range.2
    have hev : b.fetchPageEvents hash p = b.availableFrameEvents ++
        [PoolEvent.insertMapping p f, PoolEvent.setPageId f p,
          PoolEvent.setPinCount f 1, PoolEvent.resetMemory f,
          PoolEvent.readPage p f, PoolEvent.recordAccess f,
          PoolEvent.setEvictable f false] := by
      unfold BufferPoolManagerInstance.fetchPageEvents
      rw [hmiss, hg]
    rw [hev, BufferPoolManagerInstance.replay_append hash fuel _ _ b b1
      (BufferPoolManagerInstance.GetAvailableFrame_replay fuel inv hg)]
    unfold LRUKReplacer.pin at hp
    cases hra : b1.replacer_.RecordAccess f with
    | error x => rw [hra] at hp; cases hp
    | ok r1 =>
      rw [hra] at hp
      simp only at hp
      have hs2 : ∀ x : Page, frameOf (b1.pages_.set f.toNat x) f = x :=
        fun x => frameOf_set_same _ _ _ acq.frame_range.1 hflen
      simp only [BufferPoolManagerInstance.replay, BufferPoolManagerInstance.step,
        BufferPoolManagerInstance.setPage, BufferPoolManagerInstance.pageAt, pages_set_set,
        hs2, hi, hra, hp, Page.ResetMemory]

/-! ### The access counts of the replacer and the accesses of the pages -/

/-- A `SetEvictable` that returns leaves the access counts as they are. -/
theorem LRUKReplacer.SetEvictable_access {r r2 : LRUKReplacer} (f : Int) (b : Bool)
    (h : r.SetEvictable f b = Except.ok r2) : r2.access_num_ = r.access_num_ := by
  rcases r.SetEvictable_cases f b with ⟨_, e⟩ | ⟨_, _, e⟩ | ⟨_, _, e⟩
  · rw [e] at h; cases h
  · rw [e] at h; cases h; rfl
  · rw [e] at h; cases h; rfl

/-- The loop of `FlushAllPgsImp` touches neither the replacer nor the free
list. -/
theorem BufferPoolManagerInstance.flushFrom_lists (count : Nat) :
    ∀ (i : Nat) (b : BufferPoolManagerInstance),
      (BufferPoolManagerInstance.flushFrom count i b).replacer_ = b.replacer_ ∧
      (BufferPoolManagerInstance.flushFrom count i b).free_list_ = b.free_list_ ∧
      (BufferPoolManagerInstance.flushFrom count i b).pool_size_ = b.pool_size_ := by
  induction count with
  | zero => intro i b; exact ⟨rfl, rfl, rfl⟩
  | succ m ih =>
    intro i b
    unfold BufferPoolManagerInstance.flushFrom
    by_cases hc : (b.pageAt (i : Int)).page_id_ ≠ INVALID_PAGE_ID
    · simp only [hc, ne_eq, not_false_eq_true, if_true]
      obtain ⟨k1, k2, k3⟩ := ih (i + 1)
        (({ b with disk_manager_ :=
            b.disk_manager_.WritePage (b.pageAt i).page_id_ (b.pageAt i).data_ } :
          BufferPoolManagerInstance).setPage i { (b.pageAt i) with is_dirty_ := false })
      exact ⟨k1, k2, k3⟩
    · simp only [hc, if_false]
      exact ih (i + 1) b

/-- A state that differs from a counted state in neither the pool size, nor the
free list, nor the access counts is counted by the same log. -/
theorem BufferPoolManagerInstance.Counted.of_same {b b2 : BufferPoolManagerInstance}
    {log : List PageAccess} (cnt : b.Counted log) (hps : b2.pool_size_ = b.pool_size_)
    (hfl : b2.free_list_ = b.free_list_)
    (hacc : b2.replacer_.access_num_ = b.replacer_.access_num_) : b2.Counted log := by
  refine ⟨?_, ?_⟩
  · intro f h0 h1 h2
    rw [hacc]
    exact cnt.resident f h0 (by rw [← hps]; exact h1) (by rw [← hfl]; exact h2)
  · intro f hf
    rw [hacc]
    exact cnt.free f (by rw [← hfl]; exact hf)

/-- What `GetAvailableFrame` does to the free list and the access counts when it
hands out frame `g`: the count of `g` is 0, the other counts are as before, and
the other frames are free exactly when they were. -/
theorem BufferPoolManagerInstance.GetAvailableFrame_counts {hash : Int → Nat}
    {b b1 : BufferPoolManagerInstance} {g : Int} {log : List PageAccess} (inv : b.Core hash)
    (cnt : b.Counted log) (h : b.GetAvailableFrame hash = (b1, some g)) :
    b1.replacer_.access_num_ g = 0 ∧
    (∀ f, f ≠ g → b1.replacer_.access_num_ f = b.replacer_.access_num_ f) ∧
    (∀ f, f ≠ g → (f ∈ b1.free_list_ ↔ f ∈ b.free_list_)) ∧
    g ∉ b1.free_list_ := by
  rcases b.GetAvailableFrame_cases hash with ⟨f2, rest, hfl, e⟩ | ⟨hfl, r, v, he, e⟩ |
    ⟨_, r, _, e⟩
  · rw [e] at h; cases h
    have hnd : g ∉ rest ∧ rest.Nodup := by
      have := inv.free_nodup
      rw [hfl] at this
      exact List.nodup_cons.mp this
    refine ⟨cnt.free g (by rw [hfl]; exact List.mem_cons_self _ _), fun _ _ => rfl, ?_, hnd.1⟩
    intro f hfg
    show f ∈ rest ↔ f ∈ b.free_list_
    rw [hfl, List.mem_cons]
    exact ⟨fun hm => Or.inr hm, fun hm => hm.resolve_left hfg⟩
  · rw [e] at h; cases h
    obtain ⟨_, _, _, _, hacc⟩ := LRUKReplacer.Evict_raw g he
    refine ⟨?_, ?_, fun _ _ => Iff.rfl, ?_⟩
    · show r.access_num_ g = 0
      rw [hacc, Function.update_same]
    · intro f hfg
      show r.access_num_ f = _
      rw [hacc, Function.update_noteq hfg]
    · show g ∉ b.free_list_
      rw [hfl]
      exact List.not_mem_nil g
  · rw [e] at h; cases h

/-- Loading a page into the frame `g` that `GetAvailableFrame` has handed out
keeps the counts in step with the log. -/
theorem BufferPoolManagerInstance.Counted.load {hash : Int → Nat}
    {b b1 b2 : BufferPoolManagerInstance} {g p : Int} {log : List PageAccess}
    (inv : b.Core hash) (cnt : b.Counted log)
    (h : b.GetAvailableFrame hash = (b1, some g))
    (hps : b2.pool_size_ = b.pool_size_) (hfl : b2.free_list_ = b1.free_list_)
    (hpin : b1.replacer_.pin g = Except.ok b2.replacer_) :
    b2.Counted (PageAccess.loaded g p :: log) := by
  obtain ⟨hzero, hother, hfree, hgfree⟩ :=
    BufferPoolManagerInstance.GetAvailableFrame_counts inv cnt h
  obtain ⟨_, _, _, hacc⟩ := LRUKReplacer.pin_raw g hpin
  refine ⟨?_, ?_⟩
  · intro f h0 h1 h2
    rw [hacc]
    by_cases hfg : f = g
    · rw [hfg, Function.update_same, hzero]
      show 0 + 1 = if g = g then 1 else _
      rw [if_pos rfl]
    · rw [Function.update_noteq hfg, hother f hfg]
      show _ = if g = f then 1 else frameAccesses log f
      rw [if_neg (fun e => hfg e.symm)]
      apply cnt.resident f h0 (by rw [← hps]; exact h1)
      intro hm
      exact h2 (by rw [hfl]; exact (hfree f hfg).mpr hm)
  · intro f hf
    rw [hfl] at hf
    have hfg : f ≠ g := fun e => hgfree (e ▸ hf)
    rw [hacc, Function.update_noteq hfg, hother f hfg]
    exact cnt.free f ((hfree f hfg).mp hf)

/-- Every call that returns keeps the access counts of the replacer in step with
the log of the accesses, whatever `K`. -/
theorem BufferPoolManagerInstance.call_counted {hash : Int → Nat} {fuel : Nat}
    {b b2 : BufferPoolManagerInstance} {c : PoolCall} {log : List PageAccess}
    (inv : b.Core hash) (cnt : b.Counted log) (h : b.call hash fuel c = Except.ok b2) :
    b2.Counted ((b.accessOf hash fuel c).toList ++ log) := by
  cases c with
  | newPage =>
    obtain ⟨res, hr⟩ := Except.map_ok_fst h
    rcases b.NewPgImp_cases hash fuel with ⟨b1, hg, e⟩ | ⟨_, _, _, _, e⟩ |
      ⟨_, _, _, _, _, _, _, e⟩ | ⟨b1, f, pt, r, hg, hi, hp, e⟩
    · have hacc : b.accessOf hash fuel PoolCall.newPage = none := by
        unfold BufferPoolManagerInstance.accessOf
        rw [e]
      rw [e] at hr; cases hr
      have h1 := BufferPoolManagerInstance.GetAvailableFrame_none_same hg
      subst h1
      rw [hacc]
      exact cnt
    · rw [e] at hr; cases hr
    · rw [e] at hr; cases hr
    · have hacc : b.accessOf hash fuel PoolCall.newPage
          = some (PageAccess.loaded f b1.next_page_id_) := by
        unfold BufferPoolManagerInstance.accessOf
        rw [e]
      rw [e] at hr; cases hr
      rw [hacc]
      exact BufferPoolManagerInstance.Counted.load inv cnt hg
        (BufferPoolManagerInstance.GetAvailableFrame_some_core inv hg).2.1 rfl hp
  | fetchPage p =>
    obtain ⟨res, hr⟩ := Except.map_ok_fst h
    rcases b.FetchPgImp_cases hash fuel p with ⟨_, _, _, _, e⟩ | ⟨f, r, hfind, hp, e⟩ |
      ⟨hmiss, b1, hg, e⟩ | ⟨_, _, _, _, _, e⟩ | ⟨_, _, _, _, _, _, _, _, e⟩ |
      ⟨hmiss, b1, f, pt, r, hg, hi, hp, e⟩
    · rw [e] at hr; cases hr
    · have hacc : b.accessOf hash fuel (PoolCall.fetchPage p) = some (PageAccess.hit f p) := by
        simp only [BufferPoolManagerInstance.accessOf, e, hfind, Option.isSome_some, if_true]
      rw [e] at hr; cases hr
      rw [hacc]
      obtain ⟨hf0, hfn, hffree, _⟩ := inv.mapped p f hfind
      obtain ⟨_, _, _, hnum⟩ := LRUKReplacer.pin_raw f hp
      refine ⟨?_, ?_⟩
      · intro g h0 h1 h2
        show r.access_num_ g = frameAccesses (PageAccess.hit f p :: log) g
        rw [hnum]
        by_cases hgf : g = f
        · rw [hgf, Function.update_same, cnt.resident f hf0 hfn hffree]
          show _ = if f = f then frameAccesses log f + 1 else _
          rw [if_pos rfl]
        · rw [Function.update_noteq hgf, cnt.resident g h0 h1 h2]
          show _ = if f = g then _ else frameAccesses log g
          rw [if_neg (fun e => hgf e.symm)]
      · intro g hg
        have hgf : g ≠ f := fun e => hffree (e ▸ hg)
        show r.access_num_ g = 0
        rw [hnum, Function.update_noteq hgf]
        exact cnt.free g hg
    · have hacc : b.accessOf hash fuel (PoolCall.fetchPage p) = none := by
        simp only [BufferPoolManagerInstance.accessOf, e]
      rw [e] at hr; cases hr
      have h1 := BufferPoolManagerInstance.GetAvailableFrame_none_same hg
      subst h1
      rw [hacc]
      exact cnt
    · rw [e] at hr; cases hr
    · rw [e] at hr; cases hr
    · have hacc : b.accessOf hash fuel (PoolCall.fetchPage p)
          = some (PageAccess.loaded f p) := by
        simp only [BufferPoolManagerInstance.accessOf, e, hmiss, Option.isSome_none,
          Bool.false_eq_true, if_false]
      rw [e] at hr; cases hr
      rw [hacc]
      exact BufferPoolManagerInstance.Counted.load inv cnt hg
        (BufferPoolManagerInstance.GetAvailableFrame_some_core inv hg).2.1 rfl hp
  | unpinPage p d =>
    obtain ⟨res, hr⟩ := Except.map_ok_fst h
    show b2.Counted log
    cases hfind : b.page_table_.Find hash p with
    | none =>
      rw [b.UnpinPgImp_unmapped hash p d hfind] at hr
      cases hr; exact cnt
    | some g =>
      by_cases hpin : (b.pageAt g).pin_count_ = 0
      · rw [b.UnpinPgImp_unpinned hash p g d hfind hpin] at hr
        cases hr; exact cnt
      · obtain ⟨hg0, hgn, _, _⟩ := inv.mapped p g hfind
        have hglen : g < (b.pages_.length : Int) := by rw [inv.pages_len]; exact hgn
        rw [b.UnpinPgImp_pinned hash p g d hfind hpin hg0 hglen] at hr
        by_cases hz : (b.pageAt g).pin_count_ - 1 = 0
        · rw [if_pos hz] at hr
          cases hs : b.replacer_.SetEvictable g true with
          | error e => rw [hs] at hr; cases hr
          | ok r =>
            rw [hs] at hr; cases hr
            exact cnt.of_same rfl rfl (LRUKReplacer.SetEvictable_access g true hs)
        · rw [if_neg hz] at hr
          cases hr
          exact cnt.of_same rfl rfl rfl
  | flushPage p =>
    have : (b.FlushPgImp hash p).1 = b2 := Except.ok.inj h
    subst this
    show (b.FlushPgImp hash p).1.Counted log
    unfold BufferPoolManagerInstance.FlushPgImp
    cases hfind : b.page_table_.Find hash p with
    | none => exact cnt
    | some g => exact cnt.of_same rfl rfl rfl
  | flushAllPages =>
    have : b.FlushAllPgsImp = b2 := Except.ok.inj h
    subst this
    obtain ⟨k1, k2, k3⟩ := BufferPoolManagerInstance.flushFrom_lists b.pool_size_ 0 b
    exact cnt.of_same k3 k2 (congrArg LRUKReplacer.access_num_ k1)
  | deletePage p =>
    obtain ⟨res, hr⟩ := Except.map_ok_fst h
    show b2.Counted log
    cases hfind : b.page_table_.Find hash p with
    | none =>
      rw [b.DeletePgImp_unmapped hash p hfind] at hr
      cases hr; exact cnt
    | some g =>
      by_cases hpin : (b.pageAt g).pin_count_ = 0
      · obtain ⟨hg0, hgn, hgfree, _⟩ := inv.mapped p g hfind
        have hglen : g < (b.pages_.length : Int) := by rw [inv.pages_len]; exact hgn
        rw [b.DeletePgImp_unpinned hash p g hfind hpin hg0 hglen] at hr
        cases hrm : b.replacer_.Remove g with
        | error e => rw [hrm] at hr; cases hr
        | ok r =>
          rw [hrm] at hr; cases hr
          obtain ⟨_, _, _, _, hacc⟩ :=
            LRUKReplacer.Remove_raw g (inv.tracked g hg0 hgn hgfree) hrm
          refine ⟨?_, ?_⟩
          · intro f h0 h1 h2
            have h2' : f ∉ b.free_list_ ++ [g] := h2
            rw [List.mem_append, List.mem_singleton, not_or] at h2'
            show r.access_num_ f = _
            rw [hacc, Function.update_noteq h2'.2]
            exact cnt.resident f h0 h1 h2'.1
          · intro f hf
            have hf' : f ∈ b.free_list_ ++ [g] := hf
            show r.access_num_ f = 0
            rw [hacc]
            rcases List.mem_append.mp hf' with hm | hm
            · have hfg : f ≠ g := fun e => hgfree (e ▸ hm)
              rw [Function.update_noteq hfg]
              exact cnt.free f hm
            · rw [List.mem_singleton.mp hm, Function.update_same]
      · rw [b.DeletePgImp_pinned hash p g hfind hpin] at hr
        cases hr; exact cnt
  | write g data =>
    have : b.callerWrite g data = b2 := Except.ok.inj h
    subst this
    show (b.callerWrite g data).Counted log
    unfold BufferPoolManagerInstance.callerWrite
    split_ifs
    · exact cnt.of_same rfl rfl rfl
    · exact cnt

/-- The fresh pool is counted by the empty log. -/
theorem BufferPoolManagerInstance.new_Counted (pool_size replacer_k bucket_size : Nat)
    (disk_manager : DiskManager) :
    (BufferPoolManagerInstance.new pool_size replacer_k bucket_size disk_manager).Counted [] :=
  ⟨fun _ _ _ _ => rfl, fun _ _ => rfl⟩

/-- A state reached with a log of accesses is reachable by some workload. -/
theorem BufferPoolManagerInstance.ReachableWith.reachable {hash : Int → Nat}
    {pool_size replacer_k bucket_size : Nat} {b : BufferPoolManagerInstance}
    {log : List PageAccess}
    (hr : BufferPoolManagerInstance.ReachableWith hash pool_size replacer_k bucket_size b log) :
    BufferPoolManagerInstance.Reachable hash pool_size replacer_k bucket_size
      (fun _ _ => True) b := by
  induction hr with
  | init disk_manager => exact BufferPoolManagerInstance.Reachable.init disk_manager
  | step b b2 log fuel c _ hcall ih =>
    exact BufferPoolManagerInstance.Reachable.step b b2 fuel c ih trivial hcall

/-- Every reachable state has a log of the accesses that led to it. -/
theorem BufferPoolManagerInstance.Reachable.logged {hash : Int → Nat}
    {pool_size replacer_k bucket_size : Nat}
    {allowed : BufferPoolManagerInstance → PoolCall → Prop} {b : BufferPoolManagerInstance}
    (hr : BufferPoolManagerInstance.Reachable hash pool_size replacer_k bucket_size allowed b) :
    ∃ log, BufferPoolManagerInstance.ReachableWith hash pool_size replacer_k bucket_size
      b log := by
  induction hr with
  | init disk_manager => exact ⟨[], BufferPoolManagerInstance.ReachableWith.init disk_manager⟩
  | step b b2 fuel c _ _ hcall ih =>
    obtain ⟨log, hlog⟩ := ih
    exact ⟨_, BufferPoolManagerInstance.ReachableWith.step b b2 log fuel c hlog hcall⟩

/-- In every state reached with a log, whatever `K`, the access count the
replacer holds for a resident frame is the number of accesses (`NewPage` or
`FetchPage`) of its page since it came into the frame. -/
theorem BufferPoolManagerInstance.ReachableWith.counted {hash : Int → Nat}
    {pool_size replacer_k bucket_size : Nat} {b : BufferPoolManagerInstance}
    {log : List PageAccess}
    (hr : BufferPoolManagerInstance.ReachableWith hash pool_size replacer_k bucket_size b log) :
    b.Counted log := by
  induction hr with
  | init disk_manager =>
    exact BufferPoolManagerInstance.new_Counted pool_size replacer_k bucket_size disk_manager
  | step b b2 log fuel c hprev hcall ih =>
    exact BufferPoolManagerInstance.call_counted hprev.reachable.pool_core.1 ih hcall

/-- A step of the logged reachability with the log given explicitly. -/
theorem BufferPoolManagerInstance.ReachableWith.step_to {hash : Int → Nat}
    {pool_size replacer_k bucket_size : Nat} (b : BufferPoolManagerInstance)
    {b2 : BufferPoolManagerInstance} (log : List PageAccess) {log2 : List PageAccess}
    (fuel : Nat) (c : PoolCall)
    (hr : BufferPoolManagerInstance.ReachableWith hash pool_size replacer_k bucket_size b log)
    (hcall : b.call hash fuel c = Except.ok b2)
    (hlog : log2 = (b.accessOf hash fuel c).toList ++ log) :
    BufferPoolManagerInstance.ReachableWith hash pool_size replacer_k bucket_size b2 log2 := by
  rw [hlog]
  exact BufferPoolManagerInstance.ReachableWith.step b b2 log fuel c hr hcall

/-! ### Dirty frames and the log of the disk -/

/-- The log of the disk after the write-back of frame `f`. -/
theorem BufferPoolManagerInstance.writeBack_writes (b : BufferPoolManagerInstance) (f : Int) :
    (b.writeBack f).disk_manager_.writes =
      if (b.pageAt f).is_dirty_ then
        ((b.pageAt f).page_id_, (b.pageAt f).data_) :: b.disk_manager_.writes
      else b.disk_manager_.writes := by
  show (if (b.pageAt f).is_dirty_ = true then
      b.disk_manager_.WritePage (b.pageAt f).page_id_ (b.pageAt f).data_
    else b.disk_manager_).writes = _
  by_cases hd : (b.pageAt f).is_dirty_ = true
  · rw [if_pos hd, if_pos hd]; rfl
  · rw [if_neg hd, if_neg hd]

/-- A frame that is dirty with the same page and a log that has grown. -/
theorem BufferPoolManagerInstance.DirtyOrWritten.of_frame {b b2 : BufferPoolManagerInstance}
    {f : Int} (pre : List (Int × Nat))
    (hw : b2.disk_manager_.writes = pre ++ b.disk_manager_.writes)
    (hd : (b.pageAt f).is_dirty_ = true)
    (hframe : (b2.pageAt f).is_dirty_ = (b.pageAt f).is_dirty_ ∧
      (b2.pageAt f).page_id_ = (b.pageAt f).page_id_) :
    b.DirtyOrWritten b2 f :=
  ⟨pre, hw, Or.inl ⟨hframe.1.trans hd, hframe.2⟩⟩

/-- What `GetAvailableFrame` does to a dirty frame `f`: when `f` is the frame
handed out, its page was written with its data and the data is still in the
frame; every other dirty frame is as before. -/
theorem BufferPoolManagerInstance.GetAvailableFrame_dirty {hash : Int → Nat}
    {b b1 : BufferPoolManagerInstance} {o : Option Int} (inv : b.Core hash)
    (h : b.GetAvailableFrame hash = (b1, o)) (f : Int) (hf0 : 0 ≤ f)
    (hd : (b.pageAt f).is_dirty_ = true) :
    ∃ pre, b1.disk_manager_.writes = pre ++ b.disk_manager_.writes ∧
      ((o ≠ some f ∧ frameOf b1.pages_ f = frameOf b.pages_ f) ∨
        (o = some f ∧ b1.disk_manager_.writes
            = ((b.pageAt f).page_id_, (b.pageAt f).data_) :: b.disk_manager_.writes ∧
          ((b.pageAt f).page_id_, (b.pageAt f).data_) ∈ pre ∧
          frameOf b1.pages_ f = { (b.pageAt f) with is_dirty_ := false })) := by
  rcases b.GetAvailableFrame_cases hash with ⟨g, rest, hfl, e⟩ | ⟨_, r, v, he, e⟩ | ⟨_, r, _, e⟩
  · rw [e] at h; cases h
    refine ⟨[], rfl, Or.inl ⟨?_, rfl⟩⟩
    intro hgf
    cases hgf
    have := (inv.free_fresh f (by rw [hfl]; exact List.mem_cons_self _ _)).2.2
    have hd2 : (frameOf b.pages_ f).is_dirty_ = true := hd
    rw [this] at hd2
    cases hd2
  · rw [e] at h; cases h
    have hflag := (LRUKReplacer.Evict_raw v he).1
    obtain ⟨hv0, hvn, _, _⟩ := (inv.evictable_iff v).mp hflag
    have hvlen : v < (b.pages_.length : Int) := by rw [inv.pages_len]; exact hvn
    obtain ⟨_, hwother, hwsame⟩ :=
      (({ b with replacer_ := r } : BufferPoolManagerInstance)).writeBack_pages v hv0 hvlen
    have hww := (({ b with replacer_ := r } : BufferPoolManagerInstance)).writeBack_writes v
    by_cases hvf : v = f
    · subst hvf
      have hww2 : (({ b with replacer_ := r } : BufferPoolManagerInstance).writeBack
          v).disk_manager_.writes
          = ((b.pageAt v).page_id_, (b.pageAt v).data_) :: b.disk_manager_.writes := by
        rw [hww]
        exact if_pos hd
      exact ⟨[((b.pageAt v).page_id_, (b.pageAt v).data_)], hww2,
        Or.inr ⟨rfl, hww2, List.mem_singleton.mpr rfl, hwsame⟩⟩
    · have hne : f ≠ v := fun e => hvf e.symm
      by_cases hdv : (b.pageAt v).is_dirty_ = true
      · refine ⟨[((b.pageAt v).page_id_, (b.pageAt v).data_)], ?_, Or.inl ⟨?_, hwother f hf0 hne⟩⟩
        · show (({ b with replacer_ := r } : BufferPoolManagerInstance).writeBack
            v).disk_manager_.writes = _
          rw [hww]
          exact if_pos hdv
        · intro hc; cases hc; exact hvf rfl
      · refine ⟨[], ?_, Or.inl ⟨?_, hwother f hf0 hne⟩⟩
        · show (({ b with replacer_ := r } : BufferPoolManagerInstance).writeBack
            v).disk_manager_.writes = _
          rw [hww]
          exact if_neg hdv
        · intro hc; cases hc; exact hvf rfl
  · rw [e] at h; cases h
    exact ⟨[], rfl, Or.inl ⟨fun hc => (by cases hc), rfl⟩⟩

/-- `NewPgImp` does not lose the write of a dirty frame. -/
theorem BufferPoolManagerInstance.NewPgImp_dirty {hash : Int → Nat} {fuel : Nat}
    {b b2 : BufferPoolManagerInstance} {res : Option (Int × Int)} (inv : b.Core hash)
    (h : b.NewPgImp hash fuel = Except.ok (b2, res)) (f : Int) (hf0 : 0 ≤ f)
    (hd : (b.pageAt f).is_dirty_ = true) : b.DirtyOrWritten b2 f := by
  rcases b.NewPgImp_cases hash fuel with ⟨b1, hg, e⟩ | ⟨_, _, _, _, e⟩ | ⟨_, _, _, _, _, _, _, e⟩ |
    ⟨b1, g, pt, r, hg, _, _, e⟩
  · rw [e] at h; cases h
    obtain ⟨pre, hw, hcase⟩ := BufferPoolManagerInstance.GetAvailableFrame_dirty inv hg f hf0 hd
    rcases hcase with ⟨_, hsame⟩ | ⟨hc, _⟩
    · exact BufferPoolManagerInstance.DirtyOrWritten.of_frame pre hw hd
        ⟨congrArg Page.is_dirty_ hsame, congrArg Page.page_id_ hsame⟩
    · cases hc
  · rw [e] at h; cases h
  · rw [e] at h; cases h
  · rw [e] at h; cases h
    obtain ⟨acq, _⟩ := BufferPoolManagerInstance.GetAvailableFrame_some_core inv hg
    obtain ⟨pre, hw, hcase⟩ := BufferPoolManagerInstance.GetAvailableFrame_dirty inv hg f hf0 hd
    rcases hcase with ⟨hne, hsame⟩ | ⟨_, _, hmem, _⟩
    · have hfg : f ≠ g := fun e => hne (by rw [e])
      have hframe : frameOf (b1.pages_.set g.toNat
          ⟨0, b1.next_page_id_, 1, (frameOf b1.pages_ g).is_dirty_⟩) f = frameOf b.pages_ f := by
        rw [frameOf_set_other _ _ _ _ acq.frame_range.1 hf0 hfg]
        exact hsame
      exact BufferPoolManagerInstance.DirtyOrWritten.of_frame pre hw hd
        ⟨congrArg Page.is_dirty_ hframe, congrArg Page.page_id_ hframe⟩
    · exact ⟨pre, hw, Or.inr hmem⟩

/-- `FetchPgImp` does not lose the write of a dirty frame. -/
theorem BufferPoolManagerInstance.FetchPgImp_dirty {hash : Int → Nat} {fuel : Nat}
    {b b2 : BufferPoolManagerInstance} {p : Int} {res : Option Int} (inv : b.Core hash)
    (h : b.FetchPgImp hash fuel p = Except.ok (b2, res)) (f : Int) (hf0 : 0 ≤ f)
    (hd : (b.pageAt f).is_dirty_ = true) : b.DirtyOrWritten b2 f := by
  rcases b.FetchPgImp_cases hash fuel p with ⟨_, _, _, _, e⟩ | ⟨g, r, hfind, _, e⟩ |
    ⟨_, b1, hg, e⟩ | ⟨_, _, _, _, _, e⟩ | ⟨_, _, _, _, _, _, _, _, e⟩ |
    ⟨_, b1, g, pt, r, hg, _, _, e⟩
  · rw [e] at h; cases h
  · rw [e] at h; cases h
    obtain ⟨hg0, hgn, _, _⟩ := inv.mapped p g hfind
    have hglen : g < (b.pages_.length : Int) := by rw [inv.pages_len]; exact hgn
    refine BufferPoolManagerInstance.DirtyOrWritten.of_frame [] rfl hd ?_
    show (frameOf (b.pages_.set g.toNat _) f).is_dirty_ = _ ∧
      (frameOf (b.pages_.set g.toNat _) f).page_id_ = _
    rw [frameOf_set _ _ _ _ hg0 hf0 hglen]
    by_cases hfg : f = g
    · rw [if_pos hfg, hfg]; exact ⟨rfl, rfl⟩
    · rw [if_neg hfg]; exact ⟨rfl, rfl⟩
  · rw [e] at h; cases h
    obtain ⟨pre, hw, hcase⟩ := BufferPoolManagerInstance.GetAvailableFrame_dirty inv hg f hf0 hd
    rcases hcase with ⟨_, hsame⟩ | ⟨hc, _⟩
    · exact BufferPoolManagerInstance.DirtyOrWritten.of_frame pre hw hd
        ⟨congrArg Page.is_dirty_ hsame, congrArg Page.page_id_ hsame⟩
    · cases hc
  · rw [e] at h; cases h
  · rw [e] at h; cases h
  · rw [e] at h; cases h
    obtain ⟨acq, _⟩ := BufferPoolManagerInstance.GetAvailableFrame_some_core inv hg
    obtain ⟨pre, hw, hcase⟩ := BufferPoolManagerInstance.GetAvailableFrame_dirty inv hg f hf0 hd
    rcases hcase with ⟨hne, hsame⟩ | ⟨_, _, hmem, _⟩
    · have hfg : f ≠ g := fun e => hne (by rw [e])
      have hframe : frameOf ((b1.pages_.set g.toNat
          ⟨0, p, 1, (frameOf b1.pages_ g).is_dirty_⟩).set g.toNat
            { (frameOf (b1.pages_.set g.toNat ⟨0, p, 1, (frameOf b1.pages_ g).is_dirty_⟩) g) with
              data_ := b1.disk_manager_.ReadPage p }) f = frameOf b.pages_ f := by
        rw [frameOf_set_other _ _ _ _ acq.frame_range.1 hf0 hfg,
          frameOf_set_other _ _ _ _ acq.frame_range.1 hf0 hfg]
        exact hsame
      exact BufferPoolManagerInstance.DirtyOrWritten.of_frame pre hw hd
        ⟨congrArg Page.is_dirty_ hframe, congrArg Page.page_id_ hframe⟩
    · exact ⟨pre, hw, Or.inr hmem⟩

/-- `UnpinPgImp` does not lose the write of a dirty frame. -/
theorem BufferPoolManagerInstance.UnpinPgImp_dirty {hash : Int → Nat}
    {b b2 : BufferPoolManagerInstance} {p : Int} {d res : Bool} (inv : b.Core hash)
    (h : b.UnpinPgImp hash p d = Except.ok (b2, res)) (f : Int) (hf0 : 0 ≤ f)
    (hd : (b.pageAt f).is_dirty_ = true) : b.DirtyOrWritten b2 f := by
  cases hfind : b.page_table_.Find hash p with
  | none =>
    rw [b.UnpinPgImp_unmapped hash p d hfind] at h
    cases h
    exact BufferPoolManagerInstance.DirtyOrWritten.of_frame [] rfl hd ⟨rfl, rfl⟩
  | some g =>
    by_cases hpin : (b.pageAt g).pin_count_ = 0
    · rw [b.UnpinPgImp_unpinned hash p g d hfind hpin] at h
      cases h
      exact BufferPoolManagerInstance.DirtyOrWritten.of_frame [] rfl hd ⟨rfl, rfl⟩
    · obtain ⟨hg0, hgn, _, _⟩ := inv.mapped p g hfind
      have hglen : g < (b.pages_.length : Int) := by rw [inv.pages_len]; exact hgn
      rw [b.UnpinPgImp_pinned hash p g d hfind hpin hg0 hglen] at h
      have hframe : ∀ x : Page, x.is_dirty_ = ((b.pageAt g).is_dirty_ || d) →
          x.page_id_ = (b.pageAt g).page_id_ →
          (frameOf (b.pages_.set g.toNat x) f).is_dirty_ = (b.pageAt f).is_dirty_ ∧
          (frameOf (b.pages_.set g.toNat x) f).page_id_ = (b.pageAt f).page_id_ := by
        intro x hx1 hx2
        rw [frameOf_set _ _ _ _ hg0 hf0 hglen]
        by_cases hfg : f = g
        · rw [if_pos hfg, hx1, hx2, hfg]
          rw [hfg] at hd
          rw [hd]
          exact ⟨rfl, rfl⟩
        · rw [if_neg hfg]; exact ⟨rfl, rfl⟩
      by_cases hz : (b.pageAt g).pin_count_ - 1 = 0
      · rw [if_pos hz] at h
        cases hs : b.replacer_.SetEvictable g true with
        | error e => rw [hs] at h; cases h
        | ok r =>
          rw [hs] at h
          cases h
          exact BufferPoolManagerInstance.DirtyOrWritten.of_frame [] rfl hd (hframe _ rfl rfl)
      · rw [if_neg hz] at h
        cases h
        exact BufferPoolManagerInstance.DirtyOrWritten.of_frame [] rfl hd (hframe _ rfl rfl)

/-- `FlushPgImp` does not lose the write of a dirty frame. -/
theorem BufferPoolManagerInstance.FlushPgImp_dirty {hash : Int → Nat}
    {b : BufferPoolManagerInstance} (p : Int) (inv : b.Core hash) (f : Int) (hf0 : 0 ≤ f)
    (hd : (b.pageAt f).is_dirty_ = true) : b.DirtyOrWritten (b.FlushPgImp hash p).1 f := by
  unfold BufferPoolManagerInstance.FlushPgImp
  cases hfind : b.page_table_.Find hash p with
  | none => exact BufferPoolManagerInstance.DirtyOrWritten.of_frame [] rfl hd ⟨rfl, rfl⟩
  | some g =>
    obtain ⟨hg0, hgn, _, hpid⟩ := inv.mapped p g hfind
    have hglen : g < (b.pages_.length : Int) := by rw [inv.pages_len]; exact hgn
    by_cases hfg : f = g
    · subst hfg
      refine ⟨[(p, (b.pageAt f).data_)], rfl, Or.inr ?_⟩
      have hpid2 : (b.pageAt f).page_id_ = p := hpid
      rw [hpid2]
      exact List.mem_singleton.mpr rfl
    · refine BufferPoolManagerInstance.DirtyOrWritten.of_frame [(p, (b.pageAt g).data_)] rfl hd ?_
      show (frameOf (b.pages_.set g.toNat _) f).is_dirty_ = _ ∧
        (frameOf (b.pages_.set g.toNat _) f).page_id_ = _
      rw [frameOf_set_other _ _ _ _ hg0 hf0 hfg]
      exact ⟨rfl, rfl⟩

/-- `DeletePgImp` does not lose the write of a dirty frame. -/
theorem BufferPoolManagerInstance.DeletePgImp_dirty {hash : Int → Nat}
    {b b2 : BufferPoolManagerInstance} {p : Int} {res : Bool} (inv : b.Core hash)
    (h : b.DeletePgImp hash p = Except.ok (b2, res)) (f : Int) (hf0 : 0 ≤ f)
    (hd : (b.pageAt f).is_dirty_ = true) : b.DirtyOrWritten b2 f := by
  cases hfind : b.page_table_.Find hash p with
  | none =>
    rw [b.DeletePgImp_unmapped hash p hfind] at h
    cases h
    exact BufferPoolManagerInstance.DirtyOrWritten.of_frame [] rfl hd ⟨rfl, rfl⟩
  | some g =>
    by_cases hpin : (b.pageAt g).pin_count_ = 0
    · obtain ⟨hg0, hgn, _, _⟩ := inv.mapped p g hfind
      have hglen : g < (b.pages_.length : Int) := by rw [inv.pages_len]; exact hgn
      rw [b.DeletePgImp_unpinned hash p g hfind hpin hg0 hglen] at h
      cases hrm : b.replacer_.Remove g with
      | error e => rw [hrm] at h; cases h
      | ok r =>
        rw [hrm] at h
        cases h
        have hww := b.writeBack_writes g
        by_cases hfg : f = g
        · subst hfg
          rw [if_pos hd] at hww
          exact ⟨[((b.pageAt f).page_id_, (b.pageAt f).data_)], hww,
            Or.inr (List.mem_singleton.mpr rfl)⟩
        · have hframe : frameOf ((b.writeBack g).pages_.set g.toNat
              ⟨0, INVALID_PAGE_ID, 0, false⟩) f = frameOf b.pages_ f := by
            rw [frameOf_set_other _ _ _ _ hg0 hf0 hfg]
            exact (b.writeBack_pages g hg0 hglen).2.1 f hf0 hfg
          by_cases hdg : (b.pageAt g).is_dirty_ = true
          · rw [if_pos hdg] at hww
            exact BufferPoolManagerInstance.DirtyOrWritten.of_frame
              [((b.pageAt g).page_id_, (b.pageAt g).data_)] hww hd
              ⟨congrArg Page.is_dirty_ hframe, congrArg Page.page_id_ hframe⟩
          · rw [if_neg hdg] at hww
            exact BufferPoolManagerInstance.DirtyOrWritten.of_frame [] hww hd
              ⟨congrArg Page.is_dirty_ hframe, congrArg Page.page_id_ hframe⟩
    · rw [b.DeletePgImp_pinned hash p g hfind hpin] at h
      cases h
      exact BufferPoolManagerInstance.DirtyOrWritten.of_frame [] rfl hd ⟨rfl, rfl⟩

/-- A write of the caller does not lose the write of a dirty frame. -/
theorem BufferPoolManagerInstance.callerWrite_dirty
    {b : BufferPoolManagerInstance} (g : Int) (data : Nat) (f : Int)
    (hf0 : 0 ≤ f) (hd : (b.pageAt f).is_dirty_ = true) :
    b.DirtyOrWritten (b.callerWrite g data) f := by
  unfold BufferPoolManagerInstance.callerWrite
  by_cases hc : 0 ≤ g ∧ 0 < (b.pageAt g).pin_count_
  · rw [if_pos hc]
    have hglen : g < (b.pages_.length : Int) := by
      by_contra hge
      have hlen : b.pages_.length ≤ g.toNat := by
        have := Int.toNat_of_nonneg hc.1
        omega
      have hdef : b.pageAt g = default := List.getD_eq_default _ _ hlen
      rw [hdef] at hc
      exact absurd hc.2 (lt_irrefl 0)
    refine BufferPoolManagerInstance.DirtyOrWritten.of_frame [] rfl hd ?_
    show (frameOf (b.pages_.set g.toNat _) f).is_dirty_ = _ ∧
      (frameOf (b.pages_.set g.toNat _) f).page_id_ = _
    rw [frameOf_set _ _ _ _ hc.1 hf0 hglen]
    by_cases hfg : f = g
    · rw [if_pos hfg, hfg]; exact ⟨rfl, rfl⟩
    · rw [if_neg hfg]; exact ⟨rfl, rfl⟩
  · rw [if_neg hc]
    exact BufferPoolManagerInstance.DirtyOrWritten.of_frame [] rfl hd ⟨rfl, rfl⟩

/-- The loop of `FlushAllPgsImp` changes neither page id nor data of a frame, and
a frame it changes has had its page written with its data. -/
theorem BufferPoolManagerInstance.flushFrom_dirty (count : Nat) :
    ∀ (i : Nat) (b : BufferPoolManagerInstance), i + count ≤ b.pages_.length →
      ∀ f : Int, 0 ≤ f →
      ∃ pre, (BufferPoolManagerInstance.flushFrom count i b).disk_manager_.writes
          = pre ++ b.disk_manager_.writes ∧
        (∀ g : Int, 0 ≤ g →
          ((BufferPoolManagerInstance.flushFrom count i b).pageAt g).page_id_
            = (b.pageAt g).page_id_ ∧
          ((BufferPoolManagerInstance.flushFrom count i b).pageAt g).data_
            = (b.pageAt g).data_) ∧
        ((BufferPoolManagerInstance.flushFrom count i b).pageAt f = b.pageAt f ∨
          ((b.pageAt f).page_id_, (b.pageAt f).data_) ∈ pre) := by
  induction count with
  | zero =>
    intro i b _ f _
    exact ⟨[], rfl, fun _ _ => ⟨rfl, rfl⟩, Or.inl rfl⟩
  | succ m ih =>
    intro i b hle f hf0
    unfold BufferPoolManagerInstance.flushFrom
    by_cases hc : (b.pageAt (i : Int)).page_id_ ≠ INVALID_PAGE_ID
    · simp only [hc, ne_eq, not_false_eq_true, if_true]
      have hi0 : (0 : Int) ≤ (i : Int) := Int.ofNat_nonneg i
      have hilen : (i : Int) < (b.pages_.length : Int) := by omega
      have hset : ∀ g : Int, 0 ≤ g →
          frameOf (b.pages_.set (i : Int).toNat { (b.pageAt i) with is_dirty_ := false }) g
            = if g = (i : Int) then { (b.pageAt i) with is_dirty_ := false }
              else frameOf b.pages_ g :=
        fun g hg => frameOf_set _ _ _ _ hi0 hg hilen
      obtain ⟨pre, hw, hall, hfr⟩ := ih (i + 1)
        (({ b with disk_manager_ :=
            b.disk_manager_.WritePage (b.pageAt i).page_id_ (b.pageAt i).data_ } :
          BufferPoolManagerInstance).setPage i { (b.pageAt i) with is_dirty_ := false })
        (by show i + 1 + m ≤ (b.pages_.set _ _).length; rw [List.length_set]; omega) f hf0
      have hmid : ∀ g : Int, 0 ≤ g →
          ((({ b with disk_manager_ :=
              b.disk_manager_.WritePage (b.pageAt i).page_id_ (b.pageAt i).data_ } :
            BufferPoolManagerInstance).setPage i
              { (b.pageAt i) with is_dirty_ := false }).pageAt g).page_id_
            = (b.pageAt g).page_id_ ∧
          ((({ b with disk_manager_ :=
              b.disk_manager_.WritePage (b.pageAt i).page_id_ (b.pageAt i).data_ } :
            BufferPoolManagerInstance).setPage i
              { (b.pageAt i) with is_dirty_ := false }).pageAt g).data_
            = (b.pageAt g).data_ := by
        intro g hg
        show (frameOf (b.pages_.set (i : Int).toNat _) g).page_id_ = _ ∧
          (frameOf (b.pages_.set (i : Int).toNat _) g).data_ = _
        rw [hset g hg]
        by_cases hgi : g = (i : Int)
        · rw [if_pos hgi, hgi]; exact ⟨rfl, rfl⟩
        · rw [if_neg hgi]; exact ⟨rfl, rfl⟩
      refine ⟨pre ++ [((b.pageAt i).page_id_, (b.pageAt i).data_)], ?_, ?_, ?_⟩
      · rw [hw, List.append_assoc]
        rfl
      · intro g hg
        exact ⟨(hall g hg).1.trans (hmid g hg).1, (hall g hg).2.trans (hmid g hg).2⟩
      · by_cases hfi : f = (i : Int)
        · right
          rw [hfi]
          exact List.mem_append_right _ (List.mem_singleton.mpr rfl)
        · rcases hfr with hfr | hfr
          · left
            rw [hfr]
            show frameOf (b.pages_.set (i : Int).toNat _) f = _
            rw [hset f hf0, if_neg hfi]
            rfl
          · right
            rw [(hmid f hf0).1, (hmid f hf0).2] at hfr
            exact List.mem_append_left _ hfr
    · simp only [hc, if_false]
      exact ih (i + 1) b (by omega) f hf0

/-- Every call that returns keeps the write of a dirty frame. -/
theorem BufferPoolManagerInstance.call_dirty {hash : Int → Nat} {fuel : Nat}
    {b b2 : BufferPoolManagerInstance} {c : PoolCall} (inv : b.Core hash)
    (h : b.call hash fuel c = Except.ok b2) (f : Int) (hf0 : 0 ≤ f)
    (hd : (b.pageAt f).is_dirty_ = true) : b.DirtyOrWritten b2 f := by
  cases c with
  | newPage =>
    obtain ⟨res, hr⟩ := Except.map_ok_fst h
    exact BufferPoolManagerInstance.NewPgImp_dirty inv hr f hf0 hd
  | fetchPage p =>
    obtain ⟨res, hr⟩ := Except.map_ok_fst h
    exact BufferPoolManagerInstance.FetchPgImp_dirty inv hr f hf0 hd
  | unpinPage p d =>
    obtain ⟨res, hr⟩ := Except.map_ok_fst h
    exact BufferPoolManagerInstance.UnpinPgImp_dirty inv hr f hf0 hd
  | flushPage p =>
    have : (b.FlushPgImp hash p).1 = b2 := Except.ok.inj h
    subst this
    exact BufferPoolManagerInstance.FlushPgImp_dirty p inv f hf0 hd
  | flushAllPages =>
    have : b.FlushAllPgsImp = b2 := Except.ok.inj h
    subst this
    obtain ⟨pre, hw, _, hfr⟩ := BufferPoolManagerInstance.flushFrom_dirty b.pool_size_ 0 b
      (by rw [inv.pages_len]; omega) f hf0
    refine ⟨pre, hw, ?_⟩
    rcases hfr with hfr | hfr
    · left
      show ((BufferPoolManagerInstance.flushFrom b.pool_size_ 0 b).pageAt f).is_dirty_ = true ∧
        ((BufferPoolManagerInstance.flushFrom b.pool_size_ 0 b).pageAt f).page_id_ = _
      rw [hfr]
      exact ⟨hd, rfl⟩
    · exact Or.inr hfr
  | deletePage p =>
    obtain ⟨res, hr⟩ := Except.map_ok_fst h
    exact BufferPoolManagerInstance.DeletePgImp_dirty inv hr f hf0 hd
  | write g data =>
    have : b.callerWrite g data = b2 := Except.ok.inj h
    subst this
    exact BufferPoolManagerInstance.callerWrite_dirty g data f hf0 hd

/-- The write-back only adds to the log of the disk. -/
theorem BufferPoolManagerInstance.writeBack_grows (b : BufferPoolManagerInstance) (f : Int) :
    ∃ pre, (b.writeBack f).disk_manager_.writes = pre ++ b.disk_manager_.writes := by
  rw [b.writeBack_writes f]
  by_cases hd : (b.pageAt f).is_dirty_ = true
  · rw [if_pos hd]; exact ⟨[_], rfl⟩
  · rw [if_neg hd]; exact ⟨[], rfl⟩

/-- `GetAvailableFrame` only adds to the log of the disk. -/
theorem BufferPoolManagerInstance.GetAvailableFrame_grows {hash : Int → Nat}
    {b b1 : BufferPoolManagerInstance} {o : Option Int}
    (h : b.GetAvailableFrame hash = (b1, o)) :
    ∃ pre, b1.disk_manager_.writes = pre ++ b.disk_manager_.writes := by
  rcases b.GetAvailableFrame_cases hash with ⟨g, rest, _, e⟩ | ⟨_, r, v, _, e⟩ | ⟨_, r, _, e⟩
  · rw [e] at h; cases h; exact ⟨[], rfl⟩
  · rw [e] at h; cases h
    exact (({ b with replacer_ := r } : BufferPoolManagerInstance)).writeBack_grows v
  · rw [e] at h; cases h; exact ⟨[], rfl⟩

/-- Every call that returns only adds to the log of the disk. -/
theorem BufferPoolManagerInstance.call_grows {hash : Int → Nat} {fuel : Nat}
    {b b2 : BufferPoolManagerInstance} {c : PoolCall} (inv : b.Core hash)
    (h : b.call hash fuel c = Except.ok b2) :
    ∃ pre, b2.disk_manager_.writes = pre ++ b.disk_manager_.writes := by
  cases c with
  | newPage =>
    obtain ⟨res, hr⟩ := Except.map_ok_fst h
    rcases b.NewPgImp_cases hash fuel with ⟨b1, hg, e⟩ | ⟨_, _, _, _, e⟩ |
      ⟨_, _, _, _, _, _, _, e⟩ | ⟨b1, g, pt, r, hg, _, _, e⟩
    · rw [e] at hr; cases hr
      exact BufferPoolManagerInstance.GetAvailableFrame_grows hg
    · rw [e] at hr; cases hr
    · rw [e] at hr; cases hr
    · rw [e] at hr; cases hr
      obtain ⟨pre, hw⟩ := BufferPoolManagerInstance.GetAvailableFrame_grows hg
      exact ⟨pre, hw⟩
  | fetchPage p =>
    obtain ⟨res, hr⟩ := Except.map_ok_fst h
    rcases b.FetchPgImp_cases hash fuel p with ⟨_, _, _, _, e⟩ | ⟨g, r, _, _, e⟩ |
      ⟨_, b1, hg, e⟩ | ⟨_, _, _, _, _, e⟩ | ⟨_, _, _, _, _, _, _, _, e⟩ |
      ⟨_, b1, g, pt, r, hg, _, _, e⟩
    · rw [e] at hr; cases hr
    · rw [e] at hr; cases hr; exact ⟨[], rfl⟩
    · rw [e] at hr; cases hr
      exact BufferPoolManagerInstance.GetAvailableFrame_grows hg
    · rw [e] at hr; cases hr
    · rw [e] at hr; cases hr
    · rw [e] at hr; cases hr
      obtain ⟨pre, hw⟩ := BufferPoolManagerInstance.GetAvailableFrame_grows hg
      exact ⟨pre, hw⟩
  | unpinPage p d =>
    obtain ⟨res, hr⟩ := Except.map_ok_fst h
    cases hfind : b.page_table_.Find hash p with
    | none =>
      rw [b.UnpinPgImp_unmapped hash p d hfind] at hr
      cases hr; exact ⟨[], rfl⟩
    | some g =>
      by_cases hpin : (b.pageAt g).pin_count_ = 0
      · rw [b.UnpinPgImp_unpinned hash p g d hfind hpin] at hr
        cases hr; exact ⟨[], rfl⟩
      · obtain ⟨hg0, hgn, _, _⟩ := inv.mapped p g hfind
        have hglen : g < (b.pages_.length : Int) := by rw [inv.pages_len]; exact hgn
        rw [b.UnpinPgImp_pinned hash p g d hfind hpin hg0 hglen] at hr
        by_cases hz : (b.pageAt g).pin_count_ - 1 = 0
        · rw [if_pos hz] at hr
          cases hs : b.replacer_.SetEvictable g true with
          | error e => rw [hs] at hr; cases hr
          | ok r => rw [hs] at hr; cases hr; exact ⟨[], rfl⟩
        · rw [if_neg hz] at hr
          cases hr; exact ⟨[], rfl⟩
  | flushPage p =>
    have : (b.FlushPgImp hash p).1 = b2 := Except.ok.inj h
    subst this
    unfold BufferPoolManagerInstance.FlushPgImp
    cases hfind : b.page_table_.Find hash p with
    | none => exact ⟨[], rfl⟩
    | some g => exact ⟨[(p, (b.pageAt g).data_)], rfl⟩
  | flushAllPages =>
    have : b.FlushAllPgsImp = b2 := Except.ok.inj h
    subst this
    obtain ⟨pre, hw, _⟩ := BufferPoolManagerInstance.flushFrom_dirty b.pool_size_ 0 b
      (by rw [inv.pages_len]; omega) 0 (le_refl 0)
    exact ⟨pre, hw⟩
  | deletePage p =>
    obtain ⟨res, hr⟩ := Except.map_ok_fst h
    cases hfind : b.page_table_.Find hash p with
    | none =>
      rw [b.DeletePgImp_unmapped hash p hfind] at hr
      cases hr; exact ⟨[], rfl⟩
    | some g =>
      by_cases hpin : (b.pageAt g).pin_count_ = 0
      · obtain ⟨hg0, hgn, _, _⟩ := inv.mapped p g hfind
        have hglen : g < (b.pages_.length : Int) := by rw [inv.pages_len]; exact hgn
        rw [b.DeletePgImp_unpinned hash p g hfind hpin hg0 hglen] at hr
        cases hrm : b.replacer_.Remove g with
        | error e => rw [hrm] at hr; cases hr
        | ok r =>
          rw [hrm] at hr
          cases hr
          exact b.writeBack_grows g
      · rw [b.DeletePgImp_pinned hash p g hfind hpin] at hr
        cases hr; exact ⟨[], rfl⟩
  | write g data =>
    have : b.callerWrite g data = b2 := Except.ok.inj h
    subst this
    unfold BufferPoolManagerInstance.callerWrite
    split_ifs <;> exact ⟨[], rfl⟩

/-- A run that returns keeps the write of a dirty frame: the frame is still
dirty with its page, or its page was written in between. -/
theorem BufferPoolManagerInstance.run_dirty {hash : Int → Nat} {fuel : Nat}
    (calls : List PoolCall) :
    ∀ (b b2 : BufferPoolManagerInstance), b.Core hash →
      b.run hash fuel calls = Except.ok b2 → ∀ f : Int, 0 ≤ f →
      (b.pageAt f).is_dirty_ = true → b.DirtyOrWrittenSince b2 f := by
  induction calls with
  | nil =>
    intro b b2 _ h f _ hd
    cases h
    exact ⟨[], rfl, Or.inl ⟨hd, rfl⟩⟩
  | cons c rest ih =>
    intro b b2 inv h f hf0 hd
    rw [BufferPoolManagerInstance.run] at h
    cases hc : b.call hash fuel c with
    | error e => rw [hc] at h; cases h
    | ok b1 =>
      rw [hc] at h
      have inv1 := (BufferPoolManagerInstance.call_core inv hc).1
      obtain ⟨pre1, hw1, hcase⟩ := BufferPoolManagerInstance.call_dirty inv hc f hf0 hd
      rcases hcase with ⟨hd1, hpid1⟩ | hmem
      · obtain ⟨pre2, hw2, hcase2⟩ := ih b1 b2 inv1 h f hf0 hd1
        refine ⟨pre2 ++ pre1, by rw [hw2, hw1, List.append_assoc], ?_⟩
        rcases hcase2 with ⟨hd2, hpid2⟩ | ⟨data, hmem2⟩
        · exact Or.inl ⟨hd2, hpid2.trans hpid1⟩
        · exact Or.inr ⟨data, List.mem_append_left _ (by rw [← hpid1]; exact hmem2)⟩
      · -- the log only grows in the rest of the run
        have hgrow : ∀ (cs : List PoolCall) (x y : BufferPoolManagerInstance), x.Core hash →
            x.run hash fuel cs = Except.ok y →
            ∃ pre, y.disk_manager_.writes = pre ++ x.disk_manager_.writes := by
          intro cs
          induction cs with
          | nil => intro x y _ hxy; cases hxy; exact ⟨[], rfl⟩
          | cons c2 rest2 ih2 =>
            intro x y invx hxy
            rw [BufferPoolManagerInstance.run] at hxy
            cases hc2 : x.call hash fuel c2 with
            | error e => rw [hc2] at hxy; cases hxy
            | ok x1 =>
              rw [hc2] at hxy
              obtain ⟨p2, hp2⟩ := ih2 x1 y (BufferPoolManagerInstance.call_core invx hc2).1 hxy
              obtain ⟨p1, hp1⟩ := BufferPoolManagerInstance.call_grows invx hc2
              exact ⟨p2 ++ p1, by rw [hp2, hp1, List.append_assoc]⟩
        obtain ⟨pre2, hw2⟩ := hgrow rest b1 b2 inv1 h
        exact ⟨pre2 ++ pre1, by rw [hw2, hw1, List.append_assoc],
          Or.inr ⟨_, List.mem_append_right _ hmem⟩⟩
set_option maxRecDepth 1000000

/-! ### Claim C8: the mapping between resident frames and the page table -/

/-- The pool of `poolFetchedUnknown` is reached by calls of the public interface. -/
theorem poolFetchedUnknown_reachable :
    BufferPoolManagerInstance.Reachable pageHash 2 2 4 (fun _ _ => True) poolFetchedUnknown :=
  BufferPoolManagerInstance.Reachable.step poolFetchedFirst _ 0 PoolCall.newPage
    (BufferPoolManagerInstance.Reachable.step poolTwoFrames _ 0 (PoolCall.fetchPage 0)
      (BufferPoolManagerInstance.Reachable.init DiskManager.blank) trivial rfl) trivial rfl

/-- The first seven calls of the scenario fetch only known pages. -/
theorem scenarioPool7_reachable :
    BufferPoolManagerInstance.Reachable zigzagHash 3 2 4 PoolCall.fetchesKnown scenarioPool7 :=
  BufferPoolManagerInstance.Reachable.step scenarioPool6 _ 0 (PoolCall.unpinPage 0 false)
    (BufferPoolManagerInstance.Reachable.step scenarioPool5 _ 0 (PoolCall.fetchPage 0)
      (BufferPoolManagerInstance.Reachable.step scenarioPool4 _ 0 (PoolCall.unpinPage 1 false)
        (BufferPoolManagerInstance.Reachable.step scenarioPool3 _ 0 (PoolCall.unpinPage 0 false)
          (BufferPoolManagerInstance.Reachable.step scenarioPool2 _ 0 PoolCall.newPage
            (BufferPoolManagerInstance.Reachable.step scenarioPool1 _ 0 PoolCall.newPage
              (BufferPoolManagerInstance.Reachable.step scenarioPool0 _ 0 PoolCall.newPage
                (BufferPoolManagerInstance.Reachable.init DiskManager.blank) trivial rfl)
              trivial rfl)
            trivial rfl)
          trivial rfl)
        trivial rfl)
      (show (0 : Int) < scenarioPool5.next_page_id_ from by decide) rfl)
    trivial rfl

/-- The whole scenario fetches only known pages. -/
theorem scenarioPool8_reachable :
    BufferPoolManagerInstance.Reachable zigzagHash 3 2 4 PoolCall.fetchesKnown scenarioPool8 :=
  BufferPoolManagerInstance.Reachable.step scenarioPool7 _ 0 PoolCall.newPage
    scenarioPool7_reachable trivial rfl

/-- Claim C8 as stated fails: after `FetchPage(0)` on a fresh pool of two frames
and then `NewPage`, which hands out the id 0 again, the distinct frames 0 and 1
both hold page 0, and the page table maps page 0 to frame 1 and not to the
resident frame 0. -/
theorem BufferPoolManagerInstance.mapping_bijection_counterexample :
    BufferPoolManagerInstance.Reachable pageHash 2 2 4 (fun _ _ => True) poolFetchedUnknown ∧
    (poolFetchedUnknown.pageAt 0).page_id_ = 0 ∧
    (poolFetchedUnknown.pageAt 1).page_id_ = 0 ∧
    (poolFetchedUnknown.pageAt 0).page_id_ ≠ INVALID_PAGE_ID ∧
    poolFetchedUnknown.page_table_.Find pageHash (poolFetchedUnknown.pageAt 0).page_id_
      = some 1 ∧
    poolFetchedUnknown.page_table_.Find pageHash (poolFetchedUnknown.pageAt 0).page_id_
      ≠ some 0 :=
  ⟨poolFetchedUnknown_reachable, rfl, rfl, by decide, rfl, by decide⟩

/-- Claim C8, amended: in every state reached from a fresh pool (`replacer_k ≥ 2`)
by calls that fetch only page ids below the next id `NewPage` hands out, every
frame holding a page id other than `INVALID_PAGE_ID` is the frame the page table
finds for that id, and no other frame holds that id. -/
theorem BufferPoolManagerInstance.mapping_bijection_known_fetches {hash : Int → Nat}
    {pool_size replacer_k bucket_size : Nat} {b : BufferPoolManagerInstance}
    (hk : 2 ≤ replacer_k)
    (hr : BufferPoolManagerInstance.Reachable hash pool_size replacer_k bucket_size
      PoolCall.fetchesKnown b) :
    (∀ f : Int, 0 ≤ f → f < pool_size → (b.pageAt f).page_id_ ≠ INVALID_PAGE_ID →
      b.page_table_.Find hash (b.pageAt f).page_id_ = some f) ∧
    (∀ f g : Int, 0 ≤ f → f < pool_size → 0 ≤ g → g < pool_size →
      (b.pageAt f).page_id_ ≠ INVALID_PAGE_ID →
      (b.pageAt g).page_id_ = (b.pageAt f).page_id_ → g = f) := by
  have hbij := hr.bij hk
  have hsize := (hr.inv hk).2.1
  have hres : ∀ f : Int, 0 ≤ f → f < pool_size → (b.pageAt f).page_id_ ≠ INVALID_PAGE_ID →
      b.page_table_.Find hash (b.pageAt f).page_id_ = some f := by
    intro f h0 h1 hne
    apply hbij.resident_mapped f h0 (by rw [hsize]; exact h1)
    intro hfree
    exact hne (hbij.inv.free_fresh f hfree).1
  refine ⟨hres, ?_⟩
  intro f g hf0 hf1 hg0 hg1 hne he
  have h1 := hres f hf0 hf1 hne
  have h2 := hres g hg0 hg1 (by rw [he]; exact hne)
  rw [he, h1] at h2
  cases h2
  rfl

/-- Claim C8, amended, at the end of the scenario on three frames: frame 1 holds
page 3, the page created in place of the evicted page 1, and is what the page
table finds for page 3. -/
theorem BufferPoolManagerInstance.mapping_bijection_known_fetches_witness :
    2 ≤ 2 ∧
    BufferPoolManagerInstance.Reachable zigzagHash 3 2 4 PoolCall.fetchesKnown scenarioPool8 ∧
    (scenarioPool8.pageAt 1).page_id_ ≠ INVALID_PAGE_ID ∧
    scenarioPool8.page_table_.Find zigzagHash (scenarioPool8.pageAt 1).page_id_ = some 1 :=
  ⟨le_refl 2, scenarioPool8_reachable, by decide,
    (BufferPoolManagerInstance.mapping_bijection_known_fetches (le_refl 2)
      scenarioPool8_reachable).1 1 (by decide) (by decide) (by decide)⟩
set_option maxRecDepth 1000000

/-! ### `NewPage` returns null only when every frame is pinned -/

/-- The hash `zigzagHash` is injective. -/
theorem zigzagHash_injective : Function.Injective zigzagHash := by
  intro a b h
  unfold zigzagHash at h
  split_ifs at h <;> omega

/-- The pool of one frame after `NewPage; UnpinPage(0, true)` is reachable. -/
theorem singleFramePool2_reachable :
    BufferPoolManagerInstance.Reachable zigzagHash 1 2 2 (fun _ _ => True) singleFramePool2 :=
  BufferPoolManagerInstance.Reachable.step singleFramePool1 _ 0 (PoolCall.unpinPage 0 true)
    (BufferPoolManagerInstance.Reachable.step _ _ 0 PoolCall.newPage
      (BufferPoolManagerInstance.Reachable.init DiskManager.blank) trivial rfl) trivial rfl

/-- When the invariant holds, the hash is injective and the buckets of the page
table have capacity 2 or more, `NewPage` returns a page whenever a frame is free
or unpinned. -/
theorem BufferPoolManagerInstance.NewPgImp_returns_page {hash : Int → Nat}
    {b : BufferPoolManagerInstance} (inv : b.Inv hash) (hinj : Function.Injective hash)
    (hbs : 2 ≤ b.page_table_.bucket_size_)
    (hfree : ∃ f : Int, 0 ≤ f ∧ f < b.pool_size_ ∧
      (f ∈ b.free_list_ ∨ (b.pageAt f).pin_count_ = 0)) :
    ∃ fuel b2 page, b.NewPgImp hash fuel = Except.ok (b2, some page) := by
  cases hg : b.GetAvailableFrame hash with
  | mk b1 o =>
    cases o with
    | none =>
      exfalso
      obtain ⟨_, hfl, hflags⟩ := BufferPoolManagerInstance.GetAvailableFrame_none inv hg
      obtain ⟨f, h0, h1, h2⟩ := hfree
      rcases h2 with h2 | h2
      · rw [hfl] at h2; cases h2
      · have hev : b.replacer_.is_evictable_ f = true :=
          (inv.evictable_iff f).mpr ⟨h0, h1, by rw [hfl]; exact List.not_mem_nil f, h2⟩
        rw [hflags f] at hev
        cases hev
    | some f =>
      obtain ⟨acq, _, _, hbs1, _⟩ := BufferPoolManagerInstance.GetAvailableFrame_some inv hg
      obtain ⟨fuel, pt, hins⟩ := ExtendibleHashTable.Insert_terminates_of_two acq.pt_wf hinj
        (by rw [hbs1]; exact hbs) b1.next_page_id_ f
      obtain ⟨r, hpin, _⟩ := LRUKReplacer.pin_spec acq.rep_inv f
        (by rw [acq.rep_size]; exact le_of_lt acq.frame_range.2)
      rcases b.NewPgImp_cases hash fuel with ⟨b3, hg3, _⟩ | ⟨b3, f3, hg3, hi3, _⟩ |
        ⟨b3, f3, pt3, e3, hg3, _, hp3, _⟩ | ⟨b3, f3, pt3, r3, hg3, _, _, e⟩
      · rw [hg] at hg3; cases hg3
      · rw [hg] at hg3; cases hg3
        rw [hins] at hi3; cases hi3
      · rw [hg] at hg3; cases hg3
        rw [hpin] at hp3; cases hp3
      · exact ⟨fuel, _, _, e⟩

/-- Pools whose page table has an injective hash and buckets of size 2 or more:
in every state reached from a fresh pool by calls of the public interface
(`replacer_k ≥ 2`), if `NewPage` returns null then every frame has
`pin_count > 0`, and whenever some frame is in the free list or has
`pin_count = 0`, `NewPage` returns a page. -/
theorem BufferPoolManagerInstance.NewPage_null_only_when_all_pinned {hash : Int → Nat}
    {pool_size replacer_k bucket_size : Nat}
    {allowed : BufferPoolManagerInstance → PoolCall → Prop} {b : BufferPoolManagerInstance}
    (hk : 2 ≤ replacer_k) (hbs : 2 ≤ bucket_size) (hinj : Function.Injective hash)
    (hr : BufferPoolManagerInstance.Reachable hash pool_size replacer_k bucket_size allowed b) :
    (∀ fuel b2, b.NewPgImp hash fuel = Except.ok (b2, none) →
      ∀ f : Int, 0 ≤ f → f < pool_size → 0 < (b.pageAt f).pin_count_) ∧
    ((∃ f : Int, 0 ≤ f ∧ f < pool_size ∧ (f ∈ b.free_list_ ∨ (b.pageAt f).pin_count_ = 0)) →
      ∃ fuel b2 page, b.NewPgImp hash fuel = Except.ok (b2, some page)) := by
  obtain ⟨inv, hsize, hbucket, _⟩ := hr.inv hk
  constructor
  · intro fuel b2 h f h0 h1
    obtain ⟨_, hfl, hflags⟩ := (BufferPoolManagerInstance.NewPgImp_ok inv h).2.2.2.2.2 rfl
    by_contra hpin
    have hev : b.replacer_.is_evictable_ f = true :=
      (inv.evictable_iff f).mpr
        ⟨h0, by rw [hsize]; exact h1, by rw [hfl]; exact List.not_mem_nil f,
          Nat.eq_zero_of_not_pos hpin⟩
    rw [hflags f] at hev
    cases hev
  · intro hfree
    apply BufferPoolManagerInstance.NewPgImp_returns_page inv hinj (by rw [hbucket]; exact hbs)
    rw [hsize]
    exact hfree

/-- A pool of one frame with buckets of size 2 whose only page was unpinned:
`NewPage` returns a page. -/
theorem BufferPoolManagerInstance.NewPage_null_only_when_all_pinned_witness :
    2 ≤ 2 ∧ Function.Injective zigzagHash ∧
    BufferPoolManagerInstance.Reachable zigzagHash 1 2 2 (fun _ _ => True) singleFramePool2 ∧
    (∃ f : Int, 0 ≤ f ∧ f < (1 : Nat) ∧
      (f ∈ singleFramePool2.free_list_ ∨ (singleFramePool2.pageAt f).pin_count_ = 0)) ∧
    ∃ fuel b2 page, singleFramePool2.NewPgImp zigzagHash fuel = Except.ok (b2, some page) :=
  ⟨le_refl 2, zigzagHash_injective, singleFramePool2_reachable,
    ⟨0, le_refl 0, by decide, Or.inr rfl⟩,
    (BufferPoolManagerInstance.NewPage_null_only_when_all_pinned (le_refl 2) (le_refl 2)
      zigzagHash_injective singleFramePool2_reachable).2 ⟨0, le_refl 0, by decide, Or.inr rfl⟩⟩

/-! ### Claim C10: filling a fresh pool, then one more `NewPage` -/

/-- More fuel does not change what `NewPage` returns. -/
theorem BufferPoolManagerInstance.NewPgImp_fuel_mono (hash : Int → Nat) (fuel extra : Nat)
    (b : BufferPoolManagerInstance)
    (x : BufferPoolManagerInstance × Option (Int × Int))
    (h : b.NewPgImp hash fuel = Except.ok x) : b.NewPgImp hash (fuel + extra) = Except.ok x := by
  rcases b.NewPgImp_cases hash fuel with ⟨b1, hg, e⟩ | ⟨_, _, _, _, e⟩ | ⟨_, _, _, _, _, _, _, e⟩ |
    ⟨b1, f, pt, r, hg, hi, hp, e⟩
  · rcases b.NewPgImp_cases hash (fuel + extra) with ⟨b3, hg3, e3⟩ | ⟨b3, f3, hg3, _⟩ |
      ⟨b3, f3, _, _, hg3, _⟩ | ⟨b3, f3, _, _, hg3, _⟩
    · rw [hg] at hg3; cases hg3
      rw [e3, ← h, e]
    · rw [hg] at hg3; cases hg3
    · rw [hg] at hg3; cases hg3
    · rw [hg] at hg3; cases hg3
  · rw [e] at h; cases h
  · rw [e] at h; cases h
  · have hi2 := ExtendibleHashTable.Insert_fuel_mono hash fuel extra _ _ _ _ hi
    rcases b.NewPgImp_cases hash (fuel + extra) with ⟨b3, hg3, _⟩ | ⟨b3, f3, hg3, hi3, _⟩ |
      ⟨b3, f3, pt3, e3, hg3, hi3, hp3, _⟩ | ⟨b3, f3, pt3, r3, hg3, hi3, hp3, e3⟩
    · rw [hg] at hg3; cases hg3
    · rw [hg] at hg3; cases hg3
      rw [hi2] at hi3; cases hi3
    · rw [hg] at hg3; cases hg3
      rw [hp] at hp3; cases hp3
    · rw [hg] at hg3; cases hg3
      rw [hi2] at hi3; cases hi3
      rw [hp] at hp3; cases hp3
      rw [e3, ← h, e]

/-- More fuel does not change what a row of `NewPage` calls returns. -/
theorem BufferPoolManagerInstance.newPages_fuel_mono (hash : Int → Nat) (fuel extra : Nat)
    (count : Nat) :
    ∀ (b : BufferPoolManagerInstance)
      (x : BufferPoolManagerInstance × List (Option (Int × Int))),
      b.newPages hash fuel count = Except.ok x →
      b.newPages hash (fuel + extra) count = Except.ok x := by
  induction count with
  | zero => intro b x h; exact h
  | succ count ih =>
    intro b x h
    rw [BufferPoolManagerInstance.newPages] at h ⊢
    cases h1 : b.NewPgImp hash fuel with
    | error e => rw [h1] at h; cases h
    | ok y =>
      obtain ⟨b1, res⟩ := y
      simp only [h1] at h
      simp only [BufferPoolManagerInstance.NewPgImp_fuel_mono hash fuel extra b _ h1]
      cases h2 : BufferPoolManagerInstance.newPages hash fuel count b1 with
      | error e => rw [h2] at h; cases h
      | ok z =>
        obtain ⟨b2, rest⟩ := z
        simp only [h2] at h
        simp only [ih b1 _ h2]
        exact h

/-- A fresh pool is filled up to frame 0. -/
theorem PoolFilled.fresh (hash : Int → Nat) (pool_size replacer_k bucket_size : Nat)
    (disk_manager : DiskManager) (hk : 2 ≤ replacer_k) (hbs : 1 ≤ bucket_size) :
    PoolFilled hash pool_size 0
      (BufferPoolManagerInstance.new pool_size replacer_k bucket_size disk_manager) := by
  refine ⟨BufferPoolManagerInstance.new_Bij hash pool_size replacer_k bucket_size disk_manager hk,
    rfl, ?_, rfl, ?_, hbs⟩
  · show (List.range pool_size).map Int.ofNat = _
    rw [List.range_eq_range', Nat.sub_zero]
  · intro i hi
    exact absurd hi (Nat.not_lt_zero i)

/-- On a pool filled up to frame `j < n`, `NewPage` returns page `j` in frame
`j`, and the pool is then filled up to frame `j + 1`. -/
theorem PoolFilled.step {hash : Int → Nat} {n j : Nat} {b : BufferPoolManagerInstance}
    (hb : PoolFilled hash n j b) (hinj : Function.Injective hash) (hj : j < n) :
    ∃ fuel b2, b.NewPgImp hash fuel = Except.ok (b2, some ((j : Int), (j : Int))) ∧
      PoolFilled hash n (j + 1) b2 := by
  have inv := hb.bij.inv
  have hfl : b.free_list_ = (j : Int) :: (List.range' (j + 1) (n - (j + 1))).map Int.ofNat := by
    rw [hb.free]
    have : n - j = (n - (j + 1)) + 1 := by omega
    rw [this, List.range'_succ]
    rfl
  have hg : b.GetAvailableFrame hash =
      ({ b with free_list_ := (List.range' (j + 1) (n - (j + 1))).map Int.ofNat },
        some (j : Int)) := by
    rcases b.GetAvailableFrame_cases hash with ⟨f, rest, h1, e⟩ | ⟨h1, _⟩ | ⟨h1, _⟩
    · rw [hfl] at h1
      cases h1
      exact e
    · rw [hfl] at h1; cases h1
    · rw [hfl] at h1; cases h1
  obtain ⟨acq, _, _, _, _⟩ := BufferPoolManagerInstance.GetAvailableFrame_some inv hg
  have habs : b.page_table_.Find hash b.next_page_id_ = none := by
    cases hfind : b.page_table_.Find hash b.next_page_id_ with
    | none => rfl
    | some g => exact absurd (hb.bij.keys_lt _ g hfind) (lt_irrefl _)
  obtain ⟨fuel, pt, hins⟩ := ExtendibleHashTable.Insert_terminates_of_absent acq.pt_wf hinj
    hb.bucket b.next_page_id_ (j : Int) habs
  obtain ⟨r, hpin, _⟩ := LRUKReplacer.pin_spec acq.rep_inv (j : Int)
    (by rw [acq.rep_size]; exact le_of_lt acq.frame_range.2)
  rcases b.NewPgImp_cases hash fuel with ⟨b3, hg3, _⟩ | ⟨b3, f3, hg3, hi3, _⟩ |
    ⟨b3, f3, pt3, e3, hg3, _, hp3, _⟩ | ⟨b3, f3, pt3, r3, hg3, hi3, hp3, e⟩
  · rw [hg] at hg3; cases hg3
  · rw [hg] at hg3; cases hg3
    rw [hins] at hi3; cases hi3
  · rw [hg] at hg3; cases hg3
    rw [hpin] at hp3; cases hp3
  · rw [hg] at hg3; cases hg3
    have hok := BufferPoolManagerInstance.NewPgImp_ok inv e
    have hjlen : ((j : Nat) : Int) < (b.pages_.length : Int) := by
      rw [inv.pages_len, hb.size]; exact_mod_cast hj
    refine ⟨fuel, _,
      e.trans (congrArg (fun p : Int => Except.ok (_, some (p, (j : Int)))) hb.next), ?_⟩
    · refine ⟨hok.2.2.2.2.1 hb.bij, hb.size, rfl, ?_, ?_, ?_⟩
      · show b.next_page_id_ + 1 = ((j + 1 : Nat) : Int)
        rw [hb.next]; push_cast; rfl
      · intro i hi
        show frameOf (b.pages_.set (j : Int).toNat
          ⟨0, b.next_page_id_, 1, (frameOf b.pages_ (j : Int)).is_dirty_⟩) (i : Int) = _
        by_cases hij : i = j
        · subst hij
          rw [frameOf_set_same _ _ _ (Int.ofNat_nonneg i) hjlen]
          have hclean : (frameOf b.pages_ (i : Int)).is_dirty_ = false := acq.frame_clean
          rw [hclean, hb.next]
        · rw [frameOf_set_other _ _ _ _ (Int.ofNat_nonneg j) (Int.ofNat_nonneg i)
            (by intro h; exact hij (by exact_mod_cast h))]
          exact hb.pages i (by omega)
      · have := hok.2.2.1
        rw [this]
        exact hb.bucket

/-- On a pool filled up to frame `n`, `NewPage` returns null and leaves the
state as it is. -/
theorem PoolFilled.full {hash : Int → Nat} {n : Nat} {b : BufferPoolManagerInstance}
    (hb : PoolFilled hash n n b) (fuel : Nat) : b.NewPgImp hash fuel = Except.ok (b, none) := by
  have inv := hb.bij.inv
  have hfl : b.free_list_ = [] := by
    rw [hb.free, Nat.sub_self]; rfl
  have hflags : ∀ f, b.replacer_.is_evictable_ f = false := by
    intro f
    cases hf : b.replacer_.is_evictable_ f with
    | false => rfl
    | true =>
      obtain ⟨h0, h1, _, h3⟩ := (inv.evictable_iff f).mp hf
      rw [hb.size] at h1
      have hp := hb.pages f.toNat (by omega)
      have hcast : ((f.toNat : Nat) : Int) = f := Int.toNat_of_nonneg h0
      rw [hcast] at hp
      have : (b.pageAt f).pin_count_ = 0 := h3
      rw [hp] at this
      cases this
  have hg : b.GetAvailableFrame hash = (b, none) := by
    rcases b.GetAvailableFrame_cases hash with ⟨f, rest, h1, _⟩ | ⟨_, r, v, he, _⟩ | ⟨_, r, he, e⟩
    · rw [hfl] at h1; cases h1
    · have := (LRUKReplacer.Evict_some_spec inv.rep_inv v he).2.2.2.1
      rw [hflags v] at this
      cases this
    · have hr := (LRUKReplacer.Evict_none_spec inv.rep_inv he).1
      rw [e, hr]
  rcases b.NewPgImp_cases hash fuel with ⟨b3, hg3, e⟩ | ⟨b3, f3, hg3, _⟩ |
    ⟨b3, f3, _, _, hg3, _⟩ | ⟨b3, f3, _, _, hg3, _⟩
  · rw [hg] at hg3; cases hg3
    exact e
  · rw [hg] at hg3; cases hg3
  · rw [hg] at hg3; cases hg3
  · rw [hg] at hg3; cases hg3

/-- From a pool filled up to frame `j`, the next `m` calls of `NewPage` return
the pages `j, …, j + m - 1` in the frames of the same numbers. -/
theorem PoolFilled.newPages {hash : Int → Nat} {n : Nat} (hinj : Function.Injective hash)
    (m : Nat) :
    ∀ (j : Nat) (b : BufferPoolManagerInstance), PoolFilled hash n j b → j + m ≤ n →
      ∃ fuel b2, b.newPages hash fuel m =
          Except.ok (b2, (List.range' j m).map (fun i : Nat => some ((i : Int), (i : Int)))) ∧
        PoolFilled hash n (j + m) b2 := by
  induction m with
  | zero =>
    intro j b hb _
    exact ⟨0, b, rfl, hb⟩
  | succ m ih =>
    intro j b hb hjm
    obtain ⟨fuel1, b1, h1, hb1⟩ := hb.step hinj (by omega)
    obtain ⟨fuel2, b2, h2, hb2⟩ := ih (j + 1) b1 hb1 (by omega)
    refine ⟨fuel1 + fuel2, b2, ?_, ?_⟩
    · rw [BufferPoolManagerInstance.newPages,
        BufferPoolManagerInstance.NewPgImp_fuel_mono hash fuel1 fuel2 b _ h1]
      have h3 := BufferPoolManagerInstance.newPages_fuel_mono hash fuel2 fuel1 m b1 _ h2
      rw [Nat.add_comm fuel2 fuel1] at h3
      simp only [h3]
      rw [List.range'_succ]
      rfl
    · have : j + (m + 1) = j + 1 + m := by omega
      rw [this]
      exact hb2

/-- Claim C10: on a fresh pool of `n` frames (`replacer_k ≥ 2`; injective hash
and `bucket_size ≥ 1` for the page table), for every `m ≤ n` the first `m` calls
of `NewPage` return, with enough fuel, the page ids `0, …, m - 1` in that order,
page `i` in frame `i`, which then holds the zeroed page `i` with `pin_count = 1`
and `is_dirty = false`; and after `n` calls a further `NewPage` returns null and
leaves the whole state (next page id, frames, page table, free list, replacer)
as it is. -/
theorem BufferPoolManagerInstance.NewPage_fill_then_one_more (hash : Int → Nat)
    (pool_size replacer_k bucket_size : Nat) (disk_manager : DiskManager)
    (hk : 2 ≤ replacer_k) (hbs : 1 ≤ bucket_size) (hinj : Function.Injective hash) :
    ∀ m, m ≤ pool_size → ∃ fuel b,
      (BufferPoolManagerInstance.new pool_size replacer_k bucket_size disk_manager).newPages
          hash fuel m =
        Except.ok (b, (List.range m).map (fun i : Nat => some ((i : Int), (i : Int)))) ∧
      b.next_page_id_ = m ∧
      (∀ i : Nat, i < m → b.pageAt i = ⟨0, i, 1, false⟩) ∧
      (m = pool_size → ∀ fuel2, b.NewPgImp hash fuel2 = Except.ok (b, none)) := by
  intro m hm
  obtain ⟨fuel, b, h, hb⟩ := PoolFilled.newPages hinj m 0 _
    (PoolFilled.fresh hash pool_size replacer_k bucket_size disk_manager hk hbs) (by omega)
  rw [Nat.zero_add] at hb
  refine ⟨fuel, b, ?_, hb.next, hb.pages, ?_⟩
  · rw [h, List.range_eq_range']
  · intro hmn fuel2
    subst hmn
    exact hb.full fuel2

/-- Claim C10 for `n = 3`, `K = 2`: three calls of `NewPage` return the pages
0, 1, 2 and the fourth returns null. -/
theorem BufferPoolManagerInstance.NewPage_fill_then_one_more_witness :
    2 ≤ 2 ∧ 1 ≤ 4 ∧ Function.Injective zigzagHash ∧ 3 ≤ 3 ∧
    ∃ fuel b,
      (BufferPoolManagerInstance.new 3 2 4 DiskManager.blank).newPages zigzagHash fuel 3 =
        Except.ok (b, (List.range 3).map (fun i : Nat => some ((i : Int), (i : Int)))) ∧
      b.next_page_id_ = (3 : Nat) ∧
      (∀ i : Nat, i < 3 → b.pageAt i = ⟨0, i, 1, false⟩) ∧
      (3 = 3 → ∀ fuel2, b.NewPgImp zigzagHash fuel2 = Except.ok (b, none)) :=
  ⟨le_refl 2, by decide, zigzagHash_injective, le_refl 3,
    BufferPoolManagerInstance.NewPage_fill_then_one_more zigzagHash 3 2 4 DiskManager.blank
      (le_refl 2) (by decide) zigzagHash_injective 3 (le_refl 3)⟩

set_option maxRecDepth 1000000

/-! ### Claim C11: pin safety -/

/-- The pool with `K = 1` after `NewPage; UnpinPage(0, true); NewPage` is
reachable. -/
theorem lruOnePool3_reachable :
    BufferPoolManagerInstance.Reachable pageHash 2 1 4 (fun _ _ => True) lruOnePool3 :=
  BufferPoolManagerInstance.Reachable.step lruOnePool2 _ 0 PoolCall.newPage
    (BufferPoolManagerInstance.Reachable.step lruOnePool1 _ 0 (PoolCall.unpinPage 0 true)
      (BufferPoolManagerInstance.Reachable.step lruOnePool0 _ 0 PoolCall.newPage
        (BufferPoolManagerInstance.Reachable.init DiskManager.blank) trivial rfl)
      trivial rfl)
    trivial rfl

/-- A frame handed out by `GetAvailableFrame` has pin count 0, be it the front
of the free list or the victim of the replacer. -/
theorem BufferPoolManagerInstance.GetAvailableFrame_unpinned {hash : Int → Nat}
    {b b1 : BufferPoolManagerInstance} {g : Int} (inv : b.Core hash)
    (h : b.GetAvailableFrame hash = (b1, some g)) : (b.pageAt g).pin_count_ = 0 := by
  rcases b.GetAvailableFrame_cases hash with ⟨f, rest, hfl, e⟩ | ⟨_, r, v, he, e⟩ | ⟨_, r, _, e⟩
  · rw [e] at h; cases h
    exact (inv.free_fresh g (by rw [hfl]; exact List.mem_cons_self _ _)).2.1
  · rw [e] at h; cases h
    have hflag := (LRUKReplacer.Evict_raw g he).1
    exact ((inv.evictable_iff g).mp hflag).2.2.2
  · rw [e] at h; cases h

/-- Claim C11: in every state reached from a fresh pool, whatever its size, its
`K`, its bucket size and its hash, by calls of the public interface, no frame
with `pin_count > 0` is marked evictable in the replacer; the victim of `Evict`,
and so the frame that `NewPage` or a `FetchPage` miss reuses, has
`pin_count = 0`; and `DeletePage` leaves every frame with `pin_count > 0` as it
is. -/
theorem BufferPoolManagerInstance.pin_safety {hash : Int → Nat}
    {pool_size replacer_k bucket_size : Nat}
    {allowed : BufferPoolManagerInstance → PoolCall → Prop} {b : BufferPoolManagerInstance}
    (hr : BufferPoolManagerInstance.Reachable hash pool_size replacer_k bucket_size allowed b) :
    (∀ f : Int, 0 < (b.pageAt f).pin_count_ → b.replacer_.is_evictable_ f = false) ∧
    (∀ r g, b.replacer_.Evict = (r, some g) → (b.pageAt g).pin_count_ = 0) ∧
    (∀ fuel b2 page_id g, b.NewPgImp hash fuel = Except.ok (b2, some (page_id, g)) →
      (b.pageAt g).pin_count_ = 0) ∧
    (∀ fuel p b2 g, b.page_table_.Find hash p = none →
      b.FetchPgImp hash fuel p = Except.ok (b2, some g) → (b.pageAt g).pin_count_ = 0) ∧
    (∀ p b2 res, b.DeletePgImp hash p = Except.ok (b2, res) →
      ∀ f : Int, 0 ≤ f → 0 < (b.pageAt f).pin_count_ → b2.pageAt f = b.pageAt f) := by
  obtain ⟨inv, _⟩ := hr.pool_core
  refine ⟨?_, ?_, ?_, ?_, ?_⟩
  · intro f hpin
    cases hf : b.replacer_.is_evictable_ f with
    | false => rfl
    | true =>
      have := ((inv.evictable_iff f).mp hf).2.2.2
      have hpin2 : 0 < (frameOf b.pages_ f).pin_count_ := hpin
      omega
  · intro r g he
    have hflag := (LRUKReplacer.Evict_raw g he).1
    exact ((inv.evictable_iff g).mp hflag).2.2.2
  · intro fuel b2 page_id g h
    rcases b.NewPgImp_cases hash fuel with ⟨_, _, e⟩ | ⟨_, _, _, _, e⟩ | ⟨_, _, _, _, _, _, _, e⟩ |
      ⟨b1, f, pt, r, hg, _, _, e⟩
    · rw [e] at h; cases h
    · rw [e] at h; cases h
    · rw [e] at h; cases h
    · rw [e] at h; cases h
      exact BufferPoolManagerInstance.GetAvailableFrame_unpinned inv hg
  · intro fuel p b2 g hnone h
    rcases b.FetchPgImp_cases hash fuel p with ⟨f, _, hf, _⟩ | ⟨f, _, hf, _⟩ | ⟨_, _, _, e⟩ |
      ⟨_, _, _, _, _, e⟩ | ⟨_, _, _, _, _, _, _, _, e⟩ | ⟨_, b1, f, pt, r, hg, _, _, e⟩
    · rw [hnone] at hf; cases hf
    · rw [hnone] at hf; cases hf
    · rw [e] at h; cases h
    · rw [e] at h; cases h
    · rw [e] at h; cases h
    · rw [e] at h; cases h
      exact BufferPoolManagerInstance.GetAvailableFrame_unpinned inv hg
  · intro p b2 res h f hf0 hpin
    cases hfind : b.page_table_.Find hash p with
    | none =>
      rw [b.DeletePgImp_unmapped hash p hfind] at h
      cases h
      rfl
    | some f0 =>
      by_cases hp0 : (b.pageAt f0).pin_count_ = 0
      · obtain ⟨h0, hn, _, _⟩ := inv.mapped p f0 hfind
        have hlt : f0 < (b.pages_.length : Int) := by rw [inv.pages_len]; exact hn
        rw [b.DeletePgImp_unpinned hash p f0 hfind hp0 h0 hlt] at h
        have hne : f ≠ f0 := by
          intro e
          rw [e, hp0] at hpin
          exact absurd hpin (lt_irrefl 0)
        cases hrm : b.replacer_.Remove f0 with
        | error e => rw [hrm] at h; cases h
        | ok r =>
          rw [hrm] at h
          cases h
          show frameOf ((b.writeBack f0).pages_.set f0.toNat _) f = frameOf b.pages_ f
          rw [frameOf_set_other _ _ _ _ h0 hf0 hne]
          exact (b.writeBack_pages f0 h0 hlt).2.1 f hf0 hne
      · rw [b.DeletePgImp_pinned hash p f0 hfind hp0] at h
        cases h
        rfl

/-- Claim C11 on a pool of two frames with `K = 1`, after
`NewPage; UnpinPage(0, true); NewPage`: frame 1 is pinned and not evictable,
and the victim of the replacer is frame 0, which is not pinned. -/
theorem BufferPoolManagerInstance.pin_safety_witness :
    BufferPoolManagerInstance.Reachable pageHash 2 1 4 (fun _ _ => True) lruOnePool3 ∧
    0 < (lruOnePool3.pageAt 1).pin_count_ ∧
    lruOnePool3.replacer_.is_evictable_ 1 = false ∧
    lruOnePool3.replacer_.Evict.2 = some 0 ∧
    (lruOnePool3.pageAt 0).pin_count_ = 0 :=
  ⟨lruOnePool3_reachable, by decide,
    (BufferPoolManagerInstance.pin_safety lruOnePool3_reachable).1 1 (by decide),
    rfl,
    (BufferPoolManagerInstance.pin_safety lruOnePool3_reachable).2.1
      lruOnePool3.replacer_.Evict.1 0 rfl⟩
set_option maxRecDepth 1000000

/-! ### Claim C12: the contract of `UnpinPage` -/

/-- The pool of the scenario "sticky dirty" before the second `UnpinPage`. -/
theorem stickyPool3_reachable :
    BufferPoolManagerInstance.Reachable pageHash 2 2 4 (fun _ _ => True) stickyPool3 :=
  BufferPoolManagerInstance.Reachable.step stickyPool2 _ 0 (PoolCall.fetchPage 5)
    (BufferPoolManagerInstance.Reachable.step stickyPool1 _ 0 (PoolCall.unpinPage 5 true)
      (BufferPoolManagerInstance.Reachable.step poolTwoFrames _ 0 (PoolCall.fetchPage 5)
        (BufferPoolManagerInstance.Reachable.init DiskManager.blank) trivial rfl)
      trivial rfl)
    trivial rfl

/-- Claim C12: in every state reached from a fresh pool, whatever its size, its
`K`, its bucket size and its hash, `UnpinPage(p, d)` returns false and changes nothing when `p` is not in the page
table or its frame has `pin_count = 0`; otherwise it returns true, the pin count
of the frame of `p` is less by exactly 1, the frame is evictable in the replacer
exactly when the new pin count is 0 (the size of the replacer is then greater by
1, and otherwise the replacer is as before), `is_dirty` is the old flag or `d`,
page id and data of the frame are as before, and so are all other frames, the
flags of all other frames, the page table, the free list, the disk and the next
page id. -/
theorem BufferPoolManagerInstance.UnpinPage_contract {hash : Int → Nat}
    {pool_size replacer_k bucket_size : Nat}
    {allowed : BufferPoolManagerInstance → PoolCall → Prop} {b : BufferPoolManagerInstance}
    (hr : BufferPoolManagerInstance.Reachable hash pool_size replacer_k bucket_size allowed b)
    (p : Int) (d : Bool) :
    ((b.page_table_.Find hash p = none ∨
        ∃ f, b.page_table_.Find hash p = some f ∧ (b.pageAt f).pin_count_ = 0) →
      b.UnpinPgImp hash p d = Except.ok (b, false)) ∧
    (∀ f, b.page_table_.Find hash p = some f → (b.pageAt f).pin_count_ ≠ 0 →
      ∃ b2, b.UnpinPgImp hash p d = Except.ok (b2, true) ∧
        (b2.pageAt f).pin_count_ + 1 = (b.pageAt f).pin_count_ ∧
        (b2.replacer_.is_evictable_ f = true ↔ (b2.pageAt f).pin_count_ = 0) ∧
        ((b2.pageAt f).pin_count_ = 0 → b2.replacer_.Size = b.replacer_.Size + 1) ∧
        ((b2.pageAt f).pin_count_ ≠ 0 → b2.replacer_ = b.replacer_) ∧
        (∀ g, g ≠ f → b2.replacer_.is_evictable_ g = b.replacer_.is_evictable_ g) ∧
        (b2.pageAt f).is_dirty_ = ((b.pageAt f).is_dirty_ || d) ∧
        (b2.pageAt f).page_id_ = (b.pageAt f).page_id_ ∧
        (b2.pageAt f).data_ = (b.pageAt f).data_ ∧
        (∀ g : Int, 0 ≤ g → g ≠ f → b2.pageAt g = b.pageAt g) ∧
        b2.page_table_ = b.page_table_ ∧ b2.free_list_ = b.free_list_ ∧
        b2.disk_manager_ = b.disk_manager_ ∧ b2.next_page_id_ = b.next_page_id_) := by
  obtain ⟨inv, _⟩ := hr.pool_core
  constructor
  · rintro (hnone | ⟨f, hfind, hpin⟩)
    · exact b.UnpinPgImp_unmapped hash p d hnone
    · exact b.UnpinPgImp_unpinned hash p f d hfind hpin
  · intro f hfind hpin
    obtain ⟨h0, hn, hfree, _⟩ := inv.mapped p f hfind
    have hlt : f < (b.pages_.length : Int) := by rw [inv.pages_len]; exact hn
    have hsame : ∀ x : Page, frameOf (b.pages_.set f.toNat x) f = x :=
      fun x => frameOf_set_same _ _ _ h0 hlt
    have hother : ∀ (x : Page) (g : Int), 0 ≤ g → g ≠ f →
        frameOf (b.pages_.set f.toNat x) g = frameOf b.pages_ g :=
      fun x g hg hne => frameOf_set_other _ _ _ _ h0 hg hne
    have hflag : b.replacer_.is_evictable_ f = false := by
      cases hev : b.replacer_.is_evictable_ f
      · rfl
      · exact absurd ((inv.evictable_iff f).mp hev).2.2.2 hpin
    have hpos : 0 < (b.pageAt f).pin_count_ := Nat.pos_of_ne_zero hpin
    rw [b.UnpinPgImp_pinned hash p f d hfind hpin h0 hlt]
    by_cases hz : (b.pageAt f).pin_count_ - 1 = 0
    · rw [if_pos hz]
      have htr : 0 < b.replacer_.access_num_ f := inv.tracked f h0 hn hfree
      rcases b.replacer_.SetEvictable_cases f true with ⟨hgt, _⟩ | ⟨_, hzero, _⟩ | ⟨_, _, e⟩
      · rw [inv.rep_size] at hgt; omega
      · omega
      · rw [e]
        refine ⟨_, rfl, ?_, ?_, ?_, ?_, ?_, ?_, ?_, ?_, ?_, rfl, rfl, rfl, rfl⟩
        · show (frameOf (b.pages_.set f.toNat _) f).pin_count_ + 1 = _
          rw [hsame]
          show (b.pageAt f).pin_count_ - 1 + 1 = _
          omega
        · show Function.update b.replacer_.is_evictable_ f true f = true ↔
            (frameOf (b.pages_.set f.toNat _) f).pin_count_ = 0
          rw [hsame, Function.update_same]
          exact ⟨fun _ => hz, fun _ => rfl⟩
        · intro _
          show (if (!b.replacer_.is_evictable_ f && true) = true then b.replacer_.curr_size_ + 1
            else _) = b.replacer_.curr_size_ + 1
          rw [hflag]
          rfl
        · intro hne
          exfalso
          apply hne
          show (frameOf (b.pages_.set f.toNat _) f).pin_count_ = 0
          rw [hsame]
          exact hz
        · intro g hg
          show Function.update b.replacer_.is_evictable_ f true g = _
          rw [Function.update_noteq hg]
        · show (frameOf (b.pages_.set f.toNat _) f).is_dirty_ = _
          rw [hsame]
        · show (frameOf (b.pages_.set f.toNat _) f).page_id_ = _
          rw [hsame]
        · show (frameOf (b.pages_.set f.toNat _) f).data_ = _
          rw [hsame]
        · intro g hg hne
          exact hother _ g hg hne
    · rw [if_neg hz]
      refine ⟨_, rfl, ?_, ?_, ?_, ?_, ?_, ?_, ?_, ?_, ?_, rfl, rfl, rfl, rfl⟩
      · show (frameOf (b.pages_.set f.toNat _) f).pin_count_ + 1 = _
        rw [hsame]
        show (b.pageAt f).pin_count_ - 1 + 1 = _
        omega
      · show b.replacer_.is_evictable_ f = true ↔
          (frameOf (b.pages_.set f.toNat _) f).pin_count_ = 0
        rw [hsame, hflag]
        exact ⟨fun h => (by cases h), fun h => absurd h hz⟩
      · intro h
        exfalso
        apply hz
        have : (frameOf (b.pages_.set f.toNat _) f).pin_count_ = 0 := h
        rw [hsame] at this
        exact this
      · intro _; rfl
      · intro g _; rfl
      · show (frameOf (b.pages_.set f.toNat _) f).is_dirty_ = _
        rw [hsame]
      · show (frameOf (b.pages_.set f.toNat _) f).page_id_ = _
        rw [hsame]
      · show (frameOf (b.pages_.set f.toNat _) f).data_ = _
        rw [hsame]
      · intro g hg hne
        exact hother _ g hg hne

/-- Claim C12 in the scenario "sticky dirty": page 5 was unpinned dirty and
fetched again; `UnpinPage(5, false)` returns true and the frame stays dirty. -/
theorem BufferPoolManagerInstance.UnpinPage_contract_witness :
    BufferPoolManagerInstance.Reachable pageHash 2 2 4 (fun _ _ => True) stickyPool3 ∧
    stickyPool3.page_table_.Find pageHash 5 = some 0 ∧
    (stickyPool3.pageAt 0).pin_count_ ≠ 0 ∧
    ∃ b2, stickyPool3.UnpinPgImp pageHash 5 false = Except.ok (b2, true) ∧
      (b2.pageAt 0).is_dirty_ = true ∧ (b2.pageAt 0).pin_count_ + 1 = 1 :=
  have h := (BufferPoolManagerInstance.UnpinPage_contract stickyPool3_reachable
    5 false).2 0 rfl (by decide)
  ⟨stickyPool3_reachable, rfl, by decide,
    h.choose, h.choose_spec.1, h.choose_spec.2.2.2.2.2.2.1.trans rfl, h.choose_spec.2.1.trans rfl⟩
set_option maxRecDepth 1000000

/-! ### Claim C13: the contract of `DeletePage` -/

/-- The pool of the scenario "delete unpinned dirty" before `DeletePage(7)`. -/
theorem deletePool3_reachable :
    BufferPoolManagerInstance.Reachable pageHash 2 2 4 (fun _ _ => True) deletePool3 :=
  BufferPoolManagerInstance.Reachable.step deletePool2 _ 0 (PoolCall.unpinPage 7 true)
    (BufferPoolManagerInstance.Reachable.step deletePool1 _ 0 (PoolCall.write 0 42)
      (BufferPoolManagerInstance.Reachable.step poolTwoFrames _ 0 (PoolCall.fetchPage 7)
        (BufferPoolManagerInstance.Reachable.init DiskManager.blank) trivial rfl)
      trivial rfl)
    trivial rfl

/-- Claim C13: in every state reached from a fresh pool (`replacer_k ≥ 2`),
`DeletePage(p)` returns true and changes nothing when `p` is not in the page
table, and returns false and changes nothing when the frame of `p` has
`pin_count > 0`. Otherwise it returns true; the disk has got `WritePage(p, data)`
with the data of the frame exactly when the frame was dirty; the frame is zeroed
with `page_id = INVALID_PAGE_ID`, `pin_count = 0` and `is_dirty = false`; `p` is
not in the page table any more and the other mappings are as before; the size of
the replacer is less by 1 and the frame is not tracked (access count 0, flag
cleared, in neither list); the frame is at the back of the free list; and the
other frames and the next page id are as before. -/
theorem BufferPoolManagerInstance.DeletePage_contract {hash : Int → Nat}
    {pool_size replacer_k bucket_size : Nat}
    {allowed : BufferPoolManagerInstance → PoolCall → Prop} {b : BufferPoolManagerInstance}
    (hk : 2 ≤ replacer_k)
    (hr : BufferPoolManagerInstance.Reachable hash pool_size replacer_k bucket_size allowed b)
    (p : Int) :
    (b.page_table_.Find hash p = none → b.DeletePgImp hash p = Except.ok (b, true)) ∧
    (∀ f, b.page_table_.Find hash p = some f → 0 < (b.pageAt f).pin_count_ →
      b.DeletePgImp hash p = Except.ok (b, false)) ∧
    (∀ f, b.page_table_.Find hash p = some f → (b.pageAt f).pin_count_ = 0 →
      ∃ b2, b.DeletePgImp hash p = Except.ok (b2, true) ∧
        b2.disk_manager_.writes =
          (if (b.pageAt f).is_dirty_ then (p, (b.pageAt f).data_) :: b.disk_manager_.writes
            else b.disk_manager_.writes) ∧
        b2.pageAt f = ⟨0, INVALID_PAGE_ID, 0, false⟩ ∧
        b2.page_table_.Find hash p = none ∧
        (∀ q, q ≠ p → b2.page_table_.Find hash q = b.page_table_.Find hash q) ∧
        b2.replacer_.Size + 1 = b.replacer_.Size ∧
        b2.replacer_.access_num_ f = 0 ∧ b2.replacer_.is_evictable_ f = false ∧
        f ∉ b2.replacer_.history_list_ ∧ f ∉ b2.replacer_.cache_list_ ∧
        b2.free_list_ = b.free_list_ ++ [f] ∧
        (∀ g : Int, 0 ≤ g → g ≠ f → b2.pageAt g = b.pageAt g) ∧
        b2.next_page_id_ = b.next_page_id_) := by
  obtain ⟨inv, _, _, _⟩ := hr.inv hk
  refine ⟨b.DeletePgImp_unmapped hash p, ?_, ?_⟩
  · intro f hfind hpin
    exact b.DeletePgImp_pinned hash p f hfind (Nat.pos_iff_ne_zero.mp hpin)
  · intro f hfind hpin
    obtain ⟨h0, hn, hfree, hpid⟩ := inv.mapped p f hfind
    have hlt : f < (b.pages_.length : Int) := by rw [inv.pages_len]; exact hn
    have hfsz : f ≤ (b.replacer_.replacer_size_ : Int) := by
      rw [inv.rep_size]; exact le_of_lt hn
    have hev : b.replacer_.is_evictable_ f = true :=
      (inv.evictable_iff f).mpr ⟨h0, hn, hfree, hpin⟩
    obtain ⟨r, hrm, hrinv, _, _, hflags, hacc⟩ :=
      LRUKReplacer.Remove_spec inv.rep_inv f hfsz (Or.inl hev)
    have hsize : r.Size + 1 = b.replacer_.Size := by
      rcases b.replacer_.Remove_cases f with ⟨_, e⟩ | ⟨_, _, e⟩ | ⟨_, _, _, e⟩ | ⟨_, _, _, e⟩
      · rw [e] at hrm; cases hrm
      · rw [e] at hrm; cases hrm
        have := inv.rep_inv.evictable_tracked f hev
        omega
      · rw [e] at hrm; cases hrm
      · rw [e] at hrm; cases hrm
        show size_t_decrement b.replacer_.curr_size_ + 1 = b.replacer_.curr_size_
        have hne := inv.rep_inv.size_pos f hev
        unfold size_t_decrement
        rw [if_neg hne]
        omega
    have hzero : r.access_num_ f = 0 := by rw [hacc]; exact Function.update_same _ _ _
    rw [b.DeletePgImp_unpinned hash p f hfind hpin h0 hlt, hrm]
    refine ⟨_, rfl, ?_, ?_, ?_, ?_, hsize, hzero, ?_, ?_, ?_, rfl, ?_, rfl⟩
    · show (b.writeBack f).disk_manager_.writes = _
      rw [b.writeBack_writes f]
      have hpid2 : (b.pageAt f).page_id_ = p := hpid
      rw [hpid2]
    · exact frameOf_set_same _ _ _ h0 (by rw [(b.writeBack_pages f h0 hlt).1]; exact hlt)
    · show (b.page_table_.Remove hash p).1.Find hash p = none
      rw [ExtendibleHashTable.Remove_Find inv.pt_wf p p, if_pos rfl]
    · intro q hq
      show (b.page_table_.Remove hash p).1.Find hash q = _
      rw [ExtendibleHashTable.Remove_Find inv.pt_wf p q, if_neg hq]
    · rw [hflags]; exact Function.update_same _ _ _
    · intro hm
      have := ((hrinv.mem_hist f).mp hm).1
      omega
    · intro hm
      have := (hrinv.mem_cache f).mp hm
      have := hrinv.k_ge
      omega
    · intro g hg hne
      show frameOf ((b.writeBack f).pages_.set f.toNat _) g = frameOf b.pages_ g
      rw [frameOf_set_other _ _ _ _ h0 hg hne]
      exact (b.writeBack_pages f h0 hlt).2.1 g hg hne

/-- Claim C13 in the scenario "delete unpinned dirty": page 7 was fetched,
written to and unpinned dirty; `DeletePage(7)` returns true, the disk has got
`WritePage(7, 42)` and frame 0 is back in the free list. -/
theorem BufferPoolManagerInstance.DeletePage_contract_witness :
    2 ≤ 2 ∧
    BufferPoolManagerInstance.Reachable pageHash 2 2 4 (fun _ _ => True) deletePool3 ∧
    deletePool3.page_table_.Find pageHash 7 = some 0 ∧
    (deletePool3.pageAt 0).pin_count_ = 0 ∧
    ∃ b2, deletePool3.DeletePgImp pageHash 7 = Except.ok (b2, true) ∧
      b2.disk_manager_.writes = [(7, 42)] ∧ b2.free_list_ = [1, 0] ∧
      b2.pageAt 0 = ⟨0, INVALID_PAGE_ID, 0, false⟩ :=
  have h := (BufferPoolManagerInstance.DeletePage_contract (le_refl 2) deletePool3_reachable
    7).2.2 0 rfl rfl
  ⟨le_refl 2, deletePool3_reachable, rfl, rfl,
    h.choose, h.choose_spec.1, h.choose_spec.2.1.trans rfl,
    h.choose_spec.2.2.2.2.2.2.2.2.2.2.1.trans rfl, h.choose_spec.2.2.1⟩
set_option maxRecDepth 1000000

/-! ### Eviction through the buffer pool prefers the history list -/

/-- When an evictable frame is in the history list, `Evict` returns a frame of
the history list. -/
theorem LRUKReplacer.Evict_prefers_history {r : LRUKReplacer} (inv : r.Inv) (f : Int)
    (hm : f ∈ r.history_list_) (hp : r.is_evictable_ f = true) (r2 : LRUKReplacer)
    (o : Option Int) (h : r.Evict = (r2, o)) :
    ∃ v, o = some v ∧ v ∈ r.history_list_ ∧ r.is_evictable_ v = true := by
  obtain ⟨w, hw⟩ := find?_reverse_exists (p := fun frame => r.is_evictable_ frame) hm hp
  rcases r.Evict_cases with ⟨h0, _⟩ | ⟨_, v, hv, e⟩ | ⟨_, hh, _⟩ | ⟨_, hh, _⟩
  · exact absurd h0 (inv.size_pos f hp)
  · rw [e] at h; cases h
    exact ⟨v, rfl, (find?_reverse_some hv).1, (find?_reverse_some hv).2⟩
  · rw [hh] at hw; cases hw
  · rw [hh] at hw; cases hw

/-- The first seven calls of the scenario on three frames, with the accesses
they make: pages 0, 1 and 2 are loaded into frames 0, 1 and 2, and page 0 is
fetched once more. -/
theorem scenarioPool7_logged :
    BufferPoolManagerInstance.ReachableWith zigzagHash 3 2 4 scenarioPool7
      [PageAccess.hit 0 0, PageAccess.loaded 2 2, PageAccess.loaded 1 1,
        PageAccess.loaded 0 0] :=
  BufferPoolManagerInstance.ReachableWith.step_to scenarioPool6
    [PageAccess.hit 0 0, PageAccess.loaded 2 2, PageAccess.loaded 1 1, PageAccess.loaded 0 0]
    0 (PoolCall.unpinPage 0 false)
    (BufferPoolManagerInstance.ReachableWith.step_to scenarioPool5
      [PageAccess.loaded 2 2, PageAccess.loaded 1 1, PageAccess.loaded 0 0]
      0 (PoolCall.fetchPage 0)
      (BufferPoolManagerInstance.ReachableWith.step_to scenarioPool4
        [PageAccess.loaded 2 2, PageAccess.loaded 1 1, PageAccess.loaded 0 0]
        0 (PoolCall.unpinPage 1 false)
        (BufferPoolManagerInstance.ReachableWith.step_to scenarioPool3
          [PageAccess.loaded 2 2, PageAccess.loaded 1 1, PageAccess.loaded 0 0]
          0 (PoolCall.unpinPage 0 false)
          (BufferPoolManagerInstance.ReachableWith.step_to scenarioPool2
            [PageAccess.loaded 1 1, PageAccess.loaded 0 0] 0 PoolCall.newPage
            (BufferPoolManagerInstance.ReachableWith.step_to scenarioPool1
              [PageAccess.loaded 0 0] 0 PoolCall.newPage
              (BufferPoolManagerInstance.ReachableWith.step_to scenarioPool0
                [] 0 PoolCall.newPage
                (BufferPoolManagerInstance.ReachableWith.init DiskManager.blank) rfl rfl)
              rfl rfl)
            rfl rfl)
          rfl rfl)
        rfl rfl)
      rfl rfl)
    rfl rfl

/-- Pools whose page table has an injective hash and buckets of size 2 or more:
in a state reached from a fresh pool (`replacer_k = K ≥ 2`) by calls whose
accesses are the log `log`, with an empty free list, in which the page of some
unpinned frame was accessed (`NewPage` or `FetchPage`) fewer than `K` times
since it came into the frame, `NewPage` returns a page, and whenever it returns a
page in frame `g`, the page that frame held was resident and unpinned and was
accessed fewer than `K` times since it came into the frame; that page is not in
the page table any more (unless it has the id of the new page), and the frame
holds the new page. -/
theorem BufferPoolManagerInstance.NewPage_evicts_infinite_distance {hash : Int → Nat}
    {pool_size replacer_k bucket_size : Nat} {b : BufferPoolManagerInstance}
    {log : List PageAccess}
    (hk : 2 ≤ replacer_k) (hbs : 2 ≤ bucket_size) (hinj : Function.Injective hash)
    (hlog : BufferPoolManagerInstance.ReachableWith hash pool_size replacer_k bucket_size b log)
    (hfree : b.free_list_ = [])
    (hcand : ∃ f : Int, 0 ≤ f ∧ f < pool_size ∧ (b.pageAt f).pin_count_ = 0 ∧
      frameAccesses log f < replacer_k) :
    (∃ fuel b2 page_id g, b.NewPgImp hash fuel = Except.ok (b2, some (page_id, g))) ∧
    (∀ fuel b2 page_id g, b.NewPgImp hash fuel = Except.ok (b2, some (page_id, g)) →
      0 ≤ g ∧ g < pool_size ∧ (b.pageAt g).pin_count_ = 0 ∧
      0 < frameAccesses log g ∧ frameAccesses log g < replacer_k ∧
      page_id = b.next_page_id_ ∧ (b2.pageAt g).page_id_ = page_id ∧
      ((b.pageAt g).page_id_ ≠ page_id →
        b2.page_table_.Find hash (b.pageAt g).page_id_ = none)) := by
  have hr := hlog.reachable
  have cnt := hlog.counted
  obtain ⟨inv, hsize, hbucket, hkeq⟩ := hr.inv hk
  obtain ⟨f, hf0, hfn, hfpin, hfacc⟩ := hcand
  have hfn2 : f < (b.pool_size_ : Int) := by rw [hsize]; exact hfn
  have hfnot : f ∉ b.free_list_ := by rw [hfree]; exact List.not_mem_nil f
  have hfflag : b.replacer_.is_evictable_ f = true :=
    (inv.evictable_iff f).mpr ⟨hf0, hfn2, hfnot, hfpin⟩
  have hfhist : f ∈ b.replacer_.history_list_ :=
    (inv.rep_inv.mem_hist f).mpr ⟨inv.tracked f hf0 hfn2 hfnot,
      by rw [hkeq, cnt.resident f hf0 hfn2 hfnot]; exact hfacc⟩
  constructor
  · obtain ⟨fuel, b2, page, h⟩ := BufferPoolManagerInstance.NewPgImp_returns_page inv hinj
      (by rw [hbucket]; exact hbs) ⟨f, hf0, hfn2, Or.inr hfpin⟩
    exact ⟨fuel, b2, page.1, page.2, h⟩
  · intro fuel b2 page_id g h
    rcases b.NewPgImp_cases hash fuel with ⟨_, _, e⟩ | ⟨_, _, _, _, e⟩ | ⟨_, _, _, _, _, _, _, e⟩ |
      ⟨b1, g1, pt, r, hg, hins, _, e⟩
    · rw [e] at h; cases h
    · rw [e] at h; cases h
    · rw [e] at h; cases h
    · rw [e] at h; cases h
      obtain ⟨acq, _, hnext, _⟩ := BufferPoolManagerInstance.GetAvailableFrame_some inv hg
      rcases b.GetAvailableFrame_cases hash with ⟨_, _, hfl, _⟩ | ⟨_, r0, v, he, e2⟩ |
        ⟨_, r0, he, _⟩
      · rw [hfree] at hfl; cases hfl
      · rw [e2] at hg; cases hg
        obtain ⟨w, hw, hwhist, hwflag⟩ :=
          LRUKReplacer.Evict_prefers_history inv.rep_inv f hfhist hfflag _ _ he
        cases hw
        obtain ⟨hg0, hgn, hgfree, hgpin⟩ := (inv.evictable_iff g).mp hwflag
        obtain ⟨hpos, hlt⟩ := (inv.rep_inv.mem_hist g).mp hwhist
        rw [cnt.resident g hg0 hgn hgfree] at hpos hlt
        have hglen : g < (b.pages_.length : Int) := by rw [inv.pages_len]; exact hgn
        obtain ⟨hwlen, _, hwsame⟩ :=
          (({ b with replacer_ := r0 } : BufferPoolManagerInstance)).writeBack_pages g hg0 hglen
        refine ⟨hg0, by rw [← hsize]; exact hgn, hgpin, hpos, by rw [← hkeq]; exact hlt,
          rfl, ?_, ?_⟩
        · exact congrArg Page.page_id_ (frameOf_set_same _ _ _ hg0 (by rw [hwlen]; exact hglen))
        · intro hne
          have hfind := ExtendibleHashTable.Insert_Find fuel acq.pt_wf _ _ hins
            (b.pageAt g).page_id_
          show pt.Find hash (b.pageAt g).page_id_ = none
          rw [hfind, if_neg hne]
          show ((b.page_table_.Remove hash
            (frameOf (({ b with replacer_ := r0 } : BufferPoolManagerInstance).writeBack
              g).pages_ g).page_id_).1).Find hash (b.pageAt g).page_id_ = none
          rw [hwsame, ExtendibleHashTable.Remove_Find inv.pt_wf]
          exact if_pos rfl
      · obtain ⟨w, hw, _⟩ :=
          LRUKReplacer.Evict_prefers_history inv.rep_inv f hfhist hfflag _ _ he
        cases hw

/-- The scenario of the spec (`pool_size = 3`, `K = 2`, buckets of size 4): after
`NewPage` three times, `UnpinPage(0)`, `UnpinPage(1)`, `FetchPage(0)` and
`UnpinPage(0)`, the fourth `NewPage` returns page 3 in frame 1, the frame of
page 1, which was accessed once; page 1 is then not in the page table, and page
0, which was accessed twice, still is. -/
theorem BufferPoolManagerInstance.NewPage_evicts_infinite_distance_witness :
    2 ≤ 2 ∧ 2 ≤ 4 ∧ Function.Injective zigzagHash ∧
    BufferPoolManagerInstance.ReachableWith zigzagHash 3 2 4 scenarioPool7
      [PageAccess.hit 0 0, PageAccess.loaded 2 2, PageAccess.loaded 1 1,
        PageAccess.loaded 0 0] ∧
    scenarioPool7.free_list_ = [] ∧
    (∃ f : Int, 0 ≤ f ∧ f < (3 : Nat) ∧ (scenarioPool7.pageAt f).pin_count_ = 0 ∧
      frameAccesses [PageAccess.hit 0 0, PageAccess.loaded 2 2, PageAccess.loaded 1 1,
        PageAccess.loaded 0 0] f < 2) ∧
    scenarioPool7.NewPgImp zigzagHash 0 = Except.ok (scenarioPool8, some (3, 1)) ∧
    (scenarioPool7.pageAt 1).page_id_ = 1 ∧
    frameAccesses [PageAccess.hit 0 0, PageAccess.loaded 2 2, PageAccess.loaded 1 1,
      PageAccess.loaded 0 0] 1 < 2 ∧
    frameAccesses [PageAccess.hit 0 0, PageAccess.loaded 2 2, PageAccess.loaded 1 1,
      PageAccess.loaded 0 0] 0 = 2 ∧
    scenarioPool8.page_table_.Find zigzagHash (scenarioPool7.pageAt 1).page_id_ = none ∧
    scenarioPool8.page_table_.Find zigzagHash 0 = some 0 :=
  have hcand : ∃ f : Int, 0 ≤ f ∧ f < (3 : Nat) ∧ (scenarioPool7.pageAt f).pin_count_ = 0 ∧
      frameAccesses [PageAccess.hit 0 0, PageAccess.loaded 2 2, PageAccess.loaded 1 1,
        PageAccess.loaded 0 0] f < 2 := ⟨1, by decide, by decide, rfl, by decide⟩
  have h := (BufferPoolManagerInstance.NewPage_evicts_infinite_distance (le_refl 2)
    (by decide : 2 ≤ 4) zigzagHash_injective scenarioPool7_logged rfl hcand).2
    0 scenarioPool8 3 1 rfl
  ⟨le_refl 2, by decide, zigzagHash_injective, scenarioPool7_logged, rfl, hcand, rfl, rfl,
    h.2.2.2.2.1, rfl, h.2.2.2.2.2.2.2 (by decide), rfl⟩

set_option maxRecDepth 1000000

/-! ### Claim C14: no lost writes -/

/-- A run that returns keeps `PoolCore`. -/
theorem BufferPoolManagerInstance.run_core {hash : Int → Nat} {fuel : Nat}
    (calls : List PoolCall) :
    ∀ (b b2 : BufferPoolManagerInstance), b.Core hash →
      b.run hash fuel calls = Except.ok b2 → b2.Core hash := by
  induction calls with
  | nil => intro b b2 inv h; cases h; exact inv
  | cons c rest ih =>
    intro b b2 inv h
    rw [BufferPoolManagerInstance.run] at h
    cases hc : b.call hash fuel c with
    | error e => rw [hc] at h; cases h
    | ok b1 =>
      rw [hc] at h
      exact ih b1 b2 (BufferPoolManagerInstance.call_core inv hc).1 h

/-- The pool of one frame before its page is unpinned dirty. -/
theorem dirtyPool2_reachable :
    BufferPoolManagerInstance.Reachable pageHash 1 2 4 (fun _ _ => True) dirtyPool2 :=
  BufferPoolManagerInstance.Reachable.step dirtyPool1 _ 0 (PoolCall.write 0 7)
    (BufferPoolManagerInstance.Reachable.step _ _ 0 PoolCall.newPage
      (BufferPoolManagerInstance.Reachable.init DiskManager.blank) trivial rfl)
    trivial rfl

/-- Claim C14: in a state reached from a fresh pool (whatever its size, its `K`,
its bucket size and its hash), let `UnpinPage(p, true)` return true for page `p`
in frame `f`. Then the frame is dirty and holds `p`; after every further run of
calls the log of `WritePage` calls has only grown and either the frame is still
dirty and holds `p`, or `WritePage` was called for `p` in between. And whenever
the frame is dirty and a `NewPage` or a `FetchPage` miss reuses it, the
statements of that call are, in this order, `Evict`, `WritePage` with the page
id and the current data of the frame, the reset of the dirty flag, the `Remove`
of the page id from the page table, and only then the statements that install
the new page, `ResetMemory` among them; executing them in this order gives the
state the call returns, and the log of the disk has got exactly that one
`WritePage`. -/
theorem BufferPoolManagerInstance.no_lost_writes {hash : Int → Nat}
    {pool_size replacer_k bucket_size : Nat}
    {allowed : BufferPoolManagerInstance → PoolCall → Prop} {b : BufferPoolManagerInstance}
    (hr : BufferPoolManagerInstance.Reachable hash pool_size replacer_k bucket_size allowed b)
    (p f : Int) (b1 : BufferPoolManagerInstance)
    (hfind : b.page_table_.Find hash p = some f)
    (hun : b.UnpinPgImp hash p true = Except.ok (b1, true)) :
    (b1.pageAt f).is_dirty_ = true ∧ (b1.pageAt f).page_id_ = p ∧
    ∀ fuel calls b2, b1.run hash fuel calls = Except.ok b2 →
      b1.DirtyOrWrittenSince b2 f ∧
      ((b2.pageAt f).is_dirty_ = true →
        (∀ fuel2 b3 page_id, b2.NewPgImp hash fuel2 = Except.ok (b3, some (page_id, f)) →
          b2.newPageEvents hash =
            [PoolEvent.evict,
              PoolEvent.writePage (b2.pageAt f).page_id_ (b2.pageAt f).data_,
              PoolEvent.clearDirty f, PoolEvent.removeMapping (b2.pageAt f).page_id_,
              PoolEvent.allocatePage, PoolEvent.setPageId f page_id,
              PoolEvent.setPinCount f 1, PoolEvent.resetMemory f,
              PoolEvent.insertMapping page_id f, PoolEvent.recordAccess f,
              PoolEvent.setEvictable f false] ∧
          b2.replay hash fuel2 (b2.newPageEvents hash) = Except.ok b3 ∧
          b3.disk_manager_.writes =
            ((b2.pageAt f).page_id_, (b2.pageAt f).data_) :: b2.disk_manager_.writes) ∧
        (∀ fuel2 q b3, b2.page_table_.Find hash q = none →
          b2.FetchPgImp hash fuel2 q = Except.ok (b3, some f) →
          b2.fetchPageEvents hash q =
            [PoolEvent.evict,
              PoolEvent.writePage (b2.pageAt f).page_id_ (b2.pageAt f).data_,
              PoolEvent.clearDirty f, PoolEvent.removeMapping (b2.pageAt f).page_id_,
              PoolEvent.insertMapping q f, PoolEvent.setPageId f q,
              PoolEvent.setPinCount f 1, PoolEvent.resetMemory f,
              PoolEvent.readPage q f, PoolEvent.recordAccess f,
              PoolEvent.setEvictable f false] ∧
          b2.replay hash fuel2 (b2.fetchPageEvents hash q) = Except.ok b3 ∧
          b3.disk_manager_.writes =
            ((b2.pageAt f).page_id_, (b2.pageAt f).data_) :: b2.disk_manager_.writes)) := by
  obtain ⟨inv, _⟩ := hr.pool_core
  obtain ⟨hf0, hfn, _, hpid⟩ := inv.mapped p f hfind
  have hflen : f < (b.pages_.length : Int) := by rw [inv.pages_len]; exact hfn
  have inv1 : b1.Core hash := (BufferPoolManagerInstance.UnpinPgImp_core inv hun).1
  have hpin : (b.pageAt f).pin_count_ ≠ 0 := by
    intro h0
    rw [b.UnpinPgImp_unpinned hash p f true hfind h0] at hun
    cases hun
  have hframe : (b1.pageAt f).is_dirty_ = true ∧ (b1.pageAt f).page_id_ = p := by
    rw [b.UnpinPgImp_pinned hash p f true hfind hpin hf0 hflen] at hun
    have hx : ∀ pages2 : List Page, pages2 = b.pages_.set f.toNat
        ⟨(b.pageAt f).data_, (b.pageAt f).page_id_, (b.pageAt f).pin_count_ - 1,
          (b.pageAt f).is_dirty_ || true⟩ →
        (frameOf pages2 f).is_dirty_ = true ∧ (frameOf pages2 f).page_id_ = p := by
      intro pages2 h2
      rw [h2, frameOf_set_same _ _ _ hf0 hflen]
      exact ⟨Bool.or_true _, hpid⟩
    by_cases hz : (b.pageAt f).pin_count_ - 1 = 0
    · rw [if_pos hz] at hun
      cases hs : b.replacer_.SetEvictable f true with
      | error e => rw [hs] at hun; cases hun
      | ok r =>
        rw [hs] at hun
        cases hun
        exact hx _ rfl
    · rw [if_neg hz] at hun
      cases hun
      exact hx _ rfl
  refine ⟨hframe.1, hframe.2, ?_⟩
  intro fuel calls b2 hrun
  have inv2 : b2.Core hash := BufferPoolManagerInstance.run_core calls b1 b2 inv1 hrun
  refine ⟨BufferPoolManagerInstance.run_dirty calls b1 b2 inv1 hrun f hf0 hframe.1, ?_⟩
  intro hd
  -- what `GetAvailableFrame` does when it hands out the dirty frame
  have hacq : ∀ bx, b2.GetAvailableFrame hash = (bx, some f) →
      b2.availableFrameEvents =
        [PoolEvent.evict, PoolEvent.writePage (b2.pageAt f).page_id_ (b2.pageAt f).data_,
          PoolEvent.clearDirty f, PoolEvent.removeMapping (b2.pageAt f).page_id_] ∧
      bx.disk_manager_.writes =
        ((b2.pageAt f).page_id_, (b2.pageAt f).data_) :: b2.disk_manager_.writes := by
    intro bx hg
    refine ⟨BufferPoolManagerInstance.availableFrameEvents_dirty inv2 hg hd, ?_⟩
    obtain ⟨pre, _, hcase⟩ := BufferPoolManagerInstance.GetAvailableFrame_dirty inv2 hg f hf0 hd
    rcases hcase with ⟨hne, _⟩ | ⟨_, hw, _, _⟩
    · exact absurd rfl hne
    · exact hw
  constructor
  · intro fuel2 b3 page_id hnew
    have hrep := BufferPoolManagerInstance.NewPgImp_replay inv2 hnew
    rcases b2.NewPgImp_cases hash fuel2 with ⟨_, _, e⟩ | ⟨_, _, _, _, e⟩ |
      ⟨_, _, _, _, _, _, _, e⟩ | ⟨bx, g, pt, r, hg, _, _, e⟩
    · rw [e] at hnew; cases hnew
    · rw [e] at hnew; cases hnew
    · rw [e] at hnew; cases hnew
    · rw [e] at hnew; cases hnew
      obtain ⟨hev, hw⟩ := hacq bx hg
      refine ⟨?_, hrep, hw⟩
      unfold BufferPoolManagerInstance.newPageEvents
      rw [hg]
      simp only
      rw [hev]
      rfl
  · intro fuel2 q b3 hmiss hfetch
    have hrep := BufferPoolManagerInstance.FetchPgImp_replay inv2 hfetch
    rcases b2.FetchPgImp_cases hash fuel2 q with ⟨g, _, hf, _⟩ | ⟨g, _, hf, _⟩ | ⟨_, _, _, e⟩ |
      ⟨_, _, _, _, _, e⟩ | ⟨_, _, _, _, _, _, _, _, e⟩ | ⟨_, bx, g, pt, r, hg, _, _, e⟩
    · rw [hmiss] at hf; cases hf
    · rw [hmiss] at hf; cases hf
    · rw [e] at hfetch; cases hfetch
    · rw [e] at hfetch; cases hfetch
    · rw [e] at hfetch; cases hfetch
    · rw [e] at hfetch; cases hfetch
      obtain ⟨hev, hw⟩ := hacq bx hg
      refine ⟨?_, hrep, hw⟩
      unfold BufferPoolManagerInstance.fetchPageEvents
      rw [hmiss, hg]
      simp only
      rw [hev]
      rfl

/-- Claim C14 on a pool of one frame: page 0 is written to, unpinned dirty,
fetched again and unpinned clean; the frame is still dirty, and the `NewPage`
that reuses it writes page 0 with the data 7 before it removes the mapping and
before it resets the memory. -/
theorem BufferPoolManagerInstance.no_lost_writes_witness :
    BufferPoolManagerInstance.Reachable pageHash 1 2 4 (fun _ _ => True) dirtyPool2 ∧
    dirtyPool2.page_table_.Find pageHash 0 = some 0 ∧
    dirtyPool2.UnpinPgImp pageHash 0 true = Except.ok (dirtyPool3, true) ∧
    dirtyPool3.run pageHash 0 [PoolCall.fetchPage 0, PoolCall.unpinPage 0 false]
      = Except.ok dirtyPool4 ∧
    (dirtyPool4.pageAt 0).is_dirty_ = true ∧
    dirtyPool4.NewPgImp pageHash 0 = Except.ok (dirtyPool5, some (1, 0)) ∧
    dirtyPool4.newPageEvents pageHash =
      [PoolEvent.evict, PoolEvent.writePage 0 7, PoolEvent.clearDirty 0,
        PoolEvent.removeMapping 0, PoolEvent.allocatePage, PoolEvent.setPageId 0 1,
        PoolEvent.setPinCount 0 1, PoolEvent.resetMemory 0, PoolEvent.insertMapping 1 0,
        PoolEvent.recordAccess 0, PoolEvent.setEvictable 0 false] ∧
    dirtyPool4.replay pageHash 0 (dirtyPool4.newPageEvents pageHash) = Except.ok dirtyPool5 ∧
    dirtyPool5.disk_manager_.writes = [(0, 7)] :=
  have h := (((BufferPoolManagerInstance.no_lost_writes dirtyPool2_reachable 0 0
    dirtyPool3 rfl rfl).2.2 0 [PoolCall.fetchPage 0, PoolCall.unpinPage 0 false] dirtyPool4
    rfl).2 rfl).1 0 dirtyPool5 1 rfl
  ⟨dirtyPool2_reachable, rfl, rfl, rfl, rfl, rfl, h.1.trans rfl, h.2.1, h.2.2.trans rfl⟩

set_option maxRecDepth 1000000

/-! ### Claims C9 and C15 with buckets of size 1 -/

end bustub
